import Mathlib

/-!
# bomutils: the BOM container writer (`mkbom.cpp`)

A shallow embedding of `BOMStorage` and `write_bom` from `src/mkbom.cpp`, and of the
page walk of `src/dumpbom.cpp`, with the properties of the specification proved
over it.

Conventions of the embedding.

* A byte buffer is a `List Nat`, one element per byte.
* A C field that the writer fills with `htonl (x)` / `htons (x)` is kept as the decoded
  value `x` reduced to the width of the field (`u32`, `u16`, `u8`); its memory image is
  the big-endian byte string `htonl x` / `htons x`.
* `entry_size`, `size_of_vars`, `size_of_block_table` and `num_block_entries` are, in C,
  32-bit sizes of live heap buffers.  The moment one of them wraps, the following
  `realloc` / `memcpy` writes outside the buffer, which is undefined behaviour; the
  embedding keeps them as natural numbers and reduces modulo `2 ^ 32` exactly where a
  value is stored into a 32-bit field.  Theorems that read such fields back assume that
  the sizes fit in 32 bits.
* `malloc` memory that the program never initialises is modelled as zero bytes.
-/

namespace Bom

/-! ## Bytes and byte order -/

/-- A byte buffer. -/
abbrev Bytes := List Nat

/-- Truncation to `uint8_t`. -/
def u8 (x : Nat) : Nat := x % 256

/-- Truncation to `uint16_t`. -/
def u16 (x : Nat) : Nat := x % 65536

/-- Truncation to `uint32_t`. -/
def u32 (x : Nat) : Nat := x % 4294967296

/-- Memory image of `htons (x)`: the low 16 bits of `x`, most significant byte first. -/
def htons (x : Nat) : Bytes := [x / 256 % 256, x % 256]

/-- Memory image of `htonl (x)`: the low 32 bits of `x`, most significant byte first. -/
def htonl (x : Nat) : Bytes :=
  [x / 16777216 % 256, x / 65536 % 256, x / 256 % 256, x % 256]

/-- Memory image of a 32-bit value stored without conversion, on a little-endian
(`le = true`) or big-endian host. -/
def hostl (le : Bool) (x : Nat) : Bytes :=
  if le then (htonl x).reverse else htonl x

/-- Big-endian decoding of the two bytes at offset `off` (`ntohs` of a field). -/
def ntohsAt (buf : Bytes) (off : Nat) : Nat :=
  buf.getD off 0 * 256 + buf.getD (off + 1) 0

/-- Big-endian decoding of the four bytes at offset `off` (`ntohl` of a field). -/
def ntohlAt (buf : Bytes) (off : Nat) : Nat :=
  buf.getD off 0 * 16777216 + buf.getD (off + 1) 0 * 65536
    + buf.getD (off + 2) 0 * 256 + buf.getD (off + 3) 0

/-- Store `src` into `buf` starting at offset `off` (`memcpy (&buf[off], src, |src|)`
inside the bounds of `buf`). -/
def writeAt (buf : Bytes) (off : Nat) (src : Bytes) : Bytes :=
  buf.take off ++ src ++ buf.drop (off + src.length)

/-- The 8 bytes of the magic `"BOMStore"`. -/
def magicBOMStore : Bytes := [66, 79, 77, 83, 116, 111, 114, 101]

/-! ## The container: `class BOMStorage` -/

/-- Modelled from the spec: `struct BOMPointer` of `bom.h` (two `uint32_t`).
`address` is the value of the field as the host reads it (`addBlock` stores it without
conversion); `length` is the value `n` whose image `htonl n` the writer stores. -/
structure BOMPointer where
  address : Nat
  length : Nat
  deriving DecidableEq, Repr

/-- Modelled from the spec: `struct BOMHeader` of `bom.h`, 32 bytes of fields at the
start of the 512-byte header buffer.  The six integers are stored through `htonl`. -/
structure BOMHeader where
  magic : Bytes
  version : Nat
  numberOfBlocks : Nat
  indexOffset : Nat
  indexLength : Nat
  varsOffset : Nat
  varsLength : Nat
  deriving DecidableEq, Repr

/-- Modelled from the spec: `struct BOMVar` of `bom.h`: `index` (`uint32_t`, stored
through `htonl`), `length` (`uint8_t`) and the name bytes without a NUL. -/
structure BOMVar where
  index : Nat
  length : Nat
  name : Bytes
  deriving DecidableEq, Repr

/-- Modelled from the spec: `struct BOMVars` of `bom.h`: a count and the records. -/
structure BOMVars where
  count : Nat
  first : List BOMVar
  deriving DecidableEq, Repr

/-- Modelled from the spec: `struct BOMBlockTable` of `bom.h`. -/
structure BOMBlockTable where
  numberOfBlockTablePointers : Nat
  blockPointers : List BOMPointer
  deriving DecidableEq, Repr

/-- Modelled from the spec: `struct BOMFreeList` of `bom.h`. -/
structure BOMFreeList where
  numberOfFreeListPointers : Nat
  freelistPointers : List BOMPointer
  deriving DecidableEq, Repr

/-- The private members of `class BOMStorage`.  `entries == nullptr` is the empty
buffer. -/
structure BOMStorage where
  size_of_header : Nat
  header : BOMHeader
  size_of_vars : Nat
  num_vars : Nat
  vars : BOMVars
  size_of_block_table : Nat
  num_block_entries : Nat
  block_table : BOMBlockTable
  size_of_free_list : Nat
  num_free_list_entries : Nat
  free_list : BOMFreeList
  entry_size : Nat
  entries : Bytes
  deriving DecidableEq, Repr

/-- `sizeof (uint32_t)`. -/
def sizeof_uint32 : Nat := 4

/-- `sizeof (uint16_t)`. -/
def sizeof_uint16 : Nat := 2

/-- `sizeof (BOMPointer)`. -/
def sizeof_BOMPointer : Nat := 8

/-- `BOMStorage::BOMStorage ()`. -/
def BOMStorage.new : BOMStorage :=
  let size_of_header := 512
  let num_block_entries := 1
  let size_of_block_table := sizeof_uint32 + num_block_entries * sizeof_BOMPointer
  let size_of_free_list := sizeof_uint32 + 2 * sizeof_BOMPointer
  let num_free_list_entries := 0
  let size_of_vars := sizeof_uint32
  let entry_size := 0
  { size_of_header := size_of_header
    header :=
      { magic := magicBOMStore
        version := u32 1
        numberOfBlocks := u32 0
        indexOffset := u32 (size_of_header + size_of_vars + entry_size)
        indexLength := u32 (size_of_block_table + size_of_free_list)
        varsOffset := u32 size_of_header
        varsLength := u32 size_of_vars }
    size_of_vars := size_of_vars
    num_vars := 0
    vars := { count := u32 0, first := [] }
    size_of_block_table := size_of_block_table
    num_block_entries := num_block_entries
    block_table :=
      { numberOfBlockTablePointers := u32 num_block_entries
        blockPointers := [{ address := u32 0, length := u32 0 }] }
    size_of_free_list := size_of_free_list
    num_free_list_entries := num_free_list_entries
    free_list :=
      { numberOfFreeListPointers := u32 num_free_list_entries
        freelistPointers :=
          [{ address := u32 0, length := u32 0 }, { address := u32 0, length := u32 0 }] }
    entry_size := entry_size
    entries := [] }

/-- `BOMStorage::getBlock (id)`: the pointer `&entries[blockPointers[id].address]`, as an
offset into `entries`. -/
def BOMStorage.getBlock (s : BOMStorage) (id : Nat) : Nat :=
  (s.block_table.blockPointers[id]?.getD { address := 0, length := 0 }).address

/-- `BOMStorage::addBlock (data, length)`, where `data` is the buffer of `length` bytes
that is passed.  Returns the new storage and the returned block id. -/
def BOMStorage.addBlock (s : BOMStorage) (data : Bytes) : BOMStorage × Nat :=
  let length := data.length
  let entries := s.entries.take s.entry_size ++ data
  let size_of_block_table := sizeof_uint32 + (s.num_block_entries + 1) * sizeof_BOMPointer
  let blockPointers :=
    s.block_table.blockPointers.take s.num_block_entries
      ++ [{ address := s.entry_size, length := u32 length }]
  let num_block_entries := s.num_block_entries + 1
  let entry_size := s.entry_size + length
  ({ s with
      entries := entries
      size_of_block_table := size_of_block_table
      num_block_entries := num_block_entries
      entry_size := entry_size
      block_table :=
        { numberOfBlockTablePointers := u32 num_block_entries
          blockPointers := blockPointers }
      header :=
        { s.header with
          numberOfBlocks := u32 (s.header.numberOfBlocks + 1)
          indexLength := u32 (size_of_block_table + s.size_of_free_list) } },
    num_block_entries - 1)

/-- `BOMStorage::addVar (name, data, length)`; `name` is the C string without its NUL. -/
def BOMStorage.addVar (s : BOMStorage) (name : Bytes) (data : Bytes) : BOMStorage :=
  let new_size := sizeof_uint32 + 1 + name.length
  let size_of_vars := s.size_of_vars + new_size
  let r := ({ s with size_of_vars := size_of_vars } : BOMStorage).addBlock data
  let s1 := r.1
  let var : BOMVar := { index := u32 r.2, length := u8 name.length, name := name }
  { s1 with
    vars := { count := u32 (s1.vars.count + 1), first := s1.vars.first ++ [var] }
    header :=
      { s1.header with
        indexOffset := u32 (s1.size_of_header + s1.size_of_vars + s1.entry_size)
        varsLength := u32 s1.size_of_vars } }

/-- Memory image of the header buffer: the fields followed by the zero bytes left by
`memset`. -/
def BOMHeader.image (h : BOMHeader) (size_of_header : Nat) : Bytes :=
  let fields :=
    h.magic ++ htonl h.version ++ htonl h.numberOfBlocks ++ htonl h.indexOffset
      ++ htonl h.indexLength ++ htonl h.varsOffset ++ htonl h.varsLength
  fields ++ List.replicate (size_of_header - fields.length) 0

/-- Memory image of one `BOMVar`. -/
def BOMVar.image (v : BOMVar) : Bytes := htonl v.index ++ [v.length] ++ v.name

/-- Memory image of the vars buffer. -/
def BOMVars.image (v : BOMVars) : Bytes :=
  htonl v.count ++ (v.first.map BOMVar.image).flatten

/-- Memory image of a pointer as it is kept in memory by `addBlock`. -/
def BOMPointer.image (le : Bool) (p : BOMPointer) : Bytes :=
  hostl le p.address ++ htonl p.length

/-- Memory image of the in-memory block table. -/
def BOMBlockTable.image (le : Bool) (t : BOMBlockTable) : Bytes :=
  htonl t.numberOfBlockTablePointers ++ (t.blockPointers.map (BOMPointer.image le)).flatten

/-- Memory image of the free list; both fields of its pointers are stored through
`htonl`. -/
def BOMFreeList.image (f : BOMFreeList) : Bytes :=
  htonl f.numberOfFreeListPointers
    ++ (f.freelistPointers.map (fun p => htonl p.address ++ htonl p.length)).flatten

/-- Image of one pointer of `temp` after the loop body of `BOMStorage::write`: a pointer
whose stored length is not zero gets `htonl (address + size_of_header + size_of_vars)`. -/
def writePointer (le : Bool) (size_of_header size_of_vars : Nat) (p : BOMPointer) : Bytes :=
  (if p.length ≠ 0 then htonl (p.address + size_of_header + size_of_vars)
   else hostl le p.address) ++ htonl p.length

/-- The buffer `temp` of `BOMStorage::write` after its loop over the first
`ntohl (numberOfBlockTablePointers)` pointers. -/
def writeTable (le : Bool) (s : BOMStorage) : Bytes :=
  let n := s.block_table.numberOfBlockTablePointers
  htonl n
    ++ ((s.block_table.blockPointers.take n).map
          (writePointer le s.size_of_header s.size_of_vars)).flatten
    ++ ((s.block_table.blockPointers.drop n).map (BOMPointer.image le)).flatten

/-- `BOMStorage::write (bom_file)`: the bytes written to the file, on a host of the given
byte order. -/
def BOMStorage.write (le : Bool) (s : BOMStorage) : Bytes :=
  (s.header.image s.size_of_header).take s.size_of_header
    ++ s.vars.image.take s.size_of_vars
    ++ s.entries.take s.entry_size
    ++ (writeTable le s).take s.size_of_block_table
    ++ s.free_list.image.take s.size_of_free_list

/-- One mutation of the public interface of `BOMStorage`. -/
inductive Op where
  | addBlock (data : Bytes)
  | addVar (name : Bytes) (data : Bytes)
  deriving DecidableEq, Repr

/-- The block payload that a mutation passes to `addBlock`. -/
def Op.data : Op → Bytes
  | .addBlock d => d
  | .addVar _ d => d

/-- Apply one mutation. -/
def BOMStorage.apply (s : BOMStorage) : Op → BOMStorage
  | .addBlock d => (s.addBlock d).1
  | .addVar n d => s.addVar n d

/-- Apply a sequence of mutations, first to last. -/
def BOMStorage.run (s : BOMStorage) (ops : List Op) : BOMStorage :=
  ops.foldl BOMStorage.apply s

/-- The bytes of block `id`: `length` bytes from the pointer returned by `getBlock`. -/
def BOMStorage.blockBytes (s : BOMStorage) (id : Nat) : Bytes :=
  (s.entries.drop (s.getBlock id)).take
    (s.block_table.blockPointers[id]?.getD { address := 0, length := 0 }).length

/-- The assignment `((BOMPaths*) getBlock (id))->forward = htonl (v)`: the four bytes at
offset 4 of the page that starts at the pointer returned by `getBlock`. -/
def BOMStorage.setForward (s : BOMStorage) (id : Nat) (v : Nat) : BOMStorage :=
  { s with entries := writeAt s.entries (s.getBlock id + 4) (htonl v) }

/-! ## Invariants of the container -/

/-- The relations between the size members of a `BOMStorage` and its buffers that the
constructor establishes and every mutation keeps. -/
structure BOMStorage.Inv (s : BOMStorage) : Prop where
  header_size : s.size_of_header = 512
  magic_length : s.header.magic.length = 8
  entry_size_eq : s.entry_size = s.entries.length
  num_entries_eq : s.num_block_entries = s.block_table.blockPointers.length
  table_count : s.block_table.numberOfBlockTablePointers = u32 s.num_block_entries
  table_size : s.size_of_block_table = 4 + 8 * s.num_block_entries
  free_size : s.size_of_free_list = 20
  free_list_eq : s.free_list = BOMStorage.new.free_list
  vars_size : s.size_of_vars = s.vars.image.length
  vars_length : s.header.varsLength = u32 s.size_of_vars
  index_length : s.header.indexLength = u32 (s.size_of_block_table + s.size_of_free_list)
  magic_eq : s.header.magic = magicBOMStore
  version_eq : s.header.version = 1
  vars_offset : s.header.varsOffset = 512

/-- The pointers that `addBlock` records for a sequence of blocks laid out one after the
other from offset `off`. -/
def ptrsFrom : Nat → List Bytes → List BOMPointer
  | _, [] => []
  | off, b :: bs => { address := off, length := u32 b.length } :: ptrsFrom (off + b.length) bs

/-- The storage `s` holds exactly the blocks `bs`, block `i + 1` being `bs[i]`: the
payload buffer is their concatenation and the block table points at them in order. -/
structure BOMStorage.Holds (s : BOMStorage) (bs : List Bytes) : Prop where
  inv : s.Inv
  entries_eq : s.entries = bs.flatten
  pointers_eq : s.block_table.blockPointers = { address := 0, length := 0 } :: ptrsFrom 0 bs

/-! ## Nodes and `std::map` -/

/-- `enum tNodeType`. -/
inductive tNodeType where
  | kNullNode
  | kFileNode
  | kDirectoryNode
  | kSymbolicLinkNode
  | kRootNode
  deriving DecidableEq, Repr

/-- The scalar members of `struct Node` (all `uint32_t`, except `type` and the string
`linkName`). -/
structure NodeInfo where
  type : tNodeType
  mode : Nat
  uid : Nat
  gid : Nat
  size : Nat
  checksum : Nat
  linkNameLength : Nat
  linkName : Bytes
  deriving DecidableEq, Repr

/-- `Node::Node ()`: the members after default construction. -/
def NodeInfo.init : NodeInfo :=
  { type := .kNullNode, mode := 0, uid := 0, gid := 0, size := 0, checksum := 0,
    linkNameLength := 0, linkName := [] }

/-- `struct Node`: the map `children` (kept as the list of its entries in key order) and
the scalar members. -/
inductive Node where
  | mk (children : List (Bytes × Node)) (info : NodeInfo)
  deriving Repr

/-- The member `children`. -/
def Node.children : Node → List (Bytes × Node)
  | .mk c _ => c

/-- The scalar members. -/
def Node.info : Node → NodeInfo
  | .mk _ i => i

/-- `operator<` of `std::string`: lexicographic comparison of the bytes, a proper prefix
being smaller. -/
def strLt : Bytes → Bytes → Bool
  | [], [] => false
  | [], _ :: _ => true
  | _ :: _, [] => false
  | a :: as, b :: bs => if a < b then true else if b < a then false else strLt as bs

/-- `std::map::find`: the value stored under the key, if there is one. -/
def mapFind {V : Type} : List (Bytes × V) → Bytes → Option V
  | [], _ => none
  | (k, v) :: rest, key => if k = key then some v else mapFind rest key

/-- The assignment `m[key] = v` of a `std::map`: the entries stay in ascending key order and
a value already stored under the key is replaced. -/
def mapInsert {V : Type} : List (Bytes × V) → Bytes → V → List (Bytes × V)
  | [], key, v => [(key, v)]
  | (k, w) :: rest, key, v =>
    if strLt key k then (key, v) :: (k, w) :: rest
    else if strLt k key then (k, w) :: mapInsert rest key v
    else (key, v) :: rest

/-! ## Reading the manifest (`write_bom`, first block) -/

/-- The ways in which `write_bom` stops without writing a file.  `outOfRange` stands for
the read of a vector element past its end, which is undefined behaviour in C++. -/
inductive Failure where
  | syntaxError
  | notOctal
  | unsupportedType
  | missingParent
  | outOfRange
  deriving DecidableEq, Repr

/-- Conversion of a `long` to `uint32_t`. -/
def u32OfInt (x : Int) : Nat := (x % 4294967296).toNat

/-- The test `isspace` in the C locale. -/
def isspace (c : Nat) : Bool := c = 32 || (9 ≤ c && c ≤ 13)

/-- The value of the leading decimal digits of a buffer, after the digits `acc`. -/
def atolDigits : Nat → Bytes → Nat
  | acc, [] => acc
  | acc, c :: cs => if 48 ≤ c ∧ c ≤ 57 then atolDigits (acc * 10 + (c - 48)) cs else acc

/-- `LONG_MAX` for a `long` of 64 bits. -/
def LONG_MAX : Nat := 9223372036854775807

/-- `std::atol`: leading white space, an optional sign, then decimal digits; 0 when there
are none.  A value outside the range of a `long` of 64 bits is undefined for `atol` in the
standard; the C library computes it as `strtol` does, which returns `LONG_MAX` for a value
above the range and `LONG_MIN` for one below it, and so does this definition. -/
def atol (str : Bytes) : Int :=
  match str.dropWhile isspace with
  | 45 :: cs => - (min (atolDigits 0 cs) (LONG_MAX + 1) : Nat)
  | 43 :: cs => (min (atolDigits 0 cs) LONG_MAX : Nat)
  | cs => (min (atolDigits 0 cs) LONG_MAX : Nat)

/-- The loop of `dec_octal_to_int`; `fuel` bounds the number of decimal digits. -/
def dec_octal_to_int_loop : Nat → Nat → Nat → Nat → Except Failure Nat
  | 0, retval, _, _ => .ok retval
  | fuel + 1, retval, n, dec_rep_octal =>
    if dec_rep_octal = 0 then .ok retval
    else
      let digit := dec_rep_octal - (dec_rep_octal / 10) * 10
      if digit > 7 then .error .notOctal
      else dec_octal_to_int_loop fuel (u32 (retval + u32 (digit * n))) (u32 (n * 8))
        (dec_rep_octal / 10)

/-- `dec_octal_to_int`, on a `uint32_t` argument (at most 10 decimal digits); the exception
is the failure `notOctal`. -/
def dec_octal_to_int (dec_rep_octal : Nat) : Except Failure Nat :=
  dec_octal_to_int_loop 10 0 1 dec_rep_octal

/-- The elements that `std::istream_iterator<std::string>` reads: the maximal runs of
bytes that are not white space.  `cur` is the run being read. -/
def tokens : Bytes → Bytes → List Bytes
  | cur, [] => if cur = [] then [] else [cur]
  | cur, c :: cs =>
    if isspace c then (if cur = [] then tokens [] cs else cur :: tokens [] cs)
    else tokens (cur ++ [c]) cs

/-- `rest[rest.find ("/")] = ' '` when there is a `'/'`. -/
def replaceFirstSlash : Bytes → Bytes
  | [] => []
  | c :: cs => if c = 47 then 32 :: cs else c :: replaceFirstSlash cs

/-- `elements[i]` of a `std::vector`; reading past the end is `outOfRange`. -/
def elementAt (elements : List Bytes) (i : Nat) : Except Failure Bytes :=
  match elements[i]? with
  | some e => .ok e
  | none => .error .outOfRange

/-- The members of the node `n` that `write_bom` fills from the elements of a line. -/
def node_of_elements (elements : List Bytes) : Except Failure NodeInfo := do
  let e0 ← elementAt elements 0
  let mode ← dec_octal_to_int (u32OfInt (atol e0))
  let e1 ← elementAt elements 1
  let uid := u32OfInt (atol e1)
  let e2 ← elementAt elements 2
  let gid := u32OfInt (atol e2)
  let n : NodeInfo := { NodeInfo.init with mode := mode, uid := uid, gid := gid }
  if mode % 65536 / 4096 = 4 then
    .ok { n with type := .kDirectoryNode }
  else if mode % 65536 / 4096 = 8 then do
    let e3 ← elementAt elements 3
    let e4 ← elementAt elements 4
    .ok { n with type := .kFileNode, size := u32OfInt (atol e3), checksum := u32OfInt (atol e4) }
  else if mode % 65536 / 4096 = 10 then do
    let e3 ← elementAt elements 3
    let e4 ← elementAt elements 4
    let e5 ← elementAt elements 5
    .ok { n with
          type := .kSymbolicLinkNode, size := u32OfInt (atol e3)
          checksum := u32OfInt (atol e4)
          linkNameLength := u32 (e5.length + 1), linkName := e5 }
  else .error .unsupportedType

/-- The body of the `while (std::getline (lsbom_file, line))` loop up to the assignment
`all_nodes[name] = n`: the name and the node of one line. -/
def parse_line (line : Bytes) : Except Failure (Bytes × NodeInfo) :=
  let name := line.takeWhile (· ≠ 9)
  match line.dropWhile (· ≠ 9) with
  | [] => .error .syntaxError
  | _ :: after =>
    let rest := replaceFirstSlash (after.takeWhile (· ≠ 10))
    match node_of_elements (tokens [] rest) with
    | .error e => .error e
    | .ok n => .ok (name, n)

/-- The loop over the lines of the manifest: the map `all_nodes` after the last line. -/
def read_nodes : List (Bytes × NodeInfo) → List Bytes → Except Failure (List (Bytes × NodeInfo))
  | all_nodes, [] => .ok all_nodes
  | all_nodes, line :: lines =>
    match parse_line line with
    | .error e => .error e
    | .ok (name, n) => read_nodes (mapInsert all_nodes name n) lines

/-! ## Building the tree (`write_bom`, "create tree") -/

/-- The elements that `for (std::string element; std::getline (ss, element, '/'); ...)`
collects: `cur` is the element being read; at the end of the string an element is produced
only when `getline` extracted at least one character. -/
def path_elements : Bytes → Bytes → List Bytes
  | cur, [] => if cur = [] then [] else [cur]
  | cur, c :: cs => if c = 47 then cur :: path_elements [] cs else path_elements (cur ++ [c]) cs

/-- The inner loop of "create tree" over the path elements from `jt` on, below `parent`:
returns `parent` with the nodes of the path present. -/
def insert_elements (all_nodes : List (Bytes × NodeInfo)) :
    List Bytes → Bytes → Node → Except Failure Node
  | [], _, parent => .ok parent
  | jt :: more, full_path, parent =>
    let full_path := full_path ++ jt
    let found : Except Failure Node :=
      match mapFind parent.children jt with
      | some kt => .ok kt
      | none =>
        match mapFind all_nodes full_path with
        | none => .error .missingParent
        | some lt => .ok (Node.mk [] lt)
    match found with
    | .error e => .error e
    | .ok kt =>
      match insert_elements all_nodes more (full_path ++ [47]) kt with
      | .error e => .error e
      | .ok kt => .ok (Node.mk (mapInsert parent.children jt kt) parent.info)

/-- The outer loop of "create tree" over the entries `it` of `all_nodes` that remain. -/
def create_tree_loop (all_nodes : List (Bytes × NodeInfo)) :
    List (Bytes × NodeInfo) → Node → Except Failure Node
  | [], root => .ok root
  | it :: more, root =>
    match insert_elements all_nodes (path_elements [] it.1) [] root with
    | .error e => .error e
    | .ok root => create_tree_loop all_nodes more root

/-- The tree below the virtual root, built from the map `all_nodes`. -/
def create_tree (all_nodes : List (Bytes × NodeInfo)) : Except Failure Node :=
  create_tree_loop all_nodes all_nodes (Node.mk [] { NodeInfo.init with type := .kRootNode })

/-! ## Records of the file format -/

/-- Modelled from the spec: `TYPE_FILE` of `bom.h`. -/
def TYPE_FILE : Nat := 1

/-- Modelled from the spec: `TYPE_DIR` of `bom.h`. -/
def TYPE_DIR : Nat := 2

/-- Modelled from the spec: `TYPE_LINK` of `bom.h`. -/
def TYPE_LINK : Nat := 3

/-- Modelled from the spec: `sizeof (BOMPathInfo2)`, the packed fields before `linkName`:
type (1), reserved (1), architecture (2), mode (2), uid (4), gid (4), mtime (4), size (4),
reserved (1), checksum (4), linkNameLength (4). -/
def sizeof_BOMPathInfo2 : Nat := 31

/-- Modelled from the spec: `sizeof (BOMPathInfo1)`: id (4), index (4). -/
def sizeof_BOMPathInfo1 : Nat := 8

/-- Modelled from the spec: `sizeof (BOMPathIndices)`: index0 (4), index1 (4). -/
def sizeof_BOMPathIndices : Nat := 8

/-- Modelled from the spec: `sizeof (BOMTree)`: tag (4), version (4), child (4),
blockSize (4), pathCount (4), reserved (1). -/
def sizeof_BOMTree : Nat := 21

/-- Modelled from the spec: `sizeof (BOMInfoEntry)`: four `uint32_t`. -/
def sizeof_BOMInfoEntry : Nat := 16

/-- Modelled from the spec: `sizeof (BOMVIndex)`: unknown0 (4), indexToVTree (4),
unknown2 (4), reserved (1). -/
def sizeof_BOMVIndex : Nat := 13

/-- A buffer of `n` bytes from `malloc` after `strcpy (buffer, src.c_str ())`: the bytes of
`src` before its first NUL, one NUL, and the bytes that stay uninitialised.  The
uninitialised bytes, which are arbitrary in a run of the program, are 0 here: the definition
is exact when `src` has no NUL and `n = src.length + 1`, where `strcpy` fills the buffer. -/
def strcpyInto (n : Nat) (src : Bytes) : Bytes :=
  (src.takeWhile (· ≠ 0) ++ [0] ++ List.replicate n 0).take n

/-- The buffer `info2` of `bom_path_info2_size` bytes that `write_bom` fills for a node. -/
def info2Bytes (node : NodeInfo) : Bytes :=
  let type :=
    if node.type = .kDirectoryNode then TYPE_DIR
    else if node.type = .kFileNode then TYPE_FILE
    else TYPE_LINK
  [u8 type] ++ [u8 1] ++ htons 3 ++ htons node.mode ++ htonl node.uid ++ htonl node.gid
    ++ htonl 0 ++ htonl node.size ++ [u8 1] ++ htonl node.checksum
    ++ htonl node.linkNameLength ++ strcpyInto node.linkNameLength node.linkName

/-- The image of `BOMPathInfo1 info1` with `id = htonl (id)` and `index = htonl (index)`. -/
def info1Bytes (id index : Nat) : Bytes := htonl id ++ htonl index

/-- The buffer `f` of `bom_file_size = sizeof (uint32_t) + 1 + s.size ()` bytes. -/
def fileBytes (parent : Nat) (s : Bytes) : Bytes :=
  htonl parent ++ strcpyInto (1 + s.length) s

/-- The 4 bytes `"tree"`. -/
def tagTree : Bytes := [116, 114, 101, 101]

/-- The image of a `BOMTree` whose integer fields were stored through `htonl` and whose
`unknown3` is 0. -/
def treeBytes (child blockSize pathCount : Nat) : Bytes :=
  tagTree ++ htonl 1 ++ htonl child ++ htonl blockSize ++ htonl pathCount ++ [0]

/-- The buffer `info` of the `BomInfo` variable for `num` nodes. -/
def bomInfoBytes (num : Nat) : Bytes :=
  htonl 1 ++ htonl (num + 1) ++ htonl (if num ≠ 0 then 1 else 0)
    ++ List.replicate ((if num ≠ 0 then 1 else 0) * sizeof_BOMInfoEntry) 0

/-- The image of the `BOMVIndex` of the `VIndex` variable. -/
def vindexBytes (indexToVTree : Nat) : Bytes :=
  htonl 1 ++ htonl indexToVTree ++ htonl 0 ++ [0]

/-- Modelled from the spec: `struct BOMPaths` of `bom.h`, one page: `isLeaf` and `count`
(`uint16_t`, stored through `htons`), `forward` and `backward` (`uint32_t`) and the array
`indices` of `(index0, index1)` pairs.  The list `indices` has one element per allocated
slot; a slot that was never assigned is `(0, 0)`. -/
structure BOMPaths where
  isLeaf : Nat
  count : Nat
  forward : Nat
  backward : Nat
  indices : List (Nat × Nat)
  deriving DecidableEq, Repr

/-- Memory image of a page. -/
def BOMPaths.image (p : BOMPaths) : Bytes :=
  htons p.isLeaf ++ htons p.count ++ htonl p.forward ++ htonl p.backward
    ++ (p.indices.map (fun i => htonl i.1 ++ htonl i.2)).flatten

/-- The `length` bytes at the pointer `paths` that `addBlock (paths, length)` copies;
`nullptr` has none. -/
def pageBytes (paths : Option BOMPaths) (length : Nat) : Bytes :=
  match paths with
  | none => []
  | some p => p.image.take length

/-- The assignment `p->indices[i].index0 = v`. -/
def BOMPaths.setIndex0 (p : BOMPaths) (i : Nat) (v : Nat) : BOMPaths :=
  { p with indices := p.indices.modify (fun x => (v, x.2)) i }

/-- The assignment `p->indices[i].index1 = v`. -/
def BOMPaths.setIndex1 (p : BOMPaths) (i : Nat) (v : Nat) : BOMPaths :=
  { p with indices := p.indices.modify (fun x => (x.1, v)) i }

/-! ## Writing the `Paths` tree (`write_bom`, the loop over the queue) -/

/-- The local variables of the block of `write_bom` that writes the `Paths` tree.  The
vector `stack` holds pairs of an id and a node. -/
structure PathsState where
  bom : BOMStorage
  root_paths : BOMPaths
  stack : List (Nat × Node)
  j : Nat
  k : Nat
  current_path : Nat
  current_path_size : Nat
  last_file_info : Nat
  last_paths_id : Nat
  paths : Option BOMPaths
  deriving Repr

/-- The `if (k == 0)` part of the loop body: the full page, if there is one, is added and
linked, and a new page is allocated.  The `next_num` slots of the new page come from `malloc`
and hold arbitrary bytes until the loop assigns them; they are `(0, 0)` here, so the
definition is exact for the slots that the loop assigns: all of them when the loop emits
`num` entries. -/
def start_page (num : Nat) (st : PathsState) : PathsState :=
  let r : PathsState × Nat :=
    match st.paths with
    | some _ =>
      let a := st.bom.addBlock (pageBytes st.paths st.current_path_size)
      let new_paths_id := a.2
      let root_paths := st.root_paths.setIndex0 st.current_path (u32 new_paths_id)
      let bom :=
        if st.last_paths_id ≠ 0 then a.1.setForward st.last_paths_id new_paths_id else a.1
      let root_paths := root_paths.setIndex1 st.current_path st.last_file_info
      ({ st with
          bom := bom, root_paths := root_paths, paths := none
          current_path := st.current_path + 1 }, new_paths_id)
    | none => (st, 0)
  let st := r.1
  let new_paths_id := r.2
  let next_num := if 256 < u32 (num + 4294967296 - st.j) then 256 else u32 (num + 4294967296 - st.j)
  let current_path_size :=
    sizeof_uint16 * 2 + sizeof_uint32 * 2 + next_num * sizeof_BOMPathIndices
  let paths : BOMPaths :=
    { isLeaf := 1, count := u16 next_num, forward := 0, backward := u32 new_paths_id
      indices := List.replicate next_num (0, 0) }
  { st with
    current_path_size := current_path_size, paths := some paths
    last_paths_id := new_paths_id }

/-- The part of the loop body after the `if (k == 0)`: the three blocks of the child
`node` named `s` are added and their ids are stored in the slot `k` of the page. -/
def add_entry (parent : Nat) (st : PathsState) (s : Bytes) (node : Node) : PathsState :=
  let a2 := st.bom.addBlock (info2Bytes node.info)
  let a1 := a2.1.addBlock (info1Bytes (st.j + 1) a2.2)
  let paths := st.paths.map (fun p => p.setIndex0 st.k (u32 a1.2))
  let af := a1.1.addBlock (fileBytes parent s)
  let last_file_info := u32 af.2
  let paths := paths.map (fun p => p.setIndex1 st.k last_file_info)
  { st with
    bom := af.1, paths := paths, last_file_info := last_file_info
    stack := st.stack ++ [(st.j + 1, node)]
    j := st.j + 1, k := (st.k + 1) % 256 }

/-- The body of the loop over the children of `arg`, for the child `node` named `s`;
`parent` is the id taken from the queue together with `arg`. -/
def emit_node (num : Nat) (parent : Nat) (st : PathsState) (s : Bytes) (node : Node) :
    PathsState :=
  add_entry parent (if st.k = 0 then start_page num st else st) s node

/-- The `for` loop over `arg.children`. -/
def emit_children (num : Nat) (parent : Nat) (st : PathsState) (children : List (Bytes × Node)) :
    PathsState :=
  children.foldl (fun st c => emit_node num parent st c.1 c.2) st

/-- The loop `while (stack.size () != 0)`, for at most `fuel` iterations. -/
def paths_loop (num : Nat) : Nat → PathsState → PathsState
  | 0, st => st
  | fuel + 1, st =>
    match st.stack with
    | [] => st
    | (parent, arg) :: rest =>
      paths_loop num fuel (emit_children num parent { st with stack := rest } arg.children)

mutual
/-- The number of nodes of a tree, the root included. -/
def Node.count : Node → Nat
  | .mk children _ => 1 + Node.countList children
/-- The number of nodes of the trees of a children map. -/
def Node.countList : List (Bytes × Node) → Nat
  | [] => 0
  | c :: rest => c.2.count + Node.countList rest
end

/-- The statements after the loop: the last page is added and linked, the interior page
is added when there is more than one page, and the `Paths` variable is added.  Returns
the storage. -/
def finish_paths (num : Nat) (num_paths : Nat) (path_size : Nat) (st : PathsState) : BOMStorage :=
  let r : BOMStorage × Nat :=
    if num_paths > 1 then
      let a := st.bom.addBlock (pageBytes st.paths st.current_path_size)
      let bom := a.1.setForward st.last_paths_id a.2
      let root_paths := st.root_paths.setIndex0 st.current_path (u32 a.2)
      let root_paths := root_paths.setIndex1 st.current_path st.last_file_info
      bom.addBlock (pageBytes (some root_paths) path_size)
    else st.bom.addBlock (pageBytes st.paths st.current_path_size)
  r.1.addVar [80, 97, 116, 104, 115] (treeBytes r.2 4096 num)

/-- The block of `write_bom` that writes the `Paths` variable into `bom`, for the tree
`root` and `num = all_nodes.size ()`.  The slots of `root_paths` come from `malloc` and are
`(0, 0)` here until they are assigned, as the slots of a page in `start_page`. -/
def write_paths (bom : BOMStorage) (root : Node) (num : Nat) : BOMStorage :=
  let num_paths := (num + 255) / 256
  let path_size := sizeof_uint16 * 2 + sizeof_uint32 * 2 + num_paths * sizeof_BOMPathIndices
  let root_paths : BOMPaths :=
    { isLeaf := 0, count := u16 num_paths, forward := 0, backward := 0
      indices := List.replicate num_paths (0, 0) }
  let st : PathsState :=
    { bom := bom, root_paths := root_paths, stack := [(0, root)], j := 0, k := 0
      current_path := 0, current_path_size := 0, last_file_info := 0, last_paths_id := 0
      paths := none }
  finish_paths num num_paths path_size (paths_loop num root.count st)

/-- The block of `write_bom` that writes `HLIndex`, `VIndex` and `Size64`. -/
def write_aux_vars (bom : BOMStorage) : BOMStorage :=
  let empty_path : BOMPaths := { isLeaf := 1, count := 0, forward := 0, backward := 0, indices := [] }
  let path_size := sizeof_uint16 * 2 + sizeof_uint32 * 2
  let a := bom.addBlock (pageBytes (some empty_path) path_size)
  let bom := a.1.addVar [72, 76, 73, 110, 100, 101, 120] (treeBytes a.2 4096 0)
  let a := bom.addBlock (pageBytes (some empty_path) path_size)
  let v := a.1.addBlock (treeBytes a.2 128 0)
  let bom := v.1.addVar [86, 73, 110, 100, 101, 120] (vindexBytes v.2)
  let a := bom.addBlock (pageBytes (some empty_path) path_size)
  a.1.addVar [83, 105, 122, 101, 54, 52] (treeBytes a.2 4096 0)

/-- The storage that `write_bom` has built when it calls `bom.write`, for the tree `root`
and `num = all_nodes.size ()`. -/
def build_bom (root : Node) (num : Nat) : BOMStorage :=
  let bom := BOMStorage.new.addVar [66, 111, 109, 73, 110, 102, 111] (bomInfoBytes num)
  write_aux_vars (write_paths bom root num)

/-- `write_bom`: the bytes of the output file for the lines of the manifest, on a host of
the given byte order, or the failure that stops the program. -/
def write_bom (le : Bool) (lsbom_file : List Bytes) : Except Failure Bytes :=
  match read_nodes [] lsbom_file with
  | .error e => .error e
  | .ok all_nodes =>
    match create_tree all_nodes with
    | .error e => .error e
    | .ok root => .ok ((build_bom root all_nodes.length).write le)

/-! ## The sequence of emitted nodes and the layout of their blocks -/

/-- One execution of the body of the loop over `arg.children`: the id `parent` taken from
the queue together with `arg`, and the name and node of the child. -/
structure Visit where
  parent : Nat
  name : Bytes
  node : Node
  deriving Repr

/-- The pairs that the loop over the children `cs` pushes on the queue when it starts
with `j` emitted nodes. -/
def pushed : Nat → List (Bytes × Node) → List (Nat × Node)
  | _, [] => []
  | j, c :: cs => (j + 1, c.2) :: pushed (j + 1) cs

/-- The executions of the loop body that `paths_loop` performs from a queue `stack` with
`j` nodes emitted, in order. -/
def visits : Nat → Nat → List (Nat × Node) → List Visit
  | 0, _, _ => []
  | _ + 1, _, [] => []
  | fuel + 1, j, (parent, arg) :: rest =>
    arg.children.map (fun c => { parent := parent, name := c.1, node := c.2 })
      ++ visits fuel (j + arg.children.length) (rest ++ pushed j arg.children)

/-- The executions of the loop body for the tree `root`, in order. -/
def visitsOf (root : Node) : List Visit := visits root.count 0 [(0, root)]

/-- The loop body applied to one visit. -/
def emit_visit (num : Nat) (st : PathsState) (v : Visit) : PathsState :=
  emit_node num v.parent st v.name v.node

/-- Position, in the list of blocks, of the `PathInfo2` block of the node emitted at
position `j` (from 0), when `b0` blocks came before the first node: every 256 nodes
take 768 blocks and are followed by the block of their page. -/
def info2Index (b0 j : Nat) : Nat := b0 + 769 * (j / 256) + 3 * (j % 256)

/-- Block id of the page number `c` (from 0) of a tree of `N` nodes. -/
def leafId (b0 N c : Nat) : Nat := b0 + 3 * min N (256 * (c + 1)) + c + 1

/-- The number of pages that were added to the storage when `m` nodes are emitted. -/
def pagesAdded (m : Nat) : Nat := (m - 1) / 256

/-- The pair of a page for the node emitted at position `j`. -/
def leafEntry (b0 j : Nat) : Nat × Nat :=
  (u32 (info2Index b0 j + 2), u32 (info2Index b0 j + 3))

/-- Page number `c` of a tree of `N` nodes with its first `filled` pairs assigned and the
given `forward`. -/
def leafPage (b0 N c filled fwd : Nat) : BOMPaths :=
  { isLeaf := 1
    count := u16 (min 256 (N - 256 * c))
    forward := fwd
    backward := u32 (if c = 0 then 0 else leafId b0 N (c - 1))
    indices :=
      (List.range (min 256 (N - 256 * c))).map
        (fun t => if t < filled then leafEntry b0 (256 * c + t) else (0, 0)) }

/-- The interior page with its first `added` pairs assigned. -/
def rootPage (b0 N added : Nat) : BOMPaths :=
  { isLeaf := 0
    count := u16 ((N + 255) / 256)
    forward := 0
    backward := 0
    indices :=
      (List.range ((N + 255) / 256)).map
        (fun c =>
          if c < added then
            (u32 (leafId b0 N c), u32 (info2Index b0 (min N (256 * (c + 1)) - 1) + 3))
          else (0, 0)) }

/-- Block number `i` (from 0) among the blocks that the loop adds for the visits `V`, when
`added` pages were added: a page, or one of the three blocks of a node. -/
def pathsBlock (V : List Visit) (b0 N added i : Nat) : Bytes :=
  if i % 769 = 768 then
    (leafPage b0 N (i / 769) 256
      (if i / 769 + 1 < added then leafId b0 N (i / 769 + 1) else 0)).image
  else
    match V[256 * (i / 769) + i % 769 / 3]? with
    | none => []
    | some v =>
      if i % 769 % 3 = 0 then info2Bytes v.node.info
      else if i % 769 % 3 = 1 then
        info1Bytes (256 * (i / 769) + i % 769 / 3 + 1)
          (info2Index b0 (256 * (i / 769) + i % 769 / 3) + 1)
      else fileBytes v.parent v.name

/-- The blocks held by the storage when `m` nodes are emitted, `B0` being the blocks held
before the loop. -/
def blocksDuring (V : List Visit) (B0 : List Bytes) (N m : Nat) : List Bytes :=
  B0 ++ (List.range (3 * m + pagesAdded m)).map (pathsBlock V B0.length N (pagesAdded m))

/-- The state of the loop when `m` of the visits `V` are done, in a build with `num = N`
that started with the blocks `B0` in the storage. -/
structure LoopInv (V : List Visit) (B0 : List Bytes) (N m : Nat) (st : PathsState) : Prop where
  j_eq : st.j = m
  k_eq : st.k = m % 256
  current_path_eq : st.current_path = pagesAdded m
  holds : st.bom.Holds (blocksDuring V B0 N m)
  paths_eq : st.paths =
    if m = 0 then none
    else some (leafPage B0.length N (pagesAdded m) (m - 256 * pagesAdded m) 0)
  size_eq : st.current_path_size =
    if m = 0 then 0 else 12 + 8 * min 256 (N - 256 * pagesAdded m)
  last_paths_eq : st.last_paths_id =
    if pagesAdded m = 0 then 0 else leafId B0.length N (pagesAdded m - 1)
  last_file_eq : st.last_file_info =
    if m = 0 then 0 else u32 (info2Index B0.length (m - 1) + 3)
  root_eq : st.root_paths = rootPage B0.length N (pagesAdded m)

/-- The state of the loop when `m` visits are done and the page for the next node is
allocated (after the `if (k == 0)` part of the next execution of the body). -/
structure ReadyInv (V : List Visit) (B0 : List Bytes) (N m : Nat) (st : PathsState) : Prop where
  j_eq : st.j = m
  k_eq : st.k = m % 256
  current_path_eq : st.current_path = m / 256
  holds : st.bom.Holds
    (B0 ++ (List.range (3 * m + m / 256)).map (pathsBlock V B0.length N (m / 256)))
  paths_eq : st.paths = some (leafPage B0.length N (m / 256) (m % 256) 0)
  size_eq : st.current_path_size = 12 + 8 * min 256 (N - 256 * (m / 256))
  last_paths_eq : st.last_paths_id =
    if m / 256 = 0 then 0 else leafId B0.length N (m / 256 - 1)
  last_file_eq : st.last_file_info =
    if m = 0 then 0 else u32 (info2Index B0.length (m - 1) + 3)
  root_eq : st.root_paths = rootPage B0.length N (m / 256)

/-- The state `st` with the queue replaced. -/
def PathsState.withStack (st : PathsState) (q : List (Nat × Node)) : PathsState :=
  { st with stack := q }

/-- The number of nodes of the trees in the queue. -/
def queueCount : List (Nat × Node) → Nat
  | [] => 0
  | x :: rest => x.2.count + queueCount rest

/-- The bytes of the last page, which is added after the loop (`nullptr` when there is no
node). -/
def lastLeafBytes (b0 N : Nat) : Bytes :=
  if N = 0 then []
  else (leafPage b0 N ((N - 1) / 256) (N - 256 * ((N - 1) / 256)) 0).image

/-- The block id stored in `tree.child` of the `Paths` tree: the interior page when there
is more than one page, the only page otherwise. -/
def rootChildId (b0 N : Nat) : Nat :=
  if (N + 255) / 256 > 1 then leafId b0 N ((N - 1) / 256) + 1 else leafId b0 N ((N - 1) / 256)

/-- The blocks held by the storage after the `Paths` variable is added, for the visits `V`
of a build with `num = N` that started with the blocks `B0`. -/
def blocksAfterPaths (V : List Visit) (B0 : List Bytes) (N : Nat) : List Bytes :=
  B0 ++ (List.range (3 * N + (N - 1) / 256)).map (pathsBlock V B0.length N ((N + 255) / 256))
    ++ [lastLeafBytes B0.length N]
    ++ (if (N + 255) / 256 > 1 then [(rootPage B0.length N ((N + 255) / 256)).image] else [])
    ++ [treeBytes (rootChildId B0.length N) 4096 N]

/-- The local variables of the `Paths` block of `write_bom` before the loop. -/
def initialPathsState (bom : BOMStorage) (root : Node) (num : Nat) : PathsState :=
  { bom := bom
    root_paths :=
      { isLeaf := 0, count := u16 ((num + 255) / 256), forward := 0, backward := 0
        indices := List.replicate ((num + 255) / 256) (0, 0) }
    stack := [(0, root)], j := 0, k := 0
    current_path := 0, current_path_size := 0, last_file_info := 0, last_paths_id := 0
    paths := none }

/-- The 12 bytes of an empty page (`isLeaf = 1`, `count = 0`, no sibling). -/
def emptyLeafBytes : Bytes :=
  BOMPaths.image { isLeaf := 1, count := 0, forward := 0, backward := 0, indices := [] }

/-- The blocks held by the storage when `write_bom` calls `bom.write`, for the visits `V`
of a build with `num = N`: `BomInfo`, the blocks of the `Paths` tree, and the blocks of
`HLIndex`, `VIndex` and `Size64`. -/
def blocksOfBuild (V : List Visit) (N : Nat) : List Bytes :=
  let paths := blocksAfterPaths V [bomInfoBytes N] N
  paths
    ++ [emptyLeafBytes, treeBytes (paths.length + 1) 4096 0,
        emptyLeafBytes, treeBytes (paths.length + 3) 128 0, vindexBytes (paths.length + 4),
        emptyLeafBytes, treeBytes (paths.length + 6) 4096 0]

/-- The records of the vars buffer when `write_bom` calls `bom.write`, `n` being the number
of blocks held after the `Paths` variable is added. -/
def varsOfBuild (n : Nat) : List BOMVar :=
  [{ index := u32 1, length := u8 7, name := [66, 111, 109, 73, 110, 102, 111] },
   { index := u32 n, length := u8 5, name := [80, 97, 116, 104, 115] },
   { index := u32 (n + 2), length := u8 7, name := [72, 76, 73, 110, 100, 101, 120] },
   { index := u32 (n + 5), length := u8 6, name := [86, 73, 110, 100, 101, 120] },
   { index := u32 (n + 7), length := u8 6, name := [83, 105, 122, 101, 54, 52] }]

/-! ## Reading a BOM file -/

/-- Modelled from the spec: `header.indexOffset` of a file, the big-endian `u32` at offset
16 (after the 8-byte magic, the version and the number of blocks). -/
def fileIndexOffset (file : Bytes) : Nat := ntohlAt file 16

/-- Modelled from the spec: `header.varsOffset` of a file, the big-endian `u32` at offset
24. -/
def fileVarsOffset (file : Bytes) : Nat := ntohlAt file 24

/-- Modelled from the spec: the count of the block table, the `u32` at `indexOffset`. -/
def fileNumPointers (file : Bytes) : Nat := ntohlAt file (fileIndexOffset file)

/-- Modelled from the spec: the pointer of block `id` in the block table of a file, decoded
big-endian: `(address, length)`. -/
def filePointer (file : Bytes) (id : Nat) : Nat × Nat :=
  (ntohlAt file (fileIndexOffset file + 4 + 8 * id),
   ntohlAt file (fileIndexOffset file + 4 + 8 * id + 4))

/-- Modelled from the spec: the payload of block `id` of a file: `length` bytes at file
offset `address`. -/
def fileBlock (file : Bytes) (id : Nat) : Bytes :=
  (file.drop (filePointer file id).1).take (filePointer file id).2

/-- Modelled from the spec: the `count` records of the vars section that start at offset
`off`, as pairs of a name and a block id. -/
def readVarsFrom (file : Bytes) : Nat → Nat → List (Bytes × Nat)
  | 0, _ => []
  | count + 1, off =>
    ((file.drop (off + 5)).take (file.getD (off + 4) 0), ntohlAt file off)
      :: readVarsFrom file count (off + 5 + file.getD (off + 4) 0)

/-- Modelled from the spec: the vars of a file, as pairs of a name and a block id. -/
def readVars (file : Bytes) : List (Bytes × Nat) :=
  readVarsFrom file (ntohlAt file (fileVarsOffset file)) (fileVarsOffset file + 4)

/-- Modelled from the spec: the block id that the vars section gives to a name. -/
def findVar (file : Bytes) (name : Bytes) : Option Nat :=
  mapFind (readVars file) name

/-- Modelled from the spec: a decoded `Paths` page. -/
structure Page where
  isLeaf : Nat
  count : Nat
  forward : Nat
  backward : Nat
  indices : List (Nat × Nat)
  deriving DecidableEq, Repr

/-- Modelled from the spec: decoding of a `Paths` page: `isLeaf` and `count` (`u16`),
`forward` and `backward` (`u32`), then `count` pairs `(index0, index1)`. -/
def readPage (blk : Bytes) : Page :=
  { isLeaf := ntohsAt blk 0
    count := ntohsAt blk 2
    forward := ntohlAt blk 4
    backward := ntohlAt blk 8
    indices :=
      (List.range (ntohsAt blk 2)).map
        (fun i => (ntohlAt blk (12 + 8 * i), ntohlAt blk (12 + 8 * i + 4))) }

/-- Modelled from the spec: the descent from a page to the leftmost leaf below it, through
`indices[0].index0`.  A block that is too short to hold the fields that are read is a bounds
violation, which ends the walk with `none`, as does the end of `fuel`. -/
def leftmostLeaf (file : Bytes) : Nat → Nat → Option Nat
  | 0, _ => none
  | fuel + 1, id =>
    if (fileBlock file id).length < 12 then none
    else if ntohsAt (fileBlock file id) 0 ≠ 0 then some id
    else if (fileBlock file id).length < 20 then none
    else leftmostLeaf file fuel (ntohlAt (fileBlock file id) 12)

/-- Modelled from the spec: the block ids of the pages met from page `id` on by following
`forward` until it is zero; `none` when a block is too short to be a page or `fuel` pages
were not enough. -/
def leafChain (file : Bytes) : Nat → Nat → Option (List Nat)
  | 0, _ => none
  | fuel + 1, id =>
    if (fileBlock file id).length < 12 then none
    else if (readPage (fileBlock file id)).forward = 0 then some [id]
    else (leafChain file fuel (readPage (fileBlock file id)).forward).map (id :: ·)

/-- Modelled from the spec: the `rootChild` of the tree stored in block `id`. -/
def treeChild (file : Bytes) (id : Nat) : Nat := ntohlAt (fileBlock file id) 8

/-- Modelled from the spec: the `pathCount` of the tree stored in block `id`. -/
def treePathCount (file : Bytes) (id : Nat) : Nat := ntohlAt (fileBlock file id) 16

/-- Modelled from the spec: the block ids of the leaves of the `Paths` tree of a file, in
the order of the read direction: from the leftmost leaf along `forward`. -/
def pathsLeaves (file : Bytes) : Option (List Nat) :=
  match findVar file [80, 97, 116, 104, 115] with
  | none => none
  | some tree =>
    match leftmostLeaf file (fileNumPointers file) (treeChild file tree) with
    | none => none
    | some leaf => leafChain file (fileNumPointers file) leaf

/-- Modelled from the spec: the pairs `(index0, index1)` of the leaves of the `Paths`
tree, in the order of the read direction. -/
def pathsIndices (file : Bytes) : Option (List (Nat × Nat)) :=
  (pathsLeaves file).map
    (fun leaves => leaves.flatMap (fun id => (readPage (fileBlock file id)).indices))

/-- Modelled from the spec: the fields of the three records of one leaf entry:
`PathInfo1` (`id`, `index`), `PathInfo2` and `FileRecord` (`parent`, `name`). -/
structure PathEntry where
  id : Nat
  index : Nat
  type : Nat
  reserved0 : Nat
  architecture : Nat
  mode : Nat
  uid : Nat
  gid : Nat
  mtime : Nat
  size : Nat
  reserved1 : Nat
  checksum : Nat
  linkNameLength : Nat
  linkName : Bytes
  parent : Nat
  name : Bytes
  deriving DecidableEq, Repr

/-- Modelled from the spec: decoding of a leaf entry: `index0` names the `PathInfo1`
block, whose `index` names the `PathInfo2` block; `index1` names the `FileRecord`.  The
two strings are read up to their NUL. -/
def readEntry (file : Bytes) (i : Nat × Nat) : PathEntry :=
  let b1 := fileBlock file i.1
  let b2 := fileBlock file (ntohlAt b1 4)
  let bf := fileBlock file i.2
  { id := ntohlAt b1 0
    index := ntohlAt b1 4
    type := b2.getD 0 0
    reserved0 := b2.getD 1 0
    architecture := ntohsAt b2 2
    mode := ntohsAt b2 4
    uid := ntohlAt b2 6
    gid := ntohlAt b2 10
    mtime := ntohlAt b2 14
    size := ntohlAt b2 18
    reserved1 := b2.getD 22 0
    checksum := ntohlAt b2 23
    linkNameLength := ntohlAt b2 27
    linkName := ((b2.drop 31).take (ntohlAt b2 27)).takeWhile (· ≠ 0)
    parent := ntohlAt bf 0
    name := (bf.drop 4).takeWhile (· ≠ 0) }

/-- Modelled from the spec: the decoded entries of the `Paths` tree of a file, in the
order of the read direction. -/
def readPaths (file : Bytes) : Option (List PathEntry) :=
  (pathsIndices file).map (fun l => l.map (readEntry file))

/-- The bytes `file` are a BOM file whose blocks, read through its block table, are
`blocks` (block `i + 1` being `blocks[i]`) and whose vars section holds the records
`vars`. -/
structure IsFile (file : Bytes) (blocks : List Bytes) (vars : List BOMVar) : Prop where
  block_eq : ∀ (i : Nat) (h : i < blocks.length), fileBlock file (i + 1) = blocks[i]
  vars_eq : readVars file = vars.map (fun v => (v.name, v.index))
  num_eq : fileNumPointers file = blocks.length + 1
  fits : 512 + blocks.flatten.length + 8 * (blocks.length + 1) < 4294967296

/-- The bytes `F` are a file that `write_bom` writes for the visits `V` of a tree with `N`
nodes below the root, and its size fits in 32 bits. -/
structure BuiltFile (F : Bytes) (V : List Visit) (N : Nat) : Prop where
  length_eq : V.length = N
  isFile : IsFile F (blocksOfBuild V N)
    (varsOfBuild (blocksAfterPaths V [bomInfoBytes N] N).length)

/-- The page number `c` of the `Paths` tree of a build with `N` nodes, as a reader decodes
it. -/
def leafOfBuild (N c : Nat) : Page :=
  { isLeaf := 1
    count := min 256 (N - 256 * c)
    forward := if c + 1 < (N + 255) / 256 then leafId 1 N (c + 1) else 0
    backward := if c = 0 then 0 else leafId 1 N (c - 1)
    indices :=
      (List.range (min 256 (N - 256 * c))).map
        (fun t => (info2Index 1 (256 * c + t) + 2, info2Index 1 (256 * c + t) + 3)) }

/-- The value of `info2->type` for a node. -/
def typeOfNode (node : NodeInfo) : Nat :=
  if node.type = .kDirectoryNode then TYPE_DIR
  else if node.type = .kFileNode then TYPE_FILE
  else TYPE_LINK

/-- A directory node (mode `0o40755`). -/
def exDir : NodeInfo :=
  { type := .kDirectoryNode, mode := 16877, uid := 501, gid := 20, size := 0, checksum := 0,
    linkNameLength := 0, linkName := [] }

/-- A regular file node (mode `0o100644`). -/
def exFile : NodeInfo :=
  { type := .kFileNode, mode := 33188, uid := 501, gid := 20, size := 3, checksum := 3735928559,
    linkNameLength := 0, linkName := [] }

/-- The tree of the manifest `d`, `d/a`, `d/b`. -/
def exTree : Node :=
  Node.mk [([100], Node.mk [([97], Node.mk [] exFile), ([98], Node.mk [] exFile)] exDir)]
    { NodeInfo.init with type := .kRootNode }

/-- The name of the file number `i` of a flat tree: `f` and six letters `a` to `p`, the
digits of `i` in base 16, most significant first. -/
def flatName (i : Nat) : Bytes :=
  [102, 97 + i / 1048576 % 16, 97 + i / 65536 % 16, 97 + i / 4096 % 16, 97 + i / 256 % 16,
    97 + i / 16 % 16, 97 + i % 16]

/-- The tree of `n` regular files at top level, named `flatName 0`, `flatName 1`, ... -/
def flatTree (n : Nat) : Node :=
  Node.mk ((List.range n).map (fun i => (flatName i, Node.mk [] exFile)))
    { NodeInfo.init with type := .kRootNode }

/-- The elements of the manifest line `l<TAB>120777<TAB>0/0<TAB>6<TAB>0<TAB>target`. -/
def exLinkElements : List Bytes :=
  [[49, 50, 48, 55, 55, 55], [48], [48], [54], [48], [116, 97, 114, 103, 101, 116]]

/-- A symbolic link node (mode `0o120777`) with the target `target`. -/
def exLink : NodeInfo :=
  { type := .kSymbolicLinkNode, mode := 41471, uid := 0, gid := 0, size := 6, checksum := 0,
    linkNameLength := 7, linkName := [116, 97, 114, 103, 101, 116] }

/-- The tree of the manifest with the one link `l`. -/
def exLinkTree : Node :=
  Node.mk [([108], Node.mk [] exLink)] { NodeInfo.init with type := .kRootNode }

/-! ## Breadth-first order, in the words of the specification -/

/-- Insertion of a child into a list of children that is in ascending order of name. -/
def insertByName (c : Bytes × Node) : List (Bytes × Node) → List (Bytes × Node)
  | [] => [c]
  | d :: rest => if strLt c.1 d.1 then c :: d :: rest else d :: insertByName c rest

/-- The children in ascending byte-lexical order of name. -/
def ascendingByName : List (Bytes × Node) → List (Bytes × Node)
  | [] => []
  | c :: rest => insertByName c (ascendingByName rest)

/-- A node of the tree together with the names on the way from the root to it. -/
structure Placed where
  path : List Bytes
  node : Node
  deriving Repr

/-- The children of a placed node, in ascending order of name. -/
def Placed.below (x : Placed) : List Placed :=
  (ascendingByName x.node.children).map (fun c => { path := x.path ++ [c.1], node := c.2 })

/-- The nodes below the nodes of `level`, level after level, for at most `fuel` levels. -/
def levelOrder : Nat → List Placed → List Placed
  | 0, _ => []
  | fuel + 1, level =>
    level.flatMap Placed.below ++ levelOrder fuel (level.flatMap Placed.below)

/-- The nodes of a tree in breadth-first order, the children of each node in ascending
order of name; the root itself is not listed. -/
def breadthFirst (root : Node) : List Placed :=
  levelOrder root.count [{ path := [], node := root }]

/-- The keys of a children map are in strictly ascending order. -/
def keysAscending : List (Bytes × Node) → Bool
  | [] => true
  | [_] => true
  | a :: b :: rest => strLt a.1 b.1 && keysAscending (b :: rest)

mutual
/-- The invariant of `std::map` on every `children` member of a tree: its entries are in
strictly ascending order of key. -/
def Node.ordered : Node → Bool
  | .mk children _ => keysAscending children && Node.orderedList children
/-- The invariant `Node.ordered` on the trees of a children map. -/
def Node.orderedList : List (Bytes × Node) → Bool
  | [] => true
  | c :: rest => c.2.ordered && Node.orderedList rest
end

/-- The pairs that the loop over the placed children `cs` pushes on the queue when it
starts with `j` emitted nodes. -/
def placedPushed : Nat → List Placed → List (Nat × Placed)
  | _, [] => []
  | j, c :: cs => (j + 1, c) :: placedPushed (j + 1) cs

/-- The queue loop on placed nodes: the pairs (id taken from the queue, child) in the order
of the executions of the loop body, from a queue with `j` nodes emitted. -/
def placedVisits : Nat → Nat → List (Nat × Placed) → List (Nat × Placed)
  | 0, _, _ => []
  | _ + 1, _, [] => []
  | fuel + 1, j, (parent, arg) :: rest =>
    arg.below.map (fun c => (parent, c))
      ++ placedVisits fuel (j + arg.below.length) (rest ++ placedPushed j arg.below)

/-- The visit of the loop body that a pair of `placedVisits` stands for. -/
def visitOfPlaced (e : Nat × Placed) : Visit :=
  { parent := e.1, name := e.2.path.getLastD [], node := e.2.node }

/-- The parent id `p` of the pair number `i` of `out` is right: it is 0 for a node just
below the root, and otherwise `k + 1` for the earlier pair number `k`, whose node is the
direct parent. -/
def ParentOk (out : List (Nat × Placed)) (i p : Nat) (c : Placed) : Prop :=
  (p = 0 ∧ c.path.length = 1)
  ∨ ∃ k pk y, k < i ∧ p = k + 1 ∧ out[k]? = some (pk, y) ∧ y.path = c.path.dropLast
      ∧ y.path ≠ []

/-- The queue loop without the ids. -/
def queueOrder : Nat → List Placed → List Placed
  | 0, _ => []
  | _ + 1, [] => []
  | fuel + 1, arg :: rest => arg.below ++ queueOrder fuel (rest ++ arg.below)

/-- The number of nodes of the trees of a queue of placed nodes. -/
def placedCount : List Placed → Nat
  | [] => 0
  | x :: rest => x.node.count + placedCount rest

/-- The lines of the manifest `d`, `d/a`, `d/b`: a directory (mode 40755) and two regular
files (mode 100644, size 3, checksum 3735928559), all of user 501 and group 20. -/
def exManifest : List Bytes :=
  [[100, 9, 52, 48, 55, 53, 53, 9, 53, 48, 49, 47, 50, 48],
   [100, 47, 97, 9, 49, 48, 48, 54, 52, 52, 9, 53, 48, 49, 47, 50, 48, 9, 51, 9,
     51, 55, 51, 53, 57, 50, 56, 53, 53, 57],
   [100, 47, 98, 9, 49, 48, 48, 54, 52, 52, 9, 53, 48, 49, 47, 50, 48, 9, 51, 9,
     51, 55, 51, 53, 57, 50, 56, 53, 53, 57]]

/-- The manifest with the one line `l<TAB>120777<TAB>0/0<TAB>6<TAB>0<TAB>target`. -/
def exLinkManifest : List Bytes :=
  [[108, 9, 49, 50, 48, 55, 55, 55, 9, 48, 47, 48, 9, 54, 9, 48, 9, 116, 97, 114, 103, 101, 116]]

/-- The manifest with the one line `a<TAB>100644<TAB>501/20<TAB>3<TAB>3735928559`: a regular
file of mode `0o100644`, user 501, group 20, size 3 and checksum `0xDEADBEEF`. -/
def exFileManifest : List Bytes :=
  [[97, 9, 49, 48, 48, 54, 52, 52, 9, 53, 48, 49, 47, 50, 48, 9, 51, 9,
    51, 55, 51, 53, 57, 50, 56, 53, 53, 57]]

/-- The tree of the manifest with the one regular file `a`. -/
def exFileTree : Node :=
  Node.mk [([97], Node.mk [] exFile)] { NodeInfo.init with type := .kRootNode }

/-- The number that a field of decimal digits of a manifest line stands for. -/
def decimalValue (t : Bytes) : Nat :=
  t.foldl (fun acc b => acc * 10 + (b - 48)) 0

/-- A field of a manifest line made of decimal digits: at least one digit, digits only. -/
def IsDecimal (t : Bytes) : Prop :=
  t ≠ [] ∧ ∀ b ∈ t, 48 ≤ b ∧ b ≤ 57

/-- The layout of the end of the file that `write` produces from the storage `s`: the bytes
of the block table buffer start at the offset that the header field `indexOffset` of the
file gives (the `u32` at offset 16), the bytes of the free list buffer follow them, the two
together have the length that the field `indexLength` gives (the `u32` at offset 20), and
the file ends there. -/
def IndexLayout (le : Bool) (s : BOMStorage) : Prop :=
  (s.write le).drop (ntohlAt (s.write le) 16)
      = (writeTable le s).take s.size_of_block_table
        ++ s.free_list.image.take s.size_of_free_list
  ∧ ((writeTable le s).take s.size_of_block_table).length
      + (s.free_list.image.take s.size_of_free_list).length = ntohlAt (s.write le) 20
  ∧ (s.write le).length = ntohlAt (s.write le) 16 + ntohlAt (s.write le) 20

/-- The manifest of the two regular files `a` and `a/b` (mode 100644, user 501, group 20,
size 3, checksum 3735928559): the path of the second goes through the first. -/
def exNestedFileManifest : List Bytes :=
  [[97, 9, 49, 48, 48, 54, 52, 52, 9, 53, 48, 49, 47, 50, 48, 9, 51, 9,
    51, 55, 51, 53, 57, 50, 56, 53, 53, 57],
   [97, 47, 98, 9, 49, 48, 48, 54, 52, 52, 9, 53, 48, 49, 47, 50, 48, 9, 51, 9,
    51, 55, 51, 53, 57, 50, 56, 53, 53, 57]]

/-- The tree of the manifest of the regular files `a` and `a/b`. -/
def exNestedFileTree : Node :=
  Node.mk [([97], Node.mk [([98], Node.mk [] exFile)] exFile)]
    { NodeInfo.init with type := .kRootNode }

/-! ## The dumper (`dumpbom.cpp`)

The dumper reads the whole file into `buffer` and converts the fields in place
(`x = ntohl (x)`), so the model passes the buffer along.  An access outside the buffer is
undefined behaviour in C++; the model stops there with `outOfBuffer`.  The offsets of the
members of the structs are those of the file format (`bom.h` is not among the sources). -/

/-- The ways in which the model of `dumpbom` stops without a result: an access outside
`buffer`, or the end of the fuel of the recursion over the pages. -/
inductive DumpStop where
  | outOfBuffer
  | outOfFuel
  deriving DecidableEq, Repr

/-- The value that the host reads from the `uint32_t` member at offset `off`. -/
def load32 (le : Bool) (buffer : Bytes) (off : Nat) : Except DumpStop Nat :=
  if off + 4 ≤ buffer.length then
    .ok (if le then
      buffer.getD off 0 + buffer.getD (off + 1) 0 * 256 + buffer.getD (off + 2) 0 * 65536
        + buffer.getD (off + 3) 0 * 16777216
    else ntohlAt buffer off)
  else .error .outOfBuffer

/-- The value that the host reads from the `uint16_t` member at offset `off`. -/
def load16 (le : Bool) (buffer : Bytes) (off : Nat) : Except DumpStop Nat :=
  if off + 2 ≤ buffer.length then
    .ok (if le then buffer.getD off 0 + buffer.getD (off + 1) 0 * 256 else ntohsAt buffer off)
  else .error .outOfBuffer

/-- The value of the `uint8_t` at offset `off`. -/
def load8 (buffer : Bytes) (off : Nat) : Except DumpStop Nat :=
  if off + 1 ≤ buffer.length then .ok (u8 (buffer.getD off 0)) else .error .outOfBuffer

/-- The value of `ntohl (x)` for the `uint32_t` member `x` at offset `off`: on either host
it is the big-endian reading of the four bytes. -/
def ntohl32 (buffer : Bytes) (off : Nat) : Except DumpStop Nat :=
  if off + 4 ≤ buffer.length then .ok (ntohlAt buffer off) else .error .outOfBuffer

/-- The assignment `x = ntohl (x)` for the `uint32_t` member `x` at offset `off`: a
little-endian host reverses the four bytes, a big-endian host leaves them. -/
def conv32 (le : Bool) (buffer : Bytes) (off : Nat) : Except DumpStop Bytes :=
  if off + 4 ≤ buffer.length then
    .ok (if le then writeAt buffer off ((buffer.drop off).take 4).reverse else buffer)
  else .error .outOfBuffer

/-- The assignment `x = ntohs (x)` for the `uint16_t` member `x` at offset `off`. -/
def conv16 (le : Bool) (buffer : Bytes) (off : Nat) : Except DumpStop Bytes :=
  if off + 2 ≤ buffer.length then
    .ok (if le then writeAt buffer off ((buffer.drop off).take 2).reverse else buffer)
  else .error .outOfBuffer

/-- The `n` bytes at offset `off` (`std::string (p, n)`). -/
def loadBytes (buffer : Bytes) (off n : Nat) : Except DumpStop Bytes :=
  if off + n ≤ buffer.length then .ok ((buffer.drop off).take n) else .error .outOfBuffer

/-- The C string at offset `off`: the bytes before the first NUL. -/
def loadCString (buffer : Bytes) (off : Nat) : Except DumpStop Bytes :=
  if 0 ∈ buffer.drop off then .ok ((buffer.drop off).takeWhile (· ≠ 0))
  else .error .outOfBuffer

/-- One line group of the loop over the entries of a page in `print_paths`. -/
structure DumpedEntry where
  index0 : Nat
  parent : Nat
  name : Bytes
  deriving DecidableEq, Repr

/-- What one call of `print_paths` prints for its page. -/
structure DumpedPage where
  id : Nat
  isLeaf : Nat
  count : Nat
  forward : Nat
  backward : Nat
  entries : List DumpedEntry
  deriving DecidableEq, Repr

/-- What `print_tree` prints: the fields of the tree and the pages of the walk, in the order
in which they are printed. -/
structure DumpedTree where
  tree : Bytes
  version : Nat
  child : Nat
  blockSize : Nat
  pathCount : Nat
  unknown3 : Nat
  pages : List DumpedPage
  deriving DecidableEq, Repr

/-- What `main` prints for one variable, by the name of the variable. -/
inductive DumpedVar where
  | tree (t : DumpedTree)
  | info (version numberOfPaths numberOfInfoEntries : Nat) (entries : List (List Nat))
  | vindex (unknown0 indexToVTree unknown2 unknown3 : Nat) (t : DumpedTree)
  | raw (words : List Nat) (bytes : List Nat)
  deriving DecidableEq, Repr

/-- What `main` prints for one variable: its name, the pointer of its block and the
content. -/
structure DumpedSection where
  name : Bytes
  address : Nat
  length : Nat
  content : DumpedVar
  deriving DecidableEq, Repr

/-- What `main` prints before the variables: the header, the counts of the block table and
of the free list, and the names of the variables. -/
structure DumpedIndex where
  magic : Bytes
  version : Nat
  numberOfBlocks : Nat
  indexOffset : Nat
  indexLength : Nat
  varsOffset : Nat
  varsLength : Nat
  numberOfNonNullEntries : Nat
  numberOfBlockTablePointers : Nat
  numberOfFreeListPointers : Nat
  varsCount : Nat
  calculatedLength : Nat
  names : List Bytes
  deriving DecidableEq, Repr

/-- The loop of `print_paths` over the entries `i`, `i + 1`, ... of the page at offset
`paths`, `n` being the number of entries that remain. -/
def print_entries (le : Bool) (buffer : Bytes) (paths block_table : Nat) :
    Nat → Nat → Except DumpStop (List DumpedEntry)
  | 0, _ => .ok []
  | n + 1, i => do
    let index1 ← ntohl32 buffer (paths + 12 + 8 * i + 4)
    let address ← load32 le buffer (block_table + 4 + 8 * index1)
    let index0 ← ntohl32 buffer (paths + 12 + 8 * i)
    let parent ← ntohl32 buffer address
    let name ← loadCString buffer (address + 4)
    let rest ← print_entries le buffer paths block_table n (i + 1)
    .ok ({ index0 := index0, parent := parent, name := name } :: rest)

/-- `print_paths (paths, buffer, block_table, id)`: the page at offset `paths` is converted
in place and printed, then the page below it when it is not a leaf, then its `forward`
sibling.  Returns the buffer and the pages printed, in order. -/
def print_paths (le : Bool) (block_table : Nat) :
    Nat → Bytes → Nat → Nat → Except DumpStop (Bytes × List DumpedPage)
  | 0, _, _, _ => .error .outOfFuel
  | fuel + 1, buffer, paths, id => do
    let buffer ← conv16 le buffer paths
    let buffer ← conv16 le buffer (paths + 2)
    let buffer ← conv32 le buffer (paths + 4)
    let buffer ← conv32 le buffer (paths + 8)
    let isLeaf ← load16 le buffer paths
    let count ← load16 le buffer (paths + 2)
    let forward ← load32 le buffer (paths + 4)
    let backward ← load32 le buffer (paths + 8)
    let entries ← print_entries le buffer paths block_table count 0
    let page : DumpedPage :=
      { id := id, isLeaf := isLeaf, count := count, forward := forward, backward := backward
        entries := entries }
    let below ←
      if isLeaf = 0 then do
        let child ← ntohl32 buffer (paths + 12)
        let address ← load32 le buffer (block_table + 4 + 8 * child)
        print_paths le block_table fuel buffer address child
      else .ok (buffer, [])
    let forward ← load32 le below.1 (paths + 4)
    let after ←
      if forward ≠ 0 then do
        let address ← load32 le below.1 (block_table + 4 + 8 * forward)
        print_paths le block_table fuel below.1 address forward
      else .ok (below.1, [])
    .ok (after.1, page :: below.2 ++ after.2)

/-- `print_tree (tree, buffer, block_table)` for the tree at offset `tree`. -/
def print_tree (le : Bool) (fuel : Nat) (buffer : Bytes) (tree block_table : Nat) :
    Except DumpStop (Bytes × DumpedTree) := do
  let buffer ← conv32 le buffer (tree + 4)
  let buffer ← conv32 le buffer (tree + 8)
  let buffer ← conv32 le buffer (tree + 12)
  let buffer ← conv32 le buffer (tree + 16)
  let type ← loadBytes buffer tree 4
  let version ← load32 le buffer (tree + 4)
  let child ← load32 le buffer (tree + 8)
  let blockSize ← load32 le buffer (tree + 12)
  let pathCount ← load32 le buffer (tree + 16)
  let unknown3 ← load8 buffer (tree + 20)
  let address ← load32 le buffer (block_table + 4 + 8 * child)
  let r ← print_paths le block_table fuel buffer address child
  .ok (r.1, { tree := type, version := version, child := child, blockSize := blockSize
              pathCount := pathCount, unknown3 := unknown3, pages := r.2 })

/-- The loop of `main` that converts the pointers `i`, `i + 1`, ... of the block table at
offset `block_table` and counts those with an address other than 0; `n` is the number of
pointers that remain. -/
def convert_pointers (le : Bool) (block_table : Nat) :
    Nat → Nat → Bytes → Nat → Except DumpStop (Bytes × Nat)
  | 0, _, buffer, nonNull => .ok (buffer, nonNull)
  | n + 1, i, buffer, nonNull => do
    let address ← load32 le buffer (block_table + 4 + 8 * i)
    if address ≠ 0 then do
      let buffer ← conv32 le buffer (block_table + 4 + 8 * i)
      let buffer ← conv32 le buffer (block_table + 4 + 8 * i + 4)
      convert_pointers le block_table n (i + 1) buffer (nonNull + 1)
    else convert_pointers le block_table n (i + 1) buffer nonNull

/-- The loop of `main` that converts the pointers of the free list at offset `free_list`. -/
def convert_free_pointers (le : Bool) (free_list : Nat) :
    Nat → Nat → Bytes → Except DumpStop Bytes
  | 0, _, buffer => .ok buffer
  | n + 1, i, buffer => do
    let buffer ← conv32 le buffer (free_list + 4 + 8 * i)
    let buffer ← conv32 le buffer (free_list + 4 + 8 * i + 4)
    convert_free_pointers le free_list n (i + 1) buffer

/-- The first loop of `main` over the variables: the `index` of the variable at offset
`var` is converted, and `total_length` (an `unsigned int`) is advanced past it.  Returns the
buffer and `total_length`. -/
def convert_vars (le : Bool) : Nat → Bytes → Nat → Nat → Except DumpStop (Bytes × Nat)
  | 0, buffer, _, total_length => .ok (buffer, total_length)
  | n + 1, buffer, var, total_length => do
    let buffer ← conv32 le buffer var
    let length ← load8 buffer (var + 4)
    let total_length := u32 (u32 (total_length + 4) + (length + 1))
    let varsOffset ← load32 le buffer 24
    convert_vars le n buffer (u32 (varsOffset + total_length)) total_length

/-- The second loop of `main` over the variables: the names, in order. -/
def var_names (le : Bool) (buffer : Bytes) : Nat → Nat → Nat → Except DumpStop (List Bytes)
  | 0, _, _ => .ok []
  | n + 1, var, total_length => do
    let length ← load8 buffer (var + 4)
    let total_length := u32 (u32 (total_length + 4) + (length + 1))
    let name ← loadBytes buffer (var + 5) length
    let varsOffset ← load32 le buffer 24
    let rest ← var_names le buffer n (u32 (varsOffset + total_length)) total_length
    .ok (name :: rest)

/-- The number of executions of a loop `for (int i = 0; i < var_count; ++i)` when the
`int` was assigned the `uint32_t` value `count`. -/
def intLoopCount (count : Nat) : Nat := if count < 2147483648 then count else 0

/-- The six assignments `header->version = ntohl (header->version)` to
`header->varsLength = ntohl (header->varsLength)` of `main`. -/
def convert_header (le : Bool) (buffer : Bytes) : Except DumpStop Bytes := do
  let buffer ← conv32 le buffer 8
  let buffer ← conv32 le buffer 12
  let buffer ← conv32 le buffer 16
  let buffer ← conv32 le buffer 20
  let buffer ← conv32 le buffer 24
  conv32 le buffer 28

/-- The part of `main` from the header to the list of the names of the variables: the
header fields, the block table, the free list and the `index` of every variable are
converted in place.  Returns the buffer, the offset `block_table` and what is printed. -/
def dump_open (le : Bool) (buffer : Bytes) : Except DumpStop (Bytes × Nat × DumpedIndex) := do
  let buffer ← convert_header le buffer
  let block_table ← load32 le buffer 16
  let buffer ← conv32 le buffer block_table
  let count ← load32 le buffer block_table
  let r ← convert_pointers le block_table count 0 buffer 0
  let buffer := r.1
  let magic ← loadBytes buffer 0 8
  let version ← load32 le buffer 8
  let numberOfBlocks ← load32 le buffer 12
  let indexOffset ← load32 le buffer 16
  let indexLength ← load32 le buffer 20
  let varsOffset ← load32 le buffer 24
  let varsLength ← load32 le buffer 28
  let count ← load32 le buffer block_table
  let free_list := u32 (indexOffset + 4 + count * 8)
  let buffer ← conv32 le buffer free_list
  let free ← load32 le buffer free_list
  let buffer ← convert_free_pointers le free_list free 0 buffer
  let varsOffset2 ← load32 le buffer 24
  let buffer ← conv32 le buffer varsOffset2
  let varsCount ← load32 le buffer varsOffset2
  let c ← convert_vars le (intLoopCount varsCount) buffer (varsOffset2 + 4) 4
  let buffer := c.1
  let varsCount2 ← load32 le buffer varsOffset2
  let names ← var_names le buffer (intLoopCount varsCount) (varsOffset2 + 4) 4
  .ok (buffer, block_table,
    { magic := magic, version := version, numberOfBlocks := numberOfBlocks
      indexOffset := indexOffset, indexLength := indexLength, varsOffset := varsOffset
      varsLength := varsLength, numberOfNonNullEntries := r.2
      numberOfBlockTablePointers := count, numberOfFreeListPointers := free
      varsCount := varsCount2, calculatedLength := c.2, names := names })

/-- The loop over the entries of `BomInfo` that converts the four fields of each. -/
def convert_info_entries (le : Bool) (info : Nat) : Nat → Nat → Bytes → Except DumpStop Bytes
  | 0, _, buffer => .ok buffer
  | n + 1, i, buffer => do
    let buffer ← conv32 le buffer (info + 12 + 16 * i)
    let buffer ← conv32 le buffer (info + 12 + 16 * i + 4)
    let buffer ← conv32 le buffer (info + 12 + 16 * i + 8)
    let buffer ← conv32 le buffer (info + 12 + 16 * i + 12)
    convert_info_entries le info n (i + 1) buffer

/-- The loop that prints the entries of `BomInfo`. -/
def info_entries (le : Bool) (buffer : Bytes) (info : Nat) :
    Nat → Nat → Except DumpStop (List (List Nat))
  | 0, _ => .ok []
  | n + 1, i => do
    let u0 ← load32 le buffer (info + 12 + 16 * i)
    let u1 ← load32 le buffer (info + 12 + 16 * i + 4)
    let u2 ← load32 le buffer (info + 12 + 16 * i + 8)
    let u3 ← load32 le buffer (info + 12 + 16 * i + 12)
    let rest ← info_entries le buffer info n (i + 1)
    .ok ([u0, u1, u2, u3] :: rest)

/-- The first loop of the dump of an unknown variable: the words `ntohl (raw[i])`. -/
def raw_words (buffer : Bytes) (address : Nat) : Nat → Nat → Except DumpStop (List Nat)
  | 0, _ => .ok []
  | n + 1, i => do
    let w ← ntohl32 buffer (address + 4 * i)
    let rest ← raw_words buffer address n (i + 1)
    .ok (w :: rest)

/-- The number that `std::cout` prints in base 16 for `(int) buffer[off]`, where `buffer`
points to `char`, taken as signed (as on x86): a byte of 128 or more is a negative `int`,
printed as the 32 bits of its two's complement. -/
def loadChar (buffer : Bytes) (off : Nat) : Except DumpStop Nat :=
  if off + 1 ≤ buffer.length then
    .ok (if 128 ≤ u8 (buffer.getD off 0) then 4294967040 + u8 (buffer.getD off 0)
      else u8 (buffer.getD off 0))
  else .error .outOfBuffer

/-- The second loop of the dump of an unknown variable: the bytes that remain. -/
def raw_bytes (buffer : Bytes) (address : Nat) : Nat → Nat → Except DumpStop (List Nat)
  | 0, _ => .ok []
  | n + 1, i => do
    let b ← loadChar buffer (address + i)
    let rest ← raw_bytes buffer address n (i + 1)
    .ok (b :: rest)

/-- The branch of `main` on the name of a variable whose block is at `address` and has the
length `length`. -/
def dump_var (le : Bool) (fuel : Nat) (block_table : Nat) (buffer : Bytes) (name : Bytes)
    (address length : Nat) : Except DumpStop (Bytes × DumpedVar) :=
  if name = [80, 97, 116, 104, 115] ∨ name = [72, 76, 73, 110, 100, 101, 120]
      ∨ name = [83, 105, 122, 101, 54, 52] then do
    let r ← print_tree le fuel buffer address block_table
    .ok (r.1, .tree r.2)
  else if name = [66, 111, 109, 73, 110, 102, 111] then do
    let buffer ← conv32 le buffer address
    let buffer ← conv32 le buffer (address + 4)
    let buffer ← conv32 le buffer (address + 8)
    let n ← load32 le buffer (address + 8)
    let buffer ← convert_info_entries le address n 0 buffer
    let version ← load32 le buffer address
    let numberOfPaths ← load32 le buffer (address + 4)
    let numberOfInfoEntries ← load32 le buffer (address + 8)
    let entries ← info_entries le buffer address numberOfInfoEntries 0
    .ok (buffer, .info version numberOfPaths numberOfInfoEntries entries)
  else if name = [86, 73, 110, 100, 101, 120] then do
    let buffer ← conv32 le buffer address
    let buffer ← conv32 le buffer (address + 4)
    let buffer ← conv32 le buffer (address + 8)
    let unknown0 ← load32 le buffer address
    let indexToVTree ← load32 le buffer (address + 4)
    let unknown2 ← load32 le buffer (address + 8)
    let unknown3 ← load8 buffer (address + 12)
    let v_address ← load32 le buffer (block_table + 4 + 8 * indexToVTree)
    let r ← print_tree le fuel buffer v_address block_table
    .ok (r.1, .vindex unknown0 indexToVTree unknown2 unknown3 r.2)
  else do
    let words ← raw_words buffer address (length / 4) 0
    let bytes ← raw_bytes buffer address (length - length / 4 * 4) (length / 4 * 4)
    .ok (buffer, .raw words bytes)

/-- The last loop of `main` over the variables: each is printed by its name. -/
def dump_vars (le : Bool) (fuel : Nat) (block_table : Nat) :
    Nat → Bytes → Nat → Except DumpStop (List DumpedSection)
  | 0, _, _ => .ok []
  | n + 1, buffer, total_length => do
    let varsOffset ← load32 le buffer 24
    let var := u32 (varsOffset + total_length)
    let length ← load8 buffer (var + 4)
    let total_length := u32 (total_length + (4 + 1 + length))
    let name ← loadBytes buffer (var + 5) length
    let index ← load32 le buffer var
    let address ← load32 le buffer (block_table + 4 + 8 * index)
    let ptr_length ← load32 le buffer (block_table + 4 + 8 * index + 4)
    let r ← dump_var le fuel block_table buffer name address ptr_length
    let rest ← dump_vars le fuel block_table n r.1 total_length
    .ok ({ name := name, address := address, length := ptr_length, content := r.2 } :: rest)

/-- `main` of `dumpbom` on the bytes of the file: what is printed before the variables and
for each variable.  `fuel` bounds the depth of the recursion of `print_paths`. -/
def dumpbom (le : Bool) (fuel : Nat) (buffer : Bytes) :
    Except DumpStop (DumpedIndex × List DumpedSection) := do
  let o ← dump_open le buffer
  let varsOffset ← load32 le o.1 24
  let varsCount ← load32 le o.1 varsOffset
  let sections ← dump_vars le fuel o.2.1 (intLoopCount varsCount) o.1 4
  .ok (o.2.2, sections)

/-- The error with which a run of the dumper stops, if it stops. -/
def stopOf {α : Type} : Except DumpStop α → Option DumpStop
  | .error e => some e
  | .ok _ => none

/-- Two runs end alike: both stop with the same error, or both return, with results that
are related by `R`. -/
def ExRel {α β : Type} (R : α → β → Prop) : Except DumpStop α → Except DumpStop β → Prop
  | .ok a, .ok b => R a b
  | .error e, .error f => e = f
  | _, _ => False

/-- Two buffers of the same length that hold the same bytes from offset `k` on. -/
def Agree (k : Nat) (b1 b2 : Bytes) : Prop :=
  b1.length = b2.length ∧ ∀ i, k ≤ i → b1.getD i 0 = b2.getD i 0

/-- What `main` prints before the variables, without the magic and the version. -/
def DumpedIndex.afterVersion (d : DumpedIndex) : DumpedIndex :=
  { d with magic := [], version := 0 }

/-- The bytes after the magic and the version of a small file: a header with one block,
`indexOffset = 46`, `indexLength = 24`, `varsOffset = 32` and `varsLength = 10`; the vars
with the one variable `X` of block 1; the four bytes of block 1; the block table with the
null pointer and the pointer of block 1 (address 42, length 4); the empty free list. -/
def exStoreTail : Bytes :=
  [0, 0, 0, 1, 0, 0, 0, 46, 0, 0, 0, 24, 0, 0, 0, 32, 0, 0, 0, 10,
   0, 0, 0, 1, 0, 0, 0, 1, 1, 88,
   222, 173, 190, 239,
   0, 0, 0, 2, 0, 0, 0, 0, 0, 0, 0, 0, 0, 0, 0, 42, 0, 0, 0, 4,
   0, 0, 0, 0]

/-- The small file with the magic `BOMStore` and the version 1. -/
def exStore : Bytes := magicBOMStore ++ htonl 1 ++ exStoreTail

/-- The small file with the magic `NotABOM!` and the version 2. -/
def exNotAStore : Bytes := [78, 111, 116, 65, 66, 79, 77, 33] ++ htonl 2 ++ exStoreTail

/-! ## The tree that "create tree" builds, in the words of the specification -/

/-- The values of `full_path` at the lookups of the inner loop of "create tree" for the path
elements `elems`, when the loop reaches them with `full_path = full`. -/
def fullPaths : Bytes → List Bytes → List Bytes
  | _, [] => []
  | full, e :: r => (full ++ e) :: fullPaths (full ++ e ++ [47]) r

/-- The key of the node at the end of the path `p` below a node whose `full_path`, with its
`'/'`, is `full`: the elements of `p` joined by `'/'`, after `full`. -/
def keyAt : Bytes → List Bytes → Bytes
  | full, [] => full
  | full, [e] => full ++ e
  | full, e :: f :: r => keyAt (full ++ e ++ [47]) (f :: r)

/-- The node at the end of the path `p` below `t`, through the children maps. -/
def Node.find : Node → List Bytes → Option Node
  | t, [] => some t
  | t, e :: r =>
    match mapFind t.children e with
    | none => none
    | some c => Node.find c r

/-- The string `p` is a proper `'/'`-component prefix of the path `k`: `k` is `p`, a `'/'`
and more. -/
def IsProperPrefix (p k : Bytes) : Prop := ∃ rest, k = p ++ 47 :: rest

/-- The path names a node by its last component: it is not empty and its last byte is not
`'/'`. -/
def endsNamed : Bytes → Bool
  | [] => false
  | [c] => decide (c ≠ 47)
  | _ :: d :: r => endsNamed (d :: r)

mutual
/-- The paths, from below `t`, of the nodes below `t`. -/
def Node.paths : Node → List (List Bytes)
  | .mk children _ => Node.pathsList children
/-- The paths of the nodes of the trees of a children map. -/
def Node.pathsList : List (Bytes × Node) → List (List Bytes)
  | [] => []
  | c :: rest => ([c.1] :: (Node.paths c.2).map (c.1 :: ·)) ++ Node.pathsList rest
end

/-- Every node below `t`, whose `full_path` with its `'/'` is `full`, holds the record that
`all_nodes` stores under its key. -/
def Keyed (all_nodes : List (Bytes × NodeInfo)) (full : Bytes) (t : Node) : Prop :=
  ∀ p x, p ≠ [] → t.find p = some x → mapFind all_nodes (keyAt full p) = some x.info

/-- The member `header.numberOfBlocks` counts the blocks of the storage, the null block 0
left out: it is `num_block_entries - 1`, as a `uint32_t`. -/
def BOMStorage.CountsBlocks (s : BOMStorage) : Prop :=
  s.header.numberOfBlocks = u32 (s.num_block_entries - 1) ∧ 1 ≤ s.num_block_entries

/-- The proper `'/'`-component prefixes of a path: the path before each of its `'/'`. -/
def properPrefixes (k : Bytes) : List Bytes :=
  (List.range k.length).filterMap (fun i => if k[i]? = some 47 then some (k.take i) else none)

/-- The manifest of the two regular files `a` and `a/` (mode 100644, user 501, group 20,
size 3, checksum 3735928559): the second path ends in `'/'`. -/
def exTrailingSlashManifest : List Bytes :=
  [[97, 9, 49, 48, 48, 54, 52, 52, 9, 53, 48, 49, 47, 50, 48, 9, 51, 9,
    51, 55, 51, 53, 57, 50, 56, 53, 53, 57],
   [97, 47, 9, 49, 48, 48, 54, 52, 52, 9, 53, 48, 49, 47, 50, 48, 9, 51, 9,
    51, 55, 51, 53, 57, 50, 56, 53, 53, 57]]

/-- The manifest with the one line of the regular file `d/a`, without a line for `d`. -/
def exOrphanManifest : List Bytes :=
  [[100, 47, 97, 9, 49, 48, 48, 54, 52, 52, 9, 53, 48, 49, 47, 50, 48, 9, 51, 9,
    51, 55, 51, 53, 57, 50, 56, 53, 53, 57]]

/-! ## Strings without NUL -/

/-- No byte of the string is NUL: `c_str ()` gives the whole string, and `strcpy` copies
`s.size () + 1` bytes. -/
def noNul (s : Bytes) : Bool := s.all (· ≠ 0)

mutual
/-- Every name and every link name of the tree is free of NUL, so that each `strcpy` of
`write_bom` fills the buffer that was allocated for it. -/
def Node.nulFree : Node → Bool
  | .mk children info => noNul info.linkName && Node.nulFreeList children
/-- The names of a children map and the trees below them are free of NUL. -/
def Node.nulFreeList : List (Bytes × Node) → Bool
  | [] => true
  | c :: rest => noNul c.1 && c.2.nulFree && Node.nulFreeList rest
end

/-! # Properties -/

/-! ## Byte order -/

@[simp] theorem htonl_length (x : Nat) : (htonl x).length = 4 := rfl

@[simp] theorem htons_length (x : Nat) : (htons x).length = 2 := rfl

@[simp] theorem hostl_length (le : Bool) (x : Nat) : (hostl le x).length = 4 := by
  cases le <;> rfl

theorem htonl_u32 (x : Nat) : htonl (u32 x) = htonl x := by
  simp only [htonl, u32]
  have h1 : x % 4294967296 / 16777216 % 256 = x / 16777216 % 256 := by omega
  have h2 : x % 4294967296 / 65536 % 256 = x / 65536 % 256 := by omega
  have h3 : x % 4294967296 / 256 % 256 = x / 256 % 256 := by omega
  have h4 : x % 4294967296 % 256 = x % 256 := by omega
  rw [h1, h2, h3, h4]

theorem htonl_add_u32 (a b : Nat) : htonl (a + u32 b) = htonl (a + b) := by
  rw [← htonl_u32 (a + u32 b), ← htonl_u32 (a + b)]
  congr 1
  simp only [u32]
  omega

theorem ntohlAt_htonl (x : Nat) (rest : Bytes) : ntohlAt (htonl x ++ rest) 0 = u32 x := by
  simp only [ntohlAt, htonl, u32, List.getD_eq_getElem?_getD]
  simp
  omega

theorem u32_of_lt {x : Nat} (h : x < 4294967296) : u32 x = x := Nat.mod_eq_of_lt h

/-! ## The invariants are kept -/

theorem BOMStorage.inv_new : BOMStorage.new.Inv := by
  constructor <;> rfl

theorem BOMStorage.addBlock_fst_entries (s : BOMStorage) (h : s.Inv) (data : Bytes) :
    (s.addBlock data).1.entries = s.entries ++ data := by
  simp [BOMStorage.addBlock, h.entry_size_eq]

theorem BOMStorage.addBlock_fst_pointers (s : BOMStorage) (h : s.Inv) (data : Bytes) :
    (s.addBlock data).1.block_table.blockPointers
      = s.block_table.blockPointers
          ++ [{ address := s.entries.length, length := u32 data.length }] := by
  simp [BOMStorage.addBlock, h.entry_size_eq, h.num_entries_eq]

theorem BOMStorage.addBlock_snd (s : BOMStorage) (data : Bytes) :
    (s.addBlock data).2 = s.num_block_entries := by
  simp [BOMStorage.addBlock]

theorem BOMStorage.inv_addBlock (s : BOMStorage) (h : s.Inv) (data : Bytes) :
    (s.addBlock data).1.Inv := by
  have hp := s.addBlock_fst_pointers h data
  have he := s.addBlock_fst_entries h data
  constructor
  · exact h.header_size
  · exact h.magic_length
  · rw [he]; simp [BOMStorage.addBlock, h.entry_size_eq]
  · rw [hp]; simp [BOMStorage.addBlock, h.num_entries_eq]
  · rfl
  · simp [BOMStorage.addBlock, sizeof_uint32, sizeof_BOMPointer]; ring
  · exact h.free_size
  · exact h.free_list_eq
  · exact h.vars_size
  · exact h.vars_length
  · rfl
  · exact h.magic_eq
  · exact h.version_eq
  · exact h.vars_offset

theorem BOMVars.image_length_snoc (v : BOMVars) (c : Nat) (x : BOMVar) :
    (BOMVars.image { count := c, first := v.first ++ [x] }).length
      = v.image.length + (4 + 1 + x.name.length) := by
  simp [BOMVars.image, BOMVar.image, List.length_flatten]
  omega

theorem BOMStorage.inv_addVar (s : BOMStorage) (h : s.Inv) (name data : Bytes) :
    (s.addVar name data).Inv := by
  have he : (s.addVar name data).entries = s.entries ++ data := by
    simp [BOMStorage.addVar, BOMStorage.addBlock, h.entry_size_eq]
  have hp : (s.addVar name data).block_table.blockPointers
      = s.block_table.blockPointers
          ++ [{ address := s.entries.length, length := u32 data.length }] := by
    simp [BOMStorage.addVar, BOMStorage.addBlock, h.entry_size_eq, h.num_entries_eq]
  constructor
  · exact h.header_size
  · exact h.magic_length
  · rw [he]; simp [BOMStorage.addVar, BOMStorage.addBlock, h.entry_size_eq]
  · rw [hp]; simp [BOMStorage.addVar, BOMStorage.addBlock, h.num_entries_eq]
  · rfl
  · simp [BOMStorage.addVar, BOMStorage.addBlock, sizeof_uint32, sizeof_BOMPointer]; ring
  · exact h.free_size
  · exact h.free_list_eq
  · show s.size_of_vars + (sizeof_uint32 + 1 + name.length) = _
    simp only [BOMStorage.addVar, BOMStorage.addBlock]
    rw [BOMVars.image_length_snoc, h.vars_size]
    rfl
  · rfl
  · rfl
  · exact h.magic_eq
  · exact h.version_eq
  · exact h.vars_offset

theorem BOMStorage.inv_apply (s : BOMStorage) (h : s.Inv) (op : Op) : (s.apply op).Inv := by
  cases op with
  | addBlock d => exact s.inv_addBlock h d
  | addVar n d => exact s.inv_addVar h n d

theorem BOMStorage.inv_run (s : BOMStorage) (h : s.Inv) (ops : List Op) : (s.run ops).Inv := by
  induction ops generalizing s with
  | nil => exact h
  | cons op ops ih => exact ih (s.apply op) (s.inv_apply h op)

theorem BOMStorage.run_snoc (s : BOMStorage) (ops : List Op) (op : Op) :
    s.run (ops ++ [op]) = (s.run ops).apply op := by
  simp [BOMStorage.run, List.foldl_append]

theorem BOMStorage.apply_entries (s : BOMStorage) (h : s.Inv) (op : Op) :
    (s.apply op).entries = s.entries ++ op.data := by
  cases op with
  | addBlock d => exact s.addBlock_fst_entries h d
  | addVar n d => simp [BOMStorage.apply, Op.data, BOMStorage.addVar, BOMStorage.addBlock, h.entry_size_eq]

theorem BOMStorage.apply_pointers (s : BOMStorage) (h : s.Inv) (op : Op) :
    (s.apply op).block_table.blockPointers
      = s.block_table.blockPointers
          ++ [{ address := s.entries.length, length := u32 op.data.length }] := by
  cases op with
  | addBlock d => exact s.addBlock_fst_pointers h d
  | addVar n d =>
    simp [BOMStorage.apply, Op.data, BOMStorage.addVar, BOMStorage.addBlock, h.entry_size_eq,
      h.num_entries_eq]

/-- The payload buffer after a sequence of mutations is the concatenation of the blocks
passed. -/
theorem BOMStorage.run_entries (ops : List Op) :
    (BOMStorage.new.run ops).entries = (ops.map Op.data).flatten := by
  induction ops using List.reverseRecOn with
  | nil => rfl
  | append_singleton ops op ih =>
    rw [BOMStorage.run_snoc, BOMStorage.apply_entries _ (BOMStorage.inv_run _ BOMStorage.inv_new _), ih]
    simp

/-- The pointers of the block table after a sequence of mutations: the reserved slot,
then one pointer per block with the length passed. -/
theorem BOMStorage.run_pointer_lengths (ops : List Op) :
    (BOMStorage.new.run ops).block_table.blockPointers.map BOMPointer.length
      = 0 :: ops.map (fun op => u32 op.data.length) := by
  induction ops using List.reverseRecOn with
  | nil => rfl
  | append_singleton ops op ih =>
    rw [BOMStorage.run_snoc, BOMStorage.apply_pointers _ (BOMStorage.inv_run _ BOMStorage.inv_new _)]
    simp [ih]

theorem BOMStorage.run_num_block_entries (ops : List Op) :
    (BOMStorage.new.run ops).num_block_entries = ops.length + 1 := by
  have h := (BOMStorage.inv_run _ BOMStorage.inv_new ops).num_entries_eq
  have h2 := congrArg List.length (BOMStorage.run_pointer_lengths ops)
  simp at h2
  omega

/-! ## The blocks held by a container -/

theorem ptrsFrom_length (off : Nat) (bs : List Bytes) : (ptrsFrom off bs).length = bs.length := by
  induction bs generalizing off with
  | nil => rfl
  | cons b bs ih => simp [ptrsFrom, ih]

theorem ptrsFrom_append (off : Nat) (bs cs : List Bytes) :
    ptrsFrom off (bs ++ cs) = ptrsFrom off bs ++ ptrsFrom (off + bs.flatten.length) cs := by
  induction bs generalizing off with
  | nil => simp [ptrsFrom]
  | cons b bs ih => simp [ptrsFrom, ih, Nat.add_assoc]

theorem ptrsFrom_getElem? (off : Nat) (bs : List Bytes) (i : Nat) (hi : i < bs.length) :
    (ptrsFrom off bs)[i]?
      = some { address := off + (bs.take i).flatten.length, length := u32 (bs[i]).length } := by
  induction bs generalizing off i with
  | nil => simp at hi
  | cons b bs ih =>
    cases i with
    | zero => simp [ptrsFrom]
    | succ i =>
      simp only [ptrsFrom, List.getElem?_cons_succ, List.take_succ_cons, List.flatten_cons,
        List.length_append, List.getElem_cons_succ]
      rw [ih (off + b.length) i (by simpa using hi)]
      simp [Nat.add_assoc]

theorem BOMStorage.holds_new : BOMStorage.new.Holds [] :=
  ⟨BOMStorage.inv_new, rfl, rfl⟩

theorem BOMStorage.Holds.num_block_entries {s : BOMStorage} {bs : List Bytes} (h : s.Holds bs) :
    s.num_block_entries = bs.length + 1 := by
  rw [h.inv.num_entries_eq, h.pointers_eq]
  simp [ptrsFrom_length]

theorem BOMStorage.Holds.addBlock {s : BOMStorage} {bs : List Bytes} (h : s.Holds bs)
    (data : Bytes) : (s.addBlock data).1.Holds (bs ++ [data]) := by
  refine ⟨s.inv_addBlock h.inv data, ?_, ?_⟩
  · rw [s.addBlock_fst_entries h.inv, h.entries_eq]; simp
  · rw [s.addBlock_fst_pointers h.inv, h.pointers_eq, ptrsFrom_append, h.entries_eq]
    simp [ptrsFrom]

theorem BOMStorage.Holds.addBlock_id {s : BOMStorage} {bs : List Bytes} (h : s.Holds bs)
    (data : Bytes) : (s.addBlock data).2 = bs.length + 1 := by
  rw [s.addBlock_snd, h.num_block_entries]

theorem BOMStorage.Holds.apply {s : BOMStorage} {bs : List Bytes} (h : s.Holds bs)
    (op : Op) : (s.apply op).Holds (bs ++ [op.data]) := by
  refine ⟨s.inv_apply h.inv op, ?_, ?_⟩
  · rw [s.apply_entries h.inv, h.entries_eq]; simp
  · rw [s.apply_pointers h.inv, h.pointers_eq, ptrsFrom_append, h.entries_eq]
    simp [ptrsFrom]

theorem BOMStorage.Holds.addVar {s : BOMStorage} {bs : List Bytes} (h : s.Holds bs)
    (name data : Bytes) : (s.addVar name data).Holds (bs ++ [data]) :=
  h.apply (Op.addVar name data)

theorem BOMStorage.holds_run (ops : List Op) :
    (BOMStorage.new.run ops).Holds (ops.map Op.data) := by
  induction ops using List.reverseRecOn with
  | nil => exact BOMStorage.holds_new
  | append_singleton ops op ih =>
    rw [BOMStorage.run_snoc]
    simpa using ih.apply op

theorem BOMStorage.Holds.getBlock {s : BOMStorage} {bs : List Bytes} (h : s.Holds bs)
    (i : Nat) (hi : i < bs.length) : s.getBlock (i + 1) = (bs.take i).flatten.length := by
  simp [BOMStorage.getBlock, h.pointers_eq, ptrsFrom_getElem? 0 bs i hi]

theorem flatten_drop_take (bs : List Bytes) (i : Nat) (hi : i < bs.length) :
    (bs.flatten.drop (bs.take i).flatten.length).take (bs[i]).length = bs[i] := by
  induction bs generalizing i with
  | nil => simp at hi
  | cons b bs ih =>
    cases i with
    | zero => simp
    | succ i =>
      simp only [List.take_succ_cons, List.flatten_cons, List.length_append, List.getElem_cons_succ]
      rw [List.drop_append_eq_append_drop, List.drop_of_length_le (by omega)]
      have : b.length + (List.take i bs).flatten.length - b.length
          = (List.take i bs).flatten.length := by omega
      rw [this, List.nil_append]
      exact ih i (by simpa using hi)

theorem BOMStorage.Holds.blockBytes {s : BOMStorage} {bs : List Bytes} (h : s.Holds bs)
    (i : Nat) (hi : i < bs.length) (hlen : (bs[i]).length < 4294967296) :
    s.blockBytes (i + 1) = bs[i] := by
  unfold BOMStorage.blockBytes
  rw [h.getBlock i hi]
  simp only [h.pointers_eq, List.getElem?_cons_succ, ptrsFrom_getElem? 0 bs i hi,
    Option.getD_some, u32_of_lt hlen, h.entries_eq]
  exact flatten_drop_take bs i hi

theorem u32_succ_u32 (n : Nat) : u32 (u32 n + 1) = u32 (n + 1) := by
  simp only [u32]; omega

theorem BOMStorage.apply_numberOfBlocks (s : BOMStorage) (op : Op) :
    (s.apply op).header.numberOfBlocks = u32 (s.header.numberOfBlocks + 1) := by
  cases op <;> rfl

theorem BOMStorage.run_numberOfBlocks (ops : List Op) :
    (BOMStorage.new.run ops).header.numberOfBlocks = u32 ops.length := by
  induction ops using List.reverseRecOn with
  | nil => rfl
  | append_singleton ops op ih =>
    rw [BOMStorage.run_snoc, BOMStorage.apply_numberOfBlocks, ih, u32_succ_u32]
    simp

/-- After a sequence of mutations that ends with `addVar`, the header's `indexOffset` is
`512 + size_of_vars + entry_size` (reduced to 32 bits). -/
theorem BOMStorage.run_addVar_indexOffset (ops : List Op) (name data : Bytes) :
    let s := BOMStorage.new.run (ops ++ [Op.addVar name data])
    s.header.indexOffset = u32 (512 + s.size_of_vars + s.entries.length) := by
  intro s
  have hinv : s.Inv := BOMStorage.inv_run _ BOMStorage.inv_new _
  have h : s.header.indexOffset = u32 (s.size_of_header + s.size_of_vars + s.entry_size) := by
    show (BOMStorage.new.run (ops ++ [Op.addVar name data])).header.indexOffset
      = u32 ((BOMStorage.new.run (ops ++ [Op.addVar name data])).size_of_header
          + (BOMStorage.new.run (ops ++ [Op.addVar name data])).size_of_vars
          + (BOMStorage.new.run (ops ++ [Op.addVar name data])).entry_size)
    rw [BOMStorage.run_snoc]
    rfl
  rw [h, hinv.header_size, hinv.entry_size_eq]

/-! ## Claims about the container -/

/-- C7 (failing input): on a fresh storage, `addBlock` of a 4-byte block leaves
`header.indexOffset` at 516, while `512 + varsLength + payloadSize` is 520: `addBlock`
does not recompute `indexOffset`, only `addVar` and the constructor do. -/
theorem C7_addBlock_leaves_indexOffset_stale :
    (BOMStorage.new.run [Op.addBlock [0, 0, 0, 0]]).header.indexOffset = 516
    ∧ 512 + (BOMStorage.new.run [Op.addBlock [0, 0, 0, 0]]).header.varsLength
        + (BOMStorage.new.run [Op.addBlock [0, 0, 0, 0]]).entries.length = 520 := by
  decide

/-- C8: after any sequence of `addBlock` and `addVar` calls on a fresh storage (whose
block table still has a 32-bit size, every block length being a `uint32_t`),
`header.indexLength = 4 + 8 * numberOfBlockTablePointers + 4 + 2 * 8`, slot 0 of the
block table is all-zero, and the length of slot `i + 1` is the length passed to the
`i`-th `addBlock` (counting from 0, the one inside `addVar` included). -/
theorem C8_indexLength_and_block_lengths (ops : List Op)
    (hfit : 4 + 8 * (ops.length + 1) + 4 + 2 * 8 < 4294967296)
    (hlen : ∀ op ∈ ops, op.data.length < 4294967296) :
    (BOMStorage.new.run ops).header.indexLength
        = 4 + 8 * (BOMStorage.new.run ops).block_table.numberOfBlockTablePointers + 4 + 2 * 8
    ∧ (BOMStorage.new.run ops).block_table.numberOfBlockTablePointers = ops.length + 1
    ∧ (BOMStorage.new.run ops).block_table.blockPointers[0]? = some { address := 0, length := 0 }
    ∧ ∀ i : Nat, ((BOMStorage.new.run ops).block_table.blockPointers[i + 1]?).map BOMPointer.length
        = (ops[i]?).map (fun op => op.data.length) := by
  have hh := BOMStorage.holds_run ops
  have hn := BOMStorage.run_num_block_entries ops
  have hc : (BOMStorage.new.run ops).block_table.numberOfBlockTablePointers = ops.length + 1 := by
    rw [hh.inv.table_count, hn]; exact u32_of_lt (by omega)
  refine ⟨?_, hc, ?_, ?_⟩
  · rw [hh.inv.index_length, hh.inv.table_size, hh.inv.free_size, hc, hn]
    rw [u32_of_lt (by omega)]
  · rw [hh.pointers_eq]; simp
  · intro i
    have hl := BOMStorage.run_pointer_lengths ops
    have h1 : ((BOMStorage.new.run ops).block_table.blockPointers[i + 1]?).map BOMPointer.length
        = ((BOMStorage.new.run ops).block_table.blockPointers.map BOMPointer.length)[i + 1]? := by
      simp
    rw [h1, hl, List.getElem?_cons_succ, List.getElem?_map]
    cases hi : ops[i]? with
    | none => rfl
    | some op =>
      have hm : op ∈ ops := List.getElem?_mem hi
      simp [u32_of_lt (hlen op hm)]

/-- C8 at a concrete sequence: two blocks and one variable. -/
theorem C8_indexLength_and_block_lengths_witness :
    (4 + 8 * (3 + 1) + 4 + 2 * 8 < 4294967296)
    ∧ (BOMStorage.new.run
          [Op.addBlock [1, 2, 3], Op.addVar [86] [7], Op.addBlock []]).header.indexLength
        = 4 + 8 * 4 + 4 + 2 * 8
    ∧ (BOMStorage.new.run
          [Op.addBlock [1, 2, 3], Op.addVar [86] [7], Op.addBlock []]).block_table.blockPointers.map
            BOMPointer.length = [0, 3, 1, 0] := by
  have h := C8_indexLength_and_block_lengths
    [Op.addBlock [1, 2, 3], Op.addVar [86] [7], Op.addBlock []] (by decide) (by decide)
  refine ⟨by decide, ?_, by decide⟩
  rw [h.1, h.2.1]
  rfl

/-- C9: on a storage that holds `k` blocks (reached from a fresh one by `k` mutations),
`addBlock (bytes)` returns `k + 1`, appends the bytes to the payload buffer, appends the
pointer `(payload size before the call, |bytes|)` to the block table, increases
`header.numberOfBlocks` by 1, and `getBlock` of the returned id points at the appended
bytes. -/
theorem C9_addBlock (ops : List Op) (data : Bytes)
    (hk : ops.length + 1 < 4294967296) (hlen : data.length < 4294967296) :
    (BOMStorage.new.run ops).header.numberOfBlocks = ops.length
    ∧ ((BOMStorage.new.run ops).addBlock data).2 = ops.length + 1
    ∧ ((BOMStorage.new.run ops).addBlock data).1.entries = (BOMStorage.new.run ops).entries ++ data
    ∧ (BOMStorage.new.run ops).entry_size = (BOMStorage.new.run ops).entries.length
    ∧ ((BOMStorage.new.run ops).addBlock data).1.block_table.blockPointers
        = (BOMStorage.new.run ops).block_table.blockPointers
            ++ [{ address := (BOMStorage.new.run ops).entry_size, length := data.length }]
    ∧ ((BOMStorage.new.run ops).addBlock data).1.header.numberOfBlocks
        = (BOMStorage.new.run ops).header.numberOfBlocks + 1
    ∧ ((BOMStorage.new.run ops).addBlock data).1.getBlock
          ((BOMStorage.new.run ops).addBlock data).2 = (BOMStorage.new.run ops).entries.length
    ∧ ((BOMStorage.new.run ops).addBlock data).1.blockBytes
          ((BOMStorage.new.run ops).addBlock data).2 = data := by
  have hh := BOMStorage.holds_run ops
  have hh2 := hh.addBlock data
  have hid := hh.addBlock_id data
  simp only [List.length_map] at hid
  have hnb := BOMStorage.run_numberOfBlocks ops
  have hget := hh2.getBlock ops.length (by simp)
  have hbytes := hh2.blockBytes ops.length (by simp) (by simpa using hlen)
  refine ⟨?_, hid, ?_, hh.inv.entry_size_eq, ?_, ?_, ?_, ?_⟩
  · rw [hnb]; exact u32_of_lt (by omega)
  · exact BOMStorage.addBlock_fst_entries _ hh.inv data
  · rw [BOMStorage.addBlock_fst_pointers _ hh.inv data, hh.inv.entry_size_eq, u32_of_lt hlen]
  · show u32 ((BOMStorage.new.run ops).header.numberOfBlocks + 1) = _
    rw [hnb, u32_succ_u32, u32_of_lt hk, u32_of_lt (by omega)]
  · rw [hid, hget, hh.entries_eq]
    simp
  · rw [hid, hbytes]
    simp

/-- C9 at a concrete storage holding two blocks. -/
theorem C9_addBlock_witness :
    (2 + 1 < 4294967296) ∧ ([9, 8, 7].length < 4294967296)
    ∧ ((BOMStorage.new.run [Op.addBlock [1, 2, 3], Op.addVar [86] [7]]).addBlock [9, 8, 7]).2 = 3
    ∧ ((BOMStorage.new.run [Op.addBlock [1, 2, 3], Op.addVar [86] [7]]).addBlock [9, 8, 7]).1.blockBytes 3
        = [9, 8, 7] := by
  have h := C9_addBlock [Op.addBlock [1, 2, 3], Op.addVar [86] [7]] [9, 8, 7]
    (by decide) (by decide)
  refine ⟨by decide, by decide, h.2.1, ?_⟩
  have h8 := h.2.2.2.2.2.2.2
  rw [h.2.1] at h8
  exact h8

theorem BOMHeader.image_length (h : BOMHeader) (hm : h.magic.length = 8) :
    (h.image 512).length = 512 := by
  simp only [BOMHeader.image, List.length_append, List.length_replicate, htonl_length, hm]

theorem flatten_map_length_const {α : Type} (f : α → Bytes) (c : Nat) (l : List α)
    (hf : ∀ a, (f a).length = c) : ((l.map f).flatten).length = c * l.length := by
  induction l with
  | nil => simp
  | cons a l ih => simp [ih, hf, Nat.mul_succ]; omega

theorem writePointer_length (le : Bool) (a b : Nat) (p : BOMPointer) :
    (writePointer le a b p).length = 8 := by
  unfold writePointer
  split <;> simp

/-- On a storage that satisfies the invariant and has fewer than `2 ^ 32` block table
entries, every buffer has exactly its declared size and `write` emits the five images
whole. -/
theorem BOMStorage.write_eq (le : Bool) (s : BOMStorage) (h : s.Inv)
    (hn : s.num_block_entries < 4294967296) :
    s.write le
      = s.header.image 512 ++ s.vars.image ++ s.entries
        ++ (htonl s.block_table.numberOfBlockTablePointers
            ++ ((s.block_table.blockPointers.map
                  (writePointer le 512 s.size_of_vars)).flatten))
        ++ s.free_list.image := by
  have hcount : s.block_table.numberOfBlockTablePointers = s.block_table.blockPointers.length := by
    rw [h.table_count, u32_of_lt hn, h.num_entries_eq]
  have htab : writeTable le s
      = htonl s.block_table.numberOfBlockTablePointers
        ++ ((s.block_table.blockPointers.map (writePointer le 512 s.size_of_vars)).flatten) := by
    simp [writeTable, hcount, h.header_size]
  have htabl : (writeTable le s).length = s.size_of_block_table := by
    rw [htab, h.table_size, h.num_entries_eq]
    simp only [List.length_append, htonl_length]
    rw [flatten_map_length_const _ 8 _ (writePointer_length le 512 s.size_of_vars)]
  have hfree : s.free_list.image.length = s.size_of_free_list := by
    rw [h.free_list_eq, h.free_size]; rfl
  unfold BOMStorage.write
  rw [h.header_size, List.take_of_length_le (BOMHeader.image_length _ h.magic_length).le,
    List.take_of_length_le h.vars_size.ge, List.take_of_length_le h.entry_size_eq.ge,
    List.take_of_length_le htabl.le, List.take_of_length_le hfree.le, htab]

/-- C10: `write` emits the 512-byte header, the vars, the payload buffer, the block table
and the free list, in this order and whole; in the emitted block table a pointer whose
length is not zero carries the big-endian image of `address + 512 + varsLength`, and a
pointer whose length is zero is emitted as it is in memory. -/
theorem C10_write (le : Bool) (ops : List Op)
    (hfit : 4 + 8 * (ops.length + 1) < 4294967296) :
    (BOMStorage.new.run ops).write le
      = (BOMStorage.new.run ops).header.image 512
        ++ (BOMStorage.new.run ops).vars.image
        ++ (BOMStorage.new.run ops).entries
        ++ (htonl (BOMStorage.new.run ops).block_table.numberOfBlockTablePointers
            ++ (((BOMStorage.new.run ops).block_table.blockPointers.map (fun p =>
                  if p.length ≠ 0 then
                    htonl (p.address + 512 + (BOMStorage.new.run ops).header.varsLength)
                      ++ htonl p.length
                  else BOMPointer.image le p)).flatten))
        ++ (BOMStorage.new.run ops).free_list.image
    ∧ ((BOMStorage.new.run ops).header.image 512).length = 512
    ∧ (BOMStorage.new.run ops).vars.image.length = (BOMStorage.new.run ops).size_of_vars
    ∧ (BOMStorage.new.run ops).header.varsLength = u32 (BOMStorage.new.run ops).size_of_vars
    ∧ (BOMStorage.new.run ops).block_table.numberOfBlockTablePointers
        = (BOMStorage.new.run ops).block_table.blockPointers.length := by
  have hinv : (BOMStorage.new.run ops).Inv := BOMStorage.inv_run _ BOMStorage.inv_new _
  have hn := BOMStorage.run_num_block_entries ops
  refine ⟨?_, BOMHeader.image_length _ hinv.magic_length, hinv.vars_size.symm, hinv.vars_length, ?_⟩
  · rw [BOMStorage.write_eq le _ hinv (by omega)]
    congr 4
    apply List.map_congr_left
    intro p _
    unfold writePointer BOMPointer.image
    rw [hinv.vars_length, htonl_add_u32]
    split <;> rfl
  · rw [hinv.table_count, u32_of_lt (by omega), hinv.num_entries_eq]

set_option maxRecDepth 20000 in
/-- C10 at a concrete storage: one block and one variable. -/
theorem C10_write_witness :
    (4 + 8 * (2 + 1) < 4294967296)
    ∧ ((BOMStorage.new.run [Op.addBlock [1, 2, 3], Op.addVar [86] [7]]).write true).length
        = 512 + 10 + 4 + (4 + 8 * 3) + 20
    ∧ ((BOMStorage.new.run [Op.addBlock [1, 2, 3], Op.addVar [86] [7]]).write true).drop 526
        = htonl 3 ++ [0, 0, 0, 0, 0, 0, 0, 0] ++ htonl 522 ++ htonl 3 ++ htonl 525 ++ htonl 1
          ++ htonl 0 ++ htonl 0 ++ htonl 0 ++ htonl 0 ++ htonl 0 := by
  have h := (C10_write true [Op.addBlock [1, 2, 3], Op.addVar [86] [7]] (by decide)).1
  refine ⟨by decide, ?_, ?_⟩
  · rw [h]; decide
  · rw [h]; decide

/-! ## Patching a block in place -/

theorem writeAt_length (buf : Bytes) (off : Nat) (src : Bytes) (h : off + src.length ≤ buf.length) :
    (writeAt buf off src).length = buf.length := by
  simp [writeAt]
  omega

theorem writeAt_append_left (a b : Bytes) (off : Nat) (src : Bytes) (h : off + src.length ≤ a.length) :
    writeAt (a ++ b) off src = writeAt a off src ++ b := by
  simp only [writeAt]
  rw [List.take_append_of_le_length (by omega), List.drop_append_of_le_length (by omega)]
  simp

theorem writeAt_append_right (a b : Bytes) (off : Nat) (src : Bytes) :
    writeAt (a ++ b) (a.length + off) src = a ++ writeAt b off src := by
  simp only [writeAt]
  rw [List.take_append_eq_append_take, List.drop_append_eq_append_drop]
  rw [List.take_of_length_le (by omega), List.drop_of_length_le (by omega)]
  have h1 : a.length + off - a.length = off := by omega
  have h2 : a.length + off + src.length - a.length = off + src.length := by omega
  rw [h1, h2]
  simp

theorem flatten_set_writeAt (bs : List Bytes) (i : Nat) (hi : i < bs.length) (off : Nat) (src : Bytes)
    (h : off + src.length ≤ (bs[i]).length) :
    writeAt bs.flatten ((bs.take i).flatten.length + off) src
      = (bs.set i (writeAt bs[i] off src)).flatten := by
  induction bs generalizing i with
  | nil => simp at hi
  | cons b bs ih =>
    cases i with
    | zero =>
      simp only [List.take_zero, List.flatten_nil, List.length_nil, Nat.zero_add, List.flatten_cons,
        List.set_cons_zero, List.getElem_cons_zero]
      exact writeAt_append_left _ _ _ _ (by simpa using h)
    | succ i =>
      simp only [List.take_succ_cons, List.flatten_cons, List.length_append, List.set_cons_succ,
        List.getElem_cons_succ]
      rw [Nat.add_assoc, writeAt_append_right]
      rw [ih i (by simpa using hi) (by simpa using h)]

theorem ptrsFrom_set (off : Nat) (bs : List Bytes) (i : Nat) (b : Bytes) (hi : i < bs.length)
    (hb : b.length = (bs[i]).length) : ptrsFrom off (bs.set i b) = ptrsFrom off bs := by
  induction bs generalizing i off with
  | nil => simp at hi
  | cons c bs ih =>
    cases i with
    | zero => simp at hb; simp [ptrsFrom, hb]
    | succ i =>
      simp only [List.set_cons_succ, ptrsFrom]
      rw [ih _ i (by simpa using hi) (by simpa using hb)]

theorem flatten_take_add_le (bs : List Bytes) (i : Nat) (hi : i < bs.length) :
    (bs.take i).flatten.length + (bs[i]).length ≤ bs.flatten.length := by
  induction bs generalizing i with
  | nil => simp at hi
  | cons b bs ih =>
    cases i with
    | zero => simp
    | succ i =>
      have := ih i (by simpa using hi)
      simp only [List.take_succ_cons, List.flatten_cons, List.length_append, List.getElem_cons_succ]
      omega

theorem BOMStorage.Holds.setForward {s : BOMStorage} {bs : List Bytes} (h : s.Holds bs)
    (i : Nat) (hi : i < bs.length) (v : Nat) (hlen : 8 ≤ (bs[i]).length) :
    (s.setForward (i + 1) v).Holds (bs.set i (writeAt bs[i] 4 (htonl v))) := by
  have hl : (writeAt bs[i] 4 (htonl v)).length = (bs[i]).length :=
    writeAt_length _ _ _ (by simp; omega)
  have hb := flatten_take_add_le bs i hi
  have he : (s.setForward (i + 1) v).entries = (bs.set i (writeAt bs[i] 4 (htonl v))).flatten := by
    show writeAt s.entries (s.getBlock (i + 1) + 4) (htonl v) = _
    rw [h.getBlock i hi, h.entries_eq]
    exact flatten_set_writeAt bs i hi 4 (htonl v) (by simp; omega)
  have hel : (s.setForward (i + 1) v).entries.length = s.entries.length := by
    show (writeAt s.entries (s.getBlock (i + 1) + 4) (htonl v)).length = _
    apply writeAt_length
    rw [h.getBlock i hi, h.entries_eq]
    simp only [htonl_length]
    omega
  refine ⟨?_, he, ?_⟩
  · have hi := h.inv
    constructor
    · exact hi.header_size
    · exact hi.magic_length
    · rw [hel]; exact hi.entry_size_eq
    · exact hi.num_entries_eq
    · exact hi.table_count
    · exact hi.table_size
    · exact hi.free_size
    · exact hi.free_list_eq
    · exact hi.vars_size
    · exact hi.vars_length
    · exact hi.index_length
    · exact hi.magic_eq
    · exact hi.version_eq
    · exact hi.vars_offset
  · show s.block_table.blockPointers = _
    rw [h.pointers_eq, ptrsFrom_set 0 bs i _ hi hl]

/-! ## The loop over the queue, one node at a time -/

theorem BOMPaths.page_image_length (p : BOMPaths) : p.image.length = 12 + 8 * p.indices.length := by
  simp only [BOMPaths.image, List.length_append, htons_length, htonl_length]
  rw [flatten_map_length_const _ 8 _ (by intro a; simp)]

theorem pageBytes_some (p : BOMPaths) (n : Nat) (h : n = 12 + 8 * p.indices.length) :
    pageBytes (some p) n = p.image := by
  simp only [pageBytes]
  exact List.take_of_length_le (by rw [p.page_image_length, h])

theorem writeAt_image_forward (p : BOMPaths) (v : Nat) :
    writeAt p.image 4 (htonl v) = ({ p with forward := v } : BOMPaths).image := by
  simp [writeAt, BOMPaths.image, htons, htonl]

theorem modify_map_range {α : Type} (f : Nat → α) (g : α → α) (n k : Nat) :
    ((List.range n).map f).modify g k
      = (List.range n).map (fun t => if t = k then g (f t) else f t) := by
  apply List.ext_getElem?
  intro i
  rw [List.getElem?_modify]
  by_cases hi : i < n
  · simp [List.getElem?_map, List.getElem?_range hi]
    by_cases hk : k = i
    · simp [hk]
    · simp [hk, Ne.symm hk]
  · simp [List.getElem?_map, List.getElem?_eq_none (l := List.range n) (by simpa using hi)]

theorem replicate_eq_map_range {α : Type} (a : α) (n : Nat) :
    List.replicate n a = (List.range n).map (fun _ => a) := by
  apply List.ext_getElem?
  intro i
  by_cases hi : i < n
  · simp [List.getElem?_replicate, hi, List.getElem?_range hi]
  · simp [List.getElem?_replicate, hi, List.getElem?_eq_none (l := List.range n) (by simpa using hi)]

theorem info2Index_eq (b0 m : Nat) : info2Index b0 m = b0 + (3 * m + m / 256) := by
  unfold info2Index; omega

theorem range_add_three {α : Type} (f : Nat → α) (n : Nat) :
    (List.range (n + 3)).map f = (List.range n).map f ++ [f n, f (n + 1), f (n + 2)] := by
  rw [show n + 3 = n + 1 + 1 + 1 by rfl]
  simp [List.range_succ]

theorem pathsBlock_info2 (V : List Visit) (b0 N added m : Nat) (v : Visit) (hv : V[m]? = some v) :
    pathsBlock V b0 N added (3 * m + m / 256) = info2Bytes v.node.info := by
  unfold pathsBlock
  have h1 : (3 * m + m / 256) % 769 ≠ 768 := by omega
  have h2 : 256 * ((3 * m + m / 256) / 769) + (3 * m + m / 256) % 769 / 3 = m := by omega
  have h3 : (3 * m + m / 256) % 769 % 3 = 0 := by omega
  rw [if_neg h1, h2, hv]
  simp [h3]

theorem pathsBlock_info1 (V : List Visit) (b0 N added m : Nat) (v : Visit) (hv : V[m]? = some v) :
    pathsBlock V b0 N added (3 * m + m / 256 + 1)
      = info1Bytes (m + 1) (info2Index b0 m + 1) := by
  unfold pathsBlock
  have h1 : (3 * m + m / 256 + 1) % 769 ≠ 768 := by omega
  have h2 : 256 * ((3 * m + m / 256 + 1) / 769) + (3 * m + m / 256 + 1) % 769 / 3 = m := by omega
  have h3 : (3 * m + m / 256 + 1) % 769 % 3 = 1 := by omega
  rw [if_neg h1, h2, hv]
  simp [h3]

theorem pathsBlock_file (V : List Visit) (b0 N added m : Nat) (v : Visit) (hv : V[m]? = some v) :
    pathsBlock V b0 N added (3 * m + m / 256 + 2) = fileBytes v.parent v.name := by
  unfold pathsBlock
  have h1 : (3 * m + m / 256 + 2) % 769 ≠ 768 := by omega
  have h2 : 256 * ((3 * m + m / 256 + 2) / 769) + (3 * m + m / 256 + 2) % 769 / 3 = m := by omega
  have h3 : (3 * m + m / 256 + 2) % 769 % 3 = 2 := by omega
  rw [if_neg h1, h2, hv]
  simp [h3]

theorem add_entry_inv (V : List Visit) (B0 : List Bytes) (N m : Nat) (st : PathsState)
    (h : ReadyInv V B0 N m st) (v : Visit) (hv : V[m]? = some v) :
    LoopInv V B0 N (m + 1) (add_entry v.parent st v.name v.node) := by
  have hpa : pagesAdded (m + 1) = m / 256 := by simp [pagesAdded]
  have h2 := h.holds.addBlock (info2Bytes v.node.info)
  have i2 := h.holds.addBlock_id (info2Bytes v.node.info)
  have h1 := h2.addBlock (info1Bytes (st.j + 1) (st.bom.addBlock (info2Bytes v.node.info)).2)
  have i1 := h2.addBlock_id (info1Bytes (st.j + 1) (st.bom.addBlock (info2Bytes v.node.info)).2)
  have hf := h1.addBlock (fileBytes v.parent v.name)
  have if_ := h1.addBlock_id (fileBytes v.parent v.name)
  simp only [List.length_append, List.length_map, List.length_range, List.length_singleton] at i2 i1 if_
  constructor
  · show st.j + 1 = m + 1
    rw [h.j_eq]
  · show (st.k + 1) % 256 = (m + 1) % 256
    rw [h.k_eq]; omega
  · show st.current_path = _
    rw [h.current_path_eq, hpa]
  · show BOMStorage.Holds _ _
    have : blocksDuring V B0 N (m + 1)
        = B0 ++ (List.range (3 * m + m / 256)).map (pathsBlock V B0.length N (m / 256))
          ++ [info2Bytes v.node.info]
          ++ [info1Bytes (st.j + 1) (st.bom.addBlock (info2Bytes v.node.info)).2]
          ++ [fileBytes v.parent v.name] := by
      unfold blocksDuring
      rw [hpa, show 3 * (m + 1) + m / 256 = 3 * m + m / 256 + 3 by omega, range_add_three,
        pathsBlock_info2 V _ N _ m v hv, pathsBlock_info1 V _ N _ m v hv,
        pathsBlock_file V _ N _ m v hv, i2, h.j_eq, info2Index_eq]
      simp
    rw [this]
    exact hf
  · show Option.map _ (Option.map _ st.paths) = _
    rw [h.paths_eq, if_neg (by omega), hpa, i1, if_, h.k_eq]
    simp only [Option.map_some', BOMPaths.setIndex0, BOMPaths.setIndex1, leafPage,
      modify_map_range, Option.some.injEq]
    congr 1
    apply List.map_congr_left
    intro t _
    have e1 : 256 * (m / 256) + m % 256 = m := by omega
    by_cases ht : t = m % 256
    · subst ht
      have : m % 256 < m + 1 - 256 * (m / 256) := by omega
      simp [leafEntry, e1, info2Index_eq, this]
    · by_cases ht2 : t < m % 256
      · have : t < m + 1 - 256 * (m / 256) := by omega
        simp [ht, ht2, this]
      · have : ¬ t < m + 1 - 256 * (m / 256) := by omega
        simp [ht, ht2, this]
  · show st.current_path_size = _
    rw [h.size_eq, if_neg (by omega), hpa]
  · show st.last_paths_id = _
    rw [h.last_paths_eq, hpa]
  · show u32 _ = _
    rw [if_, if_neg (by omega), info2Index_eq]
    congr 1
  · show st.root_paths = _
    rw [h.root_eq, hpa]
theorem set_map_range {α : Type} (f : Nat → α) (n t : Nat) (z : α) :
    ((List.range n).map f).set t z = (List.range n).map (fun x => if x = t then z else f x) := by
  apply List.ext_getElem?
  intro i
  rw [List.getElem?_set]
  by_cases hi : i < n
  · by_cases ht : t = i
    · subst ht; simp [hi, List.getElem?_range hi]
    · simp [ht, Ne.symm ht, List.getElem?_range hi]
  · have : (List.range n)[i]? = none := List.getElem?_eq_none (by simpa using hi)
    by_cases ht : t = i
    · subst ht; simp [hi, this]
    · simp [ht, this]

theorem ready_of_loop (V : List Visit) (B0 : List Bytes) (N m : Nat) (st : PathsState)
    (h : LoopInv V B0 N m st) (hk : m % 256 ≠ 0) : ReadyInv V B0 N m st := by
  have hpa : pagesAdded m = m / 256 := by unfold pagesAdded; omega
  have hm : m ≠ 0 := by rintro rfl; simp at hk
  have hh := h.holds
  unfold blocksDuring at hh
  rw [hpa] at hh
  constructor
  · exact h.j_eq
  · exact h.k_eq
  · rw [h.current_path_eq, hpa]
  · exact hh
  · rw [h.paths_eq, if_neg hm, hpa, show m - 256 * (m / 256) = m % 256 by omega]
  · rw [h.size_eq, if_neg hm, hpa]
  · rw [h.last_paths_eq, hpa]
  · exact h.last_file_eq
  · rw [h.root_eq, hpa]

theorem leafPage_indices_length (b0 N c filled fwd : Nat) :
    (leafPage b0 N c filled fwd).indices.length = min 256 (N - 256 * c) := by
  simp [leafPage]

theorem start_page_zero (V : List Visit) (B0 : List Bytes) (N : Nat) (st : PathsState)
    (h : LoopInv V B0 N 0 st) (hN : N < 4294967296) : ReadyInv V B0 N 0 (start_page N st) := by
  have hp : st.paths = none := by rw [h.paths_eq]; rfl
  have hj := h.j_eq
  have hnum : u32 (N + 4294967296 - st.j) = N := by
    rw [hj]; simp only [u32]; omega
  have hnn : (if 256 < N then 256 else N) = min 256 N := by
    split <;> omega
  unfold start_page
  simp only [hp, hnum, hnn]
  constructor
  · exact hj
  · exact h.k_eq
  · show st.current_path = 0
    rw [h.current_path_eq]; rfl
  · simpa [blocksDuring, pagesAdded] using h.holds
  · show some _ = some _
    simp only [leafPage, Nat.zero_div, Nat.mul_zero, Nat.sub_zero, Nat.zero_mod, Nat.not_lt_zero,
      if_false, if_true, replicate_eq_map_range]
  · show sizeof_uint16 * 2 + sizeof_uint32 * 2 + min 256 N * sizeof_BOMPathIndices = _
    simp [sizeof_uint16, sizeof_uint32, sizeof_BOMPathIndices]; omega
  · show (0 : Nat) = _
    simp
  · exact h.last_file_eq
  · rw [h.root_eq]; rfl
theorem leafId_of_full (b0 N c : Nat) (h : 256 * (c + 1) ≤ N) :
    leafId b0 N c = b0 + (769 * c + 768) + 1 := by
  unfold leafId
  rw [Nat.min_eq_right h]; omega

theorem pathsBlock_leaf (V : List Visit) (b0 N added c : Nat) :
    pathsBlock V b0 N added (769 * c + 768)
      = (leafPage b0 N c 256 (if c + 1 < added then leafId b0 N (c + 1) else 0)).image := by
  unfold pathsBlock
  have h1 : (769 * c + 768) % 769 = 768 := by omega
  have h2 : (769 * c + 768) / 769 = c := by omega
  rw [if_pos h1, h2]

theorem pathsBlock_added_succ (V : List Visit) (b0 N c x : Nat) (hx : x ≠ 769 * (c - 1) + 768 ∨ c = 0)
    (hlt : x < 769 * c + 768) :
    pathsBlock V b0 N (c + 1) x = pathsBlock V b0 N c x := by
  unfold pathsBlock
  by_cases h1 : x % 769 = 768
  · rw [if_pos h1, if_pos h1]
    have : (if x / 769 + 1 < c + 1 then leafId b0 N (x / 769 + 1) else 0)
        = (if x / 769 + 1 < c then leafId b0 N (x / 769 + 1) else 0) := by
      split <;> split <;> first | rfl | omega
    rw [this]
  · rw [if_neg h1, if_neg h1]

theorem blocks_start_page (V : List Visit) (B0 : List Bytes) (N c : Nat) :
    (if c ≠ 0 then
        (blocksDuring V B0 N (256 * (c + 1)) ++ [(leafPage B0.length N c 256 0).image]).set
          (B0.length + (769 * (c - 1) + 768))
          (({ leafPage B0.length N (c - 1) 256 0 with forward := leafId B0.length N c }
            : BOMPaths).image)
      else blocksDuring V B0 N (256 * (c + 1)) ++ [(leafPage B0.length N c 256 0).image])
      = B0 ++ (List.range (3 * (256 * (c + 1)) + (c + 1))).map
          (pathsBlock V B0.length N (c + 1)) := by
  have hpa : pagesAdded (256 * (c + 1)) = c := by unfold pagesAdded; omega
  have hn : 3 * (256 * (c + 1)) + c = 769 * c + 768 := by omega
  have hn1 : 3 * (256 * (c + 1)) + (c + 1) = 769 * c + 768 + 1 := by omega
  have hr : (List.range (769 * c + 768 + 1)).map (pathsBlock V B0.length N (c + 1))
      = (List.range (769 * c + 768)).map (pathsBlock V B0.length N (c + 1))
        ++ [(leafPage B0.length N c 256 0).image] := by
    rw [List.range_succ, List.map_append, List.map_singleton, pathsBlock_leaf,
      if_neg (Nat.lt_irrefl _)]
  unfold blocksDuring
  rw [hpa, hn, hn1, hr, ← List.append_assoc]
  by_cases hc : c = 0
  · rw [if_neg (by simp [hc])]
    have : (List.range (769 * c + 768)).map (pathsBlock V B0.length N (c + 1))
        = (List.range (769 * c + 768)).map (pathsBlock V B0.length N c) := by
      apply List.map_congr_left
      intro x hx
      rw [List.mem_range] at hx
      exact pathsBlock_added_succ V _ N c x (Or.inr hc) hx
    rw [this]
  · rw [if_pos hc]
    have hlen : B0.length ≤ B0.length + (769 * (c - 1) + 768) := Nat.le_add_right _ _
    have hsub : B0.length + (769 * (c - 1) + 768) - B0.length = 769 * (c - 1) + 768 := by
      omega
    have hlt : 769 * (c - 1) + 768
        < ((List.range (769 * c + 768)).map (pathsBlock V B0.length N c)).length := by
      rw [List.length_map, List.length_range]; omega
    have : (List.range (769 * c + 768)).map (pathsBlock V B0.length N (c + 1))
        = ((List.range (769 * c + 768)).map (pathsBlock V B0.length N c)).set
            (769 * (c - 1) + 768)
            (({ leafPage B0.length N (c - 1) 256 0 with forward := leafId B0.length N c }
              : BOMPaths).image) := by
      rw [set_map_range]
      apply List.map_congr_left
      intro x hx
      rw [List.mem_range] at hx
      by_cases hx2 : x = 769 * (c - 1) + 768
      · rw [if_pos hx2, hx2, pathsBlock_leaf, if_pos (by omega),
          show c - 1 + 1 = c by omega]
        rfl
      · rw [if_neg hx2]
        exact pathsBlock_added_succ V _ N c x (Or.inl hx2) hx
    rw [this, List.append_assoc B0, List.set_append_right _ _ hlen, hsub,
      List.set_append_left _ _ hlt, List.append_assoc B0]

theorem start_page_succ (V : List Visit) (B0 : List Bytes) (N m : Nat) (st : PathsState)
    (h : LoopInv V B0 N m st) (hN : N < 4294967296) (hm : m < N) (hk : m % 256 = 0)
    (hm0 : m ≠ 0) : ReadyInv V B0 N m (start_page N st) := by
  obtain ⟨c, rfl⟩ : ∃ c, m = 256 * (c + 1) := ⟨m / 256 - 1, by omega⟩
  have hpa : pagesAdded (256 * (c + 1)) = c := by unfold pagesAdded; omega
  have hdiv : 256 * (c + 1) / 256 = c + 1 := by omega
  have hp : st.paths = some (leafPage B0.length N c 256 0) := by
    rw [h.paths_eq, if_neg hm0, hpa, show 256 * (c + 1) - 256 * c = 256 by omega]
  have hsz : st.current_path_size = 12 + 8 * (leafPage B0.length N c 256 0).indices.length := by
    rw [h.size_eq, if_neg hm0, hpa, leafPage_indices_length]
  have hpb : pageBytes (some (leafPage B0.length N c 256 0)) st.current_path_size
      = (leafPage B0.length N c 256 0).image := pageBytes_some _ _ hsz
  have hh := h.holds.addBlock (leafPage B0.length N c 256 0).image
  have hid := h.holds.addBlock_id (leafPage B0.length N c 256 0).image
  have hlen : (blocksDuring V B0 N (256 * (c + 1))).length = B0.length + (769 * c + 768) := by
    simp [blocksDuring, hpa]; omega
  have hleaf : leafId B0.length N c = B0.length + (769 * c + 768) + 1 :=
    leafId_of_full _ _ _ (by omega)
  rw [hlen, ← hleaf] at hid
  have hj := h.j_eq
  have hnum : u32 (N + 4294967296 - st.j) = N - 256 * (c + 1) := by
    rw [hj]; simp only [u32]; omega
  have hnn : (if 256 < N - 256 * (c + 1) then 256 else N - 256 * (c + 1))
      = min 256 (N - 256 * (c + 1)) := by
    split <;> omega
  have hlast : st.last_paths_id = if c = 0 then 0 else leafId B0.length N (c - 1) := by
    rw [h.last_paths_eq, hpa]
  unfold start_page
  simp only [hp, hpb, hnum, hnn]
  constructor
  · exact hj
  · exact h.k_eq
  · show st.current_path + 1 = _
    rw [h.current_path_eq, hpa, hdiv]
  · show BOMStorage.Holds (if st.last_paths_id ≠ 0 then _ else _) _
    rw [hdiv, ← blocks_start_page V B0 N c]
    by_cases hc : c = 0
    · rw [hlast, if_pos hc, if_neg (by simp), if_neg (by simp [hc])]
      exact hh
    · have hl1 : leafId B0.length N (c - 1) = B0.length + (769 * (c - 1) + 768) + 1 :=
        leafId_of_full _ _ _ (by omega)
      rw [hlast, if_neg hc, if_pos (by rw [hl1]; omega), if_pos hc, hl1, hid]
      have hi : B0.length + (769 * (c - 1) + 768)
          < (blocksDuring V B0 N (256 * (c + 1)) ++ [(leafPage B0.length N c 256 0).image]).length := by
        simp [hlen]; omega
      have hget : (blocksDuring V B0 N (256 * (c + 1))
            ++ [(leafPage B0.length N c 256 0).image])[B0.length + (769 * (c - 1) + 768)]
          = (leafPage B0.length N (c - 1) 256 0).image := by
        rw [List.getElem_append_left (by rw [hlen]; omega)]
        simp only [blocksDuring, hpa]
        rw [List.getElem_append_right (by omega)]
        simp only [List.getElem_map, List.getElem_range, Nat.add_sub_cancel_left]
        rw [pathsBlock_leaf, if_neg (by omega)]
      have := hh.setForward _ hi (leafId B0.length N c)
        (by rw [hget, BOMPaths.page_image_length]; omega)
      rw [hget, writeAt_image_forward] at this
      exact this
  · show some _ = some _
    rw [hdiv, hid]
    simp only [leafPage, Nat.mul_mod_right, Nat.not_lt_zero, if_false, replicate_eq_map_range,
      Nat.add_sub_cancel, Nat.succ_ne_zero]
  · show sizeof_uint16 * 2 + sizeof_uint32 * 2 + _ * sizeof_BOMPathIndices = _
    rw [hdiv]
    simp [sizeof_uint16, sizeof_uint32, sizeof_BOMPathIndices]; omega
  · show (st.bom.addBlock (leafPage B0.length N c 256 0).image).2 = _
    rw [hdiv, hid, if_neg (by omega), Nat.add_sub_cancel]
  · exact h.last_file_eq
  · show ((st.root_paths.setIndex0 st.current_path _).setIndex1 st.current_path _) = _
    rw [h.root_eq, h.current_path_eq, hpa, hdiv, h.last_file_eq, if_neg hm0, hid]
    simp only [BOMPaths.setIndex0, BOMPaths.setIndex1, rootPage, modify_map_range]
    refine congrArg (fun l => BOMPaths.mk 0 (u16 ((N + 255) / 256)) 0 0 l) ?_
    apply List.map_congr_left
    intro t _
    by_cases ht : t = c
    · subst ht
      have hmin : min N (256 * (t + 1)) = 256 * (t + 1) := by omega
      rw [if_pos rfl, if_neg (Nat.lt_irrefl _), if_pos (Nat.lt_succ_self _), hmin, if_pos rfl]
    · by_cases ht2 : t < c
      · have : t < c + 1 := by omega
        simp [ht, ht2, this]
      · have : ¬ t < c + 1 := by omega
        simp [ht, ht2, this]

/-! ## The loop over the queue as a fold over the visits -/

theorem start_page_withStack (num : Nat) (st : PathsState) (q : List (Nat × Node)) :
    start_page num (st.withStack q) = (start_page num st).withStack q := by
  unfold start_page PathsState.withStack
  cases st.paths <;> rfl

theorem add_entry_withStack (p : Nat) (st : PathsState) (q : List (Nat × Node)) (s : Bytes)
    (n : Node) :
    add_entry p (st.withStack q) s n = (add_entry p st s n).withStack (q ++ [(st.j + 1, n)]) := rfl

theorem start_page_j (num : Nat) (st : PathsState) : (start_page num st).j = st.j := by
  unfold start_page
  cases st.paths <;> rfl

theorem start_page_stack (num : Nat) (st : PathsState) : (start_page num st).stack = st.stack := by
  unfold start_page
  cases st.paths <;> rfl

theorem emit_node_withStack (num p : Nat) (st : PathsState) (q : List (Nat × Node)) (s : Bytes)
    (n : Node) :
    emit_node num p (st.withStack q) s n
      = (emit_node num p st s n).withStack (q ++ [(st.j + 1, n)]) := by
  unfold emit_node
  have hk : (st.withStack q).k = st.k := rfl
  rw [hk]
  split
  · rw [start_page_withStack, add_entry_withStack, start_page_j]
  · rw [add_entry_withStack]

theorem emit_node_j (num p : Nat) (st : PathsState) (s : Bytes) (n : Node) :
    (emit_node num p st s n).j = st.j + 1 := by
  unfold emit_node
  split
  · show (start_page num st).j + 1 = _
    rw [start_page_j]
  · rfl

theorem emit_node_stack (num p : Nat) (st : PathsState) (s : Bytes) (n : Node) :
    (emit_node num p st s n).stack = st.stack ++ [(st.j + 1, n)] := by
  unfold emit_node
  split
  · show (start_page num st).stack ++ [((start_page num st).j + 1, n)] = _
    rw [start_page_j, start_page_stack]
  · rfl

theorem withStack_withStack (st : PathsState) (q q' : List (Nat × Node)) :
    (st.withStack q).withStack q' = st.withStack q' := rfl

theorem withStack_self (st : PathsState) : st.withStack st.stack = st := rfl

theorem foldl_emit_withStack (num : Nat) (vs : List Visit) (st : PathsState)
    (q : List (Nat × Node)) :
    ∃ q', vs.foldl (emit_visit num) (st.withStack q)
      = (vs.foldl (emit_visit num) st).withStack q' := by
  induction vs generalizing st q with
  | nil => exact ⟨q, rfl⟩
  | cons v vs ih =>
    simp only [List.foldl_cons]
    have : emit_visit num (st.withStack q) v
        = (emit_visit num st v).withStack (q ++ [(st.j + 1, v.node)]) :=
      emit_node_withStack num v.parent st q v.name v.node
    rw [this]
    exact ih _ _

theorem emit_children_eq (num p : Nat) (st : PathsState) (cs : List (Bytes × Node)) :
    emit_children num p st cs
      = (cs.map (fun c => ({ parent := p, name := c.1, node := c.2 } : Visit))).foldl
          (emit_visit num) st := by
  unfold emit_children
  rw [List.foldl_map]
  rfl

theorem emit_children_j_stack (num p : Nat) (st : PathsState) (cs : List (Bytes × Node)) :
    (emit_children num p st cs).j = st.j + cs.length
    ∧ (emit_children num p st cs).stack = st.stack ++ pushed st.j cs := by
  induction cs generalizing st with
  | nil => simp [emit_children, pushed]
  | cons c cs ih =>
    have h := ih (emit_node num p st c.1 c.2)
    rw [emit_node_j, emit_node_stack] at h
    constructor
    · show (emit_children num p (emit_node num p st c.1 c.2) cs).j = _
      rw [h.1]; simp; omega
    · show (emit_children num p (emit_node num p st c.1 c.2) cs).stack = _
      rw [h.2]; simp [pushed]

/-- The loop over the queue performs the visits in order; only the queue of the final
state is not described by the fold. -/
theorem paths_loop_eq (num : Nat) (fuel : Nat) (st : PathsState) :
    ∃ q', paths_loop num fuel st
      = ((visits fuel st.j st.stack).foldl (emit_visit num) st).withStack q' := by
  induction fuel generalizing st with
  | zero => exact ⟨st.stack, rfl⟩
  | succ fuel ih =>
    cases hs : st.stack with
    | nil =>
      refine ⟨[], ?_⟩
      simp only [paths_loop, hs, visits, List.foldl_nil]
      rw [← hs]; rfl
    | cons x rest =>
      obtain ⟨parent, arg⟩ := x
      simp only [paths_loop, hs, visits]
      have hst : ({ st with stack := rest } : PathsState) = st.withStack rest := rfl
      rw [hst]
      obtain ⟨q1, h1⟩ := ih (emit_children num parent (st.withStack rest) arg.children)
      have hjs := emit_children_j_stack num parent (st.withStack rest) arg.children
      rw [h1, hjs.1, hjs.2, emit_children_eq]
      obtain ⟨q2, h2⟩ := foldl_emit_withStack num
        (arg.children.map (fun c => ({ parent := parent, name := c.1, node := c.2 } : Visit))) st rest
      rw [h2]
      obtain ⟨q3, h3⟩ := foldl_emit_withStack num
        (visits fuel (st.j + arg.children.length) (rest ++ pushed st.j arg.children))
        ((arg.children.map
          (fun c => ({ parent := parent, name := c.1, node := c.2 } : Visit))).foldl
            (emit_visit num) st) q2
      refine ⟨q1, ?_⟩
      show (List.foldl (emit_visit num) _ (visits fuel (st.j + arg.children.length)
        (rest ++ pushed st.j arg.children))).withStack q1 = _
      rw [h3, withStack_withStack, List.foldl_append]

theorem queueCount_append (a b : List (Nat × Node)) :
    queueCount (a ++ b) = queueCount a + queueCount b := by
  induction a with
  | nil => simp [queueCount]
  | cons x a ih => simp [queueCount, ih, Nat.add_assoc]

theorem queueCount_pushed (j : Nat) (cs : List (Bytes × Node)) :
    queueCount (pushed j cs) = Node.countList cs := by
  induction cs generalizing j with
  | nil => rfl
  | cons c cs ih => simp [pushed, queueCount, Node.countList, ih]

theorem Node.count_eq (n : Node) : n.count = 1 + Node.countList n.children := by
  cases n; rfl

/-- With fuel for every node of the queue, the loop ends because the queue is empty. -/
theorem paths_loop_stack (num : Nat) (fuel : Nat) (st : PathsState)
    (h : queueCount st.stack ≤ fuel) : (paths_loop num fuel st).stack = [] := by
  induction fuel generalizing st with
  | zero =>
    cases hs : st.stack with
    | nil => simpa [paths_loop] using hs
    | cons x rest =>
      rw [hs] at h
      simp [queueCount, Node.count_eq] at h
  | succ fuel ih =>
    cases hs : st.stack with
    | nil => simp [paths_loop, hs]
    | cons x rest =>
      obtain ⟨parent, arg⟩ := x
      simp only [paths_loop, hs]
      apply ih
      rw [(emit_children_j_stack num parent _ arg.children).2]
      rw [hs] at h
      simp only [queueCount, Node.count_eq] at h
      show queueCount (rest ++ pushed st.j arg.children) ≤ fuel
      rw [queueCount_append, queueCount_pushed]
      omega

theorem pushed_length (j : Nat) (cs : List (Bytes × Node)) : (pushed j cs).length = cs.length := by
  induction cs generalizing j with
  | nil => rfl
  | cons c cs ih => simp [pushed, ih]

/-- With fuel for every node of the queue, there is one visit per node that is below a
node of the queue. -/
theorem visits_length (fuel j : Nat) (q : List (Nat × Node)) (h : queueCount q ≤ fuel) :
    (visits fuel j q).length + q.length = queueCount q := by
  induction fuel generalizing j q with
  | zero =>
    cases q with
    | nil => rfl
    | cons x rest => simp [queueCount, Node.count_eq] at h
  | succ fuel ih =>
    cases q with
    | nil => rfl
    | cons x rest =>
      obtain ⟨parent, arg⟩ := x
      simp only [queueCount, Node.count_eq] at h
      have := ih (j + arg.children.length) (rest ++ pushed j arg.children)
        (by rw [queueCount_append, queueCount_pushed]; omega)
      rw [queueCount_append, queueCount_pushed] at this
      have hp : (pushed j arg.children).length = arg.children.length := pushed_length _ _
      simp only [visits, queueCount, Node.count_eq, List.length_append, List.length_map,
        List.length_cons] at this ⊢
      omega

theorem visitsOf_length (root : Node) : (visitsOf root).length + 1 = root.count := by
  have := visits_length root.count 0 [(0, root)] (by simp [queueCount])
  simpa [visitsOf, queueCount] using this

/-! ## The blocks of the `Paths` tree -/

theorem emit_visit_inv (V : List Visit) (B0 : List Bytes) (N m : Nat) (st : PathsState)
    (h : LoopInv V B0 N m st) (hN : N < 4294967296) (hm : m < N) (v : Visit)
    (hv : V[m]? = some v) : LoopInv V B0 N (m + 1) (emit_visit N st v) := by
  show LoopInv V B0 N (m + 1) (add_entry v.parent (if st.k = 0 then start_page N st else st)
    v.name v.node)
  apply add_entry_inv V B0 N m _ _ v hv
  rw [h.k_eq]
  by_cases hk : m % 256 = 0
  · rw [if_pos hk]
    by_cases hm0 : m = 0
    · subst hm0
      exact start_page_zero V B0 N st h hN
    · exact start_page_succ V B0 N m st h hN hm hk hm0
  · rw [if_neg hk]
    exact ready_of_loop V B0 N m st h hk

theorem foldl_emit_inv (V : List Visit) (B0 : List Bytes) (N : Nat) (st : PathsState)
    (h : LoopInv V B0 N 0 st) (hN : N < 4294967296) (hV : V.length = N) :
    LoopInv V B0 N N (V.foldl (emit_visit N) st) := by
  have key : ∀ m, m ≤ V.length → LoopInv V B0 N m ((V.take m).foldl (emit_visit N) st) := by
    intro m
    induction m with
    | zero => intro _; simpa using h
    | succ m ih =>
      intro hm
      have hlt : m < V.length := by omega
      have hv : V[m]? = some V[m] := List.getElem?_eq_getElem hlt
      rw [List.take_succ, hv, Option.toList_some, List.foldl_append]
      exact emit_visit_inv V B0 N m _ (ih (by omega)) hN (by omega) _ hv
  have := key V.length (Nat.le_refl _)
  rw [List.take_length, hV] at this
  exact this

theorem initial_inv (V : List Visit) (B0 : List Bytes) (N : Nat) (bom : BOMStorage)
    (root : Node) (hb : bom.Holds B0) : LoopInv V B0 N 0 (initialPathsState bom root N) := by
  constructor
  · rfl
  · rfl
  · rfl
  · simpa [blocksDuring, pagesAdded, initialPathsState] using hb
  · rfl
  · rfl
  · rfl
  · rfl
  · show BOMPaths.mk _ _ _ _ _ = _
    have hp : pagesAdded 0 = 0 := rfl
    simp only [rootPage, hp, Nat.not_lt_zero, if_false, replicate_eq_map_range]

theorem write_paths_eq (bom : BOMStorage) (root : Node) (num : Nat) :
    write_paths bom root num
      = finish_paths num ((num + 255) / 256)
          (sizeof_uint16 * 2 + sizeof_uint32 * 2 + (num + 255) / 256 * sizeof_BOMPathIndices)
          ((visitsOf root).foldl (emit_visit num) (initialPathsState bom root num)) := by
  obtain ⟨q, hq⟩ := paths_loop_eq num root.count (initialPathsState bom root num)
  show finish_paths num _ _ (paths_loop num root.count (initialPathsState bom root num)) = _
  rw [hq]
  rfl

theorem rootPage_indices_length (b0 N added : Nat) :
    (rootPage b0 N added).indices.length = (N + 255) / 256 := by
  simp [rootPage]

theorem finish_paths_small (V : List Visit) (B0 : List Bytes) (N : Nat) (st : PathsState)
    (h : LoopInv V B0 N N st) (hP : ¬ (N + 255) / 256 > 1) (ps : Nat) :
    (finish_paths N ((N + 255) / 256) ps st).Holds (blocksAfterPaths V B0 N) := by
  have hN : N ≤ 256 := by omega
  have hpa : pagesAdded N = 0 := by unfold pagesAdded; omega
  have hpa' : (N - 1) / 256 = 0 := hpa
  have hbytes : pageBytes st.paths st.current_path_size = lastLeafBytes B0.length N := by
    unfold lastLeafBytes
    rw [h.paths_eq, h.size_eq]
    by_cases h0 : N = 0
    · rw [if_pos h0, if_pos h0, if_pos h0]; rfl
    · rw [if_neg h0, if_neg h0, if_neg h0, hpa, hpa']
      exact pageBytes_some _ _ (by rw [leafPage_indices_length])
  have hh := h.holds.addBlock (pageBytes st.paths st.current_path_size)
  have hid := h.holds.addBlock_id (pageBytes st.paths st.current_path_size)
  have hbody : (List.range (3 * N + (N - 1) / 256)).map
        (pathsBlock V B0.length N ((N + 255) / 256))
      = (List.range (3 * N + pagesAdded N)).map (pathsBlock V B0.length N (pagesAdded N)) := by
    rw [hpa, hpa']
    by_cases h0 : N = 0
    · subst h0; rfl
    · have : (N + 255) / 256 = 0 + 1 := by omega
      rw [this]
      apply List.map_congr_left
      intro x hx
      rw [List.mem_range] at hx
      exact pathsBlock_added_succ V _ N 0 x (Or.inr rfl) (by omega)
  have hlen : (blocksDuring V B0 N N).length + 1 = rootChildId B0.length N := by
    unfold rootChildId leafId
    rw [if_neg hP, hpa']
    simp [blocksDuring, hpa]
    omega
  unfold finish_paths
  simp only [if_neg hP]
  rw [hid, hlen]
  have := hh.addVar [80, 97, 116, 104, 115] (treeBytes (rootChildId B0.length N) 4096 N)
  unfold blocksAfterPaths
  rw [if_neg hP, hbody, ← hbytes, List.append_nil]
  exact this

theorem finish_paths_large (V : List Visit) (B0 : List Bytes) (N : Nat) (st : PathsState)
    (h : LoopInv V B0 N N st) (hP : (N + 255) / 256 > 1) :
    (finish_paths N ((N + 255) / 256)
        (sizeof_uint16 * 2 + sizeof_uint32 * 2 + (N + 255) / 256 * sizeof_BOMPathIndices) st).Holds
      (blocksAfterPaths V B0 N) := by
  obtain ⟨c, hc⟩ : ∃ c, (N - 1) / 256 = c + 1 := ⟨(N - 1) / 256 - 1, by omega⟩
  have hpa : pagesAdded N = c + 1 := hc
  have hPc : (N + 255) / 256 = c + 1 + 1 := by omega
  have hN0 : N ≠ 0 := by omega
  have hNlo : 256 * (c + 1) < N := by omega
  have hNhi : N ≤ 256 * (c + 1 + 1) := by omega
  have hp : st.paths = some (leafPage B0.length N (c + 1) (N - 256 * (c + 1)) 0) := by
    rw [h.paths_eq, if_neg hN0, hpa]
  have hbytes : pageBytes st.paths st.current_path_size = lastLeafBytes B0.length N := by
    unfold lastLeafBytes
    rw [hp, h.size_eq, if_neg hN0, if_neg hN0, hpa, hc]
    exact pageBytes_some _ _ (by rw [leafPage_indices_length])
  have hh := h.holds.addBlock (pageBytes st.paths st.current_path_size)
  have hid := h.holds.addBlock_id (pageBytes st.paths st.current_path_size)
  have hlenB : (blocksDuring V B0 N N).length = B0.length + (3 * N + (c + 1)) := by
    simp [blocksDuring, hpa]
  have hleaf : leafId B0.length N (c + 1) = B0.length + (3 * N + (c + 1)) + 1 := by
    unfold leafId
    rw [Nat.min_eq_left hNhi]; omega
  rw [hlenB, ← hleaf] at hid
  have hl1 : leafId B0.length N c = B0.length + (769 * c + 768) + 1 :=
    leafId_of_full _ _ _ (by omega)
  have hlast : st.last_paths_id = B0.length + (769 * c + 768) + 1 := by
    rw [h.last_paths_eq, hpa, if_neg (by omega), Nat.add_sub_cancel, hl1]
  -- the patched body
  have hbody : ((List.range (3 * N + (c + 1))).map (pathsBlock V B0.length N (c + 1))).set
        (769 * c + 768)
        (({ leafPage B0.length N c 256 0 with forward := leafId B0.length N (c + 1) }
          : BOMPaths).image)
      = (List.range (3 * N + (c + 1))).map (pathsBlock V B0.length N (c + 1 + 1)) := by
    rw [set_map_range]
    apply List.map_congr_left
    intro x hx
    rw [List.mem_range] at hx
    by_cases hx2 : x = 769 * c + 768
    · rw [if_pos hx2, hx2, pathsBlock_leaf, if_pos (by omega)]
      rfl
    · rw [if_neg hx2]
      exact (pathsBlock_added_succ V _ N (c + 1) x (Or.inl (by simpa using hx2)) (by omega)).symm
  have hi : B0.length + (769 * c + 768)
      < (blocksDuring V B0 N N ++ [pageBytes st.paths st.current_path_size]).length := by
    rw [List.length_append, hlenB]; simp; omega
  have hget : (blocksDuring V B0 N N
        ++ [pageBytes st.paths st.current_path_size])[B0.length + (769 * c + 768)]
      = (leafPage B0.length N c 256 0).image := by
    rw [List.getElem_append_left (by rw [hlenB]; omega)]
    simp only [blocksDuring, hpa]
    rw [List.getElem_append_right (by omega)]
    simp only [List.getElem_map, List.getElem_range, Nat.add_sub_cancel_left]
    rw [pathsBlock_leaf, if_neg (by omega)]
  have hpatched := hh.setForward _ hi (leafId B0.length N (c + 1))
    (by rw [hget, BOMPaths.page_image_length]; omega)
  rw [hget, writeAt_image_forward] at hpatched
  have hlist : (blocksDuring V B0 N N ++ [pageBytes st.paths st.current_path_size]).set
        (B0.length + (769 * c + 768))
        (({ leafPage B0.length N c 256 0 with forward := leafId B0.length N (c + 1) }
          : BOMPaths).image)
      = B0 ++ (List.range (3 * N + (N - 1) / 256)).map
            (pathsBlock V B0.length N ((N + 255) / 256))
          ++ [lastLeafBytes B0.length N] := by
    have hlt : 769 * c + 768
        < ((List.range (3 * N + (c + 1))).map (pathsBlock V B0.length N (c + 1))).length := by
      rw [List.length_map, List.length_range]; omega
    have hsub : B0.length + (769 * c + 768) - B0.length = 769 * c + 768 := by omega
    unfold blocksDuring
    rw [hpa, hc, hPc, hbytes, List.append_assoc B0, List.set_append_right _ _ (Nat.le_add_right _ _),
      hsub, List.set_append_left _ _ hlt, hbody, List.append_assoc B0]
  rw [hlist] at hpatched
  -- the interior page
  have hroot : (st.root_paths.setIndex0 st.current_path (u32 (leafId B0.length N (c + 1)))).setIndex1
        st.current_path st.last_file_info = rootPage B0.length N ((N + 255) / 256) := by
    rw [h.root_eq, h.current_path_eq, hpa, h.last_file_eq, if_neg hN0, hPc]
    simp only [BOMPaths.setIndex0, BOMPaths.setIndex1, rootPage, modify_map_range]
    rw [hPc]
    refine congrArg (fun l => BOMPaths.mk 0 (u16 (c + 1 + 1)) 0 0 l) ?_
    apply List.map_congr_left
    intro t _
    by_cases ht : t = c + 1
    · subst ht
      have hmin : min N (256 * (c + 1 + 1)) = N := Nat.min_eq_left hNhi
      rw [if_pos rfl, if_neg (Nat.lt_irrefl _), if_pos (Nat.lt_succ_self _), hmin, if_pos rfl]
    · by_cases ht2 : t < c + 1
      · have : t < c + 1 + 1 := by omega
        simp [ht, ht2, this]
      · have : ¬ t < c + 1 + 1 := by omega
        simp [ht, ht2, this]
  have hrootb : pageBytes (some (rootPage B0.length N ((N + 255) / 256)))
        (sizeof_uint16 * 2 + sizeof_uint32 * 2 + (N + 255) / 256 * sizeof_BOMPathIndices)
      = (rootPage B0.length N ((N + 255) / 256)).image :=
    pageBytes_some _ _ (by
      rw [rootPage_indices_length]
      simp [sizeof_uint16, sizeof_uint32, sizeof_BOMPathIndices]; omega)
  have hh2 := hpatched.addBlock (rootPage B0.length N ((N + 255) / 256)).image
  have hid2 := hpatched.addBlock_id (rootPage B0.length N ((N + 255) / 256)).image
  have hrc : rootChildId B0.length N = B0.length + (3 * N + (c + 1)) + 1 + 1 := by
    unfold rootChildId
    rw [if_pos hP, hc, hleaf]
  have hid2' : (((st.bom.addBlock (pageBytes st.paths st.current_path_size)).1.setForward
        (B0.length + (769 * c + 768) + 1) (leafId B0.length N (c + 1))).addBlock
          (rootPage B0.length N ((N + 255) / 256)).image).2 = rootChildId B0.length N := by
    rw [hid2, hrc]
    simp [hc]; omega
  have hfin := hh2.addVar [80, 97, 116, 104, 115] (treeBytes (rootChildId B0.length N) 4096 N)
  unfold finish_paths
  simp only [if_pos hP]
  rw [hid, hlast, hroot, hrootb, hid2']
  unfold blocksAfterPaths
  rw [if_pos hP]
  exact hfin

/-- The storage after the `Paths` block of `write_bom`, for a tree with `N` nodes below
the root, holds the blocks `blocksAfterPaths`. -/
theorem write_paths_holds (bom : BOMStorage) (B0 : List Bytes) (root : Node) (N : Nat)
    (hb : bom.Holds B0) (hN : N < 4294967296) (hV : (visitsOf root).length = N) :
    (write_paths bom root N).Holds (blocksAfterPaths (visitsOf root) B0 N) := by
  rw [write_paths_eq]
  have hinv := foldl_emit_inv (visitsOf root) B0 N _ (initial_inv _ B0 N bom root hb) hN hV
  by_cases hP : (N + 255) / 256 > 1
  · exact finish_paths_large _ B0 N _ hinv hP
  · exact finish_paths_small _ B0 N _ hinv hP _

/-! ## The storage that `write_bom` writes -/

theorem start_page_vars (num : Nat) (st : PathsState) :
    (start_page num st).bom.vars = st.bom.vars
    ∧ (start_page num st).bom.size_of_vars = st.bom.size_of_vars := by
  unfold start_page
  cases st.paths with
  | none => exact ⟨rfl, rfl⟩
  | some p =>
    simp only
    split <;> exact ⟨rfl, rfl⟩

theorem emit_node_vars (num p : Nat) (st : PathsState) (s : Bytes) (n : Node) :
    (emit_node num p st s n).bom.vars = st.bom.vars
    ∧ (emit_node num p st s n).bom.size_of_vars = st.bom.size_of_vars := by
  unfold emit_node
  split
  · exact ⟨(start_page_vars num st).1, (start_page_vars num st).2⟩
  · exact ⟨rfl, rfl⟩

theorem foldl_emit_vars (num : Nat) (vs : List Visit) (st : PathsState) :
    (vs.foldl (emit_visit num) st).bom.vars = st.bom.vars
    ∧ (vs.foldl (emit_visit num) st).bom.size_of_vars = st.bom.size_of_vars := by
  induction vs generalizing st with
  | nil => exact ⟨rfl, rfl⟩
  | cons v vs ih =>
    have h1 := ih (emit_visit num st v)
    have h2 := emit_node_vars num v.parent st v.name v.node
    exact ⟨h1.1.trans h2.1, h1.2.trans h2.2⟩

theorem finish_paths_vars (num np ps : Nat) (st : PathsState) :
    ∃ id, (finish_paths num np ps st).vars
        = { count := u32 (st.bom.vars.count + 1)
            first := st.bom.vars.first
              ++ [{ index := u32 id, length := u8 5, name := [80, 97, 116, 104, 115] }] }
      ∧ (finish_paths num np ps st).num_block_entries = id + 1 := by
  unfold finish_paths
  split
  · exact ⟨_, rfl, rfl⟩
  · exact ⟨_, rfl, rfl⟩

theorem pageBytes_empty :
    pageBytes (some { isLeaf := 1, count := 0, forward := 0, backward := 0, indices := [] })
      (sizeof_uint16 * 2 + sizeof_uint32 * 2) = emptyLeafBytes := rfl

theorem BOMStorage.addVar_vars (s : BOMStorage) (name data : Bytes) :
    (s.addVar name data).vars
      = { count := u32 (s.vars.count + 1)
          first := s.vars.first
            ++ [{ index := u32 s.num_block_entries, length := u8 name.length, name := name }] } :=
  rfl

theorem BOMStorage.addBlock_vars (s : BOMStorage) (data : Bytes) :
    (s.addBlock data).1.vars = s.vars := rfl

theorem BOMStorage.addVar_indexOffset (s : BOMStorage) (name data : Bytes) :
    (s.addVar name data).header.indexOffset
      = u32 ((s.addVar name data).size_of_header + (s.addVar name data).size_of_vars
          + (s.addVar name data).entry_size) := rfl

theorem write_aux_vars_spec (bom : BOMStorage) (B : List Bytes) (hb : bom.Holds B) :
    (write_aux_vars bom).Holds
      (B ++ [emptyLeafBytes, treeBytes (B.length + 1) 4096 0,
            emptyLeafBytes, treeBytes (B.length + 3) 128 0, vindexBytes (B.length + 4),
            emptyLeafBytes, treeBytes (B.length + 6) 4096 0])
    ∧ (write_aux_vars bom).vars
        = { count := u32 (u32 (u32 (bom.vars.count + 1) + 1) + 1)
            first := bom.vars.first
              ++ [{ index := u32 (B.length + 2), length := u8 7
                    name := [72, 76, 73, 110, 100, 101, 120] },
                  { index := u32 (B.length + 5), length := u8 6
                    name := [86, 73, 110, 100, 101, 120] },
                  { index := u32 (B.length + 7), length := u8 6
                    name := [83, 105, 122, 101, 54, 52] }] }
    ∧ (write_aux_vars bom).header.indexOffset
        = u32 (512 + (write_aux_vars bom).size_of_vars + (write_aux_vars bom).entries.length) := by
  have h1 := hb.addBlock emptyLeafBytes
  have i1 := hb.addBlock_id emptyLeafBytes
  have h2 := h1.addVar [72, 76, 73, 110, 100, 101, 120] (treeBytes (B.length + 1) 4096 0)
  have n2 := h1.num_block_entries
  have h3 := h2.addBlock emptyLeafBytes
  have i3 := h2.addBlock_id emptyLeafBytes
  have h4 := h3.addBlock (treeBytes (B.length + 3) 128 0)
  have i4 := h3.addBlock_id (treeBytes (B.length + 3) 128 0)
  have h5 := h4.addVar [86, 73, 110, 100, 101, 120] (vindexBytes (B.length + 4))
  have n5 := h4.num_block_entries
  have h6 := h5.addBlock emptyLeafBytes
  have i6 := h5.addBlock_id emptyLeafBytes
  have h7 := h6.addVar [83, 105, 122, 101, 54, 52] (treeBytes (B.length + 6) 4096 0)
  have n7 := h6.num_block_entries
  simp only [List.length_append, List.length_singleton] at i3 i4 i6 n2 n5 n7
  have e : write_aux_vars bom
      = (((((((bom.addBlock emptyLeafBytes).1.addVar [72, 76, 73, 110, 100, 101, 120]
            (treeBytes (B.length + 1) 4096 0)).addBlock emptyLeafBytes).1.addBlock
            (treeBytes (B.length + 3) 128 0)).1.addVar [86, 73, 110, 100, 101, 120]
            (vindexBytes (B.length + 4))).addBlock emptyLeafBytes).1.addVar
            [83, 105, 122, 101, 54, 52] (treeBytes (B.length + 6) 4096 0)) := by
    unfold write_aux_vars
    simp only [pageBytes_empty]
    rw [i1, i3, i4, i6]
  rw [e]
  refine ⟨?_, ?_, ?_⟩
  · simpa using h7
  · rw [BOMStorage.addVar_vars, n7, BOMStorage.addBlock_vars, BOMStorage.addVar_vars, n5,
      BOMStorage.addBlock_vars, BOMStorage.addBlock_vars, BOMStorage.addVar_vars, n2,
      BOMStorage.addBlock_vars]
    simp
  · rw [BOMStorage.addVar_indexOffset, h7.inv.header_size, h7.inv.entry_size_eq]

theorem write_paths_vars (bom : BOMStorage) (B0 : List Bytes) (root : Node) (N : Nat)
    (hb : bom.Holds B0) (hN : N < 4294967296) (hV : (visitsOf root).length = N) :
    (write_paths bom root N).vars
      = { count := u32 (bom.vars.count + 1)
          first := bom.vars.first
            ++ [{ index := u32 (blocksAfterPaths (visitsOf root) B0 N).length, length := u8 5
                  name := [80, 97, 116, 104, 115] }] } := by
  have hh := write_paths_holds bom B0 root N hb hN hV
  have hn := hh.num_block_entries
  rw [write_paths_eq] at hn ⊢
  obtain ⟨id, h1, h2⟩ := finish_paths_vars N ((N + 255) / 256)
    (sizeof_uint16 * 2 + sizeof_uint32 * 2 + (N + 255) / 256 * sizeof_BOMPathIndices)
    ((visitsOf root).foldl (emit_visit N) (initialPathsState bom root N))
  rw [h1, (foldl_emit_vars N (visitsOf root) (initialPathsState bom root N)).1]
  have : id = (blocksAfterPaths (visitsOf root) B0 N).length := by omega
  rw [this]
  rfl

/-- The storage that `write_bom` writes, for a tree with `N` nodes below the root: its
blocks, its vars and the offset of the block table in its header. -/
theorem build_bom_spec (root : Node) (N : Nat) (hN : N < 4294967296)
    (hV : (visitsOf root).length = N) :
    (build_bom root N).Holds (blocksOfBuild (visitsOf root) N)
    ∧ (build_bom root N).vars
        = { count := 5
            first := varsOfBuild (blocksAfterPaths (visitsOf root) [bomInfoBytes N] N).length }
    ∧ (build_bom root N).header.indexOffset
        = u32 (512 + (build_bom root N).size_of_vars + (build_bom root N).entries.length)
    ∧ (build_bom root N).header.varsOffset = 512 := by
  have h0 : (BOMStorage.new.addVar [66, 111, 109, 73, 110, 102, 111] (bomInfoBytes N)).Holds
      [bomInfoBytes N] := by
    simpa using BOMStorage.holds_new.addVar [66, 111, 109, 73, 110, 102, 111] (bomInfoBytes N)
  have h1 := write_paths_holds _ _ root N h0 hN hV
  have v1 := write_paths_vars _ _ root N h0 hN hV
  obtain ⟨h2, v2, o2⟩ := write_aux_vars_spec _ _ h1
  refine ⟨h2, ?_, o2, ?_⟩
  · show (write_aux_vars _).vars = _
    rw [v2, v1]
    rfl
  · exact h2.inv.vars_offset

/-! ## Reading back what `write` wrote -/

theorem getD_drop (buf : Bytes) (off k : Nat) : (buf.drop off).getD k 0 = buf.getD (off + k) 0 := by
  simp [List.getD_eq_getElem?_getD, List.getElem?_drop]

theorem ntohlAt_drop (buf : Bytes) (off k : Nat) :
    ntohlAt (buf.drop off) k = ntohlAt buf (off + k) := by
  simp only [ntohlAt, getD_drop, Nat.add_assoc]

theorem ntohsAt_drop (buf : Bytes) (off k : Nat) :
    ntohsAt (buf.drop off) k = ntohsAt buf (off + k) := by
  simp only [ntohsAt, getD_drop, Nat.add_assoc]

theorem ntohlAt_of_drop (buf : Bytes) (off x : Nat) (rest : Bytes)
    (h : buf.drop off = htonl x ++ rest) : ntohlAt buf off = u32 x := by
  have := ntohlAt_drop buf off 0
  rw [h, ntohlAt_htonl] at this
  simpa using this.symm

theorem ntohsAt_htons (x : Nat) (rest : Bytes) : ntohsAt (htons x ++ rest) 0 = u16 x := by
  simp only [ntohsAt, htons, u16, List.getD_eq_getElem?_getD]
  simp
  omega

theorem ntohsAt_of_drop (buf : Bytes) (off x : Nat) (rest : Bytes)
    (h : buf.drop off = htons x ++ rest) : ntohsAt buf off = u16 x := by
  have := ntohsAt_drop buf off 0
  rw [h, ntohsAt_htons] at this
  simpa using this.symm

theorem drop_add (buf : Bytes) (a b : Nat) : buf.drop (a + b) = (buf.drop a).drop b := by
  rw [List.drop_drop, Nat.add_comm]

theorem drop_flatten_chunks {α : Type} (f : α → Bytes) (c : Nat) (hf : ∀ a, (f a).length = c)
    (l : List α) (i : Nat) :
    ((l.map f).flatten).drop (c * i) = ((l.drop i).map f).flatten := by
  induction l generalizing i with
  | nil => simp
  | cons a l ih =>
    cases i with
    | zero => simp
    | succ i =>
      simp only [List.map_cons, List.flatten_cons, List.drop_succ_cons]
      rw [List.drop_append_eq_append_drop, List.drop_of_length_le (by rw [hf]; rw [Nat.mul_succ]; omega),
        hf, List.nil_append, show c * (i + 1) - c = c * i by rw [Nat.mul_succ]; omega]
      exact ih i

/-- The five parts of the written file. -/
theorem write_parts (le : Bool) (s : BOMStorage) (h : s.Inv)
    (hn : s.num_block_entries < 4294967296) :
    ∃ H T : Bytes, s.write le = H ++ s.vars.image ++ s.entries ++ T ++ s.free_list.image
      ∧ H.length = 512
      ∧ H.drop 16 = htonl s.header.indexOffset ++ H.drop 20
      ∧ H.drop 24 = htonl s.header.varsOffset ++ H.drop 28
      ∧ T = htonl s.block_table.numberOfBlockTablePointers
            ++ ((s.block_table.blockPointers.map (writePointer le 512 s.size_of_vars)).flatten) := by
  refine ⟨s.header.image 512, _, BOMStorage.write_eq le s h hn,
    BOMHeader.image_length _ h.magic_length, ?_, ?_, rfl⟩
  · simp only [BOMHeader.image, h.magic_eq]
    generalize List.replicate _ 0 = Z
    simp [magicBOMStore, htonl]
  · simp only [BOMHeader.image, h.magic_eq]
    generalize List.replicate _ 0 = Z
    simp [magicBOMStore, htonl]

theorem readVarsFrom_spec (file : Bytes) (vs : List BOMVar) (off : Nat) (rest : Bytes)
    (h : file.drop off = (vs.map BOMVar.image).flatten ++ rest)
    (hv : ∀ v ∈ vs, v.length = v.name.length ∧ v.index < 4294967296) :
    readVarsFrom file vs.length off = vs.map (fun v => (v.name, v.index)) := by
  induction vs generalizing off with
  | nil => rfl
  | cons v vs ih =>
    have hv1 := hv v (List.mem_cons_self _ _)
    have h0 : file.drop off
        = htonl v.index ++ ([v.length] ++ v.name ++ ((vs.map BOMVar.image).flatten ++ rest)) := by
      rw [h]; simp [BOMVar.image]
    have hidx : ntohlAt file off = v.index := by
      rw [ntohlAt_of_drop file off v.index _ h0, u32_of_lt hv1.2]
    have h4 : file.drop (off + 4) = [v.length] ++ v.name ++ ((vs.map BOMVar.image).flatten ++ rest) := by
      rw [drop_add, h0]
      exact List.drop_left' (htonl_length _)
    have hlen : file.getD (off + 4) 0 = v.name.length := by
      have := getD_drop file (off + 4) 0
      rw [h4] at this
      rw [Nat.add_zero] at this
      rw [← this, ← hv1.1]
      rfl
    have h5 : file.drop (off + 5) = v.name ++ ((vs.map BOMVar.image).flatten ++ rest) := by
      rw [show off + 5 = off + 4 + 1 by rfl, drop_add, h4]
      simp
    have h6 : file.drop (off + 5 + v.name.length) = (vs.map BOMVar.image).flatten ++ rest := by
      rw [drop_add, h5]
      exact List.drop_left _ _
    simp only [List.length_cons, readVarsFrom, List.map_cons, hidx, hlen]
    rw [ih (off + 5 + v.name.length) h6 (fun w hw => hv w (List.mem_cons_of_mem _ hw)), h5,
      List.take_left]

theorem drop_ptrsFrom (off : Nat) (bs : List Bytes) (i : Nat) (hi : i < bs.length) :
    ∃ more, (ptrsFrom off bs).drop i
      = { address := off + (bs.take i).flatten.length, length := u32 (bs[i]).length } :: more := by
  have h := ptrsFrom_getElem? off bs i hi
  have hlt : i < (ptrsFrom off bs).length := by rw [ptrsFrom_length]; exact hi
  refine ⟨(ptrsFrom off bs).drop (i + 1), ?_⟩
  rw [List.drop_eq_getElem_cons hlt]
  congr 1
  rw [List.getElem?_eq_getElem hlt] at h
  exact Option.some.inj h

theorem flatten_length_le_of_mem (bs : List Bytes) (i : Nat) (hi : i < bs.length) :
    (bs[i]).length ≤ bs.flatten.length := by
  have := flatten_take_add_le bs i hi
  omega

theorem u32_u32 (x : Nat) : u32 (u32 x) = u32 x := by
  simp only [u32]; omega

/-- A file written from a storage that holds `blocks`, whose header was last updated by
`addVar` and whose size fits in 32 bits, reads back as these blocks and vars. -/
theorem isFile_write (le : Bool) (s : BOMStorage) (blocks : List Bytes) (vars : List BOMVar)
    (hh : s.Holds blocks) (hvc : s.vars.count = vars.length) (hvf : s.vars.first = vars)
    (hvw : ∀ v ∈ vars, v.length = v.name.length ∧ v.index < 4294967296)
    (hio : s.header.indexOffset = u32 (512 + s.size_of_vars + s.entries.length))
    (hsize : (s.write le).length < 4294967296) :
    IsFile (s.write le) blocks vars := by
  have hinv := hh.inv
  have hnb := hh.num_block_entries
  have hpl : s.block_table.blockPointers.length = blocks.length + 1 := by
    rw [← hinv.num_entries_eq, hnb]
  -- a first, crude bound on the number of blocks, to open the file
  have hwl : (s.write le).length
      = 512 + s.size_of_vars + s.entries.length + s.size_of_block_table + 20 := by
    unfold BOMStorage.write
    simp only [List.length_append, List.length_take]
    have h1 : (s.header.image s.size_of_header).length = 512 := by
      rw [hinv.header_size]; exact BOMHeader.image_length _ hinv.magic_length
    have h2 : (writeTable le s).length = 4 + 8 * s.block_table.blockPointers.length := by
      unfold writeTable
      simp only [List.length_append, htonl_length]
      rw [flatten_map_length_const _ 8 _ (writePointer_length le _ _),
        flatten_map_length_const _ 8 _ (by intro p; simp [BOMPointer.image])]
      simp only [List.length_take, List.length_drop]
      omega
    have h3 : s.free_list.image.length = 20 := by rw [hinv.free_list_eq]; rfl
    rw [h1, h2, h3, hinv.header_size, ← hinv.vars_size, ← hinv.entry_size_eq, hinv.table_size,
      hinv.free_size, ← hinv.num_entries_eq]
    omega
  rw [hinv.table_size, hnb] at hwl
  have hn : s.num_block_entries < 4294967296 := by omega
  obtain ⟨H, T, hfile, hH, hH16, hH24, hT⟩ := write_parts le s hinv hn
  have hcount : s.block_table.numberOfBlockTablePointers = blocks.length + 1 := by
    rw [hinv.table_count, hnb, u32_of_lt (by omega)]
  have hVI : s.vars.image.length = s.size_of_vars := hinv.vars_size.symm
  have hioV : s.header.indexOffset = 512 + s.size_of_vars + s.entries.length := by
    rw [hio, u32_of_lt (by omega)]
  -- the offsets in the header
  have hfio : fileIndexOffset (s.write le) = 512 + s.size_of_vars + s.entries.length := by
    unfold fileIndexOffset
    have : (s.write le).drop 16
        = htonl s.header.indexOffset
          ++ (H.drop 20 ++ s.vars.image ++ s.entries ++ T ++ s.free_list.image) := by
      rw [hfile]
      simp only [List.append_assoc]
      rw [List.drop_append_of_le_length (by omega), hH16]
      simp
    rw [ntohlAt_of_drop _ _ _ _ this, hioV, u32_of_lt (by omega)]
  have hfvo : fileVarsOffset (s.write le) = 512 := by
    unfold fileVarsOffset
    have : (s.write le).drop 24
        = htonl s.header.varsOffset
          ++ (H.drop 28 ++ s.vars.image ++ s.entries ++ T ++ s.free_list.image) := by
      rw [hfile]
      simp only [List.append_assoc]
      rw [List.drop_append_of_le_length (by omega), hH24]
      simp
    rw [ntohlAt_of_drop _ _ _ _ this, hinv.vars_offset]
    rfl
  have hdropV : (s.write le).drop 512 = s.vars.image ++ (s.entries ++ T ++ s.free_list.image) := by
    rw [hfile]
    simp only [List.append_assoc]
    exact List.drop_left' hH
  have hdropE : ∀ a, a ≤ s.entries.length → (s.write le).drop (512 + s.size_of_vars + a)
      = s.entries.drop a ++ (T ++ s.free_list.image) := by
    intro a ha
    rw [Nat.add_assoc, drop_add, hdropV, drop_add, List.drop_left' hVI]
    simp only [List.append_assoc]
    rw [List.drop_append_of_le_length ha]
  have hdropT : (s.write le).drop (512 + s.size_of_vars + s.entries.length)
      = T ++ s.free_list.image := by
    rw [hdropE _ (Nat.le_refl _), List.drop_length, List.nil_append]
  have hXlen : ((s.block_table.blockPointers.map (writePointer le 512 s.size_of_vars)).flatten).length
      = 8 * (blocks.length + 1) := by
    rw [flatten_map_length_const _ 8 _ (writePointer_length le _ _), hpl]
  refine ⟨?_, ?_, ?_, by rw [← hh.entries_eq]; omega⟩
  · intro i hi
    obtain ⟨more, hmore⟩ := drop_ptrsFrom 0 blocks i hi
    have hL := flatten_length_le_of_mem blocks i hi
    have hA := flatten_take_add_le blocks i hi
    rw [← hh.entries_eq] at hL hA
    have hdropP : (s.write le).drop (512 + s.size_of_vars + s.entries.length + 4 + 8 * (i + 1))
        = writePointer le 512 s.size_of_vars
            { address := 0 + (blocks.take i).flatten.length, length := u32 (blocks[i]).length }
          ++ ((more.map (writePointer le 512 s.size_of_vars)).flatten ++ s.free_list.image) := by
      rw [Nat.add_assoc (512 + s.size_of_vars + s.entries.length), drop_add, hdropT, hT,
        drop_add]
      simp only [List.append_assoc]
      rw [List.drop_left' (htonl_length _), List.drop_append_of_le_length (by rw [hXlen]; omega),
        drop_flatten_chunks _ 8 (writePointer_length le _ _), hh.pointers_eq,
        List.drop_succ_cons, hmore]
      simp
    have hlenP : (filePointer (s.write le) (i + 1)).2 = (blocks[i]).length := by
      unfold filePointer
      simp only [hfio]
      have : (s.write le).drop (512 + s.size_of_vars + s.entries.length + 4 + 8 * (i + 1) + 4)
          = htonl (u32 (blocks[i]).length)
            ++ ((more.map (writePointer le 512 s.size_of_vars)).flatten ++ s.free_list.image) := by
        rw [drop_add, hdropP]
        unfold writePointer
        simp only [List.append_assoc]
        apply List.drop_left'
        split <;> simp
      rw [ntohlAt_of_drop _ _ _ _ this, u32_u32, u32_of_lt (by omega)]
    unfold fileBlock
    rw [hlenP]
    by_cases hz : (blocks[i]).length = 0
    · rw [hz, List.take_zero]
      exact (List.length_eq_zero.mp hz).symm
    · have haddr : (filePointer (s.write le) (i + 1)).1
          = 512 + s.size_of_vars + (blocks.take i).flatten.length := by
        unfold filePointer
        simp only [hfio]
        have hne : u32 (blocks[i]).length ≠ 0 := by rw [u32_of_lt (by omega)]; exact hz
        have : (s.write le).drop (512 + s.size_of_vars + s.entries.length + 4 + 8 * (i + 1))
            = htonl (0 + (blocks.take i).flatten.length + 512 + s.size_of_vars)
              ++ (htonl (u32 (blocks[i]).length)
              ++ ((more.map (writePointer le 512 s.size_of_vars)).flatten ++ s.free_list.image)) := by
          rw [hdropP]
          unfold writePointer
          simp only [if_pos hne, List.append_assoc]
        rw [ntohlAt_of_drop _ _ _ _ this, u32_of_lt (by omega)]
        omega
      rw [haddr, hdropE _ (by omega),
        List.take_append_of_le_length (by rw [List.length_drop]; omega), hh.entries_eq]
      exact flatten_drop_take blocks i hi
  · unfold readVars
    rw [hfvo]
    have h512 : (s.write le).drop 512
        = htonl s.vars.count
          ++ ((s.vars.first.map BOMVar.image).flatten ++ (s.entries ++ T ++ s.free_list.image)) := by
      rw [hdropV]; simp [BOMVars.image]
    have hcnt : ntohlAt (s.write le) 512 = vars.length := by
      rw [ntohlAt_of_drop _ _ _ _ h512, hvc, u32_of_lt]
      have h4 : s.vars.image.length = 4 + (s.vars.first.map BOMVar.image).flatten.length := by
        simp [BOMVars.image]
      rw [hvf] at h4
      have h5 : ∀ l : List BOMVar, l.length ≤ (l.map BOMVar.image).flatten.length := by
        intro l
        induction l with
        | nil => simp
        | cons v l ih => simp [BOMVar.image] at ih ⊢; omega
      have := h5 vars
      omega
    rw [hcnt]
    apply readVarsFrom_spec _ _ _ (s.entries ++ T ++ s.free_list.image) _ hvw
    rw [drop_add, h512, List.drop_left' (htonl_length _), hvf]
  · unfold fileNumPointers
    rw [hfio]
    have : (s.write le).drop (512 + s.size_of_vars + s.entries.length)
        = htonl s.block_table.numberOfBlockTablePointers
          ++ (((s.block_table.blockPointers.map (writePointer le 512 s.size_of_vars)).flatten)
            ++ s.free_list.image) := by
      rw [hdropT, hT]; simp
    rw [ntohlAt_of_drop _ _ _ _ this, hcount, u32_of_lt (by omega)]

/-! ## Looking up the blocks of the `Paths` tree -/

theorem blocksAfterPaths_length (V : List Visit) (B0 : List Bytes) (N : Nat) :
    (blocksAfterPaths V B0 N).length
      = B0.length + (3 * N + (N - 1) / 256) + 1 + (if (N + 255) / 256 > 1 then 1 else 0) + 1 := by
  unfold blocksAfterPaths
  split <;> simp <;> omega

theorem blocksAfterPaths_body (V : List Visit) (B0 : List Bytes) (N x : Nat)
    (hx : x < 3 * N + (N - 1) / 256) :
    (blocksAfterPaths V B0 N)[B0.length + x]?
      = some (pathsBlock V B0.length N ((N + 255) / 256) x) := by
  unfold blocksAfterPaths
  simp only [List.append_assoc]
  rw [List.getElem?_append_right (Nat.le_add_right _ _), Nat.add_sub_cancel_left,
    List.getElem?_append_left (by simpa using hx)]
  simp [List.getElem?_range hx]

theorem blocksAfterPaths_info2 (V : List Visit) (B0 : List Bytes) (N j : Nat) (v : Visit)
    (hv : V[j]? = some v) (hj : j < N) :
    (blocksAfterPaths V B0 N)[info2Index B0.length j]? = some (info2Bytes v.node.info) := by
  rw [info2Index_eq, blocksAfterPaths_body V B0 N _ (by omega), pathsBlock_info2 V _ N _ j v hv]

theorem blocksAfterPaths_info1 (V : List Visit) (B0 : List Bytes) (N j : Nat) (v : Visit)
    (hv : V[j]? = some v) (hj : j < N) :
    (blocksAfterPaths V B0 N)[info2Index B0.length j + 1]?
      = some (info1Bytes (j + 1) (info2Index B0.length j + 1)) := by
  have h : info2Index B0.length j + 1 = B0.length + (3 * j + j / 256 + 1) := by
    rw [info2Index_eq]; omega
  have := blocksAfterPaths_body V B0 N (3 * j + j / 256 + 1) (by omega)
  rw [pathsBlock_info1 V _ N _ j v hv, ← h] at this
  exact this

theorem blocksAfterPaths_file (V : List Visit) (B0 : List Bytes) (N j : Nat) (v : Visit)
    (hv : V[j]? = some v) (hj : j < N) :
    (blocksAfterPaths V B0 N)[info2Index B0.length j + 2]?
      = some (fileBytes v.parent v.name) := by
  have h : info2Index B0.length j + 2 = B0.length + (3 * j + j / 256 + 2) := by
    rw [info2Index_eq]; omega
  have := blocksAfterPaths_body V B0 N (3 * j + j / 256 + 2) (by omega)
  rw [pathsBlock_file V _ N _ j v hv, ← h] at this
  exact this

/-- The page number `c` as it is in the file: all its pairs are assigned and `forward`
names the next page, if there is one. -/
theorem blocksAfterPaths_leaf (V : List Visit) (B0 : List Bytes) (N c : Nat)
    (hc : c < (N + 255) / 256) :
    (blocksAfterPaths V B0 N)[leafId B0.length N c - 1]?
      = some (leafPage B0.length N c (min 256 (N - 256 * c))
          (if c + 1 < (N + 255) / 256 then leafId B0.length N (c + 1) else 0)).image := by
  by_cases hlast : c + 1 < (N + 255) / 256
  · have hfull : 256 * (c + 1) ≤ N := by omega
    rw [leafId_of_full _ _ _ hfull, Nat.add_sub_cancel,
      blocksAfterPaths_body V B0 N _ (by omega), pathsBlock_leaf,
      show min 256 (N - 256 * c) = 256 by omega]
  · have hc1 : c = (N - 1) / 256 := by omega
    have hN : N ≠ 0 := by omega
    have hid : leafId B0.length N c - 1 = B0.length + (3 * N + (N - 1) / 256) := by
      unfold leafId
      rw [Nat.min_eq_left (by omega)]; omega
    have hcnt : min 256 (N - 256 * c) = N - 256 * ((N - 1) / 256) := by omega
    rw [hid, if_neg hlast, hcnt, hc1]
    unfold blocksAfterPaths lastLeafBytes
    simp only [List.append_assoc, if_neg hN]
    rw [List.getElem?_append_right (Nat.le_add_right _ _), Nat.add_sub_cancel_left,
      List.getElem?_append_right (by simp)]
    simp

theorem blocksAfterPaths_root (V : List Visit) (B0 : List Bytes) (N : Nat)
    (hP : (N + 255) / 256 > 1) :
    (blocksAfterPaths V B0 N)[rootChildId B0.length N - 1]?
      = some (rootPage B0.length N ((N + 255) / 256)).image := by
  have hid : rootChildId B0.length N - 1 = B0.length + (3 * N + (N - 1) / 256) + 1 := by
    unfold rootChildId leafId
    rw [if_pos hP, Nat.min_eq_left (by omega)]; omega
  rw [hid]
  unfold blocksAfterPaths
  simp only [List.append_assoc, if_pos hP]
  rw [List.getElem?_append_right (by omega),
    List.getElem?_append_right (by simp; omega)]
  simp
  rw [show B0.length + (3 * N + (N - 1) / 256) + 1 - B0.length - (3 * N + (N - 1) / 256) = 1 by omega]
  rfl

theorem blocksAfterPaths_tree (V : List Visit) (B0 : List Bytes) (N : Nat) :
    (blocksAfterPaths V B0 N)[(blocksAfterPaths V B0 N).length - 1]?
      = some (treeBytes (rootChildId B0.length N) 4096 N) := by
  have : blocksAfterPaths V B0 N
      = (B0 ++ (List.range (3 * N + (N - 1) / 256)).map (pathsBlock V B0.length N ((N + 255) / 256))
          ++ [lastLeafBytes B0.length N]
          ++ (if (N + 255) / 256 > 1 then [(rootPage B0.length N ((N + 255) / 256)).image] else []))
        ++ [treeBytes (rootChildId B0.length N) 4096 N] := rfl
  rw [this, List.length_append, List.length_singleton, Nat.add_sub_cancel,
    List.getElem?_append_right (Nat.le_refl _), Nat.sub_self]
  rfl

/-! ## Reading the pages and the entries of the `Paths` tree -/

theorem u16_of_lt {x : Nat} (h : x < 65536) : u16 x = x := Nat.mod_eq_of_lt h

theorem u16_u16 (x : Nat) : u16 (u16 x) = u16 x := by
  simp only [u16]; omega

theorem image_drop_indices (p : BOMPaths) (i : Nat) :
    p.image.drop (12 + 8 * i)
      = ((p.indices.drop i).map (fun x => htonl x.1 ++ htonl x.2)).flatten := by
  have h : p.image = (htons p.isLeaf ++ htons p.count ++ htonl p.forward ++ htonl p.backward)
      ++ (p.indices.map (fun x => htonl x.1 ++ htonl x.2)).flatten := rfl
  rw [h, drop_add, List.drop_left' (by simp), drop_flatten_chunks _ 8 (by intro a; simp)]

theorem readPage_image (p : BOMPaths) (hc : u16 p.count = p.indices.length) :
    readPage p.image
      = { isLeaf := u16 p.isLeaf, count := p.indices.length, forward := u32 p.forward
          backward := u32 p.backward
          indices := p.indices.map (fun x => (u32 x.1, u32 x.2)) } := by
  have h0 : p.image.drop 0 = htons p.isLeaf ++ (htons p.count ++ htonl p.forward
      ++ htonl p.backward ++ (p.indices.map (fun x => htonl x.1 ++ htonl x.2)).flatten) := by
    simp [BOMPaths.image]
  have h2 : p.image.drop 2 = htons p.count ++ (htonl p.forward
      ++ htonl p.backward ++ (p.indices.map (fun x => htonl x.1 ++ htonl x.2)).flatten) := by
    simp [BOMPaths.image, htons]
  have h4 : p.image.drop 4 = htonl p.forward
      ++ (htonl p.backward ++ (p.indices.map (fun x => htonl x.1 ++ htonl x.2)).flatten) := by
    simp [BOMPaths.image, htons]
  have h8 : p.image.drop 8 = htonl p.backward
      ++ (p.indices.map (fun x => htonl x.1 ++ htonl x.2)).flatten := by
    simp [BOMPaths.image, htons, htonl]
  have e0 := ntohsAt_of_drop _ _ _ _ h0
  have e2 := ntohsAt_of_drop _ _ _ _ h2
  have e4 := ntohlAt_of_drop _ _ _ _ h4
  have e8 := ntohlAt_of_drop _ _ _ _ h8
  unfold readPage
  rw [e0, e2, e4, e8, hc]
  congr 1
  apply List.ext_getElem?
  intro i
  by_cases hi : i < p.indices.length
  · rw [List.getElem?_map, List.getElem?_range hi, List.getElem?_map,
      List.getElem?_eq_getElem hi]
    simp only [Option.map_some']
    have hd : p.image.drop (12 + 8 * i)
        = htonl (p.indices[i]).1 ++ (htonl (p.indices[i]).2
          ++ ((p.indices.drop (i + 1)).map (fun x => htonl x.1 ++ htonl x.2)).flatten) := by
      rw [image_drop_indices, List.drop_eq_getElem_cons hi, List.map_cons, List.flatten_cons,
        List.append_assoc]
    have hd4 : p.image.drop (12 + 8 * i + 4)
        = htonl (p.indices[i]).2
          ++ ((p.indices.drop (i + 1)).map (fun x => htonl x.1 ++ htonl x.2)).flatten := by
      rw [drop_add, hd, List.drop_left' (htonl_length _)]
    rw [ntohlAt_of_drop _ _ _ _ hd, ntohlAt_of_drop _ _ _ _ hd4]
  · rw [List.getElem?_eq_none (by simpa using hi), List.getElem?_eq_none (by simpa using hi)]

theorem isFile_build (le : Bool) (root : Node) (N : Nat) (hN : N < 4294967296)
    (hV : (visitsOf root).length = N)
    (hsize : ((build_bom root N).write le).length < 4294967296) :
    IsFile ((build_bom root N).write le) (blocksOfBuild (visitsOf root) N)
      (varsOfBuild (blocksAfterPaths (visitsOf root) [bomInfoBytes N] N).length) := by
  obtain ⟨hh, hv, hio, _⟩ := build_bom_spec root N hN hV
  apply isFile_write le _ _ _ hh (by rw [hv]; rfl) (by rw [hv]) _ hio hsize
  intro v hv
  simp only [varsOfBuild, List.mem_cons, List.mem_singleton, List.not_mem_nil, or_false] at hv
  rcases hv with rfl | rfl | rfl | rfl | rfl <;> exact ⟨rfl, Nat.mod_lt _ (by decide)⟩

theorem IsFile.block_of_getElem? {file : Bytes} {blocks : List Bytes} {vars : List BOMVar}
    (h : IsFile file blocks vars) (i : Nat) (b : Bytes) (hb : blocks[i]? = some b) :
    fileBlock file (i + 1) = b := by
  have hi : i < blocks.length := by
    by_contra hc
    rw [List.getElem?_eq_none (by omega)] at hb
    exact Option.noConfusion hb
  rw [h.block_eq i hi]
  rw [List.getElem?_eq_getElem hi] at hb
  exact Option.some.inj hb

theorem blocksOfBuild_getElem? (V : List Visit) (N i : Nat) (b : Bytes)
    (hb : (blocksAfterPaths V [bomInfoBytes N] N)[i]? = some b) :
    (blocksOfBuild V N)[i]? = some b := by
  have hi : i < (blocksAfterPaths V [bomInfoBytes N] N).length := by
    by_contra hc
    rw [List.getElem?_eq_none (by omega)] at hb
    exact Option.noConfusion hb
  unfold blocksOfBuild
  simp only
  rw [List.getElem?_append_left hi]
  exact hb

/-! ## The file that `write_bom` writes -/

theorem builtFile_of_build (le : Bool) (root : Node) (N : Nat) (hN : N < 4294967296)
    (hV : (visitsOf root).length = N)
    (hsize : ((build_bom root N).write le).length < 4294967296) :
    BuiltFile ((build_bom root N).write le) (visitsOf root) N :=
  ⟨hV, isFile_build le root N hN hV hsize⟩

theorem blocksOfBuild_length (V : List Visit) (N : Nat) :
    (blocksOfBuild V N).length
      = 1 + (3 * N + (N - 1) / 256) + 1 + (if (N + 255) / 256 > 1 then 1 else 0) + 1 + 7 := by
  unfold blocksOfBuild
  simp only [List.length_append, blocksAfterPaths_length]
  simp

theorem BuiltFile.blocks_lt {F : Bytes} {V : List Visit} {N : Nat} (h : BuiltFile F V N) :
    8 * (3 * N + (N - 1) / 256 + 11) < 4294967296 := by
  have := h.isFile.fits
  rw [blocksOfBuild_length] at this
  split at this <;> omega

theorem BuiltFile.block {F : Bytes} {V : List Visit} {N : Nat} (h : BuiltFile F V N)
    (i : Nat) (b : Bytes) (hb : (blocksAfterPaths V [bomInfoBytes N] N)[i]? = some b) :
    fileBlock F (i + 1) = b :=
  h.isFile.block_of_getElem? i b (blocksOfBuild_getElem? V N i b hb)

theorem BuiltFile.info2 {F : Bytes} {V : List Visit} {N : Nat} (h : BuiltFile F V N)
    (j : Nat) (v : Visit) (hv : V[j]? = some v) (hj : j < N) :
    fileBlock F (info2Index 1 j + 1) = info2Bytes v.node.info :=
  h.block _ _ (blocksAfterPaths_info2 V [bomInfoBytes N] N j v hv hj)

theorem BuiltFile.info1 {F : Bytes} {V : List Visit} {N : Nat} (h : BuiltFile F V N)
    (j : Nat) (v : Visit) (hv : V[j]? = some v) (hj : j < N) :
    fileBlock F (info2Index 1 j + 2) = info1Bytes (j + 1) (info2Index 1 j + 1) :=
  h.block _ _ (blocksAfterPaths_info1 V [bomInfoBytes N] N j v hv hj)

theorem BuiltFile.file {F : Bytes} {V : List Visit} {N : Nat} (h : BuiltFile F V N)
    (j : Nat) (v : Visit) (hv : V[j]? = some v) (hj : j < N) :
    fileBlock F (info2Index 1 j + 3) = fileBytes v.parent v.name :=
  h.block _ _ (blocksAfterPaths_file V [bomInfoBytes N] N j v hv hj)

theorem leafId_pos (b0 N c : Nat) : 1 ≤ leafId b0 N c := by
  unfold leafId; omega

theorem BuiltFile.leaf_block {F : Bytes} {V : List Visit} {N : Nat} (h : BuiltFile F V N)
    (c : Nat) (hc : c < (N + 255) / 256) :
    fileBlock F (leafId 1 N c)
      = (leafPage 1 N c (min 256 (N - 256 * c))
          (if c + 1 < (N + 255) / 256 then leafId 1 N (c + 1) else 0)).image := by
  have := h.block _ _ (blocksAfterPaths_leaf V [bomInfoBytes N] N c hc)
  rw [Nat.sub_add_cancel (leafId_pos _ _ _)] at this
  exact this

theorem leafId_le (N c : Nat) (hc : c < (N + 255) / 256) :
    leafId 1 N c ≤ 3 * N + (N - 1) / 256 + 2 := by
  unfold leafId
  omega

theorem info2Index_le (N j : Nat) (hj : j < N) : info2Index 1 j + 3 ≤ 3 * N + (N - 1) / 256 + 2 := by
  rw [info2Index_eq]
  omega

theorem BuiltFile.leaf_read {F : Bytes} {V : List Visit} {N : Nat} (h : BuiltFile F V N)
    (c : Nat) (hc : c < (N + 255) / 256) :
    readPage (fileBlock F (leafId 1 N c)) = leafOfBuild N c
    ∧ (fileBlock F (leafId 1 N c)).length = 12 + 8 * min 256 (N - 256 * c) := by
  have hb := h.blocks_lt
  rw [h.leaf_block c hc]
  constructor
  · have hcount : u16 (leafPage 1 N c (min 256 (N - 256 * c))
          (if c + 1 < (N + 255) / 256 then leafId 1 N (c + 1) else 0)).count
        = (leafPage 1 N c (min 256 (N - 256 * c))
          (if c + 1 < (N + 255) / 256 then leafId 1 N (c + 1) else 0)).indices.length := by
      simp only [leafPage, u16_u16, List.length_map, List.length_range]
      exact u16_of_lt (by omega)
    rw [readPage_image _ hcount]
    unfold leafOfBuild
    simp only [leafPage, List.length_map, List.length_range, List.map_map]
    congr 1
    · split
      · exact u32_of_lt (by have := leafId_le N (c + 1) (by omega); omega)
      · rfl
    · rw [u32_u32]
      split
      · rfl
      · exact u32_of_lt (by have := leafId_le N (c - 1) (by omega); omega)
    · apply List.map_congr_left
      intro t ht
      rw [List.mem_range] at ht
      have ht2 : t < min 256 (N - 256 * c) := ht
      have := info2Index_le N (256 * c + t) (by omega)
      simp only [Function.comp, if_pos ht2, leafEntry, u32_u32]
      rw [u32_of_lt (by omega), u32_of_lt (by omega)]
  · rw [BOMPaths.page_image_length]
    simp [leafPage]

theorem BuiltFile.leafChain_eq {F : Bytes} {V : List Visit} {N : Nat} (h : BuiltFile F V N)
    (fuel c : Nat) (hc : c < (N + 255) / 256) (hf : (N + 255) / 256 - c ≤ fuel) :
    leafChain F fuel (leafId 1 N c)
      = some ((List.range' c ((N + 255) / 256 - c)).map (leafId 1 N)) := by
  induction fuel generalizing c with
  | zero => omega
  | succ fuel ih =>
    obtain ⟨hr, hl⟩ := h.leaf_read c hc
    have hlen : ¬ (fileBlock F (leafId 1 N c)).length < 12 := by rw [hl]; omega
    simp only [leafChain, if_neg hlen, hr]
    by_cases hnext : c + 1 < (N + 255) / 256
    · have hfw : (leafOfBuild N c).forward = leafId 1 N (c + 1) := by
        simp [leafOfBuild, hnext]
      have hne : leafId 1 N (c + 1) ≠ 0 := by have := leafId_pos 1 N (c + 1); omega
      rw [hfw, if_neg hne, ih (c + 1) hnext (by omega)]
      have : (N + 255) / 256 - c = ((N + 255) / 256 - (c + 1)) + 1 := by omega
      rw [this, List.range'_succ]
      rfl
    · have hfw : (leafOfBuild N c).forward = 0 := by
        simp [leafOfBuild, hnext]
      have : (N + 255) / 256 - c = 1 := by omega
      rw [hfw, if_pos rfl, this]
      rfl

theorem BuiltFile.root_block {F : Bytes} {V : List Visit} {N : Nat} (h : BuiltFile F V N)
    (hP : (N + 255) / 256 > 1) :
    fileBlock F (rootChildId 1 N) = (rootPage 1 N ((N + 255) / 256)).image := by
  have := h.block _ _ (blocksAfterPaths_root V [bomInfoBytes N] N hP)
  have hpos : 1 ≤ rootChildId 1 N := by
    unfold rootChildId; split <;> [skip; skip] <;> have := leafId_pos 1 N ((N - 1) / 256) <;> omega
  have hl : [bomInfoBytes N].length = 1 := rfl
  rw [hl, Nat.sub_add_cancel hpos] at this
  exact this

theorem rootChildId_small (N : Nat) (hP : ¬ (N + 255) / 256 > 1) :
    rootChildId 1 N = leafId 1 N 0 := by
  unfold rootChildId
  rw [if_neg hP, show (N - 1) / 256 = 0 by omega]

theorem BuiltFile.leftmostLeaf_eq {F : Bytes} {V : List Visit} {N : Nat} (h : BuiltFile F V N)
    (hN : N ≠ 0) (fuel : Nat) (hf : 2 ≤ fuel) :
    leftmostLeaf F fuel (rootChildId 1 N) = some (leafId 1 N 0) := by
  have hP0 : 0 < (N + 255) / 256 := by omega
  obtain ⟨hr, hl⟩ := h.leaf_read 0 hP0
  have hleaf : leftmostLeaf F (fuel - 1) (leafId 1 N 0) = some (leafId 1 N 0) := by
    obtain ⟨f, hf'⟩ : ∃ f, fuel - 1 = f + 1 := ⟨fuel - 2, by omega⟩
    rw [hf']
    have hlen : ¬ (fileBlock F (leafId 1 N 0)).length < 12 := by rw [hl]; omega
    have hil : ntohsAt (fileBlock F (leafId 1 N 0)) 0 ≠ 0 := by
      have : (readPage (fileBlock F (leafId 1 N 0))).isLeaf = 1 := by rw [hr]; rfl
      show (readPage (fileBlock F (leafId 1 N 0))).isLeaf ≠ 0
      rw [this]; exact Nat.one_ne_zero
    simp only [leftmostLeaf, if_neg hlen, if_pos hil]
  by_cases hP : (N + 255) / 256 > 1
  · obtain ⟨f, hf'⟩ : ∃ f, fuel = f + 1 := ⟨fuel - 1, by omega⟩
    have hf2 : fuel - 1 = f := by omega
    rw [hf2] at hleaf
    rw [hf']
    have hb := h.root_block hP
    have hlen : (fileBlock F (rootChildId 1 N)).length = 12 + 8 * ((N + 255) / 256) := by
      rw [hb, BOMPaths.page_image_length, rootPage_indices_length]
    have h0 : ntohsAt (fileBlock F (rootChildId 1 N)) 0 = 0 := by
      rw [hb]
      have : (rootPage 1 N ((N + 255) / 256)).image.drop 0
          = htons 0 ++ (rootPage 1 N ((N + 255) / 256)).image.drop 2 := by
        simp [BOMPaths.image, rootPage, htons]
      rw [ntohsAt_of_drop _ _ _ _ this]
      rfl
    have h12 : ntohlAt (fileBlock F (rootChildId 1 N)) 12 = leafId 1 N 0 := by
      rw [hb]
      have hd := image_drop_indices (rootPage 1 N ((N + 255) / 256)) 0
      have hi : 0 < (rootPage 1 N ((N + 255) / 256)).indices.length := by
        rw [rootPage_indices_length]; exact hP0
      rw [List.drop_eq_getElem_cons hi, List.map_cons, List.flatten_cons, List.append_assoc] at hd
      rw [ntohlAt_of_drop _ _ _ _ hd]
      simp only [rootPage, List.getElem_map, List.getElem_range, if_pos hP0, u32_u32]
      exact u32_of_lt (by have := leafId_le N 0 hP0; have := h.blocks_lt; omega)
    simp only [leftmostLeaf, hlen, h0, h12]
    rw [if_neg (by omega), if_neg (by simp), if_neg (by omega)]
    exact hleaf
  · rw [rootChildId_small N hP]
    obtain ⟨f, hf'⟩ : ∃ f, fuel = f + 1 := ⟨fuel - 1, by omega⟩
    rw [hf']
    have hlen : ¬ (fileBlock F (leafId 1 N 0)).length < 12 := by rw [hl]; omega
    have hil : ntohsAt (fileBlock F (leafId 1 N 0)) 0 ≠ 0 := by
      have : (readPage (fileBlock F (leafId 1 N 0))).isLeaf = 1 := by rw [hr]; rfl
      show (readPage (fileBlock F (leafId 1 N 0))).isLeaf ≠ 0
      rw [this]; exact Nat.one_ne_zero
    simp only [leftmostLeaf, if_neg hlen, if_pos hil]

theorem BuiltFile.findVar_paths {F : Bytes} {V : List Visit} {N : Nat} (h : BuiltFile F V N) :
    findVar F [80, 97, 116, 104, 115] = some (blocksAfterPaths V [bomInfoBytes N] N).length := by
  unfold findVar
  rw [h.isFile.vars_eq]
  have hb := h.blocks_lt
  have hl := blocksAfterPaths_length V [bomInfoBytes N] N
  have : u32 (blocksAfterPaths V [bomInfoBytes N] N).length
      = (blocksAfterPaths V [bomInfoBytes N] N).length := by
    apply u32_of_lt
    rw [hl]
    simp only [List.length_singleton]
    split <;> omega
  simp [varsOfBuild, mapFind, this]

theorem BuiltFile.tree_block {F : Bytes} {V : List Visit} {N : Nat} (h : BuiltFile F V N) :
    fileBlock F (blocksAfterPaths V [bomInfoBytes N] N).length
      = treeBytes (rootChildId 1 N) 4096 N := by
  have := h.block _ _ (blocksAfterPaths_tree V [bomInfoBytes N] N)
  have hpos : 1 ≤ (blocksAfterPaths V [bomInfoBytes N] N).length := by
    rw [blocksAfterPaths_length]; omega
  have hl : [bomInfoBytes N].length = 1 := rfl
  rw [Nat.sub_add_cancel hpos, hl] at this
  exact this

theorem rootChildId_le (N : Nat) : rootChildId 1 N ≤ 3 * N + (N - 1) / 256 + 3 := by
  unfold rootChildId leafId
  split <;> omega

theorem BuiltFile.treeChild_eq {F : Bytes} {V : List Visit} {N : Nat} (h : BuiltFile F V N) :
    treeChild F (blocksAfterPaths V [bomInfoBytes N] N).length = rootChildId 1 N := by
  unfold treeChild
  rw [h.tree_block]
  have : (treeBytes (rootChildId 1 N) 4096 N).drop 8
      = htonl (rootChildId 1 N) ++ (htonl 4096 ++ htonl N ++ [0]) := by
    simp [treeBytes, tagTree, htonl]
  rw [ntohlAt_of_drop _ _ _ _ this]
  exact u32_of_lt (by have := rootChildId_le N; have := h.blocks_lt; omega)

/-- The leaves that the read direction meets in a written file with at least one node:
the pages `0, 1, ...` in this order. -/
theorem BuiltFile.pathsLeaves_eq {F : Bytes} {V : List Visit} {N : Nat} (h : BuiltFile F V N)
    (hN : N ≠ 0) :
    pathsLeaves F = some ((List.range ((N + 255) / 256)).map (leafId 1 N)) := by
  have hnum : fileNumPointers F = 1 + (3 * N + (N - 1) / 256) + 1
      + (if (N + 255) / 256 > 1 then 1 else 0) + 1 + 7 + 1 := by
    rw [h.isFile.num_eq, blocksOfBuild_length]
  have hf2 : 2 ≤ fileNumPointers F := by rw [hnum]; omega
  have hfP : (N + 255) / 256 - 0 ≤ fileNumPointers F := by rw [hnum]; omega
  unfold pathsLeaves
  simp only [h.findVar_paths, h.treeChild_eq, h.leftmostLeaf_eq hN _ hf2]
  rw [h.leafChain_eq _ 0 (by omega) hfP, Nat.sub_zero, List.range_eq_range']

theorem flatMap_range_chunks {α : Type} (f : Nat → α) (N : Nat) :
    (List.range ((N + 255) / 256)).flatMap
        (fun c => (List.range (min 256 (N - 256 * c))).map (fun t => f (256 * c + t)))
      = (List.range N).map f := by
  have key : ∀ P, 256 * P ≤ N + 255 →
      (List.range P).flatMap
        (fun c => (List.range (min 256 (N - 256 * c))).map (fun t => f (256 * c + t)))
      = (List.range (min N (256 * P))).map f := by
    intro P
    induction P with
    | zero => intro _; simp
    | succ P ih =>
      intro hP
      rw [List.range_succ, List.flatMap_append, ih (by omega)]
      simp only [List.flatMap_singleton]
      have h1 : min N (256 * P) = 256 * P := by omega
      have h2 : min N (256 * (P + 1)) = 256 * P + min 256 (N - 256 * P) := by omega
      rw [h1, h2, List.range_add, List.map_append, List.map_map]
      rfl
  have := key ((N + 255) / 256) (by omega)
  rw [this, show min N (256 * ((N + 255) / 256)) = N by omega]

/-- The pairs that the read direction meets in a written file with at least one node: for
the node emitted at position `j`, the ids of its `PathInfo1` and `FileRecord` blocks. -/
theorem BuiltFile.pathsIndices_eq {F : Bytes} {V : List Visit} {N : Nat} (h : BuiltFile F V N)
    (hN : N ≠ 0) :
    pathsIndices F
      = some ((List.range N).map (fun j => (info2Index 1 j + 2, info2Index 1 j + 3))) := by
  unfold pathsIndices
  rw [h.pathsLeaves_eq hN, Option.map_some', List.flatMap_map]
  have : ∀ c ∈ List.range ((N + 255) / 256),
      (readPage (fileBlock F (leafId 1 N c))).indices
        = (List.range (min 256 (N - 256 * c))).map
            (fun t => (fun j => (info2Index 1 j + 2, info2Index 1 j + 3)) (256 * c + t)) := by
    intro c hc
    rw [(h.leaf_read c (List.mem_range.mp hc)).1]
    rfl
  rw [List.flatMap_congr this]
  exact congrArg some
    (flatMap_range_chunks (fun j => (info2Index 1 j + 2, info2Index 1 j + 3)) N)

/-! ## Decoding the entries -/

theorem strcpyInto_name (s : Bytes) :
    strcpyInto (1 + s.length) s
      = s.takeWhile (· ≠ 0) ++ [0] ++ List.replicate (s.length - (s.takeWhile (· ≠ 0)).length) 0 := by
  unfold strcpyInto
  have hle : (s.takeWhile (· ≠ 0)).length ≤ s.length :=
    (List.takeWhile_prefix _).length_le
  rw [List.take_append_eq_append_take,
    List.take_of_length_le (by simp only [List.length_append, List.length_singleton]; omega)]
  congr 1
  simp only [List.length_append, List.length_singleton]
  rw [List.take_replicate]
  congr 1
  omega

theorem info2Bytes_decode (node : NodeInfo) :
    (info2Bytes node).getD 0 0 = u8 (typeOfNode node)
    ∧ (info2Bytes node).getD 1 0 = 1
    ∧ ntohsAt (info2Bytes node) 2 = 3
    ∧ ntohsAt (info2Bytes node) 4 = u16 node.mode
    ∧ ntohlAt (info2Bytes node) 6 = u32 node.uid
    ∧ ntohlAt (info2Bytes node) 10 = u32 node.gid
    ∧ ntohlAt (info2Bytes node) 14 = 0
    ∧ ntohlAt (info2Bytes node) 18 = u32 node.size
    ∧ (info2Bytes node).getD 22 0 = 1
    ∧ ntohlAt (info2Bytes node) 23 = u32 node.checksum
    ∧ ntohlAt (info2Bytes node) 27 = u32 node.linkNameLength
    ∧ (info2Bytes node).drop 31 = strcpyInto node.linkNameLength node.linkName := by
  have e : info2Bytes node
      = [u8 (typeOfNode node), u8 1] ++ (htons 3 ++ (htons node.mode ++ (htonl node.uid
        ++ (htonl node.gid ++ (htonl 0 ++ (htonl node.size ++ (u8 1 :: (htonl node.checksum
        ++ (htonl node.linkNameLength ++ strcpyInto node.linkNameLength node.linkName))))))))) := by
    simp [info2Bytes, typeOfNode]
  have d2 : (info2Bytes node).drop 2 = htons 3 ++ (info2Bytes node).drop 4 := by
    rw [e]; simp [htons]
  have d4 : (info2Bytes node).drop 4 = htons node.mode ++ (info2Bytes node).drop 6 := by
    rw [e]; simp [htons]
  have d6 : (info2Bytes node).drop 6 = htonl node.uid ++ (info2Bytes node).drop 10 := by
    rw [e]; simp [htons, htonl]
  have d10 : (info2Bytes node).drop 10 = htonl node.gid ++ (info2Bytes node).drop 14 := by
    rw [e]; simp [htons, htonl]
  have d14 : (info2Bytes node).drop 14 = htonl 0 ++ (info2Bytes node).drop 18 := by
    rw [e]; simp [htons, htonl]
  have d18 : (info2Bytes node).drop 18 = htonl node.size ++ (info2Bytes node).drop 22 := by
    rw [e]; simp [htons, htonl]
  have d22 : (info2Bytes node).drop 22 = u8 1 :: (info2Bytes node).drop 23 := by
    rw [e]; simp [htons, htonl]
  have d23 : (info2Bytes node).drop 23 = htonl node.checksum ++ (info2Bytes node).drop 27 := by
    rw [e]; simp [htons, htonl]
  have d27 : (info2Bytes node).drop 27
      = htonl node.linkNameLength ++ (info2Bytes node).drop 31 := by
    rw [e]; simp [htons, htonl]
  have d31 : (info2Bytes node).drop 31 = strcpyInto node.linkNameLength node.linkName := by
    rw [e]; simp [htons, htonl]
  refine ⟨by rw [e]; rfl, by rw [e]; rfl, ntohsAt_of_drop _ _ _ _ d2, ntohsAt_of_drop _ _ _ _ d4,
    ntohlAt_of_drop _ _ _ _ d6, ntohlAt_of_drop _ _ _ _ d10, ntohlAt_of_drop _ _ _ _ d14,
    ntohlAt_of_drop _ _ _ _ d18, ?_, ntohlAt_of_drop _ _ _ _ d23, ntohlAt_of_drop _ _ _ _ d27, d31⟩
  have := getD_drop (info2Bytes node) 22 0
  rw [d22] at this
  exact this.symm

theorem fileBytes_of_no_nul (parent : Nat) (s : Bytes) (hs : ∀ x ∈ s, x ≠ 0) :
    fileBytes parent s = htonl parent ++ s ++ [0] := by
  have ht : s.takeWhile (· ≠ 0) = s := by
    rw [List.takeWhile_eq_self_iff]
    intro x hx
    simpa using hs x hx
  unfold fileBytes
  rw [strcpyInto_name, ht]
  simp

/-- C5: for the node emitted at position `j + 1` (the visit number `j` from 0) with name
`s` and parent id `p`, the file holds three consecutive blocks `b`, `b + 1`, `b + 2`: the
`PathInfo2`, the `PathInfo1 = {id = j + 1, index = b}` and the
`FileRecord = {parent = p, name = s NUL}` of `5 + |s|` bytes, and the pair number `j` of
the leaves, in the order of the chain, is `(b + 1, b + 2)`. -/
theorem C5_leaf_entry (le : Bool) (root : Node) (N : Nat) (hN : N < 4294967296)
    (hV : (visitsOf root).length = N)
    (hsize : ((build_bom root N).write le).length < 4294967296)
    (j : Nat) (v : Visit) (hv : (visitsOf root)[j]? = some v) (hname : ∀ x ∈ v.name, x ≠ 0) :
    ∃ b : Nat,
      fileBlock ((build_bom root N).write le) b = info2Bytes v.node.info
      ∧ fileBlock ((build_bom root N).write le) (b + 1) = htonl (j + 1) ++ htonl b
      ∧ fileBlock ((build_bom root N).write le) (b + 2) = htonl v.parent ++ v.name ++ [0]
      ∧ (fileBlock ((build_bom root N).write le) (b + 2)).length = 5 + v.name.length
      ∧ ∃ I, pathsIndices ((build_bom root N).write le) = some I ∧ I[j]? = some (b + 1, b + 2) := by
  have h := builtFile_of_build le root N hN hV hsize
  have hj : j < N := by
    by_contra hc
    rw [List.getElem?_eq_none (by omega)] at hv
    exact Option.noConfusion hv
  have hf := h.file j v hv hj
  rw [fileBytes_of_no_nul _ _ hname] at hf
  refine ⟨info2Index 1 j + 1, h.info2 j v hv hj, h.info1 j v hv hj, hf, ?_, _,
    h.pathsIndices_eq (by omega), ?_⟩
  · rw [hf]; simp; omega
  · rw [List.getElem?_map, List.getElem?_range hj]
    rfl

/-! ## A bound on the size of the written file -/

theorem flatten_length_le (bs : List Bytes) (M : Nat) (h : ∀ b ∈ bs, b.length ≤ M) :
    bs.flatten.length ≤ M * bs.length := by
  induction bs with
  | nil => simp
  | cons b bs ih =>
    have h1 := h b (List.mem_cons_self _ _)
    have h2 := ih (fun c hc => h c (List.mem_cons_of_mem _ hc))
    simp only [List.flatten_cons, List.length_append, List.length_cons, Nat.mul_succ]
    omega

theorem strcpyInto_length (n : Nat) (src : Bytes) : (strcpyInto n src).length = n := by
  simp [strcpyInto]
  omega

theorem info2Bytes_length (node : NodeInfo) :
    (info2Bytes node).length = 31 + node.linkNameLength := by
  simp [info2Bytes, strcpyInto_length]
  omega

theorem fileBytes_length (parent : Nat) (s : Bytes) : (fileBytes parent s).length = 5 + s.length := by
  simp [fileBytes, strcpyInto_length]; omega

theorem pathsBlock_length_le (V : List Visit) (b0 N added i M : Nat) (hM : 2060 ≤ M)
    (hv : ∀ v ∈ V, 31 + v.node.info.linkNameLength ≤ M ∧ 5 + v.name.length ≤ M) :
    (pathsBlock V b0 N added i).length ≤ M := by
  unfold pathsBlock
  split
  · rw [BOMPaths.page_image_length, leafPage_indices_length]; omega
  · cases hg : V[256 * (i / 769) + i % 769 / 3]? with
    | none => simp
    | some v =>
      have hmem : v ∈ V := List.getElem?_mem hg
      have := hv v hmem
      simp only
      split
      · rw [info2Bytes_length]; exact this.1
      · split
        · simp [info1Bytes]; omega
        · rw [fileBytes_length]; exact this.2

theorem blocksOfBuild_length_le (V : List Visit) (N M : Nat) (hM : 2060 ≤ M)
    (hM2 : 12 + 8 * ((N + 255) / 256) ≤ M)
    (hv : ∀ v ∈ V, 31 + v.node.info.linkNameLength ≤ M ∧ 5 + v.name.length ≤ M) :
    ∀ b ∈ blocksOfBuild V N, b.length ≤ M := by
  intro b hb
  unfold blocksOfBuild blocksAfterPaths at hb
  simp only [List.mem_append, List.mem_map, List.mem_range, List.mem_cons, List.mem_singleton,
    List.not_mem_nil, or_false] at hb
  rcases hb with ((((hb | ⟨x, _, rfl⟩) | hb) | hb) | hb) | hb
  · rw [hb]
    simp only [bomInfoBytes, List.length_append, htonl_length, List.length_replicate,
      sizeof_BOMInfoEntry]
    split <;> omega
  · exact pathsBlock_length_le V _ N _ x M hM hv
  · rw [hb]
    unfold lastLeafBytes
    split
    · simp
    · rw [BOMPaths.page_image_length, leafPage_indices_length]; omega
  · split at hb
    · simp only [List.mem_singleton] at hb
      rw [hb, BOMPaths.page_image_length, rootPage_indices_length]
      exact hM2
    · simp at hb
  · rw [hb]; simp [treeBytes, tagTree]; omega
  · rcases hb with rfl | rfl | rfl | rfl | rfl | rfl | rfl <;>
      simp [emptyLeafBytes, BOMPaths.image, treeBytes, tagTree, vindexBytes] <;> omega

theorem varsOfBuild_image_length (c n : Nat) :
    (BOMVars.image { count := c, first := varsOfBuild n }).length = 60 := by
  simp [BOMVars.image, BOMVar.image, varsOfBuild]

/-- A bound on the size of the written file, from a bound `M` on the size of its
blocks. -/
theorem build_write_length_le (le : Bool) (root : Node) (N M : Nat)
    (hN : 8 * (3 * N + (N - 1) / 256 + 12) < 4294967296)
    (hV : (visitsOf root).length = N) (hM : 2060 ≤ M) (hM2 : 12 + 8 * ((N + 255) / 256) ≤ M)
    (hv : ∀ v ∈ visitsOf root, 31 + v.node.info.linkNameLength ≤ M ∧ 5 + v.name.length ≤ M) :
    ((build_bom root N).write le).length
      ≤ 596 + (M + 8) * (3 * N + (N - 1) / 256 + 12) := by
  obtain ⟨hh, hvars, _, _⟩ := build_bom_spec root N (by omega) hV
  have hlen := blocksOfBuild_length (visitsOf root) N
  have hnb := hh.num_block_entries
  have hfl := flatten_length_le _ M (blocksOfBuild_length_le (visitsOf root) N M hM hM2 hv)
  have hsv : (build_bom root N).vars.image.length = 60 := by
    rw [hvars]; exact varsOfBuild_image_length _ _
  have hblocks : (blocksOfBuild (visitsOf root) N).length ≤ 3 * N + (N - 1) / 256 + 11 := by
    rw [hlen]; split <;> omega
  rw [BOMStorage.write_eq le _ hh.inv (by omega)]
  simp only [List.length_append, htonl_length, BOMHeader.image_length _ hh.inv.magic_length, hsv]
  rw [flatten_map_length_const _ 8 _ (writePointer_length le _ _), ← hh.inv.num_entries_eq, hnb,
    hh.entries_eq, hh.inv.free_list_eq]
  have hfree : BOMStorage.new.free_list.image.length = 20 := rfl
  rw [hfree]
  have hmul : M * (blocksOfBuild (visitsOf root) N).length ≤ M * (3 * N + (N - 1) / 256 + 11) :=
    Nat.mul_le_mul_left _ hblocks
  have e1 : (M + 8) * (3 * N + (N - 1) / 256 + 12)
      = M * (3 * N + (N - 1) / 256 + 11) + M + 8 * (3 * N + (N - 1) / 256 + 12) := by ring
  rw [e1]
  omega

/-! ## The visits of a flat tree -/

theorem visits_of_leaves (fuel j : Nat) (q : List (Nat × Node))
    (h : ∀ x ∈ q, x.2.children = []) : visits fuel j q = [] := by
  induction fuel generalizing j q with
  | zero => rfl
  | succ fuel ih =>
    cases q with
    | nil => rfl
    | cons x rest =>
      obtain ⟨parent, arg⟩ := x
      have hx : arg.children = [] := h (parent, arg) (List.mem_cons_self _ _)
      simp only [visits, hx, List.map_nil, List.nil_append, pushed, List.append_nil,
        List.length_nil, Nat.add_zero]
      exact ih _ _ (fun y hy => h y (List.mem_cons_of_mem _ hy))

theorem pushed_children_nil (j : Nat) (cs : List (Bytes × Node))
    (h : ∀ c ∈ cs, c.2.children = []) : ∀ x ∈ pushed j cs, x.2.children = [] := by
  induction cs generalizing j with
  | nil => intro x hx; simp [pushed] at hx
  | cons c cs ih =>
    intro x hx
    simp only [pushed, List.mem_cons] at hx
    rcases hx with rfl | hx
    · exact h c (List.mem_cons_self _ _)
    · exact ih (j + 1) (fun d hd => h d (List.mem_cons_of_mem _ hd)) x hx

theorem visitsOf_flatTree (n : Nat) :
    visitsOf (flatTree n)
      = (List.range n).map
          (fun i => ({ parent := 0, name := flatName i, node := Node.mk [] exFile } : Visit)) := by
  unfold visitsOf
  rw [Node.count_eq]
  rw [show 1 + Node.countList (flatTree n).children = Node.countList (flatTree n).children + 1 by
    omega]
  simp only [visits, List.nil_append]
  rw [visits_of_leaves _ _ _ (pushed_children_nil 0 _ (by
    intro c hc
    simp only [flatTree, Node.children, List.mem_map] at hc
    obtain ⟨i, _, rfl⟩ := hc
    rfl))]
  simp [flatTree, Node.children]

theorem visitsOf_flatTree_length (n : Nat) : (visitsOf (flatTree n)).length = n := by
  rw [visitsOf_flatTree]; simp

set_option maxRecDepth 100000 in
/-- C5 on the tree of `d`, `d/a`, `d/b`, at the second emitted node `a` (parent id 1). -/
theorem C5_leaf_entry_witness :
    (visitsOf exTree).length = 3
    ∧ ((build_bom exTree 3).write true).length < 4294967296
    ∧ ((visitsOf exTree).map (fun v => (v.parent, v.name)))[1]? = some (1, [97])
    ∧ ∃ b : Nat,
      fileBlock ((build_bom exTree 3).write true) b = info2Bytes exFile
      ∧ fileBlock ((build_bom exTree 3).write true) (b + 1) = htonl 2 ++ htonl b
      ∧ fileBlock ((build_bom exTree 3).write true) (b + 2) = htonl 1 ++ [97] ++ [0]
      ∧ (fileBlock ((build_bom exTree 3).write true) (b + 2)).length = 6
      ∧ ∃ I, pathsIndices ((build_bom exTree 3).write true) = some I
          ∧ I[1]? = some (b + 1, b + 2) := by
  have hV : (visitsOf exTree).length = 3 := by decide
  have hsize : ((build_bom exTree 3).write true).length < 4294967296 := by decide
  obtain ⟨v, hv, hp, hn, hi⟩ : ∃ v, (visitsOf exTree)[1]? = some v ∧ v.parent = 1
      ∧ v.name = [97] ∧ info2Bytes v.node.info = info2Bytes exFile :=
    ⟨(visitsOf exTree).get ⟨1, by decide⟩, List.getElem?_eq_getElem _, by decide, by decide,
      by decide⟩
  have h := C5_leaf_entry true exTree 3 (by decide) hV hsize 1 v hv (by rw [hn]; decide)
  rw [hp, hn, hi] at h
  exact ⟨hV, hsize, by decide, h⟩

theorem u32OfInt_lt (x : Int) : u32OfInt x < 4294967296 := by
  unfold u32OfInt
  omega

theorem elementAt_ok (elements : List Bytes) (i : Nat) (e : Bytes)
    (h : elementAt elements i = .ok e) : elements[i]? = some e := by
  unfold elementAt at h
  split at h
  · cases h; assumption
  · exact Except.noConfusion h

theorem node_of_elements_spec (elements : List Bytes) (n : NodeInfo)
    (h : node_of_elements elements = .ok n) :
    n.uid < 4294967296 ∧ n.gid < 4294967296 ∧ n.size < 4294967296 ∧ n.checksum < 4294967296
    ∧ (n.type = .kFileNode ∨ n.type = .kDirectoryNode ∨ n.type = .kSymbolicLinkNode)
    ∧ (n.type ≠ .kSymbolicLinkNode → n.linkNameLength = 0 ∧ n.linkName = [])
    ∧ (n.type = .kSymbolicLinkNode → n.linkNameLength = u32 (n.linkName.length + 1)
        ∧ elements[5]? = some n.linkName) := by
  unfold node_of_elements at h
  simp only [bind, Except.bind] at h
  repeat' split at h
  all_goals first
    | exact Except.noConfusion h
    | (cases h
       simp [NodeInfo.init, u32OfInt_lt]
       try exact elementAt_ok _ _ _ (by assumption))

theorem strcpyInto_of_no_nul (s : Bytes) (hs : ∀ x ∈ s, x ≠ 0) :
    strcpyInto (s.length + 1) s = s ++ [0] := by
  have ht : s.takeWhile (· ≠ 0) = s := by
    rw [List.takeWhile_eq_self_iff]
    intro x hx
    simpa using hs x hx
  unfold strcpyInto
  rw [ht, List.append_assoc, List.take_append_eq_append_take]
  simp

/-- C6: the `PathInfo2` block `b` of the node emitted at position `j + 1`, a node that the
manifest reader made (`node_of_elements`): `type` is 1, 2 or 3 for a file, a directory or
a link, both reserved bytes are 1, `architecture` is 3, `mtime` is 0, and `uid`, `gid`,
`size` and `checksum` are those of the node; for a node that is not a link
`linkNameLength` is 0 and no `linkName` byte follows; for a link with target `t`
`linkNameLength` is `|t| + 1` and `linkName` is `t` followed by one NUL. -/
theorem C6_path_info2 (le : Bool) (root : Node) (N : Nat) (hN : N < 4294967296)
    (hV : (visitsOf root).length = N)
    (hsize : ((build_bom root N).write le).length < 4294967296)
    (j : Nat) (v : Visit) (hv : (visitsOf root)[j]? = some v)
    (elements : List Bytes) (hnode : node_of_elements elements = .ok v.node.info)
    (hnul : ∀ x ∈ v.node.info.linkName, x ≠ 0)
    (hlen : v.node.info.linkName.length + 1 < 4294967296) :
    ∃ b : Nat,
      fileBlock ((build_bom root N).write le) (b + 1) = htonl (j + 1) ++ htonl b
      ∧ (fileBlock ((build_bom root N).write le) b).getD 0 0
          = (match v.node.info.type with
              | .kFileNode => 1
              | .kDirectoryNode => 2
              | _ => 3)
      ∧ (v.node.info.type = .kFileNode ∨ v.node.info.type = .kDirectoryNode
          ∨ v.node.info.type = .kSymbolicLinkNode)
      ∧ (fileBlock ((build_bom root N).write le) b).getD 1 0 = 1
      ∧ (fileBlock ((build_bom root N).write le) b).getD 22 0 = 1
      ∧ ntohsAt (fileBlock ((build_bom root N).write le) b) 2 = 3
      ∧ ntohlAt (fileBlock ((build_bom root N).write le) b) 14 = 0
      ∧ ntohlAt (fileBlock ((build_bom root N).write le) b) 6 = v.node.info.uid
      ∧ ntohlAt (fileBlock ((build_bom root N).write le) b) 10 = v.node.info.gid
      ∧ ntohlAt (fileBlock ((build_bom root N).write le) b) 18 = v.node.info.size
      ∧ ntohlAt (fileBlock ((build_bom root N).write le) b) 23 = v.node.info.checksum
      ∧ (v.node.info.type ≠ .kSymbolicLinkNode →
          ntohlAt (fileBlock ((build_bom root N).write le) b) 27 = 0
          ∧ (fileBlock ((build_bom root N).write le) b).drop 31 = [])
      ∧ (v.node.info.type = .kSymbolicLinkNode →
          ntohlAt (fileBlock ((build_bom root N).write le) b) 27
            = v.node.info.linkName.length + 1
          ∧ (fileBlock ((build_bom root N).write le) b).drop 31
            = v.node.info.linkName ++ [0]) := by
  have h := builtFile_of_build le root N hN hV hsize
  have hj : j < N := by
    by_contra hc
    rw [List.getElem?_eq_none (by omega)] at hv
    exact Option.noConfusion hv
  obtain ⟨huid, hgid, hsz, hck, hty, hnl, hl⟩ := node_of_elements_spec _ _ hnode
  obtain ⟨d0, d1, d2, _, d6, d10, d14, d18, d22, d23, d27, d31⟩ :=
    info2Bytes_decode v.node.info
  refine ⟨info2Index 1 j + 1, h.info1 j v hv hj, ?_⟩
  rw [h.info2 j v hv hj]
  refine ⟨?_, hty, d1, d22, d2, d14, ?_, ?_, ?_, ?_, ?_, ?_⟩
  · rw [d0]
    rcases hty with e | e | e <;> rw [e] <;> simp [typeOfNode, e, u8, TYPE_FILE, TYPE_DIR, TYPE_LINK]
  · rw [d6, u32_of_lt huid]
  · rw [d10, u32_of_lt hgid]
  · rw [d18, u32_of_lt hsz]
  · rw [d23, u32_of_lt hck]
  · intro hne
    obtain ⟨e1, e2⟩ := hnl hne
    rw [d27, d31, e1, e2]
    exact ⟨rfl, rfl⟩
  · intro he
    obtain ⟨e1, _⟩ := hl he
    have e3 : v.node.info.linkNameLength = v.node.info.linkName.length + 1 := by
      rw [e1, u32_of_lt hlen]
    rw [d27, d31, e3, u32_of_lt hlen, strcpyInto_of_no_nul _ hnul]
    exact ⟨rfl, rfl⟩

set_option maxRecDepth 100000 in
/-- C6 on the manifest with the one link `l` to `target`: `linkNameLength` is 7 and the
`linkName` bytes are `target` and one NUL. -/
theorem C6_path_info2_witness :
    (visitsOf exLinkTree).length = 1
    ∧ ((build_bom exLinkTree 1).write true).length < 4294967296
    ∧ node_of_elements exLinkElements = .ok exLink
    ∧ write_bom true exLinkManifest = .ok ((build_bom exLinkTree 1).write true)
    ∧ ∃ b : Nat,
      fileBlock ((build_bom exLinkTree 1).write true) (b + 1) = htonl 1 ++ htonl b
      ∧ (fileBlock ((build_bom exLinkTree 1).write true) b).getD 0 0 = 3
      ∧ ntohlAt (fileBlock ((build_bom exLinkTree 1).write true) b) 27 = 7
      ∧ (fileBlock ((build_bom exLinkTree 1).write true) b).drop 31
          = [116, 97, 114, 103, 101, 116, 0] := by
  have hV : (visitsOf exLinkTree).length = 1 := by decide
  have hsize : ((build_bom exLinkTree 1).write true).length < 4294967296 := by decide
  have hnode : node_of_elements exLinkElements = .ok exLink := by rfl
  obtain ⟨b, h⟩ := C6_path_info2 true exLinkTree 1 (by decide) hV hsize 0
    { parent := 0, name := [108], node := Node.mk [] exLink } (by rfl) exLinkElements hnode
    (by decide) (by decide)
  have hl := h.2.2.2.2.2.2.2.2.2.2.2.2 rfl
  exact ⟨hV, hsize, hnode, by rfl, b, h.1, h.2.1, hl.1, hl.2⟩

theorem countList_insertByName (c : Bytes × Node) (l : List (Bytes × Node)) :
    Node.countList (insertByName c l) = c.2.count + Node.countList l := by
  induction l with
  | nil => simp [insertByName, Node.countList]
  | cons d rest ih =>
    unfold insertByName
    split
    · simp [Node.countList]
    · simp only [Node.countList, ih]; omega

theorem countList_ascendingByName (l : List (Bytes × Node)) :
    Node.countList (ascendingByName l) = Node.countList l := by
  induction l with
  | nil => rfl
  | cons c rest ih => simp [ascendingByName, countList_insertByName, Node.countList, ih]

theorem placedCount_append (a b : List Placed) :
    placedCount (a ++ b) = placedCount a + placedCount b := by
  induction a with
  | nil => simp [placedCount]
  | cons x rest ih => simp [placedCount, ih]; omega

theorem placedCount_map (p : List Bytes) (l : List (Bytes × Node)) :
    placedCount (l.map (fun c => ({ path := p ++ [c.1], node := c.2 } : Placed)))
      = Node.countList l := by
  induction l with
  | nil => rfl
  | cons c rest ih => simp [placedCount, Node.countList, ih]

theorem placedCount_below (x : Placed) : placedCount x.below + 1 = x.node.count := by
  unfold Placed.below
  rw [placedCount_map, countList_ascendingByName, Node.count_eq]
  omega

theorem placedCount_flatMap (q : List Placed) :
    placedCount (q.flatMap Placed.below) + q.length = placedCount q := by
  induction q with
  | nil => rfl
  | cons x rest ih =>
    have := placedCount_below x
    simp only [List.flatMap_cons, placedCount_append, placedCount, List.length_cons]
    omega

theorem queueOrder_fuel (f g : Nat) (q : List Placed) (hf : placedCount q ≤ f)
    (hg : placedCount q ≤ g) : queueOrder f q = queueOrder g q := by
  induction f generalizing g q with
  | zero =>
    cases q with
    | nil => cases g <;> rfl
    | cons x rest =>
      have := placedCount_below x
      simp only [placedCount] at hf
      omega
  | succ f ih =>
    cases q with
    | nil => cases g <;> rfl
    | cons x rest =>
      have hx := placedCount_below x
      simp only [placedCount] at hf hg
      cases g with
      | zero => omega
      | succ g =>
        simp only [queueOrder]
        rw [ih g (rest ++ x.below) (by rw [placedCount_append]; omega)
          (by rw [placedCount_append]; omega)]

theorem queueOrder_append (f : Nat) (q1 q2 : List Placed) (hf : placedCount (q1 ++ q2) ≤ f) :
    queueOrder f (q1 ++ q2)
      = q1.flatMap Placed.below
        ++ queueOrder (f - q1.length) (q2 ++ q1.flatMap Placed.below) := by
  induction q1 generalizing f q2 with
  | nil => simp
  | cons x q1 ih =>
    have hx := placedCount_below x
    have hf2 : x.node.count + (placedCount q1 + placedCount q2) ≤ f := by
      have e : placedCount (x :: q1 ++ q2) = x.node.count + placedCount (q1 ++ q2) := rfl
      rw [e, placedCount_append] at hf
      exact hf
    cases f with
    | zero => omega
    | succ f =>
      show queueOrder (f + 1) (x :: (q1 ++ q2)) = _
      simp only [queueOrder, List.flatMap_cons, List.length_cons,
        Nat.add_sub_add_right, List.append_assoc]
      rw [ih f (q2 ++ x.below) (by simp only [placedCount_append]; omega)]
      simp only [List.append_assoc]

theorem queueOrder_eq_levelOrder (f : Nat) (q : List Placed) (hf : placedCount q ≤ f) :
    queueOrder f q = levelOrder f q := by
  induction f generalizing q with
  | zero =>
    cases q with
    | nil => rfl
    | cons x rest =>
      have := placedCount_below x
      simp only [placedCount] at hf
      omega
  | succ f ih =>
    cases q with
    | nil =>
      have := ih [] (Nat.zero_le _)
      simp only [levelOrder, queueOrder, List.flatMap_nil, List.nil_append]
      rw [← this]
      cases f <;> rfl
    | cons x rest =>
      have hc := placedCount_flatMap (x :: rest)
      simp only [List.length_cons] at hc
      have h1 := queueOrder_append (f + 1) (x :: rest) [] (by simpa using hf)
      simp only [List.append_nil, List.nil_append, List.length_cons] at h1
      rw [h1]
      simp only [levelOrder]
      rw [← ih _ (by omega)]
      rw [queueOrder_fuel _ f _ (by omega) (by omega)]

theorem ascendingByName_of_keysAscending (l : List (Bytes × Node)) (h : keysAscending l = true) :
    ascendingByName l = l := by
  induction l with
  | nil => rfl
  | cons a rest ih =>
    cases rest with
    | nil => rfl
    | cons b r =>
      simp only [keysAscending, Bool.and_eq_true] at h
      simp only [ascendingByName] at ih ⊢
      rw [ih h.2]
      simp [insertByName, h.1]

theorem orderedList_mem (l : List (Bytes × Node)) (h : Node.orderedList l = true)
    (c : Bytes × Node) (hc : c ∈ l) : c.2.ordered = true := by
  induction l with
  | nil => cases hc
  | cons a rest ih =>
    simp only [Node.orderedList, Bool.and_eq_true] at h
    rcases List.mem_cons.mp hc with rfl | hc
    · exact h.1
    · exact ih h.2 hc

theorem ordered_children (n : Node) (h : n.ordered = true) :
    keysAscending n.children = true ∧ Node.orderedList n.children = true := by
  cases n with
  | mk cs info =>
    simp only [Node.ordered, Bool.and_eq_true] at h
    exact h

theorem below_of_ordered (x : Placed) (h : x.node.ordered = true) :
    x.below = x.node.children.map (fun c => { path := x.path ++ [c.1], node := c.2 }) := by
  unfold Placed.below
  rw [ascendingByName_of_keysAscending _ (ordered_children _ h).1]

theorem below_ordered (x : Placed) (h : x.node.ordered = true) (c : Placed) (hc : c ∈ x.below) :
    c.node.ordered = true := by
  rw [below_of_ordered x h] at hc
  obtain ⟨d, hd, rfl⟩ := List.mem_map.mp hc
  exact orderedList_mem _ (ordered_children _ h).2 d hd

theorem placedPushed_erase (j : Nat) (p : List Bytes) (cs : List (Bytes × Node)) :
    (placedPushed j (cs.map (fun c => ({ path := p ++ [c.1], node := c.2 } : Placed)))).map
        (fun e => (e.1, e.2.node))
      = pushed j cs := by
  induction cs generalizing j with
  | nil => rfl
  | cons c cs ih => simp [placedPushed, pushed, ih]

theorem placedPushed_mem (j : Nat) (l : List Placed) (e : Nat × Placed)
    (he : e ∈ placedPushed j l) : ∃ t, e.1 = j + t + 1 ∧ l[t]? = some e.2 := by
  induction l generalizing j with
  | nil => cases he
  | cons c cs ih =>
    simp only [placedPushed, List.mem_cons] at he
    rcases he with rfl | he
    · exact ⟨0, rfl, by simp⟩
    · obtain ⟨t, h1, h2⟩ := ih (j + 1) he
      exact ⟨t + 1, by omega, by simpa using h2⟩

theorem placedPushed_ordered (j : Nat) (l : List Placed) (e : Nat × Placed)
    (he : e ∈ placedPushed j l) : e.2 ∈ l := by
  obtain ⟨t, _, h⟩ := placedPushed_mem j l e he
  exact List.getElem?_mem h

theorem placedPushed_snd (j : Nat) (l : List Placed) :
    (placedPushed j l).map (·.2) = l := by
  induction l generalizing j with
  | nil => rfl
  | cons c cs ih => simp [placedPushed, ih]

/-- The queue loop of the source is the queue loop on placed nodes, when every children
map is in ascending order of key. -/
theorem visits_eq_placedVisits (fuel j : Nat) (q : List (Nat × Placed))
    (hq : ∀ e ∈ q, e.2.node.ordered = true) :
    visits fuel j (q.map (fun e => (e.1, e.2.node))) = (placedVisits fuel j q).map visitOfPlaced := by
  induction fuel generalizing j q with
  | zero => rfl
  | succ fuel ih =>
    cases q with
    | nil => rfl
    | cons x rest =>
      obtain ⟨parent, arg⟩ := x
      have ho : arg.node.ordered = true := hq (parent, arg) (List.mem_cons_self _ _)
      have hb := below_of_ordered arg ho
      simp only [List.map_cons, visits, placedVisits, List.map_append]
      have hlen : arg.below.length = arg.node.children.length := by rw [hb]; simp
      have hq2 : ∀ e ∈ rest ++ placedPushed j arg.below, e.2.node.ordered = true := by
        intro e he
        rcases List.mem_append.mp he with he | he
        · exact hq e (List.mem_cons_of_mem _ he)
        · exact below_ordered arg ho _ (placedPushed_ordered _ _ _ he)
      rw [← ih _ _ hq2, hlen, List.map_append]
      congr 1
      · rw [hb]
        simp [visitOfPlaced]
      · rw [hb, placedPushed_erase]

theorem placedVisits_snd (fuel j : Nat) (q : List (Nat × Placed)) :
    (placedVisits fuel j q).map (·.2) = queueOrder fuel (q.map (·.2)) := by
  induction fuel generalizing j q with
  | zero => rfl
  | succ fuel ih =>
    cases q with
    | nil => rfl
    | cons x rest =>
      obtain ⟨parent, arg⟩ := x
      simp only [placedVisits, List.map_cons, queueOrder, List.map_append, ih,
        placedPushed_snd, List.map_map]
      congr 1
      simp [Function.comp_def]

theorem below_path (x c : Placed) (hc : c ∈ x.below) :
    c.path.dropLast = x.path ∧ c.path.length = x.path.length + 1 := by
  unfold Placed.below at hc
  obtain ⟨d, _, rfl⟩ := List.mem_map.mp hc
  simp

/-- Every pair that the queue loop produces carries the right parent id, when the ids in
the queue are those of the pairs produced before (`pre`). -/
theorem placedVisits_parent (fuel j : Nat) (q pre : List (Nat × Placed)) (hpre : pre.length = j)
    (hq : ∀ e ∈ q, (e.1 = 0 ∧ e.2.path = [])
      ∨ ∃ k pk, e.1 = k + 1 ∧ pre[k]? = some (pk, e.2) ∧ e.2.path ≠ [])
    (i p : Nat) (c : Placed) (hi : j ≤ i)
    (hc : (pre ++ placedVisits fuel j q)[i]? = some (p, c)) :
    ParentOk (pre ++ placedVisits fuel j q) i p c := by
  induction fuel generalizing j q pre with
  | zero =>
    simp only [placedVisits, List.append_nil] at hc
    rw [List.getElem?_eq_none (by omega)] at hc
    exact Option.noConfusion hc
  | succ fuel ih =>
    cases q with
    | nil =>
      simp only [placedVisits, List.append_nil] at hc
      rw [List.getElem?_eq_none (by omega)] at hc
      exact Option.noConfusion hc
    | cons x rest =>
      obtain ⟨p0, x⟩ := x
      simp only [placedVisits] at hc ⊢
      rw [← List.append_assoc] at hc ⊢
      by_cases hlt : i < j + x.below.length
      · -- the pair is one of the children of `x`
        have h1 : (pre ++ x.below.map (fun c => (p0, c)))[i]? = some (p, c) := by
          rw [List.getElem?_append_left (by simp; omega)] at hc
          exact hc
        rw [List.getElem?_append_right (by omega), List.getElem?_map] at h1
        obtain ⟨c2, hc2, he⟩ := Option.map_eq_some'.mp h1
        cases he
        have hmem : c ∈ x.below := List.getElem?_mem hc2
        obtain ⟨hd, hl⟩ := below_path x c hmem
        rcases hq (p, x) (List.mem_cons_self _ _) with ⟨h0, hx⟩ | ⟨k, pk, hk, hpk, hx⟩
        · left
          simp only at h0 hx
          exact ⟨h0, by rw [hl, hx]; rfl⟩
        · right
          simp only at hk hpk hx
          have hklt : k < pre.length := by
            by_contra hcon
            rw [List.getElem?_eq_none (by omega)] at hpk
            exact Option.noConfusion hpk
          refine ⟨k, pk, x, by omega, hk, ?_, hd.symm, hx⟩
          rw [List.getElem?_append_left (by simp; omega), List.getElem?_append_left hklt]
          exact hpk
      · -- the pair is produced later
        refine ih (j + x.below.length) (rest ++ placedPushed j x.below)
          (pre ++ x.below.map (fun c => (p0, c))) (by simp; omega) ?_ (by omega) hc
        intro e he
        rcases List.mem_append.mp he with he | he
        · rcases hq e (List.mem_cons_of_mem _ he) with h0 | ⟨k, pk, hk, hpk, hx⟩
          · exact Or.inl h0
          · right
            have hklt : k < pre.length := by
              by_contra hcon
              rw [List.getElem?_eq_none (by omega)] at hpk
              exact Option.noConfusion hpk
            exact ⟨k, pk, hk, by rw [List.getElem?_append_left hklt]; exact hpk, hx⟩
        · right
          obtain ⟨t, ht1, ht2⟩ := placedPushed_mem j x.below e he
          have hmem : e.2 ∈ x.below := List.getElem?_mem ht2
          refine ⟨j + t, p0, by omega, ?_, ?_⟩
          · rw [List.getElem?_append_right (by omega), List.getElem?_map]
            have : j + t - pre.length = t := by omega
            rw [this, ht2]
            rfl
          · intro hnil
            have := (below_path x e.2 hmem).2
            rw [hnil] at this
            simp at this

/-- The executions of the loop body of the source, for a tree whose children maps are in
ascending order of key, are the nodes in breadth-first order; the name of each is the last
name of its path and its parent id is right. -/
theorem visitsOf_breadthFirst (root : Node) (hord : root.ordered = true) :
    ∃ P : List (Nat × Placed),
      P.map (·.2) = breadthFirst root
      ∧ visitsOf root = P.map visitOfPlaced
      ∧ ∀ i p c, P[i]? = some (p, c) → ParentOk P i p c := by
  refine ⟨placedVisits root.count 0 [(0, { path := [], node := root })], ?_, ?_, ?_⟩
  · rw [placedVisits_snd]
    exact queueOrder_eq_levelOrder _ _ (by simp [placedCount])
  · rw [← visits_eq_placedVisits _ _ _ (by
      intro e he
      rw [List.mem_singleton.mp he]
      exact hord)]
    rfl
  · intro i p c hc
    have := placedVisits_parent root.count 0 [(0, { path := [], node := root })] [] rfl (by
      intro e he
      rw [List.mem_singleton.mp he]
      exact Or.inl ⟨rfl, rfl⟩) i p c (Nat.zero_le _) (by simpa using hc)
    simpa using this

/-- C2: for a tree whose children maps are in ascending order of key (the order of a
`std::map`), the node number `j` (from 0) of the breadth-first order, children taken in
ascending byte-lexical order of name, is the node emitted at position `j + 1`: the pair
number `j` of the leaves names a `PathInfo1` with `id = j + 1` and the `PathInfo2` of that
node, and a `FileRecord` with the name of the node and the parent id `p`, where `p` is 0
for a node just below the root and otherwise `i + 1` for the position `i < j` of its direct
parent in the same order. -/
theorem C2_breadth_first (le : Bool) (root : Node) (N : Nat) (hN : N < 4294967296)
    (hV : (visitsOf root).length = N)
    (hsize : ((build_bom root N).write le).length < 4294967296)
    (hord : root.ordered = true)
    (hname : ∀ x ∈ breadthFirst root, ∀ b ∈ x.path.getLastD [], b ≠ 0) :
    (breadthFirst root).length = N
    ∧ ∀ j x, (breadthFirst root)[j]? = some x →
        ∃ b p : Nat,
          fileBlock ((build_bom root N).write le) b = info2Bytes x.node.info
          ∧ fileBlock ((build_bom root N).write le) (b + 1) = htonl (j + 1) ++ htonl b
          ∧ fileBlock ((build_bom root N).write le) (b + 2)
              = htonl p ++ x.path.getLastD [] ++ [0]
          ∧ (∃ I, pathsIndices ((build_bom root N).write le) = some I
              ∧ I[j]? = some (b + 1, b + 2))
          ∧ ((p = 0 ∧ x.path.length = 1)
            ∨ ∃ i y, i < j ∧ (breadthFirst root)[i]? = some y ∧ y.path = x.path.dropLast
                ∧ y.path ≠ [] ∧ p = i + 1) := by
  have h := builtFile_of_build le root N hN hV hsize
  obtain ⟨P, hP1, hP2, hP3⟩ := visitsOf_breadthFirst root hord
  have hlen : (breadthFirst root).length = N := by
    rw [← hP1, List.length_map, ← hV, hP2, List.length_map]
  refine ⟨hlen, ?_⟩
  intro j x hx
  have hj : j < N := by
    by_contra hc
    rw [List.getElem?_eq_none (by omega)] at hx
    exact Option.noConfusion hx
  have hx2 := hx
  rw [← hP1, List.getElem?_map] at hx2
  obtain ⟨e, he, hex⟩ := Option.map_eq_some'.mp hx2
  obtain ⟨p, x2⟩ := e
  simp only at hex
  subst hex
  have hv : (visitsOf root)[j]? = some (visitOfPlaced (p, x2)) := by
    rw [hP2, List.getElem?_map, he]
    rfl
  have hf : fileBlock ((build_bom root N).write le) (info2Index 1 j + 3)
      = fileBytes p (x2.path.getLastD []) := h.file j (visitOfPlaced (p, x2)) hv hj
  rw [fileBytes_of_no_nul _ _ (hname x2 (List.getElem?_mem hx))] at hf
  have h2 : fileBlock ((build_bom root N).write le) (info2Index 1 j + 1)
      = info2Bytes x2.node.info := h.info2 j (visitOfPlaced (p, x2)) hv hj
  have h1 : fileBlock ((build_bom root N).write le) (info2Index 1 j + 1 + 1)
      = htonl (j + 1) ++ htonl (info2Index 1 j + 1) := h.info1 j (visitOfPlaced (p, x2)) hv hj
  refine ⟨info2Index 1 j + 1, p, h2, h1, hf, ⟨_, h.pathsIndices_eq (by omega), ?_⟩, ?_⟩
  · rw [List.getElem?_map, List.getElem?_range hj]
    rfl
  · rcases hP3 j p x2 he with h0 | ⟨k, pk, y, hk, hpk, hy, hd, hne⟩
    · exact Or.inl h0
    · right
      refine ⟨k, y, hk, ?_, hd, hne, hpk⟩
      rw [← hP1, List.getElem?_map, hy]
      rfl

set_option maxRecDepth 100000 in
/-- C2 on the tree of `d`, `d/a`, `d/b`: the order is `d`, `a`, `b`, the loop of the source
takes the parent ids 0, 1, 1 from its queue, and the third node `b` has the id 3. -/
theorem C2_breadth_first_witness :
    (visitsOf exTree).length = 3
    ∧ ((build_bom exTree 3).write true).length < 4294967296
    ∧ exTree.ordered = true
    ∧ write_bom true exManifest = .ok ((build_bom exTree 3).write true)
    ∧ (breadthFirst exTree).map (·.path) = [[[100]], [[100], [97]], [[100], [98]]]
    ∧ (visitsOf exTree).map (fun v => (v.parent, v.name)) = [(0, [100]), (1, [97]), (1, [98])]
    ∧ ∃ b p : Nat,
        fileBlock ((build_bom exTree 3).write true) b = info2Bytes exFile
        ∧ fileBlock ((build_bom exTree 3).write true) (b + 1) = htonl 3 ++ htonl b
        ∧ fileBlock ((build_bom exTree 3).write true) (b + 2) = htonl p ++ [98] ++ [0]
        ∧ (∃ I, pathsIndices ((build_bom exTree 3).write true) = some I
            ∧ I[2]? = some (b + 1, b + 2))
        ∧ ∃ i y, i < 2 ∧ (breadthFirst exTree)[i]? = some y ∧ y.path = [[100]] ∧ p = i + 1 := by
  have hV : (visitsOf exTree).length = 3 := by decide
  have hsize : ((build_bom exTree 3).write true).length < 4294967296 := by decide
  have hord : exTree.ordered = true := by decide
  obtain ⟨x, hx, hp, hi⟩ : ∃ x, (breadthFirst exTree)[2]? = some x
      ∧ x.path = [[100], [98]] ∧ info2Bytes x.node.info = info2Bytes exFile :=
    ⟨(breadthFirst exTree).get ⟨2, by decide⟩, List.getElem?_eq_getElem _, by decide, by decide⟩
  obtain ⟨b, p, h1, h2, h3, h4, h5⟩ :=
    (C2_breadth_first true exTree 3 (by decide) hV hsize hord (by decide)).2 2 x hx
  rw [hi] at h1
  rw [hp] at h3 h5
  refine ⟨hV, hsize, hord, by rfl, by decide, by decide, b, p, h1, h2, h3, h4, ?_⟩
  rcases h5 with ⟨_, h0⟩ | ⟨i, y, hi2, hy, hd, _, hpi⟩
  · exact absurd h0 (by decide)
  · exact ⟨i, y, hi2, hy, hd, hpi⟩

set_option maxRecDepth 100000 in
/-- C1 at the empty manifest: the storage records block 2, the block added after the
loop, with length 0; the file is written, its `Paths` tree (block 3) has `pathCount = 0`
and names block 2 as `rootChild`, and block 2 has no bytes: there is no page to start the
walk from, so the read direction yields no list of entries. -/
theorem C1_empty_manifest_has_no_root_page :
    (build_bom (Node.mk [] { NodeInfo.init with type := .kRootNode }) 0).block_table.blockPointers[2]?
      = some { address := 12, length := 0 }
    ∧ ∃ F : Bytes, write_bom true [] = .ok F
      ∧ findVar F [80, 97, 116, 104, 115] = some 3
      ∧ treePathCount F 3 = 0
      ∧ treeChild F 3 = 2
      ∧ fileBlock F 2 = []
      ∧ pathsLeaves F = none
      ∧ readPaths F = none :=
  ⟨by decide, (build_bom (Node.mk [] { NodeInfo.init with type := .kRootNode }) 0).write true,
    by rfl, by decide, by decide, by decide, by decide, by decide, by decide⟩

/-! ## The trees that `write_bom` builds keep their children in ascending order -/

theorem strLt_trichotomy (a b : Bytes) (h1 : strLt a b = false) (h2 : strLt b a = false) :
    a = b := by
  induction a generalizing b with
  | nil =>
    cases b with
    | nil => rfl
    | cons y bs => simp [strLt] at h1
  | cons x as ih =>
    cases b with
    | nil => simp [strLt] at h2
    | cons y bs =>
      simp only [strLt] at h1 h2
      by_cases hxy : x < y
      · simp [hxy] at h1
      · by_cases hyx : y < x
        · simp [hyx] at h2
        · simp only [hxy, hyx, if_false] at h1 h2
          have : x = y := by omega
          rw [this, ih bs h1 h2]

theorem keysAscending_cons (a : Bytes × Node) (l : List (Bytes × Node)) :
    keysAscending (a :: l)
      = ((match l with
          | [] => true
          | b :: _ => strLt a.1 b.1) && keysAscending l) := by
  cases l with
  | nil => rfl
  | cons b r => rfl

theorem head_mapInsert (k0 key : Bytes) (v : Node) (l : List (Bytes × Node))
    (h : (match l with
          | [] => true
          | b :: _ => strLt k0 b.1) = true)
    (hk : strLt k0 key = true) :
    (match mapInsert l key v with
      | [] => true
      | b :: _ => strLt k0 b.1) = true := by
  cases l with
  | nil => simpa [mapInsert] using hk
  | cons b r =>
    obtain ⟨k, w⟩ := b
    simp only [mapInsert]
    by_cases h1 : strLt key k = true
    · rw [if_pos h1]
      exact hk
    · rw [if_neg h1]
      by_cases h2 : strLt k key = true
      · rw [if_pos h2]
        exact h
      · rw [if_neg h2]
        exact hk

theorem keysAscending_mapInsert (key : Bytes) (v : Node) (l : List (Bytes × Node))
    (h : keysAscending l = true) : keysAscending (mapInsert l key v) = true := by
  induction l with
  | nil => rfl
  | cons b r ih =>
    obtain ⟨k, w⟩ := b
    rw [keysAscending_cons, Bool.and_eq_true] at h
    simp only [mapInsert]
    split
    · rename_i hlt
      rw [keysAscending_cons, keysAscending_cons, Bool.and_eq_true, Bool.and_eq_true]
      exact ⟨hlt, h⟩
    · split
      · rename_i hlt
        rw [keysAscending_cons, Bool.and_eq_true]
        exact ⟨head_mapInsert k key v r h.1 hlt, ih h.2⟩
      · rename_i h1 h2
        have hk : key = k := strLt_trichotomy key k (by simpa using h1) (by simpa using h2)
        rw [keysAscending_cons, Bool.and_eq_true, hk]
        exact h

theorem orderedList_mapInsert (key : Bytes) (v : Node) (l : List (Bytes × Node))
    (h : Node.orderedList l = true) (hv : v.ordered = true) :
    Node.orderedList (mapInsert l key v) = true := by
  induction l with
  | nil => simp [mapInsert, Node.orderedList, hv]
  | cons b r ih =>
    obtain ⟨k, w⟩ := b
    simp only [Node.orderedList, Bool.and_eq_true] at h
    simp only [mapInsert]
    split
    · simp only [Node.orderedList, Bool.and_eq_true]
      exact ⟨hv, h⟩
    · split
      · simp only [Node.orderedList, Bool.and_eq_true]
        exact ⟨h.1, ih h.2⟩
      · simp only [Node.orderedList, Bool.and_eq_true]
        exact ⟨hv, h.2⟩

theorem mapFind_ordered (l : List (Bytes × Node)) (h : Node.orderedList l = true) (key : Bytes)
    (n : Node) (hn : mapFind l key = some n) : n.ordered = true := by
  induction l with
  | nil => cases hn
  | cons b r ih =>
    obtain ⟨k, w⟩ := b
    simp only [Node.orderedList, Bool.and_eq_true] at h
    simp only [mapFind] at hn
    split at hn
    · cases hn; exact h.1
    · exact ih h.2 hn

theorem insert_elements_ordered (all_nodes : List (Bytes × NodeInfo)) (elems : List Bytes)
    (full_path : Bytes) (parent r : Node) (hp : parent.ordered = true)
    (h : insert_elements all_nodes elems full_path parent = .ok r) : r.ordered = true := by
  induction elems generalizing full_path parent r with
  | nil =>
    simp only [insert_elements] at h
    cases h
    exact hp
  | cons jt more ih =>
    obtain ⟨hk, ho⟩ := ordered_children parent hp
    simp only [insert_elements] at h
    have key : ∀ kt : Node, kt.ordered = true →
        (match insert_elements all_nodes more (full_path ++ jt ++ [47]) kt with
          | .error e => (.error e : Except Failure Node)
          | .ok kt => .ok (Node.mk (mapInsert parent.children jt kt) parent.info)) = .ok r →
        r.ordered = true := by
      intro kt hkt hr
      split at hr
      · exact Except.noConfusion hr
      · rename_i kt2 hkt2
        cases hr
        have h2 := ih _ _ _ hkt hkt2
        simp only [Node.ordered, Bool.and_eq_true]
        exact ⟨keysAscending_mapInsert _ _ _ hk, orderedList_mapInsert _ _ _ ho h2⟩
    cases hf : mapFind parent.children jt with
    | some kt =>
      rw [hf] at h
      exact key kt (mapFind_ordered _ ho _ _ hf) h
    | none =>
      rw [hf] at h
      cases hl : mapFind all_nodes (full_path ++ jt) with
      | none =>
        rw [hl] at h
        exact Except.noConfusion h
      | some lt =>
        rw [hl] at h
        exact key (Node.mk [] lt) rfl h

theorem create_tree_loop_ordered (all_nodes rest : List (Bytes × NodeInfo)) (root r : Node)
    (hp : root.ordered = true) (h : create_tree_loop all_nodes rest root = .ok r) :
    r.ordered = true := by
  induction rest generalizing root with
  | nil =>
    simp only [create_tree_loop] at h
    cases h
    exact hp
  | cons it more ih =>
    simp only [create_tree_loop] at h
    split at h
    · exact Except.noConfusion h
    · rename_i root2 h2
      exact ih root2 (insert_elements_ordered _ _ _ _ _ hp h2) h

/-- Every tree that "create tree" builds has its children maps in ascending order of key. -/
theorem create_tree_ordered (all_nodes : List (Bytes × NodeInfo)) (root : Node)
    (h : create_tree all_nodes = .ok root) : root.ordered = true :=
  create_tree_loop_ordered all_nodes all_nodes
    (Node.mk [] { NodeInfo.init with type := .kRootNode }) root rfl h

/-! ## `dec_octal_to_int` -/

/-- The loop of `dec_octal_to_int`, when the digits that remain fit the fuel and nothing
wraps: the result is the value of the decimal digits read in base 8, scaled by `n` and added
to `retval`, or the failure when a digit is 8 or 9. -/
theorem dec_octal_to_int_loop_spec (fuel retval n x : Nat) (hx : x < 10 ^ fuel)
    (hr : retval < n) (hn : n * 8 ^ fuel ≤ 1073741824) :
    dec_octal_to_int_loop fuel retval n x
      = if ∀ d ∈ Nat.digits 10 x, d ≤ 7 then
          .ok (retval + n * Nat.ofDigits 8 (Nat.digits 10 x))
        else .error .notOctal := by
  induction fuel generalizing retval n x with
  | zero =>
    have h0 : x = 0 := by simpa using hx
    subst h0
    simp [dec_octal_to_int_loop]
  | succ fuel ih =>
    by_cases h0 : x = 0
    · subst h0
      simp [dec_octal_to_int_loop]
    · have hpos : 0 < x := Nat.pos_of_ne_zero h0
      have hd : Nat.digits 10 x = (x % 10) :: Nat.digits 10 (x / 10) :=
        Nat.digits_def' (by decide) hpos
      have hdig : x - x / 10 * 10 = x % 10 := by omega
      have hn8 : n * 8 ≤ 1073741824 := by
        have : n * 8 ≤ n * 8 ^ (fuel + 1) := by
          apply Nat.mul_le_mul_left
          calc 8 = 8 ^ 1 := by norm_num
            _ ≤ 8 ^ (fuel + 1) := Nat.pow_le_pow_right (by decide) (by omega)
        omega
      simp only [dec_octal_to_int_loop, if_neg h0, hdig]
      by_cases h7 : x % 10 > 7
      · rw [if_pos h7, if_neg]
        rw [hd]
        intro hall
        have := hall (x % 10) (List.mem_cons_self _ _)
        omega
      · rw [if_neg h7]
        have hmul : x % 10 * n ≤ 7 * n := Nat.mul_le_mul_right _ (by omega)
        have e1 : u32 (x % 10 * n) = x % 10 * n := u32_of_lt (by omega)
        have e2 : u32 (retval + x % 10 * n) = retval + x % 10 * n := u32_of_lt (by omega)
        have e3 : u32 (n * 8) = n * 8 := u32_of_lt (by omega)
        rw [e1, e2, e3]
        rw [ih (retval + x % 10 * n) (n * 8) (x / 10)
          (by rw [Nat.pow_succ] at hx; omega) (by omega)
          (by rw [Nat.pow_succ] at hn; rw [Nat.mul_assoc, Nat.mul_comm 8]; exact hn)]
        rw [hd]
        simp only [List.mem_cons, forall_eq_or_imp, Nat.ofDigits_cons]
        have hle : x % 10 ≤ 7 := by omega
        simp only [hle, true_and]
        split
        · congr 1
          rw [Nat.mul_add, Nat.mul_comm (x % 10) n, Nat.mul_assoc, Nat.add_assoc]
        · rfl

theorem dec_octal_to_int_spec (x : Nat) (hx : x < 4294967296) :
    dec_octal_to_int x
      = if ∀ d ∈ Nat.digits 10 x, d ≤ 7 then .ok (Nat.ofDigits 8 (Nat.digits 10 x))
        else .error .notOctal := by
  unfold dec_octal_to_int
  rw [dec_octal_to_int_loop_spec 10 0 1 x (by omega) (by decide) (by decide)]
  simp

/-- C18: for every 32-bit value `x` whose decimal digits are all at most 7,
`dec_octal_to_int (x)` returns the sum of `d_i * 8 ^ i` over the decimal digits `d_i` of
`x` (`d_0` the least significant), the number whose octal representation is the decimal
digit string of `x`. -/
theorem C18_dec_octal_to_int (x : Nat) (hx : x < 4294967296)
    (hd : ∀ d ∈ Nat.digits 10 x, d ≤ 7) :
    dec_octal_to_int x = .ok (((Nat.digits 10 x).mapIdx (fun i d => d * 8 ^ i)).sum) := by
  rw [dec_octal_to_int_spec x hx, if_pos hd, Nat.ofDigits_eq_sum_mapIdx]

/-- C18 at 40755, which gives `0o40755 = 16877`, and at 0, which gives 0. -/
theorem C18_dec_octal_to_int_witness :
    dec_octal_to_int 40755 = .ok 16877 ∧ dec_octal_to_int 0 = .ok 0 := by
  have h1 := C18_dec_octal_to_int 40755 (by decide) (by norm_num)
  have h2 := C18_dec_octal_to_int 0 (by decide) (by norm_num)
  have e1 : ((Nat.digits 10 40755).mapIdx (fun i d => d * 8 ^ i)).sum = 16877 := by
    norm_num [List.mapIdx, List.mapIdx.go]
  have e2 : ((Nat.digits 10 0).mapIdx (fun i d => d * 8 ^ i)).sum = 0 := by
    norm_num
  rw [e1] at h1
  rw [e2] at h2
  exact ⟨h1, h2⟩

/-- C19: for a 32-bit argument, `dec_octal_to_int (x)` fails (the exception of the source)
if and only if at least one decimal digit of `x` is 8 or 9, at whatever position. -/
theorem C19_dec_octal_to_int_error (x : Nat) (hx : x < 4294967296) :
    (∃ e, dec_octal_to_int x = .error e) ↔ ∃ d ∈ Nat.digits 10 x, d = 8 ∨ d = 9 := by
  rw [dec_octal_to_int_spec x hx]
  constructor
  · rintro ⟨e, he⟩
    by_contra hcon
    rw [if_pos] at he
    · exact Except.noConfusion he
    · intro d hd
      have hlt : d < 10 := Nat.digits_lt_base (by decide) hd
      by_contra h7
      exact hcon ⟨d, hd, by omega⟩
  · rintro ⟨d, hd, h89⟩
    refine ⟨.notOctal, ?_⟩
    rw [if_neg]
    intro hall
    have := hall d hd
    omega

/-- C19 at 1080, whose third digit is 8, and at 9. -/
theorem C19_dec_octal_to_int_error_witness :
    (∃ e, dec_octal_to_int 1080 = .error e) ∧ (∃ e, dec_octal_to_int 9 = .error e) :=
  ⟨(C19_dec_octal_to_int_error 1080 (by decide)).mpr ⟨8, by norm_num, Or.inl rfl⟩,
   (C19_dec_octal_to_int_error 9 (by decide)).mpr ⟨9, by norm_num, Or.inr rfl⟩⟩

/-! ## The type of a record -/

/-- The mask `mode & 0xF000` keeps bits 12 to 15: it is `4096` times the hexadecimal digit
number 3 of `mode`. -/
theorem land_F000 (m : Nat) : m &&& 61440 = 4096 * (m / 4096 % 16) := by
  apply Nat.eq_of_testBit_eq
  intro i
  have h1 : (61440 : Nat) = (2 ^ 4 - 1) <<< 12 := by decide
  have h2 : 4096 * (m / 4096 % 16) = ((m >>> 12) % 2 ^ 4) <<< 12 := by
    rw [Nat.shiftLeft_eq, Nat.shiftRight_eq_div_pow]
    norm_num
    ring
  rw [Nat.testBit_land, h1, h2, Nat.testBit_shiftLeft, Nat.testBit_shiftLeft,
    Nat.testBit_two_pow_sub_one, Nat.testBit_mod_two_pow, Nat.testBit_shiftRight]
  by_cases h12 : 12 ≤ i
  · have : 12 + (i - 12) = i := by omega
    simp [h12, this, Bool.and_comm]
  · simp [h12]

theorem land_F000_eq (m c : Nat) (hc : c < 16) :
    m &&& 61440 = 4096 * c ↔ m % 65536 / 4096 = c := by
  rw [land_F000]
  omega

theorem read_nodes_append (a acc : List (Bytes × NodeInfo)) (pre rest : List Bytes)
    (h : read_nodes a pre = .ok acc) : read_nodes a (pre ++ rest) = read_nodes acc rest := by
  induction pre generalizing a with
  | nil =>
    simp only [read_nodes] at h
    cases h
    rfl
  | cons l pre ih =>
    simp only [read_nodes, List.cons_append] at h ⊢
    split at h
    · exact Except.noConfusion h
    · exact ih _ h

theorem parse_line_tab (name after : Bytes) (hname : ∀ b ∈ name, b ≠ 9) :
    parse_line (name ++ 9 :: after)
      = match node_of_elements (tokens [] (replaceFirstSlash (after.takeWhile (· ≠ 10)))) with
        | .error e => .error e
        | .ok n => .ok (name, n) := by
  have ht : (name ++ 9 :: after).takeWhile (· ≠ 9) = name := by
    induction name with
    | nil => simp
    | cons c cs ih =>
      have hc : c ≠ 9 := hname c (List.mem_cons_self _ _)
      rw [List.cons_append, List.takeWhile_cons_of_pos (by simpa using hc),
        ih (fun b hb => hname b (List.mem_cons_of_mem _ hb))]
  have hd : (name ++ 9 :: after).dropWhile (· ≠ 9) = 9 :: after := by
    clear ht
    induction name with
    | nil => simp
    | cons c cs ih =>
      have hc : c ≠ 9 := hname c (List.mem_cons_self _ _)
      rw [List.cons_append, List.dropWhile_cons_of_pos (by simpa using hc),
        ih (fun b hb => hname b (List.mem_cons_of_mem _ hb))]
  unfold parse_line
  simp only [ht, hd]

/-- C20: a record whose mode was read as `mode` is classified by `mode & 0xF000`:
`0x4000` gives a directory node, `0x8000` a regular file node and `0xA000` a symbolic link
node (when the line holds the fields that these branches read); for every other value the
record gives the failure "Node type not supported", and `write_bom` stops with that failure
at the first such line, without a file. -/
theorem C20_type_dispatch (elements : List Bytes) (e0 e1 e2 : Bytes) (mode : Nat)
    (h0 : elements[0]? = some e0) (h1 : elements[1]? = some e1) (h2 : elements[2]? = some e2)
    (hm : dec_octal_to_int (u32OfInt (atol e0)) = .ok mode) :
    (mode &&& 0xF000 = 0x4000 →
      ∃ n, node_of_elements elements = .ok n ∧ n.type = .kDirectoryNode ∧ n.mode = mode)
    ∧ (mode &&& 0xF000 = 0x8000 → 5 ≤ elements.length →
      ∃ n, node_of_elements elements = .ok n ∧ n.type = .kFileNode ∧ n.mode = mode)
    ∧ (mode &&& 0xF000 = 0xA000 → 6 ≤ elements.length →
      ∃ n, node_of_elements elements = .ok n ∧ n.type = .kSymbolicLinkNode ∧ n.mode = mode)
    ∧ (mode &&& 0xF000 ≠ 0x4000 → mode &&& 0xF000 ≠ 0x8000 → mode &&& 0xF000 ≠ 0xA000 →
      node_of_elements elements = .error .unsupportedType
      ∧ ∀ (le : Bool) (pre post : List Bytes) (acc : List (Bytes × NodeInfo))
          (name after : Bytes),
          read_nodes [] pre = .ok acc → (∀ b ∈ name, b ≠ 9) →
          tokens [] (replaceFirstSlash (after.takeWhile (· ≠ 10))) = elements →
          write_bom le (pre ++ (name ++ 9 :: after) :: post) = .error .unsupportedType) := by
  have k4 := land_F000_eq mode 4 (by decide)
  have k8 := land_F000_eq mode 8 (by decide)
  have k10 := land_F000_eq mode 10 (by decide)
  have a0 : elementAt elements 0 = .ok e0 := by simp [elementAt, h0]
  have a1 : elementAt elements 1 = .ok e1 := by simp [elementAt, h1]
  have a2 : elementAt elements 2 = .ok e2 := by simp [elementAt, h2]
  have hstart : node_of_elements elements
      = (if mode % 65536 / 4096 = 4 then
          .ok { NodeInfo.init with
                mode := mode, uid := u32OfInt (atol e1), gid := u32OfInt (atol e2)
                type := .kDirectoryNode }
        else if mode % 65536 / 4096 = 8 then do
          let e3 ← elementAt elements 3
          let e4 ← elementAt elements 4
          .ok { NodeInfo.init with
                mode := mode, uid := u32OfInt (atol e1), gid := u32OfInt (atol e2)
                type := .kFileNode, size := u32OfInt (atol e3)
                checksum := u32OfInt (atol e4) }
        else if mode % 65536 / 4096 = 10 then do
          let e3 ← elementAt elements 3
          let e4 ← elementAt elements 4
          let e5 ← elementAt elements 5
          .ok { NodeInfo.init with
                mode := mode, uid := u32OfInt (atol e1), gid := u32OfInt (atol e2)
                type := .kSymbolicLinkNode, size := u32OfInt (atol e3)
                checksum := u32OfInt (atol e4)
                linkNameLength := u32 (e5.length + 1), linkName := e5 }
        else .error .unsupportedType) := by
    unfold node_of_elements
    simp only [a0, a1, a2, hm, bind, Except.bind]
  have at_ok : ∀ i, i < elements.length → ∃ e, elementAt elements i = .ok e := by
    intro i hi
    exact ⟨elements[i], by simp [elementAt, List.getElem?_eq_getElem hi]⟩
  refine ⟨?_, ?_, ?_, ?_⟩
  · intro h
    rw [hstart, if_pos (k4.mp h)]
    exact ⟨_, rfl, rfl, rfl⟩
  · intro h hl
    have h8 : mode % 65536 / 4096 = 8 := k8.mp h
    obtain ⟨e3, a3⟩ := at_ok 3 (by omega)
    obtain ⟨e4, a4⟩ := at_ok 4 (by omega)
    rw [hstart, if_neg (by omega), if_pos h8]
    simp only [a3, a4, bind, Except.bind]
    exact ⟨_, rfl, rfl, rfl⟩
  · intro h hl
    have h10 : mode % 65536 / 4096 = 10 := k10.mp h
    obtain ⟨e3, a3⟩ := at_ok 3 (by omega)
    obtain ⟨e4, a4⟩ := at_ok 4 (by omega)
    obtain ⟨e5, a5⟩ := at_ok 5 (by omega)
    rw [hstart, if_neg (by omega), if_neg (by omega), if_pos h10]
    simp only [a3, a4, a5, bind, Except.bind]
    exact ⟨_, rfl, rfl, rfl⟩
  · intro n4 n8 n10
    have herr : node_of_elements elements = .error .unsupportedType := by
      rw [hstart, if_neg (fun h => n4 (k4.mpr h)), if_neg (fun h => n8 (k8.mpr h)),
        if_neg (fun h => n10 (k10.mpr h))]
    refine ⟨herr, ?_⟩
    intro le pre post acc name after hpre hname htok
    unfold write_bom
    rw [read_nodes_append _ _ _ _ hpre]
    simp only [read_nodes, parse_line_tab name after hname, htok, herr]

/-- C20 on the elements `40755 501 20`, a directory, and on the line
`p<TAB>10644<TAB>0/0` of a named pipe (high nibble 1), which stops `write_bom`. -/
theorem C20_type_dispatch_witness :
    (∃ n, node_of_elements [[52, 48, 55, 53, 53], [53, 48, 49], [50, 48]] = .ok n
        ∧ n.type = .kDirectoryNode ∧ n.mode = 16877)
    ∧ node_of_elements [[49, 48, 54, 52, 52], [48], [48]] = .error .unsupportedType
    ∧ write_bom true [[112, 9, 49, 48, 54, 52, 52, 9, 48, 47, 48]]
        = .error .unsupportedType := by
  have hd := (C20_type_dispatch [[52, 48, 55, 53, 53], [53, 48, 49], [50, 48]]
    [52, 48, 55, 53, 53] [53, 48, 49] [50, 48] 16877 rfl rfl rfl (by rfl)).1 (by decide)
  have hp := (C20_type_dispatch [[49, 48, 54, 52, 52], [48], [48]]
    [49, 48, 54, 52, 52] [48] [48] 4516 rfl rfl rfl (by rfl)).2.2.2
    (by decide) (by decide) (by decide)
  exact ⟨hd, hp.1, hp.2 true [] [] [] [112] [49, 48, 54, 52, 52, 9, 48, 47, 48] rfl
    (by decide) (by rfl)⟩

/-! ## The free list -/

theorem start_page_free (num : Nat) (st : PathsState) :
    (start_page num st).bom.free_list = st.bom.free_list
    ∧ (start_page num st).bom.size_of_free_list = st.bom.size_of_free_list := by
  unfold start_page
  cases st.paths with
  | none => exact ⟨rfl, rfl⟩
  | some p =>
    simp only
    split <;> exact ⟨rfl, rfl⟩

theorem emit_node_free (num p : Nat) (st : PathsState) (s : Bytes) (n : Node) :
    (emit_node num p st s n).bom.free_list = st.bom.free_list
    ∧ (emit_node num p st s n).bom.size_of_free_list = st.bom.size_of_free_list := by
  unfold emit_node
  split
  · exact ⟨(start_page_free num st).1, (start_page_free num st).2⟩
  · exact ⟨rfl, rfl⟩

theorem foldl_emit_free (num : Nat) (vs : List Visit) (st : PathsState) :
    (vs.foldl (emit_visit num) st).bom.free_list = st.bom.free_list
    ∧ (vs.foldl (emit_visit num) st).bom.size_of_free_list = st.bom.size_of_free_list := by
  induction vs generalizing st with
  | nil => exact ⟨rfl, rfl⟩
  | cons v vs ih =>
    have h1 := ih (emit_visit num st v)
    have h2 := emit_node_free num v.parent st v.name v.node
    exact ⟨h1.1.trans h2.1, h1.2.trans h2.2⟩

theorem finish_paths_free (num np ps : Nat) (st : PathsState) :
    (finish_paths num np ps st).free_list = st.bom.free_list
    ∧ (finish_paths num np ps st).size_of_free_list = st.bom.size_of_free_list := by
  unfold finish_paths
  split <;> exact ⟨rfl, rfl⟩

theorem write_paths_free (bom : BOMStorage) (root : Node) (num : Nat) :
    (write_paths bom root num).free_list = bom.free_list
    ∧ (write_paths bom root num).size_of_free_list = bom.size_of_free_list := by
  rw [write_paths_eq]
  have h1 := finish_paths_free num ((num + 255) / 256)
    (sizeof_uint16 * 2 + sizeof_uint32 * 2 + (num + 255) / 256 * sizeof_BOMPathIndices)
    ((visitsOf root).foldl (emit_visit num) (initialPathsState bom root num))
  have h2 := foldl_emit_free num (visitsOf root) (initialPathsState bom root num)
  exact ⟨h1.1.trans h2.1, h1.2.trans h2.2⟩

theorem BOMStorage.addBlock_free (s : BOMStorage) (data : Bytes) :
    (s.addBlock data).1.free_list = s.free_list
    ∧ (s.addBlock data).1.size_of_free_list = s.size_of_free_list :=
  ⟨rfl, rfl⟩

theorem BOMStorage.addVar_free (s : BOMStorage) (name data : Bytes) :
    (s.addVar name data).free_list = s.free_list
    ∧ (s.addVar name data).size_of_free_list = s.size_of_free_list :=
  ⟨rfl, rfl⟩

theorem write_aux_vars_free (bom : BOMStorage) :
    (write_aux_vars bom).free_list = bom.free_list
    ∧ (write_aux_vars bom).size_of_free_list = bom.size_of_free_list := by
  unfold write_aux_vars
  simp only [(BOMStorage.addVar_free _ _ _).1, (BOMStorage.addVar_free _ _ _).2,
    (BOMStorage.addBlock_free _ _).1, (BOMStorage.addBlock_free _ _).2, and_self]

/-- No statement of `write_bom` touches the free list: the storage that is written holds
the free list of the constructor. -/
theorem build_bom_free (root : Node) (num : Nat) :
    (build_bom root num).free_list = BOMStorage.new.free_list
    ∧ (build_bom root num).size_of_free_list = 20 := by
  have h := write_paths_free
    (BOMStorage.new.addVar [66, 111, 109, 73, 110, 102, 111] (bomInfoBytes num)) root num
  have h2 := write_aux_vars_free (write_paths
    (BOMStorage.new.addVar [66, 111, 109, 73, 110, 102, 111] (bomInfoBytes num)) root num)
  have e : build_bom root num = write_aux_vars (write_paths
    (BOMStorage.new.addVar [66, 111, 109, 73, 110, 102, 111] (bomInfoBytes num)) root num) := rfl
  rw [e, h2.1, h2.2, h.1, h.2]
  exact ⟨rfl, rfl⟩

/-- A file is written exactly when the manifest is read and the tree is built. -/
theorem write_bom_ok (le : Bool) (lsbom_file : List Bytes) (F : Bytes)
    (h : write_bom le lsbom_file = .ok F) :
    ∃ all_nodes root, read_nodes [] lsbom_file = .ok all_nodes
      ∧ create_tree all_nodes = .ok root
      ∧ F = (build_bom root all_nodes.length).write le := by
  unfold write_bom at h
  cases h1 : read_nodes [] lsbom_file with
  | error e =>
    rw [h1] at h
    exact Except.noConfusion h
  | ok all_nodes =>
    rw [h1] at h
    simp only at h
    cases h2 : create_tree all_nodes with
    | error e =>
      rw [h2] at h
      exact Except.noConfusion h
    | ok root =>
      rw [h2] at h
      simp only [Except.ok.injEq] at h
      exact ⟨all_nodes, root, rfl, h2, h.symm⟩

theorem drop_length_sub_append (a b : Bytes) : (a ++ b).drop ((a ++ b).length - b.length) = b := by
  rw [List.length_append, Nat.add_sub_cancel, List.drop_left]

/-- C12: a fresh `BOMStorage` has the magic `BOMStore`, version 1, a block table that holds
only the all-zero slot 0, vars with count 0 and a free list with count 0 and two all-zero
pointers; `addBlock`, `addVar` and the patch of a `forward` field leave the free list as it
is; and every file that `write_bom` writes ends with the 20 bytes of that free list: the
count 0 and two all-zero pointers. -/
theorem C12_fresh_storage_and_free_list :
    BOMStorage.new.header.magic = [66, 79, 77, 83, 116, 111, 114, 101]
    ∧ BOMStorage.new.header.version = 1
    ∧ BOMStorage.new.block_table
        = { numberOfBlockTablePointers := 1, blockPointers := [{ address := 0, length := 0 }] }
    ∧ BOMStorage.new.vars = { count := 0, first := [] }
    ∧ BOMStorage.new.free_list
        = { numberOfFreeListPointers := 0
            freelistPointers := [{ address := 0, length := 0 }, { address := 0, length := 0 }] }
    ∧ (∀ (s : BOMStorage) (data : Bytes), (s.addBlock data).1.free_list = s.free_list)
    ∧ (∀ (s : BOMStorage) (name data : Bytes), (s.addVar name data).free_list = s.free_list)
    ∧ (∀ (s : BOMStorage) (id v : Nat), (s.setForward id v).free_list = s.free_list)
    ∧ (∀ ops : List Op, (BOMStorage.new.run ops).free_list = BOMStorage.new.free_list)
    ∧ ∀ (le : Bool) (lsbom_file : List Bytes) (F : Bytes),
        write_bom le lsbom_file = .ok F →
        F.drop (F.length - 20)
          = htonl 0 ++ (htonl 0 ++ htonl 0) ++ (htonl 0 ++ htonl 0) := by
  refine ⟨rfl, rfl, rfl, rfl, rfl, fun _ _ => rfl, fun _ _ _ => rfl, fun _ _ _ => rfl, ?_, ?_⟩
  · intro ops
    exact (BOMStorage.inv_run _ BOMStorage.inv_new ops).free_list_eq
  · intro le lsbom_file F hF
    obtain ⟨all_nodes, root, _, _, rfl⟩ := write_bom_ok le lsbom_file F hF
    have hb := build_bom_free root all_nodes.length
    have hw : (build_bom root all_nodes.length).write le
        = ((build_bom root all_nodes.length).header.image
              (build_bom root all_nodes.length).size_of_header).take
              (build_bom root all_nodes.length).size_of_header
            ++ (build_bom root all_nodes.length).vars.image.take
              (build_bom root all_nodes.length).size_of_vars
            ++ (build_bom root all_nodes.length).entries.take
              (build_bom root all_nodes.length).entry_size
            ++ (writeTable le (build_bom root all_nodes.length)).take
              (build_bom root all_nodes.length).size_of_block_table
          ++ (htonl 0 ++ (htonl 0 ++ htonl 0) ++ (htonl 0 ++ htonl 0)) := by
      unfold BOMStorage.write
      rw [hb.1, hb.2]
      rfl
    rw [hw]
    exact drop_length_sub_append _ _

set_option maxRecDepth 100000 in
/-- C12 on the file of the manifest `d`, `d/a`, `d/b`. -/
theorem C12_fresh_storage_and_free_list_witness :
    write_bom true exManifest = .ok ((build_bom exTree 3).write true)
    ∧ ((build_bom exTree 3).write true).drop (((build_bom exTree 3).write true).length - 20)
        = htonl 0 ++ (htonl 0 ++ htonl 0) ++ (htonl 0 ++ htonl 0) :=
  ⟨by rfl, C12_fresh_storage_and_free_list.2.2.2.2.2.2.2.2.2 true exManifest _ (by rfl)⟩

/-! ## `BomInfo` and the header of the `Paths` tree -/

theorem blocksAfterPaths_first (V : List Visit) (b : Bytes) (N : Nat) :
    (blocksAfterPaths V [b] N)[0]? = some b := by
  unfold blocksAfterPaths
  simp

theorem BuiltFile.bomInfo_block {F : Bytes} {V : List Visit} {N : Nat} (h : BuiltFile F V N) :
    fileBlock F 1 = bomInfoBytes N :=
  h.block 0 _ (blocksAfterPaths_first V (bomInfoBytes N) N)

theorem blocksOfBuild_aux (V : List Visit) (N k : Nat) :
    (blocksOfBuild V N)[(blocksAfterPaths V [bomInfoBytes N] N).length + k]?
      = [emptyLeafBytes,
          treeBytes ((blocksAfterPaths V [bomInfoBytes N] N).length + 1) 4096 0,
          emptyLeafBytes,
          treeBytes ((blocksAfterPaths V [bomInfoBytes N] N).length + 3) 128 0,
          vindexBytes ((blocksAfterPaths V [bomInfoBytes N] N).length + 4),
          emptyLeafBytes,
          treeBytes ((blocksAfterPaths V [bomInfoBytes N] N).length + 6) 4096 0][k]? := by
  unfold blocksOfBuild
  simp only
  rw [List.getElem?_append_right (Nat.le_add_right _ _), Nat.add_sub_cancel_left]

theorem BuiltFile.aux_block {F : Bytes} {V : List Visit} {N : Nat} (h : BuiltFile F V N)
    (k : Nat) (b : Bytes)
    (hb : [emptyLeafBytes,
          treeBytes ((blocksAfterPaths V [bomInfoBytes N] N).length + 1) 4096 0,
          emptyLeafBytes,
          treeBytes ((blocksAfterPaths V [bomInfoBytes N] N).length + 3) 128 0,
          vindexBytes ((blocksAfterPaths V [bomInfoBytes N] N).length + 4),
          emptyLeafBytes,
          treeBytes ((blocksAfterPaths V [bomInfoBytes N] N).length + 6) 4096 0][k]? = some b) :
    fileBlock F ((blocksAfterPaths V [bomInfoBytes N] N).length + k + 1) = b :=
  h.isFile.block_of_getElem? _ _ (by rw [blocksOfBuild_aux]; exact hb)

theorem BuiltFile.paths_blocks_lt {F : Bytes} {V : List Visit} {N : Nat} (h : BuiltFile F V N) :
    (blocksAfterPaths V [bomInfoBytes N] N).length + 7 < 536870912 := by
  have hb := h.blocks_lt
  rw [blocksAfterPaths_length]
  simp only [List.length_singleton]
  split <;> omega

theorem BuiltFile.findVar_aux {F : Bytes} {V : List Visit} {N : Nat} (h : BuiltFile F V N) :
    findVar F [72, 76, 73, 110, 100, 101, 120]
        = some ((blocksAfterPaths V [bomInfoBytes N] N).length + 2)
    ∧ findVar F [86, 73, 110, 100, 101, 120]
        = some ((blocksAfterPaths V [bomInfoBytes N] N).length + 5)
    ∧ findVar F [83, 105, 122, 101, 54, 52]
        = some ((blocksAfterPaths V [bomInfoBytes N] N).length + 7) := by
  unfold findVar
  rw [h.isFile.vars_eq]
  have hb := h.paths_blocks_lt
  have e2 : u32 ((blocksAfterPaths V [bomInfoBytes N] N).length + 2)
      = (blocksAfterPaths V [bomInfoBytes N] N).length + 2 := u32_of_lt (by omega)
  have e5 : u32 ((blocksAfterPaths V [bomInfoBytes N] N).length + 5)
      = (blocksAfterPaths V [bomInfoBytes N] N).length + 5 := u32_of_lt (by omega)
  have e7 : u32 ((blocksAfterPaths V [bomInfoBytes N] N).length + 7)
      = (blocksAfterPaths V [bomInfoBytes N] N).length + 7 := u32_of_lt (by omega)
  simp [varsOfBuild, mapFind, e2, e5, e7]

/-- C14: in the file written for a tree of `N` nodes, the blocks of the variables `HLIndex`
and `Size64` are trees with `blockSize = 4096` and `pathCount = 0`, the block of `VIndex`
is `unknown0 = 1`, `indexToVTree = vt`, `unknown2 = 0`, reserved 0, where block `vt` is a
tree with `blockSize = 128` and `pathCount = 0`; the `rootChild` of each of the three trees
is a block of 12 bytes, a page with `isLeaf = 1`, `count = 0`, `forward = backward = 0`,
and the three block ids are distinct. -/
theorem C14_auxiliary_trees (le : Bool) (root : Node) (N : Nat) (hN : N < 4294967296)
    (hV : (visitsOf root).length = N)
    (hsize : ((build_bom root N).write le).length < 4294967296) :
    ∃ hl vi sz vt c1 c2 c3 : Nat,
      findVar ((build_bom root N).write le) [72, 76, 73, 110, 100, 101, 120] = some hl
      ∧ findVar ((build_bom root N).write le) [86, 73, 110, 100, 101, 120] = some vi
      ∧ findVar ((build_bom root N).write le) [83, 105, 122, 101, 54, 52] = some sz
      ∧ fileBlock ((build_bom root N).write le) hl
          = [116, 114, 101, 101] ++ htonl 1 ++ htonl c1 ++ htonl 4096 ++ htonl 0 ++ [0]
      ∧ fileBlock ((build_bom root N).write le) sz
          = [116, 114, 101, 101] ++ htonl 1 ++ htonl c3 ++ htonl 4096 ++ htonl 0 ++ [0]
      ∧ fileBlock ((build_bom root N).write le) vi = htonl 1 ++ htonl vt ++ htonl 0 ++ [0]
      ∧ fileBlock ((build_bom root N).write le) vt
          = [116, 114, 101, 101] ++ htonl 1 ++ htonl c2 ++ htonl 128 ++ htonl 0 ++ [0]
      ∧ fileBlock ((build_bom root N).write le) c1 = htons 1 ++ htons 0 ++ htonl 0 ++ htonl 0
      ∧ fileBlock ((build_bom root N).write le) c2 = htons 1 ++ htons 0 ++ htonl 0 ++ htonl 0
      ∧ fileBlock ((build_bom root N).write le) c3 = htons 1 ++ htons 0 ++ htonl 0 ++ htonl 0
      ∧ c1 ≠ c2 ∧ c2 ≠ c3 ∧ c1 ≠ c3
      ∧ c1 < 4294967296 ∧ c2 < 4294967296 ∧ c3 < 4294967296 ∧ vt < 4294967296 := by
  have h := builtFile_of_build le root N hN hV hsize
  have hb := h.paths_blocks_lt
  obtain ⟨f1, f2, f3⟩ := h.findVar_aux
  refine ⟨_, _, _, (blocksAfterPaths (visitsOf root) [bomInfoBytes N] N).length + 4,
    (blocksAfterPaths (visitsOf root) [bomInfoBytes N] N).length + 1,
    (blocksAfterPaths (visitsOf root) [bomInfoBytes N] N).length + 3,
    (blocksAfterPaths (visitsOf root) [bomInfoBytes N] N).length + 6,
    f1, f2, f3, h.aux_block 1 _ rfl, h.aux_block 6 _ rfl, h.aux_block 4 _ rfl,
    h.aux_block 3 _ rfl, h.aux_block 0 _ rfl, h.aux_block 2 _ rfl, h.aux_block 5 _ rfl,
    by omega, by omega, by omega, by omega, by omega, by omega, by omega⟩

set_option maxRecDepth 100000 in
/-- C14 on the tree of `d`, `d/a`, `d/b`: the variables are the blocks 14, 17 and 19, and
the three empty pages are the blocks 13, 15 and 18. -/
theorem C14_auxiliary_trees_witness :
    (visitsOf exTree).length = 3
    ∧ ((build_bom exTree 3).write true).length < 4294967296
    ∧ findVar ((build_bom exTree 3).write true) [72, 76, 73, 110, 100, 101, 120] = some 14
    ∧ treeChild ((build_bom exTree 3).write true) 14 = 13
    ∧ ∃ hl vi sz vt c1 c2 c3 : Nat,
      findVar ((build_bom exTree 3).write true) [72, 76, 73, 110, 100, 101, 120] = some hl
      ∧ findVar ((build_bom exTree 3).write true) [86, 73, 110, 100, 101, 120] = some vi
      ∧ findVar ((build_bom exTree 3).write true) [83, 105, 122, 101, 54, 52] = some sz
      ∧ fileBlock ((build_bom exTree 3).write true) hl
          = [116, 114, 101, 101] ++ htonl 1 ++ htonl c1 ++ htonl 4096 ++ htonl 0 ++ [0]
      ∧ fileBlock ((build_bom exTree 3).write true) sz
          = [116, 114, 101, 101] ++ htonl 1 ++ htonl c3 ++ htonl 4096 ++ htonl 0 ++ [0]
      ∧ fileBlock ((build_bom exTree 3).write true) vi = htonl 1 ++ htonl vt ++ htonl 0 ++ [0]
      ∧ fileBlock ((build_bom exTree 3).write true) vt
          = [116, 114, 101, 101] ++ htonl 1 ++ htonl c2 ++ htonl 128 ++ htonl 0 ++ [0]
      ∧ fileBlock ((build_bom exTree 3).write true) c1 = htons 1 ++ htons 0 ++ htonl 0 ++ htonl 0
      ∧ fileBlock ((build_bom exTree 3).write true) c2 = htons 1 ++ htons 0 ++ htonl 0 ++ htonl 0
      ∧ fileBlock ((build_bom exTree 3).write true) c3 = htons 1 ++ htons 0 ++ htonl 0 ++ htonl 0
      ∧ c1 ≠ c2 ∧ c2 ≠ c3 ∧ c1 ≠ c3
      ∧ c1 < 4294967296 ∧ c2 < 4294967296 ∧ c3 < 4294967296 ∧ vt < 4294967296 := by
  have hV : (visitsOf exTree).length = 3 := by decide
  have hsize : ((build_bom exTree 3).write true).length < 4294967296 := by decide
  exact ⟨hV, hsize, by decide, by decide,
    C14_auxiliary_trees true exTree 3 (by decide) hV hsize⟩

/-! ## The vars section -/

theorem header_image_drop_28 (h : BOMHeader) (hm : h.magic = magicBOMStore) :
    (h.image 512).drop 28 = htonl h.varsLength ++ (h.image 512).drop 32 := by
  simp only [BOMHeader.image, hm]
  generalize List.replicate _ 0 = Z
  simp [magicBOMStore, htonl]

/-- The header fields `varsOffset` and `varsLength` and the bytes of the vars section of the
file written for a tree of `N` nodes. -/
theorem build_write_vars (le : Bool) (root : Node) (N : Nat) (hN : N < 4294967296)
    (hV : (visitsOf root).length = N)
    (hsize : ((build_bom root N).write le).length < 4294967296) :
    ntohlAt ((build_bom root N).write le) 28 = 60
    ∧ (((build_bom root N).write le).drop 512).take 60
        = BOMVars.image
            { count := 5
              first := varsOfBuild (blocksAfterPaths (visitsOf root) [bomInfoBytes N] N).length } := by
  have h := builtFile_of_build le root N hN hV hsize
  obtain ⟨hh, hv, _, _⟩ := build_bom_spec root N hN hV
  have hinv := hh.inv
  have hnb := hh.num_block_entries
  have hb := h.paths_blocks_lt
  have hbl : (blocksOfBuild (visitsOf root) N).length
      = (blocksAfterPaths (visitsOf root) [bomInfoBytes N] N).length + 7 := by
    unfold blocksOfBuild
    simp
  have hn : (build_bom root N).num_block_entries < 4294967296 := by omega
  have hw := BOMStorage.write_eq le _ hinv hn
  have hvl : (build_bom root N).vars.image.length = 60 := by
    rw [hv]; exact varsOfBuild_image_length _ _
  have hH : ((build_bom root N).header.image 512).length = 512 :=
    BOMHeader.image_length _ hinv.magic_length
  constructor
  · have : ((build_bom root N).write le).drop 28
        = htonl (build_bom root N).header.varsLength
          ++ (((build_bom root N).header.image 512).drop 32 ++ ((build_bom root N).vars.image ++ ((build_bom root N).entries
          ++ ((htonl (build_bom root N).block_table.numberOfBlockTablePointers
            ++ (((build_bom root N).block_table.blockPointers.map
                  (writePointer le 512 (build_bom root N).size_of_vars)).flatten))
          ++ (build_bom root N).free_list.image)))) := by
      rw [hw]
      simp only [List.append_assoc]
      rw [List.drop_append_of_le_length (by omega), header_image_drop_28 _ hinv.magic_eq]
      simp only [List.append_assoc]
    rw [ntohlAt_of_drop _ _ _ _ this, hinv.vars_length, u32_u32, hinv.vars_size, hvl]
    rfl
  · rw [hw]
    simp only [List.append_assoc]
    rw [List.drop_left' hH, List.take_left' hvl, hv]

/-- C15: the file written for a tree of `N` nodes has `varsLength = 60`, and its vars
section, the 60 bytes at offset 512, is the count 5 followed by the records of `BomInfo`,
`Paths`, `HLIndex`, `VIndex` and `Size64` in this order, each record being the block id
(`u32`), the length of the name (`u8`) and the name without a NUL; every block id `i` of a
record has `1 <= i < numberOfBlockTablePointers`, and block `i` is the structure of that
name: the `BomInfo` record, the `Paths` tree, a tree, the `VIndex` record and a tree. -/
theorem C15_vars_section (le : Bool) (root : Node) (N : Nat) (hN : N < 4294967296)
    (hV : (visitsOf root).length = N)
    (hsize : ((build_bom root N).write le).length < 4294967296) :
    ∃ i1 i2 i3 i4 i5 : Nat,
      ntohlAt ((build_bom root N).write le) 28 = 60
      ∧ (((build_bom root N).write le).drop 512).take 60
          = htonl 5
            ++ (htonl i1 ++ [7] ++ [66, 111, 109, 73, 110, 102, 111])
            ++ (htonl i2 ++ [5] ++ [80, 97, 116, 104, 115])
            ++ (htonl i3 ++ [7] ++ [72, 76, 73, 110, 100, 101, 120])
            ++ (htonl i4 ++ [6] ++ [86, 73, 110, 100, 101, 120])
            ++ (htonl i5 ++ [6] ++ [83, 105, 122, 101, 54, 52])
      ∧ fileNumPointers ((build_bom root N).write le) < 4294967296
      ∧ (∀ i ∈ [i1, i2, i3, i4, i5],
          1 ≤ i ∧ i < fileNumPointers ((build_bom root N).write le))
      ∧ fileBlock ((build_bom root N).write le) i1 = bomInfoBytes N
      ∧ (∃ c, fileBlock ((build_bom root N).write le) i2 = treeBytes c 4096 N)
      ∧ (∃ c, fileBlock ((build_bom root N).write le) i3 = treeBytes c 4096 0)
      ∧ (∃ vt, fileBlock ((build_bom root N).write le) i4 = vindexBytes vt)
      ∧ (∃ c, fileBlock ((build_bom root N).write le) i5 = treeBytes c 4096 0) := by
  have h := builtFile_of_build le root N hN hV hsize
  have hb := h.paths_blocks_lt
  obtain ⟨h28, hvars⟩ := build_write_vars le root N hN hV hsize
  have hnum : fileNumPointers ((build_bom root N).write le)
      = (blocksAfterPaths (visitsOf root) [bomInfoBytes N] N).length + 7 + 1 := by
    rw [h.isFile.num_eq]
    unfold blocksOfBuild
    simp
  have hpos : 1 ≤ (blocksAfterPaths (visitsOf root) [bomInfoBytes N] N).length := by
    rw [blocksAfterPaths_length]
    simp only [List.length_singleton]
    omega
  refine ⟨1, (blocksAfterPaths (visitsOf root) [bomInfoBytes N] N).length,
    (blocksAfterPaths (visitsOf root) [bomInfoBytes N] N).length + 2,
    (blocksAfterPaths (visitsOf root) [bomInfoBytes N] N).length + 5,
    (blocksAfterPaths (visitsOf root) [bomInfoBytes N] N).length + 7,
    h28, ?_, by omega, ?_, h.bomInfo_block, ⟨_, h.tree_block⟩, ⟨_, h.aux_block 1 _ rfl⟩,
    ⟨_, h.aux_block 4 _ rfl⟩, ⟨_, h.aux_block 6 _ rfl⟩⟩
  · rw [hvars]
    simp [BOMVars.image, BOMVar.image, varsOfBuild, htonl_u32, u8]
  · intro i hi
    simp only [List.mem_cons, List.mem_singleton, List.not_mem_nil, or_false] at hi
    rcases hi with rfl | rfl | rfl | rfl | rfl <;> omega

set_option maxRecDepth 100000 in
/-- C15 on the tree of `d`, `d/a`, `d/b`: the five records name the blocks 1, 12, 14, 17
and 19 of the 20 slots of the block table. -/
theorem C15_vars_section_witness :
    (visitsOf exTree).length = 3
    ∧ ((build_bom exTree 3).write true).length < 4294967296
    ∧ readVars ((build_bom exTree 3).write true)
        = [([66, 111, 109, 73, 110, 102, 111], 1), ([80, 97, 116, 104, 115], 12),
           ([72, 76, 73, 110, 100, 101, 120], 14), ([86, 73, 110, 100, 101, 120], 17),
           ([83, 105, 122, 101, 54, 52], 19)]
    ∧ fileNumPointers ((build_bom exTree 3).write true) = 20
    ∧ ∃ i1 i2 i3 i4 i5 : Nat,
      ntohlAt ((build_bom exTree 3).write true) 28 = 60
      ∧ (((build_bom exTree 3).write true).drop 512).take 60
          = htonl 5
            ++ (htonl i1 ++ [7] ++ [66, 111, 109, 73, 110, 102, 111])
            ++ (htonl i2 ++ [5] ++ [80, 97, 116, 104, 115])
            ++ (htonl i3 ++ [7] ++ [72, 76, 73, 110, 100, 101, 120])
            ++ (htonl i4 ++ [6] ++ [86, 73, 110, 100, 101, 120])
            ++ (htonl i5 ++ [6] ++ [83, 105, 122, 101, 54, 52])
      ∧ (∀ i ∈ [i1, i2, i3, i4, i5],
          1 ≤ i ∧ i < fileNumPointers ((build_bom exTree 3).write true)) := by
  have hV : (visitsOf exTree).length = 3 := by decide
  have hsize : ((build_bom exTree 3).write true).length < 4294967296 := by decide
  obtain ⟨i1, i2, i3, i4, i5, h1, h2, _, h4, _⟩ :=
    C15_vars_section true exTree 3 (by decide) hV hsize
  exact ⟨hV, hsize, by decide, by decide, i1, i2, i3, i4, i5, h1, h2, h4⟩

/-! ## The edge cases of the specification -/

set_option maxRecDepth 100000 in
/-- C16 (counterexample): for the one record of mode `0o100644`, the `mode` of the
`PathInfo2` that is read back is `33188 = 0o100644`, not `420 = 0o0644`: `htons (node.mode)`
keeps the file type bits. -/
theorem C16_mode_keeps_type_bits :
    write_bom true exFileManifest = .ok ((build_bom exFileTree 1).write true)
    ∧ (readPaths ((build_bom exFileTree 1).write true)).map (fun l => l.map (fun e => e.mode))
        = some [33188]
    ∧ (readPaths ((build_bom exFileTree 1).write true)).map (fun l => l.map (fun e => e.mode))
        ≠ some [420] :=
  ⟨by rfl, by decide, by decide⟩

set_option maxRecDepth 100000 in
/-- C16 (amended): for the one record `a` of mode `0o100644`, uid 501, gid 20, size 3 and
checksum `0xDEADBEEF`, the file has one leaf entry; its `PathInfo2` has `type = 1`,
`mode = 0o100644 = 33188`, uid 501, gid 20, size 3 and `checksum = 3735928559`; its
`FileRecord` (block 4) is `parent = 0` and the name `a` with its NUL; `BomInfo` (block 1)
has `numberOfPaths = 2` and the `Paths` tree (block 6) has `pathCount = 1`. -/
theorem C16_single_file_record :
    write_bom true exFileManifest = .ok ((build_bom exFileTree 1).write true)
    ∧ (readPaths ((build_bom exFileTree 1).write true)).map
        (fun l => l.map (fun e => [e.type, e.mode, e.uid, e.gid, e.size, e.checksum, e.parent]
          ++ e.name))
        = some [[1, 33188, 501, 20, 3, 3735928559, 0, 97]]
    ∧ pathsIndices ((build_bom exFileTree 1).write true) = some [(3, 4)]
    ∧ fileBlock ((build_bom exFileTree 1).write true) 4 = htonl 0 ++ [97, 0]
    ∧ findVar ((build_bom exFileTree 1).write true) [66, 111, 109, 73, 110, 102, 111] = some 1
    ∧ ntohlAt (fileBlock ((build_bom exFileTree 1).write true) 1) 4 = 2
    ∧ findVar ((build_bom exFileTree 1).write true) [80, 97, 116, 104, 115] = some 6
    ∧ treePathCount ((build_bom exFileTree 1).write true) 6 = 1 :=
  ⟨by rfl, by decide, by decide, by decide, by decide, by decide, by decide, by decide⟩

set_option maxRecDepth 100000 in
/-- C17 (failing input): for the empty manifest the `Paths` tree (block 3) has
`pathCount = 0` and names block 2 as `rootChild`, but block 2 has length 0 in the block
table and no bytes: it is not a page of 12 bytes.  The `rootChild` of `HLIndex` (block 5)
is block 4, which is the empty page of 12 bytes. -/
theorem C17_empty_manifest_root_is_not_a_page :
    write_bom true []
      = .ok ((build_bom (Node.mk [] { NodeInfo.init with type := .kRootNode }) 0).write true)
    ∧ findVar ((build_bom (Node.mk [] { NodeInfo.init with type := .kRootNode }) 0).write true)
        [80, 97, 116, 104, 115] = some 3
    ∧ treePathCount
        ((build_bom (Node.mk [] { NodeInfo.init with type := .kRootNode }) 0).write true) 3 = 0
    ∧ treeChild
        ((build_bom (Node.mk [] { NodeInfo.init with type := .kRootNode }) 0).write true) 3 = 2
    ∧ (filePointer
        ((build_bom (Node.mk [] { NodeInfo.init with type := .kRootNode }) 0).write true) 2).2 = 0
    ∧ fileBlock
        ((build_bom (Node.mk [] { NodeInfo.init with type := .kRootNode }) 0).write true) 2 = []
    ∧ findVar ((build_bom (Node.mk [] { NodeInfo.init with type := .kRootNode }) 0).write true)
        [72, 76, 73, 110, 100, 101, 120] = some 5
    ∧ treeChild
        ((build_bom (Node.mk [] { NodeInfo.init with type := .kRootNode }) 0).write true) 5 = 4
    ∧ fileBlock
        ((build_bom (Node.mk [] { NodeInfo.init with type := .kRootNode }) 0).write true) 4
        = htons 1 ++ htons 0 ++ htonl 0 ++ htonl 0 :=
  ⟨by rfl, by decide, by decide, by decide, by decide, by decide, by decide, by decide,
    by decide⟩

set_option maxRecDepth 100000 in
/-- C11 (failing input): for the empty manifest on a little-endian host, the file has 829
bytes and the pointer of block 2 in its block table decodes to the address 201326592 and
the length 0: `address + length` is past the end of the file.  `BOMStorage::write` leaves
the address of a pointer of length 0 as `addBlock` stored it, the offset 12 in host byte
order. -/
theorem C11_empty_manifest_pointer_out_of_file :
    write_bom true []
      = .ok ((build_bom (Node.mk [] { NodeInfo.init with type := .kRootNode }) 0).write true)
    ∧ ((build_bom (Node.mk [] { NodeInfo.init with type := .kRootNode }) 0).write true).length
        = 829
    ∧ fileNumPointers
        ((build_bom (Node.mk [] { NodeInfo.init with type := .kRootNode }) 0).write true) = 11
    ∧ filePointer
        ((build_bom (Node.mk [] { NodeInfo.init with type := .kRootNode }) 0).write true) 2
        = (201326592, 0)
    ∧ ¬ ((filePointer
          ((build_bom (Node.mk [] { NodeInfo.init with type := .kRootNode }) 0).write true) 2).1
        + (filePointer
          ((build_bom (Node.mk [] { NodeInfo.init with type := .kRootNode }) 0).write true) 2).2
        ≤ ((build_bom (Node.mk [] { NodeInfo.init with type := .kRootNode }) 0).write true).length) :=
  ⟨by rfl, by decide, by decide, by decide, by decide⟩

/-! ## The pointers of the written block table -/

/-- The decoded pointers of the file that `write` produces: the length of block `i + 1` is
the length of its payload, and when that is not zero its address is the file offset of the
payload. -/
theorem filePointer_write (le : Bool) (s : BOMStorage) (blocks : List Bytes)
    (hh : s.Holds blocks)
    (hio : s.header.indexOffset = u32 (512 + s.size_of_vars + s.entries.length))
    (hsize : (s.write le).length < 4294967296) :
    (s.write le).length
        = 512 + s.size_of_vars + blocks.flatten.length + (4 + 8 * (blocks.length + 1)) + 20
    ∧ ∀ (i : Nat) (hi : i < blocks.length),
        (filePointer (s.write le) (i + 1)).2 = (blocks[i]).length
        ∧ ((blocks[i]).length ≠ 0 →
            (filePointer (s.write le) (i + 1)).1
              = 512 + s.size_of_vars + (blocks.take i).flatten.length) := by
  have hinv := hh.inv
  have hnb := hh.num_block_entries
  have hpl : s.block_table.blockPointers.length = blocks.length + 1 := by
    rw [← hinv.num_entries_eq, hnb]
  have hwl : (s.write le).length
      = 512 + s.size_of_vars + s.entries.length + s.size_of_block_table + 20 := by
    unfold BOMStorage.write
    simp only [List.length_append, List.length_take]
    have h1 : (s.header.image s.size_of_header).length = 512 := by
      rw [hinv.header_size]; exact BOMHeader.image_length _ hinv.magic_length
    have h2 : (writeTable le s).length = 4 + 8 * s.block_table.blockPointers.length := by
      unfold writeTable
      simp only [List.length_append, htonl_length]
      rw [flatten_map_length_const _ 8 _ (writePointer_length le _ _),
        flatten_map_length_const _ 8 _ (by intro p; simp [BOMPointer.image])]
      simp only [List.length_take, List.length_drop]
      omega
    have h3 : s.free_list.image.length = 20 := by rw [hinv.free_list_eq]; rfl
    rw [h1, h2, h3, hinv.header_size, ← hinv.vars_size, ← hinv.entry_size_eq, hinv.table_size,
      hinv.free_size, ← hinv.num_entries_eq]
    omega
  rw [hinv.table_size, hnb] at hwl
  have hn : s.num_block_entries < 4294967296 := by omega
  obtain ⟨H, T, hfile, hH, hH16, hH24, hT⟩ := write_parts le s hinv hn
  have hVI : s.vars.image.length = s.size_of_vars := hinv.vars_size.symm
  have hioV : s.header.indexOffset = 512 + s.size_of_vars + s.entries.length := by
    rw [hio, u32_of_lt (by omega)]
  have hfio : fileIndexOffset (s.write le) = 512 + s.size_of_vars + s.entries.length := by
    unfold fileIndexOffset
    have : (s.write le).drop 16
        = htonl s.header.indexOffset
          ++ (H.drop 20 ++ s.vars.image ++ s.entries ++ T ++ s.free_list.image) := by
      rw [hfile]
      simp only [List.append_assoc]
      rw [List.drop_append_of_le_length (by omega), hH16]
      simp
    rw [ntohlAt_of_drop _ _ _ _ this, hioV, u32_of_lt (by omega)]
  have hdropV : (s.write le).drop 512 = s.vars.image ++ (s.entries ++ T ++ s.free_list.image) := by
    rw [hfile]
    simp only [List.append_assoc]
    exact List.drop_left' hH
  have hdropT : (s.write le).drop (512 + s.size_of_vars + s.entries.length)
      = T ++ s.free_list.image := by
    rw [Nat.add_assoc, drop_add, hdropV, drop_add, List.drop_left' hVI]
    simp only [List.append_assoc]
    rw [List.drop_left]
  have hXlen : ((s.block_table.blockPointers.map (writePointer le 512 s.size_of_vars)).flatten).length
      = 8 * (blocks.length + 1) := by
    rw [flatten_map_length_const _ 8 _ (writePointer_length le _ _), hpl]
  refine ⟨by rw [hwl, hh.entries_eq], ?_⟩
  intro i hi
  obtain ⟨more, hmore⟩ := drop_ptrsFrom 0 blocks i hi
  have hL := flatten_length_le_of_mem blocks i hi
  have hA := flatten_take_add_le blocks i hi
  rw [← hh.entries_eq] at hL hA
  have hdropP : (s.write le).drop (512 + s.size_of_vars + s.entries.length + 4 + 8 * (i + 1))
      = writePointer le 512 s.size_of_vars
          { address := 0 + (blocks.take i).flatten.length, length := u32 (blocks[i]).length }
        ++ ((more.map (writePointer le 512 s.size_of_vars)).flatten ++ s.free_list.image) := by
    rw [Nat.add_assoc (512 + s.size_of_vars + s.entries.length), drop_add, hdropT, hT,
      drop_add]
    simp only [List.append_assoc]
    rw [List.drop_left' (htonl_length _), List.drop_append_of_le_length (by rw [hXlen]; omega),
      drop_flatten_chunks _ 8 (writePointer_length le _ _), hh.pointers_eq,
      List.drop_succ_cons, hmore]
    simp
  constructor
  · unfold filePointer
    simp only [hfio]
    have : (s.write le).drop (512 + s.size_of_vars + s.entries.length + 4 + 8 * (i + 1) + 4)
        = htonl (u32 (blocks[i]).length)
          ++ ((more.map (writePointer le 512 s.size_of_vars)).flatten ++ s.free_list.image) := by
      rw [drop_add, hdropP]
      unfold writePointer
      simp only [List.append_assoc]
      apply List.drop_left'
      split <;> simp
    rw [ntohlAt_of_drop _ _ _ _ this, u32_u32, u32_of_lt (by omega)]
  · intro hz
    unfold filePointer
    simp only [hfio]
    have hne : u32 (blocks[i]).length ≠ 0 := by rw [u32_of_lt (by omega)]; exact hz
    have : (s.write le).drop (512 + s.size_of_vars + s.entries.length + 4 + 8 * (i + 1))
        = htonl (0 + (blocks.take i).flatten.length + 512 + s.size_of_vars)
          ++ (htonl (u32 (blocks[i]).length)
          ++ ((more.map (writePointer le 512 s.size_of_vars)).flatten ++ s.free_list.image)) := by
      rw [hdropP]
      unfold writePointer
      simp only [if_pos hne, List.append_assoc]
    rw [ntohlAt_of_drop _ _ _ _ this, u32_of_lt (by omega)]
    omega

theorem pathsBlock_pos (V : List Visit) (b0 N added i : Nat) (hV : V.length = N)
    (hi : i < 3 * N + (N - 1) / 256) : 0 < (pathsBlock V b0 N added i).length := by
  unfold pathsBlock
  split
  · rw [BOMPaths.page_image_length]; omega
  · have hj : 256 * (i / 769) + i % 769 / 3 < V.length := by omega
    rw [List.getElem?_eq_getElem hj]
    simp only
    split
    · rw [info2Bytes_length]; omega
    · split
      · simp [info1Bytes]
      · rw [fileBytes_length]; omega

/-- Every block of a build with at least one node has at least one byte. -/
theorem blocksOfBuild_pos (V : List Visit) (N : Nat) (hV : V.length = N) (hN0 : N ≠ 0) :
    ∀ b ∈ blocksOfBuild V N, 0 < b.length := by
  intro b hb
  unfold blocksOfBuild blocksAfterPaths at hb
  simp only [List.mem_append, List.mem_map, List.mem_range, List.mem_cons, List.mem_singleton,
    List.not_mem_nil, or_false] at hb
  rcases hb with ((((hb | ⟨x, hx, rfl⟩) | hb) | hb) | hb) | hb
  · rw [hb]
    simp only [bomInfoBytes, List.length_append, htonl_length, List.length_replicate]
    omega
  · exact pathsBlock_pos V _ N _ x hV hx
  · rw [hb]
    unfold lastLeafBytes
    rw [if_neg hN0, BOMPaths.page_image_length]
    omega
  · split at hb
    · simp only [List.mem_singleton] at hb
      rw [hb, BOMPaths.page_image_length]
      omega
    · simp at hb
  · rw [hb]; simp [treeBytes, tagTree]
  · rcases hb with rfl | rfl | rfl | rfl | rfl | rfl | rfl <;>
      simp [emptyLeafBytes, BOMPaths.image, treeBytes, tagTree, vindexBytes, htons, htonl]

theorem flatten_take_mono (bs : List Bytes) (i j : Nat) (hij : i < j) (hj : j ≤ bs.length) :
    (bs.take i).flatten.length + (bs[i]?.getD []).length ≤ (bs.take j).flatten.length := by
  have hi : i < (bs.take j).length := by rw [List.length_take]; omega
  have h := flatten_take_add_le (bs.take j) i hi
  rw [List.take_take, Nat.min_eq_left (by omega)] at h
  have e : (bs.take j)[i] = bs[i]?.getD [] := by
    rw [List.getElem_take, List.getElem?_eq_getElem (by omega)]
    rfl
  rw [← e]
  exact h

/-- The block table of a file written for a tree with at least one node: the pointers of the
blocks `1, 2, ...` lie one after the other inside the file, after the header: every
`address + length` is at most the file size and the intervals are pairwise disjoint. -/
theorem pointers_in_file_of_nonempty_tree (le : Bool) (root : Node) (N : Nat)
    (hN : N < 4294967296) (hV : (visitsOf root).length = N)
    (hsize : ((build_bom root N).write le).length < 4294967296) (hN0 : N ≠ 0) :
    ∀ i, 1 ≤ i → i < fileNumPointers ((build_bom root N).write le) →
      512 ≤ (filePointer ((build_bom root N).write le) i).1
      ∧ 0 < (filePointer ((build_bom root N).write le) i).2
      ∧ (filePointer ((build_bom root N).write le) i).1
          + (filePointer ((build_bom root N).write le) i).2
          ≤ ((build_bom root N).write le).length
      ∧ ∀ j, i < j → j < fileNumPointers ((build_bom root N).write le) →
          (filePointer ((build_bom root N).write le) i).1
            + (filePointer ((build_bom root N).write le) i).2
            ≤ (filePointer ((build_bom root N).write le) j).1 := by
  have h := builtFile_of_build le root N hN hV hsize
  obtain ⟨hh, _, hio, _⟩ := build_bom_spec root N hN hV
  obtain ⟨hlen, hptr⟩ := filePointer_write le _ _ hh hio hsize
  have hnum := h.isFile.num_eq
  have hpos := blocksOfBuild_pos (visitsOf root) N hV hN0
  have key : ∀ i (hi : i < (blocksOfBuild (visitsOf root) N).length),
      (filePointer ((build_bom root N).write le) (i + 1)).2
          = ((blocksOfBuild (visitsOf root) N)[i]).length
      ∧ 0 < ((blocksOfBuild (visitsOf root) N)[i]).length
      ∧ (filePointer ((build_bom root N).write le) (i + 1)).1
          = 512 + (build_bom root N).size_of_vars
            + ((blocksOfBuild (visitsOf root) N).take i).flatten.length := by
    intro i hi
    have hp := hpos _ (List.getElem_mem hi)
    exact ⟨(hptr i hi).1, hp, (hptr i hi).2 (by omega)⟩
  intro i hi1 hi
  obtain ⟨i0, rfl⟩ : ∃ i0, i = i0 + 1 := ⟨i - 1, by omega⟩
  have hi0 : i0 < (blocksOfBuild (visitsOf root) N).length := by omega
  obtain ⟨k1, k2, k3⟩ := key i0 hi0
  have hA := flatten_take_add_le _ i0 hi0
  refine ⟨by omega, by omega, by omega, ?_⟩
  intro j hij hj
  obtain ⟨j0, rfl⟩ : ∃ j0, j = j0 + 1 := ⟨j - 1, by omega⟩
  have hj0 : j0 < (blocksOfBuild (visitsOf root) N).length := by omega
  obtain ⟨_, _, m3⟩ := key j0 hj0
  have hm := flatten_take_mono (blocksOfBuild (visitsOf root) N) i0 j0 (by omega) (by omega)
  rw [List.getElem?_eq_getElem hi0] at hm
  simp only [Option.getD_some] at hm
  omega

set_option maxRecDepth 100000 in
/-- C27 (failing input): the line `f<TAB>100644<TAB>0/0`, a regular file without the
optional size and checksum, has the three elements `100644`, `0`, `0`; the branch for a
regular file reads `elements[3]`, which the line does not contain: the read past the end of
the vector, not a node and not a reported manifest error. -/
theorem C27_short_file_line_reads_past_the_elements :
    tokens [] (replaceFirstSlash [49, 48, 48, 54, 52, 52, 9, 48, 47, 48])
      = [[49, 48, 48, 54, 52, 52], [48], [48]]
    ∧ elementAt [[49, 48, 48, 54, 52, 52], [48], [48]] 3 = .error .outOfRange
    ∧ parse_line [102, 9, 49, 48, 48, 54, 52, 52, 9, 48, 47, 48] = .error .outOfRange
    ∧ write_bom true [[102, 9, 49, 48, 48, 54, 52, 52, 9, 48, 47, 48]] = .error .outOfRange
    ∧ parse_line [102, 9] = .error .outOfRange :=
  ⟨by decide, by rfl, by rfl, by rfl, by rfl⟩

set_option maxRecDepth 100000 in
/-- C26 (counterexample): on the line `l<TAB>120777<TAB>0<TAB>0<TAB>3<TAB>0<TAB>a/b`, with
uid and gid separated by a TAB, the first `/` of the rest of the line is the one of the link
target: it becomes a space, the target splits into two elements, and the parsed `linkName`
is `a`, not `a/b`. -/
theorem C26_slash_in_target_is_split :
    (parse_line [108, 9, 49, 50, 48, 55, 55, 55, 9, 48, 9, 48, 9, 51, 9, 48, 9, 97, 47, 98]).map
        (fun r => (r.2.type, r.2.uid, r.2.gid, r.2.size, r.2.checksum, r.2.linkName))
      = .ok (.kSymbolicLinkNode, 0, 0, 3, 0, [97])
    ∧ ([97] : Bytes) ≠ [97, 47, 98] :=
  ⟨by rfl, by decide⟩

/-! ## Reading the fields of a line -/

theorem atolDigits_eq_foldl (acc : Nat) (t : Bytes) (ht : ∀ b ∈ t, 48 ≤ b ∧ b ≤ 57) :
    atolDigits acc t = t.foldl (fun acc b => acc * 10 + (b - 48)) acc := by
  induction t generalizing acc with
  | nil => rfl
  | cons c cs ih =>
    have hc := ht c (List.mem_cons_self _ _)
    simp only [atolDigits, if_pos hc, List.foldl_cons]
    exact ih _ (fun b hb => ht b (List.mem_cons_of_mem _ hb))

/-- A field of decimal digits read by `atol`: its value, or `LONG_MAX` when the value is
above the range of `long`. -/
theorem atol_decimal (t : Bytes) (ht : IsDecimal t) :
    atol t = ((min (decimalValue t) LONG_MAX : Nat) : Int) := by
  obtain ⟨hne, hd⟩ := ht
  cases t with
  | nil => exact absurd rfl hne
  | cons c cs =>
    have hc := hd c (List.mem_cons_self _ _)
    have hsp : isspace c = false := by
      simp only [isspace, Bool.or_eq_false_iff, Bool.and_eq_false_iff, decide_eq_false_iff_not]
      omega
    have h45 : c ≠ 45 := by omega
    have h43 : c ≠ 43 := by omega
    have ha : atol (c :: cs) = ((min (atolDigits 0 (c :: cs)) LONG_MAX : Nat) : Int) := by
      unfold atol
      rw [List.dropWhile_cons_of_neg (by simp [hsp])]
      split
      · rename_i heq; cases heq; exact absurd rfl h45
      · rename_i heq; cases heq; exact absurd rfl h43
      · rfl
    rw [ha, atolDigits_eq_foldl 0 _ hd]
    rfl

/-- A field of decimal digits whose value is in the range of `long`, read by `atol` and
stored in a `uint32_t`. -/
theorem atol_decimal_u32 (t : Bytes) (ht : IsDecimal t) (hv : decimalValue t ≤ LONG_MAX) :
    u32OfInt (atol t) = u32 (decimalValue t) := by
  rw [atol_decimal t ht, Nat.min_eq_left hv]
  unfold u32OfInt u32
  omega

set_option maxRecDepth 100000 in
/-- Above the range of `long` the fields of a node are not the numbers of the line: on the
line `l<TAB>120777<TAB>99999999999999999999/18446744073709551616<TAB>3<TAB>0<TAB>t` both
results of `atol` are `LONG_MAX`, and the node gets the uid and gid 4294967295, which are not
the numbers of the line converted to `uint32_t`. -/
theorem parse_line_above_long :
    (parse_line [108, 9, 49, 50, 48, 55, 55, 55, 9,
        57, 57, 57, 57, 57, 57, 57, 57, 57, 57, 57, 57, 57, 57, 57, 57, 57, 57, 57, 57, 47,
        49, 56, 52, 52, 54, 55, 52, 52, 48, 55, 51, 55, 48, 57, 53, 53, 49, 54, 49, 54,
        9, 51, 9, 48, 9, 116]).map (fun r => (r.2.uid, r.2.gid))
      = .ok (4294967295, 4294967295)
    ∧ u32 (decimalValue [57, 57, 57, 57, 57, 57, 57, 57, 57, 57, 57, 57, 57, 57, 57, 57, 57,
        57, 57, 57]) = 1661992959
    ∧ u32 (decimalValue [49, 56, 52, 52, 54, 55, 52, 52, 48, 55, 51, 55, 48, 57, 53, 53, 49,
        54, 49, 54]) = 0 :=
  ⟨by rfl, by decide, by decide⟩

theorem tokens_token (cur t rest : Bytes) (s : Nat) (ht : ∀ b ∈ t, isspace b = false)
    (hs : isspace s = true) (hne : cur ++ t ≠ []) :
    tokens cur (t ++ s :: rest) = (cur ++ t) :: tokens [] rest := by
  induction t generalizing cur with
  | nil =>
    simp only [List.append_nil] at hne
    simp [tokens, hs, hne]
  | cons c cs ih =>
    have hc := ht c (List.mem_cons_self _ _)
    simp only [List.cons_append, tokens, hc, List.append_eq]
    rw [if_neg (by simp), ih (cur ++ [c]) (fun b hb => ht b (List.mem_cons_of_mem _ hb))
      (by simp)]
    simp

theorem tokens_last (cur t : Bytes) (ht : ∀ b ∈ t, isspace b = false) (hne : cur ++ t ≠ []) :
    tokens cur t = [cur ++ t] := by
  induction t generalizing cur with
  | nil =>
    simp only [List.append_nil] at hne
    simp [tokens, hne]
  | cons c cs ih =>
    have hc := ht c (List.mem_cons_self _ _)
    simp only [tokens, hc]
    rw [if_neg (by simp), ih (cur ++ [c]) (fun b hb => ht b (List.mem_cons_of_mem _ hb))
      (by simp)]
    simp

theorem replaceFirstSlash_of_not_mem (a : Bytes) (ha : ∀ b ∈ a, b ≠ 47) :
    replaceFirstSlash a = a := by
  induction a with
  | nil => rfl
  | cons c cs ih =>
    have hc := ha c (List.mem_cons_self _ _)
    simp only [replaceFirstSlash, if_neg hc]
    rw [ih (fun b hb => ha b (List.mem_cons_of_mem _ hb))]

theorem replaceFirstSlash_append (a b : Bytes) (ha : ∀ x ∈ a, x ≠ 47) :
    replaceFirstSlash (a ++ 47 :: b) = a ++ 32 :: b := by
  induction a with
  | nil => simp [replaceFirstSlash]
  | cons c cs ih =>
    have hc := ha c (List.mem_cons_self _ _)
    simp only [List.cons_append, replaceFirstSlash, if_neg hc, List.append_eq]
    rw [ih (fun x hx => ha x (List.mem_cons_of_mem _ hx))]

theorem takeWhile_ne_of_not_mem (a : Bytes) (c : Nat) (ha : ∀ x ∈ a, x ≠ c) :
    a.takeWhile (· ≠ c) = a := by
  rw [List.takeWhile_eq_self_iff]
  intro x hx
  simpa using ha x hx

theorem isDecimal_no_space {t : Bytes} (ht : IsDecimal t) :
    (∀ b ∈ t, isspace b = false) ∧ (∀ b ∈ t, b ≠ 47) ∧ (∀ b ∈ t, b ≠ 10) := by
  refine ⟨?_, ?_, ?_⟩ <;> intro b hb <;> have := ht.2 b hb
  · simp only [isspace, Bool.or_eq_false_iff, Bool.and_eq_false_iff, decide_eq_false_iff_not]
    omega
  · omega
  · omega

/-- C26 (amended): a symlink line `path<TAB>mode<TAB>uid<SEP>gid<TAB>size<TAB>crc<TAB>target`
whose fields are decimal digits, with uid, gid, size and crc in the range of `long` (at most
`LONG_MAX`, where `atol` is defined), and whose target is not empty and has no white space,
with `SEP` either `/`, or a TAB when the target has no `/`: the parsed node is a symbolic
link with the given uid, gid, size and crc (as `uint32_t`) and `linkName` equal to the
target, whether or not the target has `/` characters in the `uid/gid` form. -/
theorem C26_symlink_line (name modeTok uidTok gidTok sizeTok crcTok target : Bytes)
    (sep mode : Nat)
    (hname : ∀ b ∈ name, b ≠ 9)
    (hmodeTok : IsDecimal modeTok)
    (hm : dec_octal_to_int (u32OfInt (atol modeTok)) = .ok mode)
    (hlink : mode &&& 0xF000 = 0xA000)
    (huid : IsDecimal uidTok) (hgid : IsDecimal gidTok) (hsize : IsDecimal sizeTok)
    (hcrc : IsDecimal crcTok)
    (huidv : decimalValue uidTok ≤ LONG_MAX) (hgidv : decimalValue gidTok ≤ LONG_MAX)
    (hsizev : decimalValue sizeTok ≤ LONG_MAX) (hcrcv : decimalValue crcTok ≤ LONG_MAX)
    (hne : target ≠ []) (hsp : ∀ b ∈ target, isspace b = false)
    (hsep : sep = 47 ∨ (sep = 9 ∧ ∀ b ∈ target, b ≠ 47)) :
    parse_line (name ++ 9 :: (modeTok ++ 9 :: (uidTok ++ sep :: (gidTok ++ 9 :: (sizeTok
        ++ 9 :: (crcTok ++ 9 :: target))))))
      = .ok (name,
          { type := .kSymbolicLinkNode, mode := mode
            uid := u32 (decimalValue uidTok), gid := u32 (decimalValue gidTok)
            size := u32 (decimalValue sizeTok), checksum := u32 (decimalValue crcTok)
            linkNameLength := u32 (target.length + 1), linkName := target }) := by
  obtain ⟨m1, m2, m3⟩ := isDecimal_no_space hmodeTok
  obtain ⟨u1, u2, u3⟩ := isDecimal_no_space huid
  obtain ⟨g1, g2, g3⟩ := isDecimal_no_space hgid
  obtain ⟨s1, s2, s3⟩ := isDecimal_no_space hsize
  obtain ⟨c1, c2, c3⟩ := isDecimal_no_space hcrc
  have t10 : ∀ b ∈ target, b ≠ 10 := by
    intro b hb h10
    have := hsp b hb
    rw [h10] at this
    exact absurd this (by decide)
  have hsep10 : sep ≠ 10 := by rcases hsep with h | ⟨h, _⟩ <;> omega
  -- the rest of the line holds no newline
  have hnl : (modeTok ++ 9 :: (uidTok ++ sep :: (gidTok ++ 9 :: (sizeTok
        ++ 9 :: (crcTok ++ 9 :: target))))).takeWhile (· ≠ 10)
      = modeTok ++ 9 :: (uidTok ++ sep :: (gidTok ++ 9 :: (sizeTok
        ++ 9 :: (crcTok ++ 9 :: target)))) := by
    apply takeWhile_ne_of_not_mem
    intro x hx
    simp only [List.mem_append, List.mem_cons] at hx
    rcases hx with h | h | h | h | h | h | h | h | h | h | h
    · exact m3 x h
    · omega
    · exact u3 x h
    · omega
    · exact g3 x h
    · omega
    · exact s3 x h
    · omega
    · exact c3 x h
    · omega
    · exact t10 x h
  -- the first slash, if there is one to replace, is the separator
  have hrep : ∃ s2 : Nat, isspace s2 = true ∧
      replaceFirstSlash (modeTok ++ 9 :: (uidTok ++ sep :: (gidTok ++ 9 :: (sizeTok
        ++ 9 :: (crcTok ++ 9 :: target)))))
      = modeTok ++ 9 :: (uidTok ++ s2 :: (gidTok ++ 9 :: (sizeTok
        ++ 9 :: (crcTok ++ 9 :: target)))) := by
    rcases hsep with h | ⟨h, ht⟩
    · subst h
      refine ⟨32, by decide, ?_⟩
      have := replaceFirstSlash_append (modeTok ++ 9 :: uidTok)
        (gidTok ++ 9 :: (sizeTok ++ 9 :: (crcTok ++ 9 :: target))) (by
          intro x hx
          simp only [List.mem_append, List.mem_cons] at hx
          rcases hx with h | h | h
          · exact m2 x h
          · omega
          · exact u2 x h)
      simpa using this
    · subst h
      refine ⟨9, by decide, ?_⟩
      apply replaceFirstSlash_of_not_mem
      intro x hx
      simp only [List.mem_append, List.mem_cons] at hx
      rcases hx with h | h | h | h | h | h | h | h | h | h | h
      · exact m2 x h
      · omega
      · exact u2 x h
      · omega
      · exact g2 x h
      · omega
      · exact s2 x h
      · omega
      · exact c2 x h
      · omega
      · exact ht x h
  obtain ⟨sp, hsp2, hrep'⟩ := hrep
  have htok : tokens [] (replaceFirstSlash ((modeTok ++ 9 :: (uidTok ++ sep :: (gidTok
        ++ 9 :: (sizeTok ++ 9 :: (crcTok ++ 9 :: target))))).takeWhile (· ≠ 10)))
      = [modeTok, uidTok, gidTok, sizeTok, crcTok, target] := by
    rw [hnl, hrep',
      tokens_token [] modeTok _ 9 m1 (by decide) (by simpa using hmodeTok.1),
      tokens_token [] uidTok _ sp u1 hsp2 (by simpa using huid.1),
      tokens_token [] gidTok _ 9 g1 (by decide) (by simpa using hgid.1),
      tokens_token [] sizeTok _ 9 s1 (by decide) (by simpa using hsize.1),
      tokens_token [] crcTok _ 9 c1 (by decide) (by simpa using hcrc.1),
      tokens_last [] target hsp (by simpa using hne)]
    simp
  have h10 : mode % 65536 / 4096 = 10 := (land_F000_eq mode 10 (by decide)).mp hlink
  rw [parse_line_tab name _ hname, htok]
  unfold node_of_elements
  simp only [elementAt, List.getElem?_cons_zero, List.getElem?_cons_succ, bind, Except.bind, hm,
    h10, atol_decimal_u32 _ huid huidv, atol_decimal_u32 _ hgid hgidv,
    atol_decimal_u32 _ hsize hsizev, atol_decimal_u32 _ hcrc hcrcv]
  rfl

/-- C26 on the line `l<TAB>120777<TAB>0/0<TAB>3<TAB>0<TAB>a/b`: the target `a/b` is kept
whole. -/
theorem C26_symlink_line_witness :
    parse_line [108, 9, 49, 50, 48, 55, 55, 55, 9, 48, 47, 48, 9, 51, 9, 48, 9, 97, 47, 98]
      = .ok ([108],
          { type := .kSymbolicLinkNode, mode := 41471, uid := 0, gid := 0, size := 3
            checksum := 0, linkNameLength := 4, linkName := [97, 47, 98] }) :=
  C26_symlink_line [108] [49, 50, 48, 55, 55, 55] [48] [48] [51] [48] [97, 47, 98] 47 41471
    (by decide) ⟨by decide, by decide⟩ (by rfl) (by decide) ⟨by decide, by decide⟩
    ⟨by decide, by decide⟩ ⟨by decide, by decide⟩ ⟨by decide, by decide⟩ (by decide)
    (by decide) (by decide) (by decide) (by decide) (by decide) (Or.inl rfl)

/-! ## The place of the block table in the file -/

theorem header_image_drop_16 (h : BOMHeader) (hm : h.magic = magicBOMStore) :
    (h.image 512).drop 16
      = htonl h.indexOffset ++ (htonl h.indexLength ++ (h.image 512).drop 24) := by
  simp only [BOMHeader.image, hm]
  generalize List.replicate _ 0 = Z
  simp [magicBOMStore, htonl]

/-- When `header.indexOffset` is up to date, as `addVar` leaves it, the written file has the
block table at `indexOffset` and ends after `indexLength` more bytes. -/
theorem indexLayout_of_indexOffset (le : Bool) (s : BOMStorage) (hinv : s.Inv)
    (hio : s.header.indexOffset = u32 (512 + s.size_of_vars + s.entries.length))
    (hsize : (s.write le).length < 4294967296) : IndexLayout le s := by
  have h1 : (s.header.image s.size_of_header).length = 512 := by
    rw [hinv.header_size]; exact BOMHeader.image_length _ hinv.magic_length
  have h2 : (writeTable le s).length = 4 + 8 * s.block_table.blockPointers.length := by
    unfold writeTable
    simp only [List.length_append, htonl_length]
    rw [flatten_map_length_const _ 8 _ (writePointer_length le _ _),
      flatten_map_length_const _ 8 _ (by intro p; simp [BOMPointer.image])]
    simp only [List.length_take, List.length_drop]
    omega
  have h3 : s.free_list.image.length = 20 := by rw [hinv.free_list_eq]; rfl
  have hT : ((writeTable le s).take s.size_of_block_table).length = s.size_of_block_table := by
    rw [List.length_take, h2, hinv.table_size, hinv.num_entries_eq]; omega
  have hF : (s.free_list.image.take s.size_of_free_list).length = 20 := by
    rw [List.length_take, h3, hinv.free_size]; rfl
  have hV : (s.vars.image.take s.size_of_vars).length = s.size_of_vars := by
    rw [List.length_take, ← hinv.vars_size]; omega
  have hE : (s.entries.take s.entry_size).length = s.entries.length := by
    rw [List.length_take, hinv.entry_size_eq]; omega
  have hH : ((s.header.image s.size_of_header).take s.size_of_header).length = 512 := by
    rw [List.length_take, h1, hinv.header_size]; rfl
  have hwl : (s.write le).length
      = 512 + s.size_of_vars + s.entries.length + s.size_of_block_table + 20 := by
    unfold BOMStorage.write
    simp only [List.length_append]
    rw [hH, hV, hE, hT, hF]
  have hHe : (s.header.image s.size_of_header).take s.size_of_header = s.header.image 512 := by
    rw [hinv.header_size, List.take_of_length_le]
    rw [BOMHeader.image_length _ hinv.magic_length]
  have hd16 : (s.write le).drop 16
      = htonl s.header.indexOffset ++ (htonl s.header.indexLength
          ++ ((s.header.image 512).drop 24 ++ (s.vars.image.take s.size_of_vars
          ++ (s.entries.take s.entry_size ++ ((writeTable le s).take s.size_of_block_table
          ++ s.free_list.image.take s.size_of_free_list))))) := by
    unfold BOMStorage.write
    rw [hHe]
    simp only [List.append_assoc]
    rw [List.drop_append_of_le_length
      (by rw [BOMHeader.image_length _ hinv.magic_length]; omega),
      header_image_drop_16 _ hinv.magic_eq]
    simp only [List.append_assoc]
  have hio16 : ntohlAt (s.write le) 16 = 512 + s.size_of_vars + s.entries.length := by
    rw [ntohlAt_of_drop _ _ _ _ hd16, hio, u32_u32, u32_of_lt (by omega)]
  have hil20 : ntohlAt (s.write le) 20 = s.size_of_block_table + 20 := by
    have : (s.write le).drop 20 = htonl s.header.indexLength
          ++ ((s.header.image 512).drop 24 ++ (s.vars.image.take s.size_of_vars
          ++ (s.entries.take s.entry_size ++ ((writeTable le s).take s.size_of_block_table
          ++ s.free_list.image.take s.size_of_free_list)))) := by
      have e : (20 : Nat) = 16 + 4 := rfl
      rw [e, drop_add, hd16, List.drop_left' (htonl_length _)]
    rw [ntohlAt_of_drop _ _ _ _ this, hinv.index_length, u32_u32, hinv.free_size,
      u32_of_lt (by omega)]
  refine ⟨?_, by rw [hT, hF, hil20], by rw [hwl, hio16, hil20]; omega⟩
  rw [hio16]
  unfold BOMStorage.write
  simp only [List.append_assoc]
  have e : 512 + s.size_of_vars + s.entries.length
      = ((s.header.image s.size_of_header).take s.size_of_header).length
        + ((s.vars.image.take s.size_of_vars).length
        + (s.entries.take s.entry_size).length) := by
    rw [hH, hV, hE]; omega
  rw [e, drop_add, List.drop_left, drop_add, List.drop_left, List.drop_left]

/-- C30: in the file written for a tree of `N` nodes, and more generally in the file that
`write` produces after any sequence of `addBlock` and `addVar` calls on a fresh storage
that ends with `addVar` (the file staying below `2 ^ 32` bytes), the block table starts at
the byte offset `header.indexOffset`, the free list follows it immediately, and the length
of the file is `header.indexOffset + header.indexLength`. -/
theorem C30_index_layout (le : Bool) :
    (∀ (ops : List Op) (name data : Bytes),
      ((BOMStorage.new.run (ops ++ [Op.addVar name data])).write le).length < 4294967296 →
      IndexLayout le (BOMStorage.new.run (ops ++ [Op.addVar name data])))
    ∧ (∀ (root : Node) (N : Nat), N < 4294967296 → (visitsOf root).length = N →
      ((build_bom root N).write le).length < 4294967296 →
      IndexLayout le (build_bom root N)) := by
  constructor
  · intro ops name data hsize
    exact indexLayout_of_indexOffset le _ (BOMStorage.inv_run _ BOMStorage.inv_new _)
      (BOMStorage.run_addVar_indexOffset ops name data) hsize
  · intro root N hN hV hsize
    obtain ⟨hh, _, hio, _⟩ := build_bom_spec root N hN hV
    exact indexLayout_of_indexOffset le _ hh.inv hio hsize

set_option maxRecDepth 100000 in
/-- C30 on a storage with one block and one variable, and on the file of the tree of `d`,
`d/a`, `d/b`, which has 1088 bytes: the block table is at offset 904 and `indexLength` is
184. -/
theorem C30_index_layout_witness :
    IndexLayout true (BOMStorage.new.run ([Op.addBlock [1, 2, 3]] ++ [Op.addVar [86] [7]]))
    ∧ IndexLayout true (build_bom exTree 3)
    ∧ ((build_bom exTree 3).write true).length = 1088
    ∧ ntohlAt ((build_bom exTree 3).write true) 16 = 904
    ∧ ntohlAt ((build_bom exTree 3).write true) 20 = 184 :=
  ⟨(C30_index_layout true).1 [Op.addBlock [1, 2, 3]] [86] [7] (by decide),
    (C30_index_layout true).2 exTree 3 (by decide) (by decide) (by decide),
    by decide, by decide, by decide⟩

/-! ## What happens to a block after it is added -/

theorem image_with_forward (p : BOMPaths) (v : Nat) :
    (({ p with forward := v } : BOMPaths).image).take 4 = p.image.take 4
    ∧ (({ p with forward := v } : BOMPaths).image).drop 8 = p.image.drop 8 := by
  simp [BOMPaths.image, htons, htonl]

theorem pushed_mem (j : Nat) (cs : List (Bytes × Node)) (e : Nat × Node)
    (he : e ∈ pushed j cs) : ∃ t c, e.1 = j + t + 1 ∧ cs[t]? = some c ∧ e.2 = c.2 := by
  induction cs generalizing j with
  | nil => simp [pushed] at he
  | cons d ds ihd =>
    simp only [pushed, List.mem_cons] at he
    rcases he with rfl | he
    · exact ⟨0, d, rfl, by simp, rfl⟩
    · obtain ⟨t, c, h1, h2, h3⟩ := ihd (j + 1) he
      exact ⟨t + 1, c, by omega, by simpa using h2, h3⟩

/-- Every execution of the loop body carries the id of the node whose children the loop
goes over: 0 for the children of `root`, and `k + 1` for the children of the node emitted
at position `k`, when the ids in the queue are those of the visits done before (`pre`). -/
theorem visits_parent (root : Node) (fuel j : Nat) (q : List (Nat × Node)) (pre : List Visit)
    (hpre : pre.length = j)
    (hq : ∀ e ∈ q, (e.1 = 0 ∧ e.2 = root)
      ∨ ∃ k w, e.1 = k + 1 ∧ pre[k]? = some w ∧ w.node = e.2)
    (i : Nat) (v : Visit) (hi : j ≤ i)
    (hv : (pre ++ visits fuel j q)[i]? = some v) :
    (v.parent = 0 ∧ (v.name, v.node) ∈ root.children)
    ∨ ∃ k w, k < i ∧ v.parent = k + 1 ∧ (pre ++ visits fuel j q)[k]? = some w
        ∧ (v.name, v.node) ∈ w.node.children := by
  induction fuel generalizing j q pre with
  | zero =>
    simp only [visits, List.append_nil] at hv
    rw [List.getElem?_eq_none (by omega)] at hv
    exact Option.noConfusion hv
  | succ fuel ih =>
    cases q with
    | nil =>
      simp only [visits, List.append_nil] at hv
      rw [List.getElem?_eq_none (by omega)] at hv
      exact Option.noConfusion hv
    | cons x rest =>
      obtain ⟨p0, x⟩ := x
      simp only [visits] at hv ⊢
      rw [← List.append_assoc] at hv ⊢
      by_cases hlt : i < j + x.children.length
      · have h1 : (pre ++ x.children.map
            (fun c => ({ parent := p0, name := c.1, node := c.2 } : Visit)))[i]? = some v := by
          rw [List.getElem?_append_left (by simp; omega)] at hv
          exact hv
        rw [List.getElem?_append_right (by omega), List.getElem?_map] at h1
        obtain ⟨c, hc, he⟩ := Option.map_eq_some'.mp h1
        subst he
        have hmem : c ∈ x.children := List.getElem?_mem hc
        rcases hq (p0, x) (List.mem_cons_self _ _) with ⟨h0, hx⟩ | ⟨k, w, hk, hw, hx⟩
        · left
          simp only at h0 hx
          subst hx
          exact ⟨h0, hmem⟩
        · right
          simp only at hk hw hx
          have hklt : k < pre.length := by
            by_contra hcon
            rw [List.getElem?_eq_none (by omega)] at hw
            exact Option.noConfusion hw
          refine ⟨k, w, by omega, hk, ?_, ?_⟩
          · rw [List.getElem?_append_left (by simp; omega), List.getElem?_append_left hklt]
            exact hw
          · rw [hx]; exact hmem
      · refine ih (j + x.children.length) (rest ++ pushed j x.children)
          (pre ++ x.children.map (fun c => { parent := p0, name := c.1, node := c.2 }))
          (by simp; omega) ?_ (by omega) hv
        intro e he
        rcases List.mem_append.mp he with he | he
        · rcases hq e (List.mem_cons_of_mem _ he) with h0 | ⟨k, w, hk, hw, hx⟩
          · exact Or.inl h0
          · right
            have hklt : k < pre.length := by
              by_contra hcon
              rw [List.getElem?_eq_none (by omega)] at hw
              exact Option.noConfusion hw
            exact ⟨k, w, hk, by rw [List.getElem?_append_left hklt]; exact hw, hx⟩
        · right
          obtain ⟨t, c, ht1, ht2, ht3⟩ := pushed_mem j x.children e he
          refine ⟨j + t, { parent := p0, name := c.1, node := c.2 }, by omega, ?_, ht3.symm⟩
          rw [List.getElem?_append_right (by omega), List.getElem?_map]
          have : j + t - pre.length = t := by omega
          rw [this, ht2]
          rfl

/-- The parent id of every execution of the loop body for the tree `root`. -/
theorem visitsOf_parent (root : Node) (i : Nat) (v : Visit)
    (hv : (visitsOf root)[i]? = some v) :
    (v.parent = 0 ∧ (v.name, v.node) ∈ root.children)
    ∨ ∃ k w, k < i ∧ v.parent = k + 1 ∧ (visitsOf root)[k]? = some w
        ∧ (v.name, v.node) ∈ w.node.children := by
  have := visits_parent root root.count 0 [(0, root)] [] rfl (by
    intro e he
    rw [List.mem_singleton.mp he]
    exact Or.inl ⟨rfl, rfl⟩) i v (Nat.zero_le _) (by simpa [visitsOf] using hv)
  simpa [visitsOf] using this

set_option maxRecDepth 100000 in
/-- C24 (counterexample): for the manifest of the regular files `a` and `a/b`, `write_bom`
succeeds; the entry of `b` has `FileRecord.parent = 1`, and the `PathInfo1` with `id = 1` is
that of `a`, whose `PathInfo2` has `type = 1` (`TYPE_FILE`), not `TYPE_DIR = 2`. -/
theorem C24_parent_is_a_regular_file :
    write_bom true exNestedFileManifest = .ok ((build_bom exNestedFileTree 2).write true)
    ∧ (readPaths ((build_bom exNestedFileTree 2).write true)).map
        (fun l => l.map (fun e => (e.id, e.type, e.parent, e.name)))
        = some [(1, 1, 0, [97]), (2, 1, 1, [98])]
    ∧ TYPE_FILE = 1 ∧ TYPE_DIR = 2 :=
  ⟨by rfl, by decide, rfl, rfl⟩

/-- C24 (amended): for every node emitted by a successful `write_bom` (the visit `v` at
position `j`, whose `FileRecord` is the block `b + 2` named by the pair number `j` of the
leaves), either its `FileRecord.parent` is 0 and the children map of the root contains its
name, or there is an emitted `PathInfo1` (block `c + 1`, named by the pair number `k < j`)
with `id` equal to `FileRecord.parent` whose node, of whatever type, has the name of this
node in its children map. -/
theorem C24_parent_holds_the_child (le : Bool) (lines : List Bytes)
    (all_nodes : List (Bytes × NodeInfo)) (root : Node)
    (hr : read_nodes [] lines = .ok all_nodes) (hc : create_tree all_nodes = .ok root)
    (hN : all_nodes.length < 4294967296)
    (hV : (visitsOf root).length = all_nodes.length)
    (hsize : ((build_bom root all_nodes.length).write le).length < 4294967296) :
    write_bom le lines = .ok ((build_bom root all_nodes.length).write le)
    ∧ ∀ j v, (visitsOf root)[j]? = some v →
        ∃ (b : Nat) (I : List (Nat × Nat)),
          pathsIndices ((build_bom root all_nodes.length).write le) = some I
          ∧ I[j]? = some (b + 1, b + 2)
          ∧ fileBlock ((build_bom root all_nodes.length).write le) (b + 2)
              = fileBytes v.parent v.name
          ∧ ((v.parent = 0 ∧ (v.name, v.node) ∈ root.children)
            ∨ ∃ (k c : Nat) (w : Visit), k < j ∧ (visitsOf root)[k]? = some w
                ∧ I[k]? = some (c + 1, c + 2)
                ∧ fileBlock ((build_bom root all_nodes.length).write le) (c + 1)
                    = htonl v.parent ++ htonl c
                ∧ fileBlock ((build_bom root all_nodes.length).write le) c
                    = info2Bytes w.node.info
                ∧ (v.name, v.node) ∈ w.node.children) := by
  have h := builtFile_of_build le root all_nodes.length hN hV hsize
  refine ⟨by simp only [write_bom, hr, hc], ?_⟩
  intro j v hv
  have hj : j < all_nodes.length := by
    by_contra hcon
    rw [List.getElem?_eq_none (by omega)] at hv
    exact Option.noConfusion hv
  have hI : ∀ t, t < all_nodes.length →
      ((List.range all_nodes.length).map
        (fun j => (info2Index 1 j + 2, info2Index 1 j + 3)))[t]?
        = some (info2Index 1 t + 1 + 1, info2Index 1 t + 1 + 2) := by
    intro t ht
    rw [List.getElem?_map, List.getElem?_range ht]
    rfl
  refine ⟨info2Index 1 j + 1, _, h.pathsIndices_eq (by omega), hI j hj, h.file j v hv hj, ?_⟩
  rcases visitsOf_parent root j v hv with h0 | ⟨k, w, hk, hp, hw, hmem⟩
  · exact Or.inl h0
  · right
    have h1 := h.info1 k w hw (by omega)
    rw [← hp] at h1
    exact ⟨k, info2Index 1 k + 1, w, hk, hw, hI k (by omega), h1,
      h.info2 k w hw (by omega), hmem⟩

set_option maxRecDepth 100000 in
/-- C24 (amended) on the manifest of the regular files `a` and `a/b`, at the node `b`: its
`FileRecord` is block 7 and has the parent id 1, the `PathInfo1` with the id 1 is block 3,
and its node `a` has `b` in its children map. -/
theorem C24_parent_holds_the_child_witness :
    read_nodes [] exNestedFileManifest = .ok [([97], exFile), ([97, 47, 98], exFile)]
    ∧ create_tree [([97], exFile), ([97, 47, 98], exFile)] = .ok exNestedFileTree
    ∧ (visitsOf exNestedFileTree).length = 2
    ∧ ((build_bom exNestedFileTree 2).write true).length < 4294967296
    ∧ ∃ (b : Nat) (I : List (Nat × Nat)),
        pathsIndices ((build_bom exNestedFileTree 2).write true) = some I
        ∧ I[1]? = some (b + 1, b + 2)
        ∧ fileBlock ((build_bom exNestedFileTree 2).write true) (b + 2) = fileBytes 1 [98]
        ∧ ((1 = 0 ∧ (([98], Node.mk [] exFile) : Bytes × Node) ∈ exNestedFileTree.children)
          ∨ ∃ (k c : Nat) (w : Visit), k < 1 ∧ (visitsOf exNestedFileTree)[k]? = some w
              ∧ I[k]? = some (c + 1, c + 2)
              ∧ fileBlock ((build_bom exNestedFileTree 2).write true) (c + 1)
                  = htonl 1 ++ htonl c
              ∧ fileBlock ((build_bom exNestedFileTree 2).write true) c
                  = info2Bytes w.node.info
              ∧ (([98], Node.mk [] exFile) : Bytes × Node) ∈ w.node.children) :=
  ⟨by rfl, by rfl, by decide, by decide,
    (C24_parent_holds_the_child true exNestedFileManifest
      [([97], exFile), ([97, 47, 98], exFile)] exNestedFileTree (by rfl) (by rfl) (by decide)
      (by decide) (by decide)).2 1 { parent := 1, name := [98], node := Node.mk [] exFile }
      (by rfl)⟩

/-! ## The dumper on written files -/

set_option maxRecDepth 1000000 in
set_option maxHeartbeats 4000000 in
/-- The dump of the file of the empty manifest, written on a little-endian host, leaves the
buffer, whatever the bound on the depth of the recursion. -/
theorem dumpbom_empty_manifest (fuel : Nat) :
    dumpbom true (fuel + 1)
      ((build_bom (Node.mk [] { NodeInfo.init with type := .kRootNode }) 0).write true)
      = .error .outOfBuffer := by
  rfl

set_option maxRecDepth 1000000 in
/-- C28 (failing input): for the empty manifest (`N = 0`) on a little-endian host,
`write_bom` writes a file of 829 bytes in which the pointer of the root page of `Paths`
(block 2, of length 0) holds its address in host order; the dumper converts it to
201326592, and `print_paths`, called by `print_tree` on `&buffer[201326592]`, leaves the
buffer: the walk reports no page.  This holds for every bound on the depth of the
recursion. -/
theorem C28_dump_of_empty_manifest_leaves_the_buffer :
    write_bom true []
      = .ok ((build_bom (Node.mk [] { NodeInfo.init with type := .kRootNode }) 0).write true)
    ∧ ((build_bom (Node.mk [] { NodeInfo.init with type := .kRootNode }) 0).write true).length
        = 829
    ∧ ntohlAt ((build_bom (Node.mk [] { NodeInfo.init with type := .kRootNode }) 0).write true)
        (717 + 4 + 8 * 2) = 201326592
    ∧ ∀ fuel, dumpbom true (fuel + 1)
        ((build_bom (Node.mk [] { NodeInfo.init with type := .kRootNode }) 0).write true)
        = .error .outOfBuffer :=
  ⟨by rfl, by decide, by decide, dumpbom_empty_manifest⟩

/-! ## The dumper does not look at the magic and the version -/

theorem writeAt_getD_outside (buf src : Bytes) (off i : Nat)
    (h : off + src.length ≤ buf.length) (hi : i < off ∨ off + src.length ≤ i) :
    (writeAt buf off src).getD i 0 = buf.getD i 0 := by
  unfold writeAt
  simp only [List.getD_eq_getElem?_getD]
  rcases hi with hi | hi
  · rw [List.append_assoc, List.getElem?_append_left (by simp; omega), List.getElem?_take_of_lt hi]
  · rw [List.getElem?_append_right (by simp; omega), List.getElem?_drop]
    congr 2
    simp
    omega

theorem conv32_ok (le : Bool) (b c : Bytes) (off : Nat) (h : conv32 le b off = .ok c) :
    off + 4 ≤ b.length ∧ c.length = b.length
    ∧ ∀ i, i < off ∨ off + 4 ≤ i → c.getD i 0 = b.getD i 0 := by
  unfold conv32 at h
  split at h
  · rename_i hb
    cases h
    refine ⟨hb, ?_, ?_⟩
    · split
      · rw [writeAt_length]; simp; omega
      · rfl
    · intro i hi
      split
      · rw [writeAt_getD_outside]
        · simp; omega
        · simp
          have : min 4 (b.length - off) = 4 := by omega
          rw [this]; exact hi
      · rfl
  · exact Except.noConfusion h

theorem conv32_isOk (le : Bool) (b : Bytes) (off : Nat) (h : off + 4 ≤ b.length) :
    ∃ c, conv32 le b off = .ok c := by
  unfold conv32
  rw [if_pos h]
  exact ⟨_, rfl⟩

theorem conv32_error (le : Bool) (b : Bytes) (off : Nat) (h : ¬ off + 4 ≤ b.length) :
    conv32 le b off = .error .outOfBuffer := by
  unfold conv32
  rw [if_neg h]

/-- After `x = ntohl (x)` the host reads the big-endian value of the bytes that were
there. -/
theorem load32_conv32 (le : Bool) (b c : Bytes) (off : Nat) (h : conv32 le b off = .ok c) :
    load32 le c off = .ok (ntohlAt b off) := by
  have hc := conv32_ok le b c off h
  unfold conv32 at h
  rw [if_pos hc.1] at h
  cases h
  unfold load32
  rw [if_pos (by rw [hc.2.1]; exact hc.1)]
  cases le
  · rfl
  · simp only [if_true]
    have e : ∀ k, k < 4 → (writeAt b off ((b.drop off).take 4).reverse).getD (off + k) 0
        = b.getD (off + (3 - k)) 0 := by
      intro k hk
      unfold writeAt
      simp only [List.getD_eq_getElem?_getD]
      rw [List.append_assoc, List.getElem?_append_right (by simp),
        List.getElem?_append_left (by simp; omega)]
      have hl : ((b.drop off).take 4).length = 4 := by simp; omega
      rw [List.getElem?_reverse (by simp; omega), hl, List.getElem?_take_of_lt (by simp; omega),
        List.getElem?_drop]
      congr 2
      simp
      omega
    have e0 := e 0 (by omega)
    have e1 := e 1 (by omega)
    have e2 := e 2 (by omega)
    have e3 := e 3 (by omega)
    simp only [Nat.add_zero] at e0
    rw [e0, e1, e2, e3]
    unfold ntohlAt
    simp only [Nat.add_zero, Nat.sub_self, Nat.reduceSub]
    congr 1
    omega

theorem load32_congr (le : Bool) (b c : Bytes) (off : Nat) (hl : c.length = b.length)
    (h : ∀ i, off ≤ i → i < off + 4 → c.getD i 0 = b.getD i 0) :
    load32 le c off = load32 le b off := by
  unfold load32 ntohlAt
  rw [hl, h off (by omega) (by omega), h (off + 1) (by omega) (by omega),
    h (off + 2) (by omega) (by omega), h (off + 3) (by omega) (by omega)]

theorem load32_ok (le : Bool) (b : Bytes) (off x : Nat) (h : load32 le b off = .ok x) :
    off + 4 ≤ b.length := by
  unfold load32 at h
  split at h
  · assumption
  · exact Except.noConfusion h

theorem load8_congr (b c : Bytes) (off : Nat) (hl : c.length = b.length)
    (h : c.getD off 0 = b.getD off 0) : load8 c off = load8 b off := by
  unfold load8
  rw [hl, h]

theorem load8_ok (b : Bytes) (off x : Nat) (h : load8 b off = .ok x) :
    off + 1 ≤ b.length ∧ x < 256 := by
  unfold load8 at h
  split at h
  · cases h; exact ⟨by assumption, Nat.mod_lt _ (by decide)⟩
  · exact Except.noConfusion h

theorem loadBytes_congr (b c : Bytes) (off n : Nat) (hl : c.length = b.length)
    (h : ∀ i, off ≤ i → c.getD i 0 = b.getD i 0) :
    loadBytes c off n = loadBytes b off n := by
  unfold loadBytes
  rw [hl]
  split
  · congr 2
    apply List.ext_getElem?
    intro i
    rw [List.getElem?_drop, List.getElem?_drop]
    have := h (off + i) (by omega)
    simp only [List.getD_eq_getElem?_getD] at this
    by_cases hi : off + i < b.length
    · rw [List.getElem?_eq_getElem hi, List.getElem?_eq_getElem (by omega)]
      rw [List.getElem?_eq_getElem hi, List.getElem?_eq_getElem (by omega)] at this
      simpa using this
    · rw [List.getElem?_eq_none (by omega), List.getElem?_eq_none (by omega)]
  · rfl

theorem ExRel.bind {α β γ δ : Type} {R : α → β → Prop} {S : γ → δ → Prop}
    {x : Except DumpStop α} {y : Except DumpStop β}
    {f : α → Except DumpStop γ} {g : β → Except DumpStop δ}
    (h : ExRel R x y)
    (hf : ∀ a b, x = .ok a → y = .ok b → R a b → ExRel S (f a) (g b)) :
    ExRel S (x >>= f) (y >>= g) := by
  cases x with
  | error e =>
    cases y with
    | error e2 => exact h
    | ok b => exact h.elim
  | ok a =>
    cases y with
    | error e2 => exact h.elim
    | ok b => exact hf a b rfl rfl h

theorem ExRel.of_eq {α : Type} (x y : Except DumpStop α) (h : x = y) :
    ExRel (fun a b => a = b) x y := by
  subst h
  cases x <;> rfl

theorem Agree.mono {k : Nat} {b1 b2 : Bytes} (h : Agree k b1 b2) (i : Nat) (hi : k ≤ i) :
    b1.getD i 0 = b2.getD i 0 := h.2 i hi

/-- The assignment `x = ntohl (x)` at an offset `off ≥ k` keeps two buffers in agreement
from `k` on. -/
theorem conv32_rel (le : Bool) (k : Nat) (b1 b2 : Bytes) (off : Nat) (h : Agree k b1 b2)
    (hoff : k ≤ off) :
    ExRel (Agree k) (conv32 le b1 off) (conv32 le b2 off) := by
  by_cases hb : off + 4 ≤ b1.length
  · obtain ⟨c1, h1⟩ := conv32_isOk le b1 off hb
    obtain ⟨c2, h2⟩ := conv32_isOk le b2 off (by rw [← h.1]; exact hb)
    rw [h1, h2]
    have f1 := conv32_ok le b1 c1 off h1
    have f2 := conv32_ok le b2 c2 off h2
    refine ⟨by rw [f1.2.1, f2.2.1, h.1], ?_⟩
    intro i hi
    by_cases hin : i < off ∨ off + 4 ≤ i
    · rw [f1.2.2 i hin, f2.2.2 i hin, h.2 i hi]
    · -- inside the field: both hold the reversed (or the same) bytes
      have l1 := load32_conv32 le b1 c1 off h1
      have l2 := load32_conv32 le b2 c2 off h2
      unfold conv32 at h1 h2
      rw [if_pos hb] at h1
      rw [if_pos (by rw [← h.1]; exact hb)] at h2
      cases h1
      cases h2
      cases le
      · exact h.2 i hi
      · simp only [if_true]
        obtain ⟨t, rfl, ht⟩ : ∃ t, i = off + t ∧ t < 4 := ⟨i - off, by omega, by omega⟩
        have e : ∀ (b : Bytes), off + 4 ≤ b.length →
            (writeAt b off ((b.drop off).take 4).reverse).getD (off + t) 0
              = b.getD (off + (3 - t)) 0 := by
          intro b hb
          unfold writeAt
          simp only [List.getD_eq_getElem?_getD]
          rw [List.append_assoc, List.getElem?_append_right (by simp),
            List.getElem?_append_left (by simp; omega)]
          have hl : ((b.drop off).take 4).length = 4 := by simp; omega
          rw [List.getElem?_reverse (by simp; omega), hl,
            List.getElem?_take_of_lt (by simp; omega), List.getElem?_drop]
          congr 2
          simp
          omega
        rw [e b1 hb, e b2 (by rw [← h.1]; exact hb)]
        exact h.2 _ (by omega)
  · rw [conv32_error le b1 off hb, conv32_error le b2 off (by rw [← h.1]; exact hb)]
    rfl

/-- The assignment `x = ntohl (x)` below `k` keeps two buffers in agreement from `k` on. -/
theorem conv32_rel_below (le : Bool) (k : Nat) (b1 b2 : Bytes) (off : Nat) (h : Agree k b1 b2)
    (hoff : off + 4 ≤ k) :
    ExRel (Agree k) (conv32 le b1 off) (conv32 le b2 off) := by
  by_cases hb : off + 4 ≤ b1.length
  · obtain ⟨c1, h1⟩ := conv32_isOk le b1 off hb
    obtain ⟨c2, h2⟩ := conv32_isOk le b2 off (by rw [← h.1]; exact hb)
    rw [h1, h2]
    have f1 := conv32_ok le b1 c1 off h1
    have f2 := conv32_ok le b2 c2 off h2
    refine ⟨by rw [f1.2.1, f2.2.1, h.1], ?_⟩
    intro i hi
    rw [f1.2.2 i (by omega), f2.2.2 i (by omega), h.2 i hi]
  · rw [conv32_error le b1 off hb, conv32_error le b2 off (by rw [← h.1]; exact hb)]
    rfl

theorem load32_rel (le : Bool) (k : Nat) (b1 b2 : Bytes) (off : Nat) (h : Agree k b1 b2)
    (hoff : k ≤ off) :
    ExRel (fun a b => a = b) (load32 le b1 off) (load32 le b2 off) :=
  ExRel.of_eq _ _ (load32_congr le b2 b1 off h.1 (fun i hi _ => h.2 i (by omega)))

theorem load8_rel (k : Nat) (b1 b2 : Bytes) (off : Nat) (h : Agree k b1 b2) (hoff : k ≤ off) :
    ExRel (fun a b => a = b) (load8 b1 off) (load8 b2 off) :=
  ExRel.of_eq _ _ (by unfold load8; rw [h.1, h.2 off hoff])

theorem loadBytes_rel (k : Nat) (b1 b2 : Bytes) (off n : Nat) (h : Agree k b1 b2)
    (hoff : k ≤ off) :
    ExRel (fun a b => a = b) (loadBytes b1 off n) (loadBytes b2 off n) :=
  ExRel.of_eq _ _ (loadBytes_congr b2 b1 off n h.1 (fun i hi => h.2 i (by omega)))

/-- The buffer `c` has the length of `b` and the same bytes below offset `k`. -/
theorem conv32_keeps (le : Bool) (b c : Bytes) (off k : Nat) (h : conv32 le b off = .ok c)
    (hk : k ≤ off) (o : Nat) (ho : o + 4 ≤ k) : load32 le c o = load32 le b o := by
  have f := conv32_ok le b c off h
  exact load32_congr le b c o f.2.1 (fun i _ hi => f.2.2 i (by omega))

/-- The result `c` of a step that started from `b`: same length, same header fields. -/
theorem load32_keeps_trans (le : Bool) (b c d : Bytes)
    (h1 : ∀ o, o + 4 ≤ 32 → load32 le c o = load32 le b o)
    (h2 : ∀ o, o + 4 ≤ 32 → load32 le d o = load32 le c o) :
    ∀ o, o + 4 ≤ 32 → load32 le d o = load32 le b o :=
  fun o ho => (h2 o ho).trans (h1 o ho)

theorem convert_pointers_rel (le : Bool) (bt : Nat) (hbt : 12 ≤ bt) :
    ∀ (n i : Nat) (b1 b2 : Bytes) (nn : Nat), Agree 12 b1 b2 →
      ExRel (fun r1 r2 => Agree 12 r1.1 r2.1 ∧ r1.2 = r2.2)
        (convert_pointers le bt n i b1 nn) (convert_pointers le bt n i b2 nn) := by
  intro n
  induction n with
  | zero =>
    intro i b1 b2 nn h
    exact ⟨h, rfl⟩
  | succ n ih =>
    intro i b1 b2 nn h
    simp only [convert_pointers]
    refine ExRel.bind (load32_rel le 12 b1 b2 _ h (by omega)) ?_
    intro a a2 _ _ ha
    subst ha
    by_cases h0 : a ≠ 0
    · rw [if_pos h0, if_pos h0]
      refine ExRel.bind (conv32_rel le 12 b1 b2 _ h (by omega)) ?_
      intro c1 c2 _ _ hc
      refine ExRel.bind (conv32_rel le 12 c1 c2 _ hc (by omega)) ?_
      intro d1 d2 _ _ hd
      exact ih _ _ _ _ hd
    · rw [if_neg h0, if_neg h0]
      exact ih _ _ _ _ h

theorem convert_pointers_ok (le : Bool) (bt : Nat) (hbt : 32 ≤ bt) :
    ∀ (n i : Nat) (b : Bytes) (nn : Nat) (r : Bytes × Nat),
      convert_pointers le bt n i b nn = .ok r →
      r.1.length = b.length ∧ (∀ o, o + 4 ≤ 32 → load32 le r.1 o = load32 le b o)
      ∧ (∀ o, o + 4 ≤ bt + 4 → load32 le r.1 o = load32 le b o)
      ∧ (n = 0 ∨ bt + 8 * (i + n) ≤ b.length) := by
  intro n
  induction n with
  | zero =>
    intro i b nn r h
    cases h
    exact ⟨rfl, fun _ _ => rfl, fun _ _ => rfl, Or.inl rfl⟩
  | succ n ih =>
    intro i b nn r h
    simp only [convert_pointers] at h
    cases ha : load32 le b (bt + 4 + 8 * i) with
    | error e => rw [ha] at h; exact Except.noConfusion h
    | ok a =>
      rw [ha] at h
      simp only [bind, Except.bind] at h
      have hin := load32_ok le b _ a ha
      have key : ∀ c : Bytes, c.length = b.length →
          (∀ o, o + 4 ≤ bt + 4 → load32 le c o = load32 le b o) →
          ∀ nn2, convert_pointers le bt n (i + 1) c nn2 = .ok r →
          r.1.length = b.length ∧ (∀ o, o + 4 ≤ 32 → load32 le r.1 o = load32 le b o)
          ∧ (∀ o, o + 4 ≤ bt + 4 → load32 le r.1 o = load32 le b o)
          ∧ (n + 1 = 0 ∨ bt + 8 * (i + (n + 1)) ≤ b.length) := by
        intro c hl hk nn2 hr
        obtain ⟨r1, r2, r3, r4⟩ := ih (i + 1) c nn2 r hr
        refine ⟨r1.trans hl, fun o ho => (r2 o ho).trans (hk o (by omega)),
          fun o ho => (r3 o ho).trans (hk o ho), Or.inr ?_⟩
        rcases r4 with rfl | r4
        · omega
        · rw [hl] at r4; omega
      by_cases h0 : a ≠ 0
      · rw [if_pos h0] at h
        cases hc : conv32 le b (bt + 4 + 8 * i) with
        | error e => rw [hc] at h; exact Except.noConfusion h
        | ok c =>
          rw [hc] at h
          simp only at h
          cases hd : conv32 le c (bt + 4 + 8 * i + 4) with
          | error e => rw [hd] at h; exact Except.noConfusion h
          | ok d =>
            rw [hd] at h
            simp only at h
            have fc := conv32_ok le b c _ hc
            have fd := conv32_ok le c d _ hd
            refine key d (fd.2.1.trans fc.2.1) ?_ _ h
            intro o ho
            exact (conv32_keeps le c d _ (bt + 4) hd (by omega) o ho).trans
              (conv32_keeps le b c _ (bt + 4) hc (by omega) o ho)
      · rw [if_neg h0] at h
        exact key b rfl (fun _ _ => rfl) _ h

theorem convert_free_pointers_rel (le : Bool) (fl : Nat) (hfl : 12 ≤ fl) :
    ∀ (n i : Nat) (b1 b2 : Bytes), Agree 12 b1 b2 →
      ExRel (Agree 12) (convert_free_pointers le fl n i b1) (convert_free_pointers le fl n i b2) := by
  intro n
  induction n with
  | zero =>
    intro i b1 b2 h
    exact h
  | succ n ih =>
    intro i b1 b2 h
    simp only [convert_free_pointers]
    refine ExRel.bind (conv32_rel le 12 b1 b2 _ h (by omega)) ?_
    intro c1 c2 _ _ hc
    refine ExRel.bind (conv32_rel le 12 c1 c2 _ hc (by omega)) ?_
    intro d1 d2 _ _ hd
    exact ih _ _ _ hd

theorem convert_free_pointers_ok (le : Bool) (fl : Nat) (hfl : 32 ≤ fl) :
    ∀ (n i : Nat) (b r : Bytes), convert_free_pointers le fl n i b = .ok r →
      r.length = b.length ∧ (∀ o, o + 4 ≤ 32 → load32 le r o = load32 le b o) := by
  intro n
  induction n with
  | zero =>
    intro i b r h
    cases h
    exact ⟨rfl, fun _ _ => rfl⟩
  | succ n ih =>
    intro i b r h
    simp only [convert_free_pointers] at h
    cases hc : conv32 le b (fl + 4 + 8 * i) with
    | error e => rw [hc] at h; exact Except.noConfusion h
    | ok c =>
      rw [hc] at h
      simp only [bind, Except.bind] at h
      cases hd : conv32 le c (fl + 4 + 8 * i + 4) with
      | error e => rw [hd] at h; exact Except.noConfusion h
      | ok d =>
        rw [hd] at h
        simp only at h
        have fc := conv32_ok le b c _ hc
        have fd := conv32_ok le c d _ hd
        obtain ⟨r1, r2⟩ := ih (i + 1) d r h
        refine ⟨r1.trans (fd.2.1.trans fc.2.1), fun o ho => (r2 o ho).trans ?_⟩
        exact (conv32_keeps le c d _ 32 hd (by omega) o ho).trans
          (conv32_keeps le b c _ 32 hc (by omega) o ho)

theorem convert_vars_rel (le : Bool) (vo : Nat) (hvo : 32 ≤ vo) :
    ∀ (n : Nat) (b1 b2 : Bytes) (tl : Nat), Agree 12 b1 b2 → b1.length < 2147483648 →
      load32 le b1 24 = .ok vo →
      ExRel (fun r1 r2 => Agree 12 r1.1 r2.1 ∧ r1.2 = r2.2 ∧ r1.1.length = b1.length
          ∧ ∀ o, o + 4 ≤ 32 → load32 le r1.1 o = load32 le b1 o)
        (convert_vars le n b1 (vo + tl) tl) (convert_vars le n b2 (vo + tl) tl) := by
  intro n
  induction n with
  | zero =>
    intro b1 b2 tl h _ _
    exact ⟨h, rfl, rfl, fun _ _ => rfl⟩
  | succ n ih =>
    intro b1 b2 tl h hlen hv
    simp only [convert_vars]
    refine ExRel.bind (conv32_rel le 12 b1 b2 _ h (by omega)) ?_
    intro c1 c2 hc1 _ hc
    have fc := conv32_ok le b1 c1 _ hc1
    refine ExRel.bind (load8_rel 12 c1 c2 _ hc (by omega)) ?_
    intro len len2 hl1 _ hlen2
    subst hlen2
    have fl := load8_ok c1 _ len hl1
    have hv1 : load32 le c1 24 = .ok vo := by
      rw [conv32_keeps le b1 c1 _ 32 hc1 (by omega) 24 (by omega)]; exact hv
    have hv2 : load32 le c2 24 = .ok vo := by
      rw [← hv1]
      exact load32_congr le c1 c2 24 hc.1.symm (fun i hi _ => (hc.2 i (by omega)).symm)
    rw [hv1, hv2]
    simp only [bind, Except.bind]
    have e1 : u32 (u32 (tl + 4) + (len + 1)) = tl + (5 + len) := by
      unfold u32
      rw [fc.2.1] at fl
      omega
    have e2 : u32 (vo + (tl + (5 + len))) = vo + (tl + (5 + len)) := by
      unfold u32
      rw [fc.2.1] at fl
      omega
    rw [e1, e2]
    have := ih c1 c2 (tl + (5 + len)) hc (by rw [fc.2.1]; exact hlen) hv1
    revert this
    cases convert_vars le n c1 (vo + (tl + (5 + len))) (tl + (5 + len)) with
    | error e =>
      cases convert_vars le n c2 (vo + (tl + (5 + len))) (tl + (5 + len)) with
      | error e2 => exact id
      | ok r2 => exact id
    | ok r1 =>
      cases convert_vars le n c2 (vo + (tl + (5 + len))) (tl + (5 + len)) with
      | error e2 => exact id
      | ok r2 =>
        intro hr
        refine ⟨hr.1, hr.2.1, hr.2.2.1.trans fc.2.1, fun o ho => (hr.2.2.2 o ho).trans ?_⟩
        exact conv32_keeps le b1 c1 _ 32 hc1 (by omega) o ho

theorem var_names_rel (le : Bool) (vo : Nat) (hvo : 32 ≤ vo) (b1 b2 : Bytes)
    (h : Agree 12 b1 b2) (hlen : b1.length < 2147483648) (hv : load32 le b1 24 = .ok vo) :
    ∀ (n tl : Nat),
      ExRel (fun r1 r2 => r1 = r2)
        (var_names le b1 n (vo + tl) tl) (var_names le b2 n (vo + tl) tl) := by
  have hv2 : load32 le b2 24 = .ok vo := by
    rw [← hv]
    exact load32_congr le b1 b2 24 h.1.symm (fun i hi _ => (h.2 i (by omega)).symm)
  intro n
  induction n with
  | zero =>
    intro tl
    rfl
  | succ n ih =>
    intro tl
    simp only [var_names]
    refine ExRel.bind (load8_rel 12 b1 b2 _ h (by omega)) ?_
    intro len len2 hl1 _ hlen2
    subst hlen2
    have fl := load8_ok b1 _ len hl1
    refine ExRel.bind (loadBytes_rel 12 b1 b2 _ _ h (by omega)) ?_
    intro nm nm2 _ _ hnm
    subst hnm
    rw [hv, hv2]
    simp only [bind, Except.bind]
    have e1 : u32 (u32 (tl + 4) + (len + 1)) = tl + (5 + len) := by
      unfold u32
      omega
    have e2 : u32 (vo + (tl + (5 + len))) = vo + (tl + (5 + len)) := by
      unfold u32
      omega
    rw [e1, e2]
    have := ih (tl + (5 + len))
    revert this
    cases var_names le b1 n (vo + (tl + (5 + len))) (tl + (5 + len)) with
    | error e =>
      cases var_names le b2 n (vo + (tl + (5 + len))) (tl + (5 + len)) with
      | error e2 => exact id
      | ok r2 => exact id
    | ok r1 =>
      cases var_names le b2 n (vo + (tl + (5 + len))) (tl + (5 + len)) with
      | error e2 => exact id
      | ok r2 =>
        intro hr
        show nm :: r1 = nm :: r2
        rw [show r1 = r2 from hr]

theorem ntohlAt_congr (b c : Bytes) (off : Nat)
    (h : ∀ i, off ≤ i → i < off + 4 → c.getD i 0 = b.getD i 0) :
    ntohlAt c off = ntohlAt b off := by
  unfold ntohlAt
  rw [h off (by omega) (by omega), h (off + 1) (by omega) (by omega),
    h (off + 2) (by omega) (by omega), h (off + 3) (by omega) (by omega)]

/-- The conversion of the header: it needs 32 bytes, keeps the length and the bytes outside
the six fields, and leaves in each field the value that the file holds big-endian. -/
theorem convert_header_ok (le : Bool) (b c : Bytes) (h : convert_header le b = .ok c) :
    32 ≤ b.length ∧ c.length = b.length
    ∧ (∀ i, i < 8 ∨ 32 ≤ i → c.getD i 0 = b.getD i 0)
    ∧ load32 le c 8 = .ok (ntohlAt b 8) ∧ load32 le c 12 = .ok (ntohlAt b 12)
    ∧ load32 le c 16 = .ok (ntohlAt b 16) ∧ load32 le c 20 = .ok (ntohlAt b 20)
    ∧ load32 le c 24 = .ok (ntohlAt b 24) ∧ load32 le c 28 = .ok (ntohlAt b 28) := by
  simp only [convert_header, bind, Except.bind] at h
  cases h1 : conv32 le b 8 with
  | error e => rw [h1] at h; exact Except.noConfusion h
  | ok c1 =>
  rw [h1] at h; simp only at h
  cases h2 : conv32 le c1 12 with
  | error e => rw [h2] at h; exact Except.noConfusion h
  | ok c2 =>
  rw [h2] at h; simp only at h
  cases h3 : conv32 le c2 16 with
  | error e => rw [h3] at h; exact Except.noConfusion h
  | ok c3 =>
  rw [h3] at h; simp only at h
  cases h4 : conv32 le c3 20 with
  | error e => rw [h4] at h; exact Except.noConfusion h
  | ok c4 =>
  rw [h4] at h; simp only at h
  cases h5 : conv32 le c4 24 with
  | error e => rw [h5] at h; exact Except.noConfusion h
  | ok c5 =>
  rw [h5] at h; simp only at h
  have f1 := conv32_ok le b c1 8 h1
  have f2 := conv32_ok le c1 c2 12 h2
  have f3 := conv32_ok le c2 c3 16 h3
  have f4 := conv32_ok le c3 c4 20 h4
  have f5 := conv32_ok le c4 c5 24 h5
  have f6 := conv32_ok le c5 c 28 h
  have l1 := load32_conv32 le b c1 8 h1
  have l2 := load32_conv32 le c1 c2 12 h2
  have l3 := load32_conv32 le c2 c3 16 h3
  have l4 := load32_conv32 le c3 c4 20 h4
  have l5 := load32_conv32 le c4 c5 24 h5
  have l6 := load32_conv32 le c5 c 28 h
  have hl : c.length = b.length := by
    rw [f6.2.1, f5.2.1, f4.2.1, f3.2.1, f2.2.1, f1.2.1]
  refine ⟨by rw [← f1.2.1, ← f2.2.1, ← f3.2.1, ← f4.2.1, ← f5.2.1]; exact f6.1, hl, ?_,
    ?_, ?_, ?_, ?_, ?_, ?_⟩
  · intro i hi
    rw [f6.2.2 i (by omega), f5.2.2 i (by omega), f4.2.2 i (by omega), f3.2.2 i (by omega),
      f2.2.2 i (by omega), f1.2.2 i (by omega)]
  · rw [conv32_keeps le c5 c 28 12 h (by omega) 8 (by omega),
      conv32_keeps le c4 c5 24 12 h5 (by omega) 8 (by omega),
      conv32_keeps le c3 c4 20 12 h4 (by omega) 8 (by omega),
      conv32_keeps le c2 c3 16 12 h3 (by omega) 8 (by omega),
      conv32_keeps le c1 c2 12 12 h2 (by omega) 8 (by omega), l1]
  · rw [conv32_keeps le c5 c 28 16 h (by omega) 12 (by omega),
      conv32_keeps le c4 c5 24 16 h5 (by omega) 12 (by omega),
      conv32_keeps le c3 c4 20 16 h4 (by omega) 12 (by omega),
      conv32_keeps le c2 c3 16 16 h3 (by omega) 12 (by omega), l2]
    exact congrArg Except.ok (ntohlAt_congr b c1 12 (fun i _ _ => f1.2.2 i (by omega)))
  · rw [conv32_keeps le c5 c 28 20 h (by omega) 16 (by omega),
      conv32_keeps le c4 c5 24 20 h5 (by omega) 16 (by omega),
      conv32_keeps le c3 c4 20 20 h4 (by omega) 16 (by omega), l3]
    exact congrArg Except.ok ((ntohlAt_congr c1 c2 16 (fun i _ _ => f2.2.2 i (by omega))).trans
      (ntohlAt_congr b c1 16 (fun i _ _ => f1.2.2 i (by omega))))
  · rw [conv32_keeps le c5 c 28 24 h (by omega) 20 (by omega),
      conv32_keeps le c4 c5 24 24 h5 (by omega) 20 (by omega), l4]
    exact congrArg Except.ok ((ntohlAt_congr c2 c3 20 (fun i _ _ => f3.2.2 i (by omega))).trans
      ((ntohlAt_congr c1 c2 20 (fun i _ _ => f2.2.2 i (by omega))).trans
        (ntohlAt_congr b c1 20 (fun i _ _ => f1.2.2 i (by omega)))))
  · rw [conv32_keeps le c5 c 28 28 h (by omega) 24 (by omega), l5]
    exact congrArg Except.ok ((ntohlAt_congr c3 c4 24 (fun i _ _ => f4.2.2 i (by omega))).trans
      ((ntohlAt_congr c2 c3 24 (fun i _ _ => f3.2.2 i (by omega))).trans
        ((ntohlAt_congr c1 c2 24 (fun i _ _ => f2.2.2 i (by omega))).trans
          (ntohlAt_congr b c1 24 (fun i _ _ => f1.2.2 i (by omega))))))
  · rw [l6]
    exact congrArg Except.ok ((ntohlAt_congr c4 c5 28 (fun i _ _ => f5.2.2 i (by omega))).trans
      ((ntohlAt_congr c3 c4 28 (fun i _ _ => f4.2.2 i (by omega))).trans
        ((ntohlAt_congr c2 c3 28 (fun i _ _ => f3.2.2 i (by omega))).trans
          ((ntohlAt_congr c1 c2 28 (fun i _ _ => f2.2.2 i (by omega))).trans
            (ntohlAt_congr b c1 28 (fun i _ _ => f1.2.2 i (by omega)))))))

theorem convert_header_isOk (le : Bool) (b : Bytes) (h : 32 ≤ b.length) :
    ∃ c, convert_header le b = .ok c := by
  simp only [convert_header, bind, Except.bind]
  obtain ⟨c1, h1⟩ := conv32_isOk le b 8 (by omega)
  have f1 := conv32_ok le b c1 8 h1
  obtain ⟨c2, h2⟩ := conv32_isOk le c1 12 (by omega)
  have f2 := conv32_ok le c1 c2 12 h2
  obtain ⟨c3, h3⟩ := conv32_isOk le c2 16 (by omega)
  have f3 := conv32_ok le c2 c3 16 h3
  obtain ⟨c4, h4⟩ := conv32_isOk le c3 20 (by omega)
  have f4 := conv32_ok le c3 c4 20 h4
  obtain ⟨c5, h5⟩ := conv32_isOk le c4 24 (by omega)
  have f5 := conv32_ok le c4 c5 24 h5
  obtain ⟨c6, h6⟩ := conv32_isOk le c5 28 (by omega)
  rw [h1]; simp only
  rw [h2]; simp only
  rw [h3]; simp only
  rw [h4]; simp only
  rw [h5]; simp only
  exact ⟨c6, h6⟩

theorem convert_header_rel (le : Bool) (b1 b2 : Bytes) (h : Agree 12 b1 b2) :
    ExRel (Agree 12) (convert_header le b1) (convert_header le b2) := by
  simp only [convert_header]
  refine ExRel.bind (conv32_rel_below le 12 b1 b2 8 h (by omega)) ?_
  intro c1 c2 _ _ h1
  refine ExRel.bind (conv32_rel le 12 c1 c2 12 h1 (by omega)) ?_
  intro d1 d2 _ _ h2
  refine ExRel.bind (conv32_rel le 12 d1 d2 16 h2 (by omega)) ?_
  intro e1 e2 _ _ h3
  refine ExRel.bind (conv32_rel le 12 e1 e2 20 h3 (by omega)) ?_
  intro f1 f2 _ _ h4
  refine ExRel.bind (conv32_rel le 12 f1 f2 24 h4 (by omega)) ?_
  intro g1 g2 _ _ h5
  exact conv32_rel le 12 g1 g2 28 h5 (by omega)

theorem convert_pointers_getD (le : Bool) (bt : Nat) :
    ∀ (n i : Nat) (b : Bytes) (nn : Nat) (r : Bytes × Nat),
      convert_pointers le bt n i b nn = .ok r →
      ∀ j, j < bt + 4 → r.1.getD j 0 = b.getD j 0 := by
  intro n
  induction n with
  | zero =>
    intro i b nn r h
    cases h
    exact fun _ _ => rfl
  | succ n ih =>
    intro i b nn r h
    simp only [convert_pointers] at h
    cases ha : load32 le b (bt + 4 + 8 * i) with
    | error e => rw [ha] at h; exact Except.noConfusion h
    | ok a =>
      rw [ha] at h
      simp only [bind, Except.bind] at h
      by_cases h0 : a ≠ 0
      · rw [if_pos h0] at h
        cases hc : conv32 le b (bt + 4 + 8 * i) with
        | error e => rw [hc] at h; exact Except.noConfusion h
        | ok c =>
          rw [hc] at h
          simp only at h
          cases hd : conv32 le c (bt + 4 + 8 * i + 4) with
          | error e => rw [hd] at h; exact Except.noConfusion h
          | ok d =>
            rw [hd] at h
            simp only at h
            have fc := conv32_ok le b c _ hc
            have fd := conv32_ok le c d _ hd
            intro j hj
            rw [ih (i + 1) d _ r h j hj, fd.2.2 j (by omega), fc.2.2 j (by omega)]
      · rw [if_neg h0] at h
        exact ih (i + 1) b _ r h

theorem loadBytes_ok (b : Bytes) (off n : Nat) (x : Bytes) (h : loadBytes b off n = .ok x) :
    off + n ≤ b.length ∧ x = (b.drop off).take n := by
  unfold loadBytes at h
  split at h
  · cases h; exact ⟨by assumption, rfl⟩
  · exact Except.noConfusion h

theorem take_eq_of_getD (b d : Bytes) (n : Nat) (hb : n ≤ b.length) (hd : n ≤ d.length)
    (h : ∀ i, i < n → d.getD i 0 = b.getD i 0) : d.take n = b.take n := by
  apply List.ext_getElem?
  intro i
  by_cases hi : i < n
  · rw [List.getElem?_take_of_lt hi, List.getElem?_take_of_lt hi]
    have := h i hi
    simp only [List.getD_eq_getElem?_getD] at this
    have e1 : d[i]? = some d[i] := List.getElem?_eq_getElem (by omega)
    have e2 : b[i]? = some b[i] := List.getElem?_eq_getElem (by omega)
    rw [e1, e2] at this ⊢
    simpa using this
  · rw [List.getElem?_eq_none (by simp; omega), List.getElem?_eq_none (by simp; omega)]

theorem ExRel.of_ok {α β : Type} {R : α → β → Prop} {x : Except DumpStop α}
    {y : Except DumpStop β} (a : α) (b : β) (hx : x = .ok a) (hy : y = .ok b) (h : R a b) :
    ExRel R x y := by
  subst hx
  subst hy
  exact h

theorem loadBytes_isOk (b : Bytes) (off n : Nat) (h : off + n ≤ b.length) :
    loadBytes b off n = .ok ((b.drop off).take n) := by
  unfold loadBytes
  rw [if_pos h]

theorem ok_inj {α : Type} {a b : α} (h : (Except.ok a : Except DumpStop α) = .ok b) : a = b :=
  Except.ok.inj h

/-- Two buffers that differ only in their first 12 bytes (the magic and the version) go
through the first part of `main` alike, when the buffer is shorter than `2 ^ 31` bytes and
`indexOffset` and `varsOffset` point behind the header. -/
theorem dump_open_rel (le : Bool) (b1 b2 : Bytes) (h : Agree 12 b1 b2)
    (h31 : b1.length < 2147483648)
    (hio : 32 ≤ ntohlAt b1 16) (hvo : 32 ≤ ntohlAt b1 24) :
    ExRel (fun r1 r2 => Agree 12 r1.1 r2.1 ∧ r1.2.1 = r2.2.1
        ∧ r1.2.2.afterVersion = r2.2.2.afterVersion
        ∧ r1.2.2.magic = b1.take 8 ∧ r1.2.2.version = ntohlAt b1 8
        ∧ r2.2.2.magic = b2.take 8 ∧ r2.2.2.version = ntohlAt b2 8)
      (dump_open le b1) (dump_open le b2) := by
  simp only [dump_open]
  refine ExRel.bind (convert_header_rel le b1 b2 h) ?_
  intro c1 c2 hc1 hc2 hc
  obtain ⟨k1len, k1l, k1g, k1v, k1n, k1io, k1il, k1vo, k1vl⟩ := convert_header_ok le b1 c1 hc1
  obtain ⟨k2len, k2l, k2g, k2v, k2n, k2io, k2il, k2vo, k2vl⟩ := convert_header_ok le b2 c2 hc2
  -- block_table
  refine ExRel.bind (load32_rel le 12 c1 c2 16 hc (by omega)) ?_
  intro bt bt2 hbt _ e
  subst e
  have ebt : bt = ntohlAt b1 16 := ok_inj (hbt.symm.trans k1io)
  have hbt32 : 32 ≤ bt := by rw [ebt]; exact hio
  refine ExRel.bind (conv32_rel le 12 c1 c2 bt hc (by omega)) ?_
  intro d1 d2 hd1 hd2 hd
  have fd1 := conv32_ok le c1 d1 bt hd1
  have fd2 := conv32_ok le c2 d2 bt hd2
  refine ExRel.bind (load32_rel le 12 d1 d2 bt hd (by omega)) ?_
  intro count count2 hcount _ e
  subst e
  refine ExRel.bind (convert_pointers_rel le bt (by omega) count 0 d1 d2 0 hd) ?_
  intro r1 r2 hr1 hr2 hr
  obtain ⟨p1l, p1h, p1t, p1b⟩ := convert_pointers_ok le bt hbt32 count 0 d1 0 r1 hr1
  obtain ⟨p2l, p2h, p2t, p2b⟩ := convert_pointers_ok le bt hbt32 count 0 d2 0 r2 hr2
  have g1 := convert_pointers_getD le bt count 0 d1 0 r1 hr1
  have g2 := convert_pointers_getD le bt count 0 d2 0 r2 hr2
  have r1len : r1.1.length = b1.length := by rw [p1l, fd1.2.1, k1l]
  have r2len : r2.1.length = b2.length := by rw [p2l, fd2.2.1, k2l]
  -- the header fields after the conversion of the block table
  have hd1k : ∀ o, o + 4 ≤ 32 → load32 le r1.1 o = load32 le c1 o := fun o ho =>
    (p1h o ho).trans (conv32_keeps le c1 d1 bt 32 hd1 hbt32 o ho)
  have hd2k : ∀ o, o + 4 ≤ 32 → load32 le r2.1 o = load32 le c2 o := fun o ho =>
    (p2h o ho).trans (conv32_keeps le c2 d2 bt 32 hd2 hbt32 o ho)
  -- magic
  have m1 : loadBytes r1.1 0 8 = .ok ((r1.1.drop 0).take 8) :=
    loadBytes_isOk _ _ _ (by omega)
  have m2 : loadBytes r2.1 0 8 = .ok ((r2.1.drop 0).take 8) :=
    loadBytes_isOk _ _ _ (by omega)
  have m1v : (r1.1.drop 0).take 8 = b1.take 8 := by
    rw [List.drop_zero]
    refine take_eq_of_getD b1 r1.1 8 (by omega) (by omega) ?_
    intro i hi
    rw [g1 i (by omega), fd1.2.2 i (by omega), k1g i (by omega)]
  have m2v : (r2.1.drop 0).take 8 = b2.take 8 := by
    rw [List.drop_zero]
    refine take_eq_of_getD b2 r2.1 8 (by omega) (by omega) ?_
    intro i hi
    rw [g2 i (by omega), fd2.2.2 i (by omega), k2g i (by omega)]
  refine ExRel.bind (ExRel.of_ok (R := fun x y => x = b1.take 8 ∧ y = b2.take 8) _ _ m1 m2
    ⟨m1v, m2v⟩) ?_
  intro magic1 magic2 _ _ hmagic
  -- version
  refine ExRel.bind (ExRel.of_ok (R := fun x y => x = ntohlAt b1 8 ∧ y = ntohlAt b2 8) _ _
    ((hd1k 8 (by omega)).trans k1v) ((hd2k 8 (by omega)).trans k2v) ⟨rfl, rfl⟩) ?_
  intro version1 version2 _ _ hversion
  refine ExRel.bind (load32_rel le 12 r1.1 r2.1 12 hr.1 (by omega)) ?_
  intro numberOfBlocks nb2 _ _ e
  subst e
  refine ExRel.bind (load32_rel le 12 r1.1 r2.1 16 hr.1 (by omega)) ?_
  intro indexOffset io2 hio1 _ e
  subst e
  have eio : indexOffset = bt := ok_inj (hio1.symm.trans ((hd1k 16 (by omega)).trans hbt))
  subst eio
  refine ExRel.bind (load32_rel le 12 r1.1 r2.1 20 hr.1 (by omega)) ?_
  intro indexLength il2 _ _ e
  subst e
  refine ExRel.bind (load32_rel le 12 r1.1 r2.1 24 hr.1 (by omega)) ?_
  intro varsOffset vo2 hvo1 _ e
  subst e
  have evo : varsOffset = ntohlAt b1 24 :=
    ok_inj (hvo1.symm.trans ((hd1k 24 (by omega)).trans k1vo))
  have hvo32 : 32 ≤ varsOffset := by rw [evo]; exact hvo
  refine ExRel.bind (load32_rel le 12 r1.1 r2.1 28 hr.1 (by omega)) ?_
  intro varsLength vl2 _ _ e
  subst e
  refine ExRel.bind (load32_rel le 12 r1.1 r2.1 indexOffset hr.1 (by omega)) ?_
  intro count3 count4 hcount3 _ e
  subst e
  have ecount : count3 = count :=
    ok_inj (hcount3.symm.trans ((p1t indexOffset (by omega)).trans hcount))
  subst ecount
  -- the free list
  have hin := load32_ok le d1 indexOffset count3 hcount
  have efl : u32 (indexOffset + 4 + count3 * 8) = indexOffset + 4 + count3 * 8 := by
    unfold u32
    rw [fd1.2.1, k1l] at hin
    rw [fd1.2.1, k1l] at p1b
    rcases p1b with p1b | p1b
    · omega
    · omega
  rw [efl]
  refine ExRel.bind (conv32_rel le 12 r1.1 r2.1 _ hr.1 (by omega)) ?_
  intro f1 f2 hf1 hf2 hf
  have ff1 := conv32_ok le r1.1 f1 _ hf1
  refine ExRel.bind (load32_rel le 12 f1 f2 _ hf (by omega)) ?_
  intro free free2 _ _ e
  subst e
  refine ExRel.bind (convert_free_pointers_rel le _ (by omega) free 0 f1 f2 hf) ?_
  intro g1b g2b hg1 hg2 hg
  obtain ⟨q1l, q1h⟩ := convert_free_pointers_ok le _ (by omega) free 0 f1 g1b hg1
  have hg1k : ∀ o, o + 4 ≤ 32 → load32 le g1b o = load32 le c1 o := fun o ho =>
    (q1h o ho).trans ((conv32_keeps le r1.1 f1 _ 32 hf1 (by omega) o ho).trans (hd1k o ho))
  have g1len : g1b.length = b1.length := by rw [q1l, ff1.2.1, r1len]
  -- the variables
  refine ExRel.bind (load32_rel le 12 g1b g2b 24 hg (by omega)) ?_
  intro varsOffset2 vo3 hvo2 _ e
  subst e
  have evo2 : varsOffset2 = varsOffset :=
    ok_inj (hvo2.symm.trans ((hg1k 24 (by omega)).trans ((hd1k 24 (by omega)).symm.trans hvo1)))
  subst evo2
  refine ExRel.bind (conv32_rel le 12 g1b g2b _ hg (by omega)) ?_
  intro v1 v2 hv1 hv2 hv
  have fv1 := conv32_ok le g1b v1 _ hv1
  have hv1k : load32 le v1 24 = .ok varsOffset2 := by
    rw [conv32_keeps le g1b v1 _ 32 hv1 hvo32 24 (by omega)]
    exact hvo2
  refine ExRel.bind (load32_rel le 12 v1 v2 _ hv (by omega)) ?_
  intro varsCount vc2 _ _ e
  subst e
  refine ExRel.bind (convert_vars_rel le varsOffset2 hvo32 (intLoopCount varsCount) v1 v2 4 hv
    (by rw [fv1.2.1, g1len]; exact h31) hv1k) ?_
  intro w1 w2 hw1 hw2 hw
  obtain ⟨hwa, hwe, hwl, hwk⟩ := hw
  refine ExRel.bind (load32_rel le 12 w1.1 w2.1 _ hwa (by omega)) ?_
  intro varsCount2 vc3 _ _ e
  subst e
  refine ExRel.bind (var_names_rel le varsOffset2 hvo32 w1.1 w2.1 hwa
    (by rw [hwl, fv1.2.1, g1len]; exact h31) ((hwk 24 (by omega)).trans hv1k)
    (intLoopCount varsCount) 4) ?_
  intro names names2 _ _ e
  subst e
  refine ⟨hwa, rfl, ?_, hmagic.1, hversion.1, hmagic.2, hversion.2⟩
  simp only [DumpedIndex.afterVersion, hr.2, hwe]

theorem agree_of_drop (k : Nat) (b1 b2 : Bytes) (hlen : b1.length = b2.length)
    (hd : b1.drop k = b2.drop k) : Agree k b1 b2 := by
  refine ⟨hlen, ?_⟩
  intro i hi
  obtain ⟨t, rfl⟩ : ∃ t, i = k + t := ⟨i - k, by omega⟩
  rw [← getD_drop, ← getD_drop, hd]

/-- C23 (counterexample): the buffer with the magic `NotABOM!` and the version 2 is not
refused: on either host `main` prints the magic and the version, goes on to the block table
(two pointers, one of them not null), the free list and the vars, and dumps the block of the
variable `X`. -/
theorem C23_wrong_magic_and_version_are_parsed :
    exNotAStore.take 8 ≠ magicBOMStore
    ∧ ntohlAt exNotAStore 8 ≠ 1
    ∧ ∀ le, dumpbom le 0 exNotAStore
        = .ok ({ magic := [78, 111, 116, 65, 66, 79, 77, 33], version := 2, numberOfBlocks := 1
                 indexOffset := 46, indexLength := 24, varsOffset := 32, varsLength := 10
                 numberOfNonNullEntries := 1, numberOfBlockTablePointers := 2
                 numberOfFreeListPointers := 0, varsCount := 1, calculatedLength := 10
                 names := [[88]] },
               [{ name := [88], address := 42, length := 4
                  content := .raw [3735928559] [] }]) := by
  refine ⟨by decide, by decide, ?_⟩
  intro le
  cases le <;> rfl

/-- C23 (amended): the reader compares neither the first 8 bytes with `BOMStore` nor the
`u32` at offset 8 with 1; it prints them.  For two buffers of the same length, shorter than
`2 ^ 31` bytes, that hold the same bytes from offset 12 on and whose `indexOffset` and
`varsOffset` point behind the 32 bytes of the header, the part of `main` that parses the
header, the block table, the free list and the vars ends alike: it stops in both with the
same error, or it returns in both, with the same offset of the block table, buffers that
agree from offset 12 on, and the same printed values apart from the magic and the version,
which are the first 8 bytes and the big-endian `u32` at offset 8 of each buffer. -/
theorem C23_magic_and_version_are_only_printed (le : Bool) (b1 b2 : Bytes)
    (hlen : b1.length = b2.length) (hd : b1.drop 12 = b2.drop 12)
    (h31 : b1.length < 2147483648)
    (hio : 32 ≤ ntohlAt b1 16) (hvo : 32 ≤ ntohlAt b1 24) :
    ExRel (fun r1 r2 => Agree 12 r1.1 r2.1 ∧ r1.2.1 = r2.2.1
        ∧ r1.2.2.afterVersion = r2.2.2.afterVersion
        ∧ r1.2.2.magic = b1.take 8 ∧ r1.2.2.version = ntohlAt b1 8
        ∧ r2.2.2.magic = b2.take 8 ∧ r2.2.2.version = ntohlAt b2 8)
      (dump_open le b1) (dump_open le b2) :=
  dump_open_rel le b1 b2 (agree_of_drop 12 b1 b2 hlen hd) h31 hio hvo

set_option maxRecDepth 100000 in
/-- C23 (amended) on the small file with the magic `BOMStore` and the version 1 and the
same bytes with the magic `NotABOM!` and the version 2: the hypotheses hold, and the first
part of `main` ends alike on both. -/
theorem C23_magic_and_version_are_only_printed_witness :
    exStore.length = exNotAStore.length
    ∧ exStore.drop 12 = exNotAStore.drop 12
    ∧ exStore.length < 2147483648
    ∧ 32 ≤ ntohlAt exStore 16
    ∧ 32 ≤ ntohlAt exStore 24
    ∧ ExRel (fun r1 r2 => Agree 12 r1.1 r2.1 ∧ r1.2.1 = r2.2.1
        ∧ r1.2.2.afterVersion = r2.2.2.afterVersion
        ∧ r1.2.2.magic = exStore.take 8 ∧ r1.2.2.version = ntohlAt exStore 8
        ∧ r2.2.2.magic = exNotAStore.take 8 ∧ r2.2.2.version = ntohlAt exNotAStore 8)
      (dump_open true exStore) (dump_open true exNotAStore) :=
  ⟨by decide, by decide, by decide, by decide, by decide,
    C23_magic_and_version_are_only_printed true exStore exNotAStore
      (by decide) (by decide) (by decide) (by decide) (by decide)⟩

/-! ## The order of `std::string` and the maps -/

theorem strLt_irrefl (a : Bytes) : strLt a a = false := by
  induction a with
  | nil => rfl
  | cons x as ih => simp [strLt, ih]

theorem strLt_trans (a b c : Bytes) (h1 : strLt a b = true) (h2 : strLt b c = true) :
    strLt a c = true := by
  induction a generalizing b c with
  | nil =>
    cases b with
    | nil => simp [strLt] at h1
    | cons y bs =>
      cases c with
      | nil => simp [strLt] at h2
      | cons z cs => rfl
  | cons x as ih =>
    cases b with
    | nil => simp [strLt] at h1
    | cons y bs =>
      cases c with
      | nil => simp [strLt] at h2
      | cons z cs =>
        simp only [strLt] at h1 h2 ⊢
        by_cases hxy : x < y
        · by_cases hyz : y < z
          · rw [if_pos (by omega)]
          · rw [if_neg hyz] at h2
            by_cases hzy : z < y
            · rw [if_pos hzy] at h2; exact absurd h2 (by decide)
            · rw [if_pos (by omega)]
        · rw [if_neg hxy] at h1
          by_cases hyx : y < x
          · rw [if_pos hyx] at h1; exact absurd h1 (by decide)
          · rw [if_neg hyx] at h1
            have exy : x = y := by omega
            by_cases hyz : y < z
            · rw [if_pos (by omega)]
            · rw [if_neg hyz] at h2
              by_cases hzy : z < y
              · rw [if_pos hzy] at h2; exact absurd h2 (by decide)
              · rw [if_neg hzy] at h2
                rw [if_neg (by omega), if_neg (by omega)]
                exact ih bs cs h1 h2

theorem strLt_ne (a b : Bytes) (h : strLt a b = true) : a ≠ b := by
  intro e
  rw [e, strLt_irrefl] at h
  exact absurd h (by decide)

theorem strLt_asymm (a b : Bytes) (h : strLt a b = true) : strLt b a = false := by
  cases hb : strLt b a with
  | false => rfl
  | true =>
    have := strLt_trans a b a h hb
    rw [strLt_irrefl] at this
    exact absurd this (by decide)

theorem mapFind_mapInsert {V : Type} (l : List (Bytes × V)) (key : Bytes) (v : V)
    (k : Bytes) :
    mapFind (mapInsert l key v) k = if key = k then some v else mapFind l k := by
  induction l with
  | nil => simp [mapInsert, mapFind]
  | cons b r ih =>
    obtain ⟨k0, w⟩ := b
    simp only [mapInsert]
    by_cases h1 : strLt key k0 = true
    · rw [if_pos h1]
      simp only [mapFind]
    · rw [if_neg h1]
      by_cases h2 : strLt k0 key = true
      · rw [if_pos h2]
        simp only [mapFind, ih]
        have hne : k0 ≠ key := strLt_ne _ _ h2
        by_cases e : key = k
        · subst e
          simp [hne]
        · simp [e]
      · rw [if_neg h2]
        have hk : key = k0 := strLt_trichotomy key k0 (by simpa using h1) (by simpa using h2)
        subst hk
        simp only [mapFind]
        by_cases e : key = k
        · simp [e]
        · simp [e]

theorem mapFind_mem {V : Type} (l : List (Bytes × V)) (k : Bytes) (v : V)
    (h : mapFind l k = some v) : (k, v) ∈ l := by
  induction l with
  | nil => simp [mapFind] at h
  | cons b r ih =>
    obtain ⟨k0, w⟩ := b
    simp only [mapFind] at h
    by_cases e : k0 = k
    · rw [if_pos e] at h
      cases h
      rw [e]
      exact List.mem_cons_self _ _
    · rw [if_neg e] at h
      exact List.mem_cons_of_mem _ (ih h)

theorem mapFind_none {V : Type} (l : List (Bytes × V)) (k : Bytes) :
    mapFind l k = none ↔ k ∉ l.map (·.1) := by
  induction l with
  | nil => simp [mapFind]
  | cons b r ih =>
    obtain ⟨k0, w⟩ := b
    simp only [mapFind, List.map_cons, List.mem_cons, not_or]
    by_cases e : k0 = k
    · rw [if_pos e]
      simp [e]
    · rw [if_neg e, ih]
      constructor
      · intro h
        exact ⟨fun e2 => e e2.symm, h⟩
      · intro h
        exact h.2

/-- In a map in ascending order of key, `find` gives the value of every entry. -/
theorem mapFind_of_mem {V : Type} (l : List (Bytes × V))
    (hl : l.Pairwise (fun a b => strLt a.1 b.1 = true)) (k : Bytes) (v : V)
    (h : (k, v) ∈ l) : mapFind l k = some v := by
  induction l with
  | nil => cases h
  | cons b r ih =>
    obtain ⟨k0, w⟩ := b
    rw [List.pairwise_cons] at hl
    simp only [mapFind]
    rcases List.mem_cons.mp h with e | h
    · cases e
      rw [if_pos rfl]
    · have := hl.1 _ h
      rw [if_neg (strLt_ne _ _ this)]
      exact ih hl.2 h

theorem mapInsert_perm {V : Type} (l : List (Bytes × V)) (key : Bytes) (v : V)
    (h : key ∉ l.map (·.1)) : (mapInsert l key v).Perm ((key, v) :: l) := by
  induction l with
  | nil => exact List.Perm.refl _
  | cons b r ih =>
    obtain ⟨k0, w⟩ := b
    simp only [List.map_cons, List.mem_cons, not_or] at h
    simp only [mapInsert]
    by_cases h1 : strLt key k0 = true
    · rw [if_pos h1]
    · rw [if_neg h1]
      by_cases h2 : strLt k0 key = true
      · rw [if_pos h2]
        exact ((ih h.2).cons _).trans (List.Perm.swap _ _ _)
      · exact absurd (strLt_trichotomy key k0 (by simpa using h1) (by simpa using h2)) h.1

theorem mapInsert_keys {V : Type} (l : List (Bytes × V)) (key : Bytes) (v : V) (k : Bytes) :
    k ∈ (mapInsert l key v).map (·.1) ↔ k = key ∨ k ∈ l.map (·.1) := by
  have h1 := mapFind_none (mapInsert l key v) k
  have h2 := mapFind_none l k
  rw [mapFind_mapInsert] at h1
  by_cases e : key = k
  · rw [if_pos e] at h1
    have : k ∈ (mapInsert l key v).map (·.1) := by
      by_contra hc
      exact absurd (h1.mpr hc) (by simp)
    exact ⟨fun _ => Or.inl e.symm, fun _ => this⟩
  · rw [if_neg e] at h1
    constructor
    · intro h
      right
      by_contra hc
      exact (h1.mp (h2.mpr hc)) h
    · intro h
      rcases h with h | h
      · exact absurd h.symm e
      · by_contra hc
        exact (h2.mp (h1.mpr hc)) h

theorem mapInsert_pairwise {V : Type} (l : List (Bytes × V)) (key : Bytes) (v : V)
    (hl : l.Pairwise (fun a b => strLt a.1 b.1 = true)) :
    (mapInsert l key v).Pairwise (fun a b => strLt a.1 b.1 = true) := by
  induction l with
  | nil => simp [mapInsert]
  | cons b r ih =>
    obtain ⟨k0, w⟩ := b
    rw [List.pairwise_cons] at hl
    simp only [mapInsert]
    by_cases h1 : strLt key k0 = true
    · rw [if_pos h1, List.pairwise_cons, List.pairwise_cons]
      refine ⟨?_, hl⟩
      intro x hx
      rcases List.mem_cons.mp hx with rfl | hx
      · exact h1
      · exact strLt_trans _ _ _ h1 (hl.1 x hx)
    · rw [if_neg h1]
      by_cases h2 : strLt k0 key = true
      · rw [if_pos h2, List.pairwise_cons]
        refine ⟨?_, ih hl.2⟩
        intro x hx
        have hk : x.1 ∈ (mapInsert r key v).map (·.1) := List.mem_map_of_mem _ hx
        rw [mapInsert_keys] at hk
        rcases hk with hk | hk
        · rw [hk]; exact h2
        · obtain ⟨y, hy, e⟩ := List.mem_map.mp hk
          have := hl.1 y hy
          rw [e] at this
          exact this
      · rw [if_neg h2]
        have hk : key = k0 := strLt_trichotomy key k0 (by simpa using h1) (by simpa using h2)
        subst hk
        rw [List.pairwise_cons]
        exact hl

/-- Two maps in ascending order of key with the same entries are the same list. -/
theorem eq_of_perm_of_ascending {V : Type} (l1 l2 : List (Bytes × V)) (hp : l1.Perm l2)
    (h1 : l1.Pairwise (fun a b => strLt a.1 b.1 = true))
    (h2 : l2.Pairwise (fun a b => strLt a.1 b.1 = true)) : l1 = l2 := by
  haveI : IsAntisymm (Bytes × V) (fun a b => strLt a.1 b.1 = true) :=
    ⟨fun a b hab hba => by
      rw [strLt_asymm _ _ hab] at hba
      exact absurd hba (by decide)⟩
  exact List.eq_of_perm_of_sorted hp h1 h2

/-! ## The manifest in another order -/

theorem parse_line_name (line : Bytes) (name : Bytes) (n : NodeInfo)
    (h : parse_line line = .ok (name, n)) : name = line.takeWhile (· ≠ 9) := by
  unfold parse_line at h
  split at h
  · exact Except.noConfusion h
  · simp only at h
    split at h
    · exact Except.noConfusion h
    · cases h
      rfl

/-- The map that `read_nodes` builds is in ascending order of key, and its keys are those of
the map it started with and the names of the lines. -/
theorem read_nodes_spec (lines : List Bytes) :
    ∀ (acc r : List (Bytes × NodeInfo)), read_nodes acc lines = .ok r →
      acc.Pairwise (fun a b => strLt a.1 b.1 = true) →
      r.Pairwise (fun a b => strLt a.1 b.1 = true)
      ∧ ∀ k, k ∈ r.map (·.1) ↔ k ∈ acc.map (·.1) ∨ k ∈ lines.map (fun l => l.takeWhile (· ≠ 9)) := by
  induction lines with
  | nil =>
    intro acc r h hacc
    cases h
    exact ⟨hacc, fun k => by simp⟩
  | cons line rest ih =>
    intro acc r h hacc
    simp only [read_nodes] at h
    cases hp : parse_line line with
    | error e => rw [hp] at h; exact Except.noConfusion h
    | ok p =>
      obtain ⟨name, n⟩ := p
      rw [hp] at h
      simp only at h
      have hn := parse_line_name line name n hp
      obtain ⟨h1, h2⟩ := ih _ r h (mapInsert_pairwise acc name n hacc)
      refine ⟨h1, ?_⟩
      intro k
      rw [h2 k, mapInsert_keys, List.map_cons, List.mem_cons, ← hn]
      tauto

/-- The lines of a manifest in another order give the same map, when the names of the lines
are pairwise distinct and none is a key of the map that the loop starts with. -/
theorem read_nodes_perm (l1 l2 : List Bytes) (hp : l1.Perm l2) :
    ∀ (acc : List (Bytes × NodeInfo)), acc.Pairwise (fun a b => strLt a.1 b.1 = true) →
      (l1.map (fun l => l.takeWhile (· ≠ 9))).Nodup →
      (∀ x ∈ l1, x.takeWhile (· ≠ 9) ∉ acc.map (·.1)) →
      (read_nodes acc l1).toOption = (read_nodes acc l2).toOption := by
  induction hp with
  | nil => intro _ _ _ _; rfl
  | cons x hp ih =>
    intro acc hacc hnd hdis
    simp only [read_nodes]
    cases hx : parse_line x with
    | error e => rfl
    | ok p =>
      obtain ⟨name, n⟩ := p
      simp only
      have hn := parse_line_name x name n hx
      rw [List.map_cons, List.nodup_cons] at hnd
      refine ih _ (mapInsert_pairwise acc name n hacc) hnd.2 ?_
      intro y hy hmem
      rw [mapInsert_keys] at hmem
      rcases hmem with e | hmem
      · exact hnd.1 (by rw [← hn, ← e]; exact List.mem_map_of_mem _ hy)
      · exact hdis y (List.mem_cons_of_mem _ hy) hmem
  | swap x y l =>
    intro acc hacc hnd hdis
    simp only [read_nodes]
    cases hx : parse_line x with
    | error e =>
      cases hy : parse_line y with
      | error e2 => rfl
      | ok q => rfl
    | ok p =>
      cases hy : parse_line y with
      | error e2 => rfl
      | ok q =>
        obtain ⟨kx, vx⟩ := p
        obtain ⟨ky, vy⟩ := q
        simp only
        have hnx := parse_line_name x kx vx hx
        have hny := parse_line_name y ky vy hy
        simp only [List.map_cons, List.nodup_cons, List.mem_cons, not_or] at hnd
        have hne : ky ≠ kx := by rw [hnx, hny]; exact hnd.1.1
        have hxa : kx ∉ acc.map (·.1) := by
          rw [hnx]; exact hdis x (List.mem_cons_of_mem _ (List.mem_cons_self _ _))
        have hya : ky ∉ acc.map (·.1) := by
          rw [hny]; exact hdis y (List.mem_cons_self _ _)
        have e : mapInsert (mapInsert acc ky vy) kx vx = mapInsert (mapInsert acc kx vx) ky vy := by
          apply eq_of_perm_of_ascending
          · have p1 : (mapInsert (mapInsert acc ky vy) kx vx).Perm
                ((kx, vx) :: (ky, vy) :: acc) :=
              (mapInsert_perm _ kx vx (by
                rw [mapInsert_keys]
                intro hc
                rcases hc with hc | hc
                · exact hne hc.symm
                · exact hxa hc)).trans ((mapInsert_perm acc ky vy hya).cons _)
            have p2 : (mapInsert (mapInsert acc kx vx) ky vy).Perm
                ((ky, vy) :: (kx, vx) :: acc) :=
              (mapInsert_perm _ ky vy (by
                rw [mapInsert_keys]
                intro hc
                rcases hc with hc | hc
                · exact hne hc
                · exact hya hc)).trans ((mapInsert_perm acc kx vx hxa).cons _)
            exact p1.trans ((List.Perm.swap _ _ _).trans p2.symm)
          · exact mapInsert_pairwise _ _ _ (mapInsert_pairwise _ _ _ hacc)
          · exact mapInsert_pairwise _ _ _ (mapInsert_pairwise _ _ _ hacc)
        rw [e]
  | trans hp1 hp2 ih1 ih2 =>
    intro acc hacc hnd hdis
    rename_i m1 m2 m3
    rw [ih1 acc hacc hnd hdis]
    refine ih2 acc hacc ?_ ?_
    · exact (List.Perm.map _ hp1).nodup_iff.mp hnd
    · intro x hx
      exact hdis x (hp1.mem_iff.mpr hx)

theorem toOption_eq_some {ε α : Type} (x : Except ε α) (a : α)
    (h : x.toOption = some a) : x = .ok a := by
  cases x with
  | error e => cases h
  | ok b =>
    have : b = a := Option.some.inj h
    rw [this]

theorem noNul_iff (s : Bytes) : noNul s = true ↔ ∀ b ∈ s, b ≠ 0 := by
  simp [noNul, List.all_eq_true]

theorem noNul_append (a b : Bytes) : noNul (a ++ b) = (noNul a && noNul b) := by
  simp [noNul, List.all_append]

theorem path_elements_noNul (s : Bytes) : ∀ (cur : Bytes), noNul cur = true → noNul s = true →
    ∀ e ∈ path_elements cur s, noNul e = true := by
  induction s with
  | nil =>
    intro cur hc _ e he
    simp only [path_elements] at he
    split at he
    · cases he
    · rw [List.mem_singleton.mp he]; exact hc
  | cons c cs ih =>
    intro cur hc hs e he
    have hs2 : c ≠ 0 ∧ noNul cs = true := by
      simpa [noNul] using hs
    simp only [path_elements] at he
    split at he
    · rcases List.mem_cons.mp he with h | h
      · rw [h]; exact hc
      · exact ih [] rfl hs2.2 e h
    · exact ih (cur ++ [c]) (by rw [noNul_append, hc]; simp [noNul, hs2.1]) hs2.2 e he

theorem tokens_noNul (s : Bytes) : ∀ (cur : Bytes), noNul cur = true → noNul s = true →
    ∀ e ∈ tokens cur s, noNul e = true := by
  induction s with
  | nil =>
    intro cur hc _ e he
    simp only [tokens] at he
    split at he
    · cases he
    · rw [List.mem_singleton.mp he]; exact hc
  | cons c cs ih =>
    intro cur hc hs e he
    have hs2 : c ≠ 0 ∧ noNul cs = true := by
      simpa [noNul] using hs
    simp only [tokens] at he
    split at he
    · split at he
      · exact ih [] rfl hs2.2 e he
      · rcases List.mem_cons.mp he with h | h
        · rw [h]; exact hc
        · exact ih [] rfl hs2.2 e h
    · exact ih (cur ++ [c]) (by rw [noNul_append, hc]; simp [noNul, hs2.1]) hs2.2 e he

theorem replaceFirstSlash_noNul (s : Bytes) (h : noNul s = true) :
    noNul (replaceFirstSlash s) = true := by
  induction s with
  | nil => rfl
  | cons c cs ih =>
    have hs2 : c ≠ 0 ∧ noNul cs = true := by
      simpa [noNul] using h
    simp only [replaceFirstSlash]
    split
    · simpa [noNul] using hs2.2
    · have := ih hs2.2
      simp only [noNul, List.all_cons, Bool.and_eq_true] at this ⊢
      exact ⟨by simpa using hs2.1, this⟩

theorem noNul_of_sublist (a b : Bytes) (h : a.Sublist b) (hb : noNul b = true) :
    noNul a = true := by
  rw [noNul_iff] at hb ⊢
  intro x hx
  exact hb x (h.subset hx)

theorem elementAt_mem (elements : List Bytes) (i : Nat) (e : Bytes)
    (h : elementAt elements i = .ok e) : e ∈ elements := by
  unfold elementAt at h
  split at h
  · rename_i x hx
    cases h
    exact List.getElem?_mem hx
  · cases h

theorem node_of_elements_noNul (elements : List Bytes) (n : NodeInfo)
    (he : ∀ e ∈ elements, noNul e = true) (h : node_of_elements elements = .ok n) :
    noNul n.linkName = true := by
  unfold node_of_elements at h
  cases h0 : elementAt elements 0 with
  | error x => rw [h0] at h; cases h
  | ok e0 =>
  cases hm : dec_octal_to_int (u32OfInt (atol e0)) with
  | error x => simp only [h0, hm, bind, Except.bind] at h; cases h
  | ok mode =>
  cases h1 : elementAt elements 1 with
  | error x => simp only [h0, hm, h1, bind, Except.bind] at h; cases h
  | ok e1 =>
  cases h2 : elementAt elements 2 with
  | error x => simp only [h0, hm, h1, h2, bind, Except.bind] at h; cases h
  | ok e2 =>
  simp only [h0, hm, h1, h2, bind, Except.bind] at h
  split at h
  · cases h; rfl
  · split at h
    · cases h3 : elementAt elements 3 with
      | error x => simp only [h3] at h; cases h
      | ok e3 =>
      cases h4 : elementAt elements 4 with
      | error x => simp only [h3, h4] at h; cases h
      | ok e4 =>
      simp only [h3, h4] at h
      cases h; rfl
    · split at h
      · cases h3 : elementAt elements 3 with
        | error x => simp only [h3] at h; cases h
        | ok e3 =>
        cases h4 : elementAt elements 4 with
        | error x => simp only [h3, h4] at h; cases h
        | ok e4 =>
        cases h5 : elementAt elements 5 with
        | error x => simp only [h3, h4, h5] at h; cases h
        | ok e5 =>
        simp only [h3, h4, h5] at h
        cases h
        exact he e5 (elementAt_mem _ _ _ h5)
      · cases h

theorem parse_line_noNul (line name : Bytes) (n : NodeInfo) (hl : noNul line = true)
    (h : parse_line line = .ok (name, n)) : noNul name = true ∧ noNul n.linkName = true := by
  have hn := parse_line_name line name n h
  refine ⟨?_, ?_⟩
  · rw [hn]
    exact noNul_of_sublist _ _ (List.takeWhile_sublist _) hl
  · unfold parse_line at h
    split at h
    · cases h
    · rename_i x after hd
      have ha : noNul after = true := by
        apply noNul_of_sublist _ line _ hl
        have : (x :: after).Sublist line := by
          rw [← hd]; exact List.dropWhile_sublist _
        exact (List.sublist_cons_self _ _).trans this
      simp only at h
      split at h
      · cases h
      · rename_i n2 hn2
        cases h
        apply node_of_elements_noNul _ _ _ hn2
        apply tokens_noNul _ [] rfl
        apply replaceFirstSlash_noNul
        exact noNul_of_sublist _ _ (List.takeWhile_sublist _) ha

theorem mapInsert_forall {V : Type} (P : Bytes × V → Prop) (m : List (Bytes × V)) (k : Bytes)
    (v : V) (hm : ∀ x ∈ m, P x) (hk : P (k, v)) : ∀ x ∈ mapInsert m k v, P x := by
  induction m with
  | nil =>
    intro x hx
    simp only [mapInsert, List.mem_singleton] at hx
    rw [hx]; exact hk
  | cons b r ih =>
    obtain ⟨k0, w⟩ := b
    intro x hx
    simp only [mapInsert] at hx
    split at hx
    · rcases List.mem_cons.mp hx with h | h
      · rw [h]; exact hk
      · exact hm x h
    · split at hx
      · rcases List.mem_cons.mp hx with h | h
        · rw [h]; exact hm _ (List.mem_cons_self _ _)
        · exact ih (fun y hy => hm y (List.mem_cons_of_mem _ hy)) x h
      · rcases List.mem_cons.mp hx with h | h
        · rw [h]; exact hk
        · exact hm x (List.mem_cons_of_mem _ h)

theorem read_nodes_noNul (lines : List Bytes) :
    ∀ (acc r : List (Bytes × NodeInfo)), (∀ l ∈ lines, noNul l = true) →
      (∀ x ∈ acc, noNul x.1 = true ∧ noNul x.2.linkName = true) →
      read_nodes acc lines = .ok r →
      ∀ x ∈ r, noNul x.1 = true ∧ noNul x.2.linkName = true := by
  induction lines with
  | nil =>
    intro acc r _ hacc h
    cases h
    exact hacc
  | cons line rest ih =>
    intro acc r hl hacc h
    simp only [read_nodes] at h
    cases hp : parse_line line with
    | error e => rw [hp] at h; exact Except.noConfusion h
    | ok p =>
      obtain ⟨name, n⟩ := p
      rw [hp] at h
      simp only at h
      refine ih _ r (fun l hl2 => hl l (List.mem_cons_of_mem _ hl2)) ?_ h
      exact mapInsert_forall _ acc name n hacc
        (parse_line_noNul line name n (hl line (List.mem_cons_self _ _)) hp)

theorem nulFree_children (n : Node) (h : n.nulFree = true) :
    noNul n.info.linkName = true ∧ Node.nulFreeList n.children = true := by
  cases n with
  | mk c i =>
    simpa [Node.nulFree, Node.children, Node.info] using h

theorem nulFreeList_mem (l : List (Bytes × Node)) (h : Node.nulFreeList l = true)
    (c : Bytes × Node) (hc : c ∈ l) : noNul c.1 = true ∧ c.2.nulFree = true := by
  induction l with
  | nil => cases hc
  | cons b r ih =>
    simp only [Node.nulFreeList, Bool.and_eq_true] at h
    rcases List.mem_cons.mp hc with e | e
    · rw [e]; exact h.1
    · exact ih h.2 e

theorem nulFreeList_mapInsert (key : Bytes) (v : Node) (l : List (Bytes × Node))
    (h : Node.nulFreeList l = true) (hk : noNul key = true) (hv : v.nulFree = true) :
    Node.nulFreeList (mapInsert l key v) = true := by
  induction l with
  | nil => simp [mapInsert, Node.nulFreeList, hv, hk]
  | cons b r ih =>
    obtain ⟨k, w⟩ := b
    simp only [Node.nulFreeList, Bool.and_eq_true] at h
    simp only [mapInsert]
    split
    · simp only [Node.nulFreeList, Bool.and_eq_true]
      exact ⟨⟨hk, hv⟩, h⟩
    · split
      · simp only [Node.nulFreeList, Bool.and_eq_true]
        exact ⟨h.1, ih h.2⟩
      · simp only [Node.nulFreeList, Bool.and_eq_true]
        exact ⟨⟨hk, hv⟩, h.2⟩

theorem insert_elements_nulFree (all_nodes : List (Bytes × NodeInfo)) (elems : List Bytes)
    (full_path : Bytes) (parent r : Node)
    (ha : ∀ x ∈ all_nodes, noNul x.1 = true ∧ noNul x.2.linkName = true)
    (he : ∀ e ∈ elems, noNul e = true) (hp : parent.nulFree = true)
    (h : insert_elements all_nodes elems full_path parent = .ok r) : r.nulFree = true := by
  induction elems generalizing full_path parent r with
  | nil =>
    simp only [insert_elements] at h
    cases h
    exact hp
  | cons jt more ih =>
    obtain ⟨hi, ho⟩ := nulFree_children parent hp
    have hjt := he jt (List.mem_cons_self _ _)
    have hmore : ∀ e ∈ more, noNul e = true := fun e h2 => he e (List.mem_cons_of_mem _ h2)
    simp only [insert_elements] at h
    have key : ∀ kt : Node, kt.nulFree = true →
        (match insert_elements all_nodes more (full_path ++ jt ++ [47]) kt with
          | .error e => (.error e : Except Failure Node)
          | .ok kt => .ok (Node.mk (mapInsert parent.children jt kt) parent.info)) = .ok r →
        r.nulFree = true := by
      intro kt hkt hr
      split at hr
      · exact Except.noConfusion hr
      · rename_i kt2 hkt2
        cases hr
        have h2 := ih _ _ _ hmore hkt hkt2
        simp only [Node.nulFree, Bool.and_eq_true]
        exact ⟨hi, nulFreeList_mapInsert _ _ _ ho hjt h2⟩
    cases hf : mapFind parent.children jt with
    | some kt =>
      rw [hf] at h
      exact key kt (nulFreeList_mem _ ho _ (mapFind_mem _ _ _ hf)).2 h
    | none =>
      rw [hf] at h
      cases hl : mapFind all_nodes (full_path ++ jt) with
      | none =>
        rw [hl] at h
        exact Except.noConfusion h
      | some lt =>
        rw [hl] at h
        refine key (Node.mk [] lt) ?_ h
        simp only [Node.nulFree, Node.nulFreeList, Bool.and_true]
        exact (ha _ (mapFind_mem _ _ _ hl)).2

theorem create_tree_loop_nulFree (all_nodes rest : List (Bytes × NodeInfo)) (root r : Node)
    (ha : ∀ x ∈ all_nodes, noNul x.1 = true ∧ noNul x.2.linkName = true)
    (hr : ∀ x ∈ rest, noNul x.1 = true)
    (hp : root.nulFree = true) (h : create_tree_loop all_nodes rest root = .ok r) :
    r.nulFree = true := by
  induction rest generalizing root with
  | nil =>
    simp only [create_tree_loop] at h
    cases h
    exact hp
  | cons it more ih =>
    simp only [create_tree_loop] at h
    split at h
    · exact Except.noConfusion h
    · rename_i root2 h2
      refine ih root2 (fun x hx => hr x (List.mem_cons_of_mem _ hx)) ?_ h
      exact insert_elements_nulFree _ _ _ _ _ ha
        (path_elements_noNul it.1 [] rfl (hr it (List.mem_cons_self _ _))) hp h2

/-- The tree built from records whose paths and link names are free of NUL has only names and
link names free of NUL. -/
theorem create_tree_nulFree (all_nodes : List (Bytes × NodeInfo)) (root : Node)
    (ha : ∀ x ∈ all_nodes, noNul x.1 = true ∧ noNul x.2.linkName = true)
    (h : create_tree all_nodes = .ok root) : root.nulFree = true :=
  create_tree_loop_nulFree all_nodes all_nodes
    (Node.mk [] { NodeInfo.init with type := .kRootNode }) root ha (fun x hx => (ha x hx).1) rfl h

theorem visits_nulFree (fuel : Nat) : ∀ (j : Nat) (q : List (Nat × Node)),
    (∀ e ∈ q, e.2.nulFree = true) →
    ∀ v ∈ visits fuel j q, noNul v.name = true ∧ v.node.nulFree = true := by
  induction fuel with
  | zero => intro j q _ v hv; simp [visits] at hv
  | succ fuel ih =>
    intro j q hq v hv
    cases q with
    | nil => simp [visits] at hv
    | cons a rest =>
      obtain ⟨parent, arg⟩ := a
      simp only [visits, List.mem_append, List.mem_map] at hv
      have harg := (nulFree_children arg (hq _ (List.mem_cons_self _ _))).2
      rcases hv with ⟨c, hc, rfl⟩ | hv
      · exact nulFreeList_mem _ harg c hc
      · refine ih _ _ ?_ v hv
        intro e he
        rcases List.mem_append.mp he with h | h
        · exact hq e (List.mem_cons_of_mem _ h)
        · obtain ⟨t, c, _, h2, h3⟩ := pushed_mem j arg.children e h
          rw [h3]
          exact (nulFreeList_mem _ harg c (List.getElem?_mem h2)).2

/-- In a tree whose names and link names are free of NUL, every execution of the loop body
copies a name and a link name without NUL. -/
theorem visitsOf_nulFree (root : Node) (h : root.nulFree = true) :
    ∀ v ∈ visitsOf root, (∀ b ∈ v.name, b ≠ 0) ∧ ∀ b ∈ v.node.info.linkName, b ≠ 0 := by
  intro v hv
  have := visits_nulFree root.count 0 [(0, root)] (by
    intro e he
    rw [List.mem_singleton.mp he]
    exact h) v hv
  exact ⟨(noNul_iff _).mp this.1, (noNul_iff _).mp (nulFree_children _ this.2).1⟩

theorem Node.find_cons (t : Node) (e : Bytes) (r : List Bytes) :
    t.find (e :: r) = (mapFind t.children e).bind (fun c => c.find r) := by
  simp only [Node.find]
  cases mapFind t.children e <;> rfl

theorem keyAt_cons (full e : Bytes) (r : List Bytes) (hr : r ≠ []) :
    keyAt full (e :: r) = keyAt (full ++ e ++ [47]) r := by
  cases r with
  | nil => exact absurd rfl hr
  | cons f r => rfl

theorem insert_elements_info (all_nodes : List (Bytes × NodeInfo)) (elems : List Bytes)
    (full : Bytes) (parent r : Node)
    (h : insert_elements all_nodes elems full parent = .ok r) : r.info = parent.info := by
  cases elems with
  | nil =>
    simp only [insert_elements] at h
    cases h
    rfl
  | cons jt more =>
    simp only [insert_elements] at h
    split at h
    · exact Except.noConfusion h
    · split at h
      · exact Except.noConfusion h
      · cases h
        rfl

theorem insert_elements_error (all_nodes : List (Bytes × NodeInfo)) (elems : List Bytes)
    (full : Bytes) (parent : Node) (e : Failure)
    (h : insert_elements all_nodes elems full parent = .error e) : e = .missingParent := by
  induction elems generalizing full parent with
  | nil => simp only [insert_elements] at h; exact Except.noConfusion h
  | cons jt more ih =>
    simp only [insert_elements] at h
    split at h
    · rename_i e2 hf
      cases h
      split at hf
      · exact Except.noConfusion hf
      · split at hf
        · cases hf; rfl
        · exact Except.noConfusion hf
    · split at h
      · rename_i e2 hr
        cases h
        exact ih _ _ hr
      · exact Except.noConfusion h

/-- One run of the inner loop of "create tree" that succeeds: the nodes of the tree keep
holding the records of their keys, the paths of the tree are those it had and the prefixes
of the path of the run, and every `full_path` that the run looks at is a key. -/
theorem insert_elements_ok (all_nodes : List (Bytes × NodeInfo)) (elems : List Bytes) :
    ∀ (full : Bytes) (parent r : Node),
      insert_elements all_nodes elems full parent = .ok r → Keyed all_nodes full parent →
      Keyed all_nodes full r
      ∧ (∀ p, (r.find p).isSome = true
          ↔ ((parent.find p).isSome = true ∨ (p ≠ [] ∧ p <+: elems)))
      ∧ (∀ f ∈ fullPaths full elems, (mapFind all_nodes f).isSome = true) := by
  induction elems with
  | nil =>
    intro full parent r h hk
    simp only [insert_elements] at h
    cases h
    refine ⟨hk, ?_, ?_⟩
    · intro p
      constructor
      · exact Or.inl
      · rintro (h | ⟨h1, h2⟩)
        · exact h
        · exact absurd (List.prefix_nil.mp h2) h1
    · intro f hf
      cases hf
  | cons jt more ih =>
    intro full parent r h hk
    simp only [insert_elements] at h
    -- the node `kt` that the loop goes into
    have key : ∀ kt : Node, Keyed all_nodes (full ++ jt ++ [47]) kt →
        mapFind all_nodes (full ++ jt) = some kt.info →
        (∀ q, parent.find (jt :: q) = kt.find q ∨ (parent.find (jt :: q) = none
            ∧ ((kt.find q).isSome = true ↔ q = []))) →
        (match insert_elements all_nodes more (full ++ jt ++ [47]) kt with
          | .error e => (.error e : Except Failure Node)
          | .ok kt => .ok (Node.mk (mapInsert parent.children jt kt) parent.info)) = .ok r →
        Keyed all_nodes full r
        ∧ (∀ p, (r.find p).isSome = true
            ↔ ((parent.find p).isSome = true ∨ (p ≠ [] ∧ p <+: jt :: more)))
        ∧ (∀ f ∈ fullPaths full (jt :: more), (mapFind all_nodes f).isSome = true) := by
      intro kt hkt hinfo hfind hr
      split at hr
      · exact Except.noConfusion hr
      · rename_i kt2 hkt2
        cases hr
        obtain ⟨i1, i2, i3⟩ := ih _ kt kt2 hkt2 hkt
        have hinfo2 := insert_elements_info _ _ _ _ _ hkt2
        have hfind2 : ∀ e q, (Node.mk (mapInsert parent.children jt kt2) parent.info).find
            (e :: q) = if jt = e then kt2.find q else parent.find (e :: q) := by
          intro e q
          rw [Node.find_cons, Node.find_cons]
          show (mapFind (mapInsert parent.children jt kt2) e).bind _ = _
          rw [mapFind_mapInsert]
          by_cases he : jt = e
          · rw [if_pos he, if_pos he]; rfl
          · rw [if_neg he, if_neg he]
        refine ⟨?_, ?_, ?_⟩
        · intro p x hp hx
          cases p with
          | nil => exact absurd rfl hp
          | cons e q =>
            rw [hfind2] at hx
            by_cases he : jt = e
            · rw [if_pos he] at hx
              subst he
              cases q with
              | nil =>
                simp only [Node.find] at hx
                cases hx
                show mapFind all_nodes (full ++ jt) = _
                rw [hinfo2]
                exact hinfo
              | cons f q2 =>
                rw [keyAt_cons _ _ _ (by simp)]
                exact i1 _ x (by simp) hx
            · rw [if_neg he] at hx
              exact hk _ x (by simp) hx
        · intro p
          cases p with
          | nil =>
            simp [Node.find]
          | cons e q =>
            rw [hfind2]
            by_cases he : jt = e
            · rw [if_pos he]
              subst he
              rw [i2 q, List.cons_prefix_cons]
              rcases hfind q with hq | ⟨hq, hq2⟩
              · rw [hq]
                constructor
                · rintro (h1 | ⟨_, h2⟩)
                  · exact Or.inl h1
                  · exact Or.inr ⟨by simp, rfl, h2⟩
                · rintro (h1 | ⟨_, _, h2⟩)
                  · exact Or.inl h1
                  · by_cases hq0 : q = []
                    · left
                      rw [hq0]
                      rfl
                    · exact Or.inr ⟨hq0, h2⟩
              · rw [hq, hq2]
                constructor
                · rintro (h1 | ⟨_, h2⟩)
                  · right
                    rw [h1]
                    exact ⟨by simp, rfl, List.nil_prefix⟩
                  · exact Or.inr ⟨by simp, rfl, h2⟩
                · rintro (h1 | ⟨_, _, h2⟩)
                  · cases h1
                  · by_cases hq0 : q = []
                    · exact Or.inl hq0
                    · exact Or.inr ⟨hq0, h2⟩
            · rw [if_neg he]
              constructor
              · exact Or.inl
              · rintro (h1 | ⟨_, h2⟩)
                · exact h1
                · rw [List.cons_prefix_cons] at h2
                  exact absurd h2.1.symm he
        · intro f hf
          simp only [fullPaths, List.mem_cons] at hf
          rcases hf with rfl | hf
          · rw [hinfo]; rfl
          · exact i3 f hf
    cases hf : mapFind parent.children jt with
    | some kt =>
      rw [hf] at h
      have hfk : ∀ q, parent.find (jt :: q) = kt.find q := by
        intro q
        rw [Node.find_cons, hf]
        rfl
      refine key kt ?_ ?_ (fun q => Or.inl (hfk q)) h
      · intro p x hp hx
        rw [← keyAt_cons _ _ _ hp]
        exact hk (jt :: p) x (by simp) (by rw [hfk]; exact hx)
      · exact hk [jt] kt (by simp) (by rw [hfk]; rfl)
    | none =>
      rw [hf] at h
      cases hl : mapFind all_nodes (full ++ jt) with
      | none =>
        rw [hl] at h
        exact Except.noConfusion h
      | some lt =>
        rw [hl] at h
        refine key (Node.mk [] lt) ?_ hl ?_ h
        · intro p x hp hx
          cases p with
          | nil => exact absurd rfl hp
          | cons e q => simp [Node.find, Node.children, mapFind] at hx
        · intro q
          right
          refine ⟨by rw [Node.find_cons, hf]; rfl, ?_⟩
          cases q with
          | nil => simp [Node.find]
          | cons e q => simp [Node.find, Node.children, mapFind]

theorem insert_elements_succeeds (all_nodes : List (Bytes × NodeInfo)) (elems : List Bytes) :
    ∀ (full : Bytes) (parent : Node),
      (∀ f ∈ fullPaths full elems, (mapFind all_nodes f).isSome = true) →
      ∃ r, insert_elements all_nodes elems full parent = .ok r := by
  induction elems with
  | nil =>
    intro full parent _
    exact ⟨parent, rfl⟩
  | cons jt more ih =>
    intro full parent h
    simp only [insert_elements]
    have key : ∀ kt : Node, ∃ r,
        (match insert_elements all_nodes more (full ++ jt ++ [47]) kt with
          | .error e => (.error e : Except Failure Node)
          | .ok kt => .ok (Node.mk (mapInsert parent.children jt kt) parent.info)) = .ok r := by
      intro kt
      obtain ⟨r, hr⟩ := ih (full ++ jt ++ [47]) kt (fun f hf =>
        h f (by simp only [fullPaths, List.mem_cons]; exact Or.inr hf))
      rw [hr]
      exact ⟨_, rfl⟩
    cases hf : mapFind parent.children jt with
    | some kt => exact key kt
    | none =>
      have := h (full ++ jt) (by simp [fullPaths])
      cases hl : mapFind all_nodes (full ++ jt) with
      | none => rw [hl] at this; cases this
      | some lt => exact key (Node.mk [] lt)

/-- The outer loop of "create tree" when it succeeds, over the entries `rest`. -/
theorem create_tree_loop_ok (all_nodes : List (Bytes × NodeInfo)) (rest : List (Bytes × NodeInfo)) :
    ∀ (root r : Node), create_tree_loop all_nodes rest root = .ok r →
      Keyed all_nodes [] root →
      Keyed all_nodes [] r
      ∧ (∀ p, (r.find p).isSome = true
          ↔ ((root.find p).isSome = true
            ∨ (p ≠ [] ∧ ∃ it ∈ rest, p <+: path_elements [] it.1)))
      ∧ (∀ it ∈ rest, ∀ f ∈ fullPaths [] (path_elements [] it.1),
          (mapFind all_nodes f).isSome = true) := by
  induction rest with
  | nil =>
    intro root r h hk
    simp only [create_tree_loop] at h
    cases h
    refine ⟨hk, fun p => ?_, fun it hit => by cases hit⟩
    constructor
    · exact Or.inl
    · rintro (h | ⟨_, it, hit, _⟩)
      · exact h
      · cases hit
  | cons it more ih =>
    intro root r h hk
    simp only [create_tree_loop] at h
    split at h
    · exact Except.noConfusion h
    · rename_i root2 h2
      obtain ⟨a1, a2, a3⟩ := insert_elements_ok all_nodes _ [] root root2 h2 hk
      obtain ⟨b1, b2, b3⟩ := ih root2 r h a1
      refine ⟨b1, fun p => ?_, ?_⟩
      · rw [b2 p, a2 p]
        constructor
        · rintro ((h1 | ⟨h1, h3⟩) | ⟨h1, x, hx, h3⟩)
          · exact Or.inl h1
          · exact Or.inr ⟨h1, it, List.mem_cons_self _ _, h3⟩
          · exact Or.inr ⟨h1, x, List.mem_cons_of_mem _ hx, h3⟩
        · rintro (h1 | ⟨h1, x, hx, h3⟩)
          · exact Or.inl (Or.inl h1)
          · rcases List.mem_cons.mp hx with rfl | hx
            · exact Or.inl (Or.inr ⟨h1, h3⟩)
            · exact Or.inr ⟨h1, x, hx, h3⟩
      · intro x hx
        rcases List.mem_cons.mp hx with rfl | hx
        · exact a3
        · exact b3 x hx

theorem create_tree_loop_succeeds (all_nodes : List (Bytes × NodeInfo))
    (rest : List (Bytes × NodeInfo)) :
    ∀ (root : Node),
      (∀ it ∈ rest, ∀ f ∈ fullPaths [] (path_elements [] it.1),
        (mapFind all_nodes f).isSome = true) →
      ∃ r, create_tree_loop all_nodes rest root = .ok r := by
  induction rest with
  | nil => intro root _; exact ⟨root, rfl⟩
  | cons it more ih =>
    intro root h
    simp only [create_tree_loop]
    obtain ⟨r2, h2⟩ := insert_elements_succeeds all_nodes _ [] root
      (h it (List.mem_cons_self _ _))
    rw [h2]
    exact ih r2 (fun x hx => h x (List.mem_cons_of_mem _ hx))

theorem create_tree_loop_error (all_nodes : List (Bytes × NodeInfo))
    (rest : List (Bytes × NodeInfo)) (root : Node) (e : Failure)
    (h : create_tree_loop all_nodes rest root = .error e) : e = .missingParent := by
  induction rest generalizing root with
  | nil => simp only [create_tree_loop] at h; exact Except.noConfusion h
  | cons it more ih =>
    simp only [create_tree_loop] at h
    split at h
    · rename_i e2 h2
      cases h
      exact insert_elements_error _ _ _ _ _ h2
    · exact ih _ h

/-! ## The number of blocks -/

theorem BOMStorage.countsBlocks_new : BOMStorage.new.CountsBlocks := ⟨rfl, by decide⟩

theorem BOMStorage.addBlock_counts (s : BOMStorage) (data : Bytes) (h : s.CountsBlocks) :
    (s.addBlock data).1.CountsBlocks := by
  refine ⟨?_, ?_⟩
  · show u32 (s.header.numberOfBlocks + 1) = u32 (s.num_block_entries + 1 - 1)
    rw [h.1, u32_succ_u32]
    congr 1
    have := h.2
    omega
  · show 1 ≤ s.num_block_entries + 1
    omega

theorem BOMStorage.addVar_counts (s : BOMStorage) (name data : Bytes) (h : s.CountsBlocks) :
    (s.addVar name data).CountsBlocks := by
  refine ⟨?_, ?_⟩
  · show u32 (s.header.numberOfBlocks + 1) = u32 (s.num_block_entries + 1 - 1)
    rw [h.1, u32_succ_u32]
    congr 1
    have := h.2
    omega
  · show 1 ≤ s.num_block_entries + 1
    omega

theorem BOMStorage.setForward_counts (s : BOMStorage) (id v : Nat) (h : s.CountsBlocks) :
    (s.setForward id v).CountsBlocks := h

theorem start_page_counts (num : Nat) (st : PathsState) (h : st.bom.CountsBlocks) :
    (start_page num st).bom.CountsBlocks := by
  unfold start_page
  cases hp : st.paths with
  | none => exact h
  | some p =>
    simp only
    split
    · exact BOMStorage.setForward_counts _ _ _ (BOMStorage.addBlock_counts _ _ h)
    · exact BOMStorage.addBlock_counts _ _ h

theorem emit_node_counts (num p : Nat) (st : PathsState) (s : Bytes) (n : Node)
    (h : st.bom.CountsBlocks) : (emit_node num p st s n).bom.CountsBlocks := by
  unfold emit_node add_entry
  simp only
  apply BOMStorage.addBlock_counts
  apply BOMStorage.addBlock_counts
  apply BOMStorage.addBlock_counts
  split
  · exact start_page_counts num st h
  · exact h

theorem foldl_emit_counts (num : Nat) (vs : List Visit) (st : PathsState)
    (h : st.bom.CountsBlocks) : (vs.foldl (emit_visit num) st).bom.CountsBlocks := by
  induction vs generalizing st with
  | nil => exact h
  | cons v vs ih => exact ih _ (emit_node_counts num v.parent st v.name v.node h)

theorem finish_paths_counts (num np ps : Nat) (st : PathsState) (h : st.bom.CountsBlocks) :
    (finish_paths num np ps st).CountsBlocks := by
  unfold finish_paths
  simp only
  apply BOMStorage.addVar_counts
  split
  · apply BOMStorage.addBlock_counts
    apply BOMStorage.setForward_counts
    exact BOMStorage.addBlock_counts _ _ h
  · exact BOMStorage.addBlock_counts _ _ h

theorem write_paths_counts (bom : BOMStorage) (root : Node) (num : Nat)
    (h : bom.CountsBlocks) : (write_paths bom root num).CountsBlocks := by
  rw [write_paths_eq]
  exact finish_paths_counts _ _ _ _ (foldl_emit_counts _ _ _ h)

theorem write_aux_vars_counts (bom : BOMStorage) (h : bom.CountsBlocks) :
    (write_aux_vars bom).CountsBlocks := by
  unfold write_aux_vars
  simp only
  apply BOMStorage.addVar_counts
  apply BOMStorage.addBlock_counts
  apply BOMStorage.addVar_counts
  apply BOMStorage.addBlock_counts
  apply BOMStorage.addBlock_counts
  apply BOMStorage.addVar_counts
  apply BOMStorage.addBlock_counts
  exact h

/-- The storage that `write_bom` writes counts its blocks in `header.numberOfBlocks`. -/
theorem build_bom_counts (root : Node) (num : Nat) : (build_bom root num).CountsBlocks := by
  have e : build_bom root num = write_aux_vars (write_paths
    (BOMStorage.new.addVar [66, 111, 109, 73, 110, 102, 111] (bomInfoBytes num)) root num) := rfl
  rw [e]
  exact write_aux_vars_counts _ (write_paths_counts _ _ _
    (BOMStorage.addVar_counts _ _ _ BOMStorage.countsBlocks_new))

theorem header_image_drop_12 (h : BOMHeader) (hm : h.magic = magicBOMStore) :
    (h.image 512).drop 12 = htonl h.numberOfBlocks ++ (h.image 512).drop 16 := by
  simp only [BOMHeader.image, hm]
  generalize List.replicate _ 0 = Z
  simp [magicBOMStore, htonl]

/-- The `u32` at offset 12 of a written file is `header.numberOfBlocks`. -/
theorem write_numberOfBlocks (le : Bool) (s : BOMStorage) (hinv : s.Inv) :
    ntohlAt (s.write le) 12 = u32 s.header.numberOfBlocks := by
  have hHe : (s.header.image s.size_of_header).take s.size_of_header = s.header.image 512 := by
    rw [hinv.header_size, List.take_of_length_le]
    rw [BOMHeader.image_length _ hinv.magic_length]
  have hd : (s.write le).drop 12
      = htonl s.header.numberOfBlocks ++ ((s.header.image 512).drop 16
          ++ (s.vars.image.take s.size_of_vars
          ++ (s.entries.take s.entry_size ++ ((writeTable le s).take s.size_of_block_table
          ++ s.free_list.image.take s.size_of_free_list)))) := by
    unfold BOMStorage.write
    rw [hHe]
    simp only [List.append_assoc]
    rw [List.drop_append_of_le_length
      (by rw [BOMHeader.image_length _ hinv.magic_length]; omega),
      header_image_drop_12 _ hinv.magic_eq]
    simp only [List.append_assoc]
  exact ntohlAt_of_drop _ _ _ _ hd

/-- C31: the file written for a tree of `N` nodes, with `P = ceil (N / 256)`, has
`header.numberOfBlocks = 3 N + max (P, 1) + (1 if P > 1 else 0) + 9` (the `u32` at offset
12), and the count of its block table is `numberOfBlocks + 1`. -/
theorem C31_number_of_blocks (le : Bool) (root : Node) (N : Nat) (hN : N < 4294967296)
    (hV : (visitsOf root).length = N)
    (hsize : ((build_bom root N).write le).length < 4294967296) :
    ntohlAt ((build_bom root N).write le) 12
      = 3 * N + max ((N + 255) / 256) 1 + (if (N + 255) / 256 > 1 then 1 else 0) + 9
    ∧ fileNumPointers ((build_bom root N).write le)
      = ntohlAt ((build_bom root N).write le) 12 + 1 := by
  have h := builtFile_of_build le root N hN hV hsize
  have hs := (build_bom_spec root N hN hV).1
  have hc := build_bom_counts root N
  have hlt := h.blocks_lt
  have hq : (N - 1) / 256 + 1 = max ((N + 255) / 256) 1 := by
    rcases Nat.eq_zero_or_pos N with rfl | hpos
    · rfl
    · have : (N + 255) / 256 = (N - 1) / 256 + 1 := by omega
      rw [this]
      omega
  have hlen : (blocksOfBuild (visitsOf root) N).length
      = 3 * N + max ((N + 255) / 256) 1 + (if (N + 255) / 256 > 1 then 1 else 0) + 9 := by
    rw [blocksOfBuild_length, ← hq]
    omega
  have hsmall : (blocksOfBuild (visitsOf root) N).length < 4294967296 := by
    rw [blocksOfBuild_length]
    split <;> omega
  have hnb : ntohlAt ((build_bom root N).write le) 12
      = (blocksOfBuild (visitsOf root) N).length := by
    rw [write_numberOfBlocks le _ hs.inv, hc.1, hs.num_block_entries, Nat.add_sub_cancel,
      u32_of_lt hsmall, u32_of_lt hsmall]
  refine ⟨hnb.trans hlen, ?_⟩
  rw [h.isFile.num_eq, hnb]

set_option maxRecDepth 100000 in
/-- C31 on the empty manifest (10 blocks), on the manifest with the one file `a` (13
blocks) and on the tree of 257 files (783 blocks). -/
theorem C31_number_of_blocks_witness :
    (visitsOf (Node.mk [] { NodeInfo.init with type := .kRootNode })).length = 0
    ∧ ((build_bom (Node.mk [] { NodeInfo.init with type := .kRootNode }) 0).write true).length
        < 4294967296
    ∧ (visitsOf exFileTree).length = 1
    ∧ ((build_bom exFileTree 1).write true).length < 4294967296
    ∧ (visitsOf (flatTree 257)).length = 257
    ∧ ((build_bom (flatTree 257) 257).write true).length < 4294967296
    ∧ ntohlAt ((build_bom (Node.mk [] { NodeInfo.init with type := .kRootNode }) 0).write true)
        12 = 10
    ∧ fileNumPointers
        ((build_bom (Node.mk [] { NodeInfo.init with type := .kRootNode }) 0).write true) = 11
    ∧ ntohlAt ((build_bom exFileTree 1).write true) 12 = 13
    ∧ ntohlAt ((build_bom (flatTree 257) 257).write true) 12 = 783
    ∧ fileNumPointers ((build_bom (flatTree 257) 257).write true) = 784 := by
  have hV : (visitsOf (flatTree 257)).length = 257 := visitsOf_flatTree_length 257
  have hsize : ((build_bom (flatTree 257) 257).write true).length < 4294967296 := by
    have hb := build_write_length_le true (flatTree 257) 257 2060 (by decide) hV (by decide)
      (by decide) (by
        intro v hv
        rw [visitsOf_flatTree] at hv
        simp only [List.mem_map] at hv
        obtain ⟨i, _, rfl⟩ := hv
        refine ⟨?_, ?_⟩ <;> simp [Node.info, exFile, flatName])
    have : 596 + (2060 + 8) * (3 * 257 + (257 - 1) / 256 + 12) < 4294967296 := by decide
    omega
  have h0 := C31_number_of_blocks true (Node.mk [] { NodeInfo.init with type := .kRootNode }) 0
    (by decide) (by decide) (by decide)
  have h1 := C31_number_of_blocks true exFileTree 1 (by decide) (by decide) (by decide)
  have h257 := C31_number_of_blocks true (flatTree 257) 257 (by decide) hV hsize
  exact ⟨by decide, by decide, by decide, by decide, hV, hsize, h0.1, h0.2.trans (by rw [h0.1]; decide),
    h1.1, h257.1, h257.2.trans (by rw [h257.1]; decide)⟩

/-! ## Ids and parents -/

theorem endsNamed_cons (c : Nat) (s : Bytes) (hs : s ≠ []) :
    endsNamed (c :: s) = endsNamed s := by
  cases s with
  | nil => exact absurd rfl hs
  | cons d r => rfl

theorem endsNamed_append_cons (a : Bytes) (c : Nat) (s : Bytes) :
    endsNamed (a ++ c :: s) = endsNamed (c :: s) := by
  induction a with
  | nil => rfl
  | cons x a ih =>
    rw [List.cons_append, endsNamed_cons _ _ (by simp), ih]

theorem endsNamed_slash_cons (s : Bytes) : endsNamed (47 :: s) = endsNamed s := by
  cases s with
  | nil => rfl
  | cons d r => rfl

theorem endsNamed_of_no_slash (a : Bytes) (h : 47 ∉ a) : endsNamed a = true ↔ a ≠ [] := by
  induction a with
  | nil => simp [endsNamed]
  | cons x a ih =>
    cases a with
    | nil =>
      simp only [endsNamed, List.mem_singleton] at h ⊢
      simp
      exact fun e => h e.symm
    | cons d r =>
      rw [endsNamed_cons _ _ (by simp), ih (fun hm => h (List.mem_cons_of_mem _ hm))]
      simp

theorem endsNamed_ne_nil (a : Bytes) (h : endsNamed a = true) : a ≠ [] := by
  intro e
  rw [e] at h
  exact absurd h (by decide)

theorem path_elements_no_slash (s : Bytes) :
    ∀ (cur : Bytes), 47 ∉ cur → ∀ e ∈ path_elements cur s, 47 ∉ e := by
  induction s with
  | nil =>
    intro cur hcur e he
    simp only [path_elements] at he
    split at he
    · cases he
    · rw [List.mem_singleton.mp he]; exact hcur
  | cons c cs ih =>
    intro cur hcur e he
    simp only [path_elements] at he
    split at he
    · rcases List.mem_cons.mp he with rfl | he
      · exact hcur
      · exact ih [] (by simp) e he
    · rename_i hc
      refine ih (cur ++ [c]) ?_ e he
      intro hm
      rcases List.mem_append.mp hm with hm | hm
      · exact hcur hm
      · exact hc (List.mem_singleton.mp hm).symm

/-- The values of `full_path` that "create tree" looks at for a path: the path before each of
its `'/'`, and the path itself when it names a node by its last component. -/
theorem fullPaths_path_elements (s : Bytes) :
    ∀ (cur full x : Bytes), 47 ∉ cur →
      (x ∈ fullPaths full (path_elements cur s) ↔
        ((∃ s1 rest, s = s1 ++ 47 :: rest ∧ x = full ++ cur ++ s1)
          ∨ (x = full ++ cur ++ s ∧ endsNamed (cur ++ s) = true))) := by
  induction s with
  | nil =>
    intro cur full x hcur
    simp only [path_elements, List.append_nil]
    by_cases hc : cur = []
    · rw [if_pos hc]
      subst hc
      simp [fullPaths, endsNamed]
    · rw [if_neg hc]
      simp only [fullPaths, List.mem_singleton]
      constructor
      · intro hx
        exact Or.inr ⟨hx, (endsNamed_of_no_slash cur hcur).mpr hc⟩
      · rintro (⟨s1, rest, h1, _⟩ | ⟨hx, _⟩)
        · simp at h1
        · exact hx
  | cons c cs ih =>
    intro cur full x hcur
    simp only [path_elements]
    by_cases hc : c = 47
    · rw [if_pos hc]
      subst hc
      simp only [fullPaths, List.mem_cons]
      rw [ih [] (full ++ cur ++ [47]) x (by simp), endsNamed_append_cons, endsNamed_slash_cons]
      simp only [List.append_nil, List.nil_append]
      constructor
      · rintro (hx | ⟨s1, rest, h1, hx⟩ | ⟨hx, he⟩)
        · exact Or.inl ⟨[], cs, rfl, by simpa using hx⟩
        · refine Or.inl ⟨47 :: s1, rest, by rw [h1]; rfl, ?_⟩
          rw [hx]; simp
        · refine Or.inr ⟨?_, he⟩
          rw [hx]; simp
      · rintro (⟨s1, rest, h1, hx⟩ | ⟨hx, he⟩)
        · cases s1 with
          | nil => exact Or.inl (by simpa using hx)
          | cons d s1 =>
            simp only [List.cons_append, List.cons.injEq] at h1
            refine Or.inr (Or.inl ⟨s1, rest, h1.2, ?_⟩)
            rw [hx, ← h1.1]; simp
        · refine Or.inr (Or.inr ⟨?_, he⟩)
          rw [hx]; simp
    · rw [if_neg hc]
      have hcur2 : 47 ∉ cur ++ [c] := by
        intro hm
        rcases List.mem_append.mp hm with hm | hm
        · exact hcur hm
        · exact hc (List.mem_singleton.mp hm).symm
      rw [ih (cur ++ [c]) full x hcur2]
      have e1 : cur ++ [c] ++ cs = cur ++ c :: cs := by simp
      rw [e1]
      constructor
      · rintro (⟨s1, rest, h1, hx⟩ | ⟨hx, he⟩)
        · refine Or.inl ⟨c :: s1, rest, by rw [h1]; rfl, ?_⟩
          rw [hx]; simp
        · refine Or.inr ⟨?_, he⟩
          rw [hx]; simp
      · rintro (⟨s1, rest, h1, hx⟩ | ⟨hx, he⟩)
        · cases s1 with
          | nil =>
            simp only [List.nil_append, List.cons.injEq] at h1
            exact absurd h1.1 hc
          | cons d s1 =>
            simp only [List.cons_append, List.cons.injEq] at h1
            refine Or.inl ⟨s1, rest, h1.2, ?_⟩
            rw [hx, ← h1.1]; simp
        · refine Or.inr ⟨?_, he⟩
          rw [hx]; simp

/-- The elements of a path that names a node by its last component, joined by `'/'`, are the
path. -/
theorem keyAt_path_elements (s : Bytes) :
    ∀ (cur full : Bytes), 47 ∉ cur → endsNamed (cur ++ s) = true →
      path_elements cur s ≠ [] ∧ keyAt full (path_elements cur s) = full ++ cur ++ s := by
  induction s with
  | nil =>
    intro cur full hcur he
    rw [List.append_nil] at he
    have hc := endsNamed_ne_nil cur he
    simp only [path_elements, if_neg hc, List.append_nil]
    exact ⟨by simp, rfl⟩
  | cons c cs ih =>
    intro cur full hcur he
    simp only [path_elements]
    by_cases hc : c = 47
    · rw [if_pos hc]
      subst hc
      rw [endsNamed_append_cons, endsNamed_slash_cons] at he
      obtain ⟨i1, i2⟩ := ih [] (full ++ cur ++ [47]) (by simp) (by simpa using he)
      refine ⟨by simp, ?_⟩
      rw [keyAt_cons _ _ _ i1, i2]
      simp
    · rw [if_neg hc]
      have hcur2 : 47 ∉ cur ++ [c] := by
        intro hm
        rcases List.mem_append.mp hm with hm | hm
        · exact hcur hm
        · exact hc (List.mem_singleton.mp hm).symm
      obtain ⟨i1, i2⟩ := ih (cur ++ [c]) full hcur2 (by simpa using he)
      refine ⟨i1, ?_⟩
      rw [i2]
      simp

theorem keyAt_mem_fullPaths (p : List Bytes) :
    ∀ (q : List Bytes) (full : Bytes), p ≠ [] → p <+: q → keyAt full p ∈ fullPaths full q := by
  induction p with
  | nil => intro q full h; exact absurd rfl h
  | cons e r ih =>
    intro q full _ hpre
    cases q with
    | nil => simp at hpre
    | cons e2 q2 =>
      rw [List.cons_prefix_cons] at hpre
      obtain ⟨rfl, hpre⟩ := hpre
      simp only [fullPaths, List.mem_cons]
      by_cases hr : r = []
      · subst hr
        exact Or.inl rfl
      · right
        rw [keyAt_cons _ _ _ hr]
        exact ih q2 _ hr hpre

theorem keyAt_eq (p : List Bytes) : ∀ (full : Bytes), keyAt full p = full ++ keyAt [] p := by
  induction p with
  | nil => intro full; simp [keyAt]
  | cons e r ih =>
    intro full
    by_cases hr : r = []
    · subst hr
      simp [keyAt]
    · rw [keyAt_cons _ _ _ hr, keyAt_cons _ _ _ hr, ih (full ++ e ++ [47]), ih ([] ++ e ++ [47])]
      simp

theorem takeWhile_append_slash (e : Bytes) (x : Bytes) (he : 47 ∉ e)
    (hx : x = [] ∨ ∃ y, x = 47 :: y) : (e ++ x).takeWhile (· ≠ 47) = e := by
  induction e with
  | nil =>
    rcases hx with rfl | ⟨y, rfl⟩
    · rfl
    · simp [List.takeWhile]
  | cons a e ih =>
    have ha : a ≠ 47 := fun h => he (by rw [h]; exact List.mem_cons_self _ _)
    rw [List.cons_append, List.takeWhile_cons_of_pos (by simpa using ha),
      ih (fun hm => he (List.mem_cons_of_mem _ hm))]

/-- Two paths of elements without `'/'` that have the same key are the same path. -/
theorem keyAt_injective (p : List Bytes) :
    ∀ (q : List Bytes), p ≠ [] → q ≠ [] → (∀ e ∈ p, 47 ∉ e) → (∀ e ∈ q, 47 ∉ e) →
      keyAt [] p = keyAt [] q → p = q := by
  induction p with
  | nil => intro q h; exact absurd rfl h
  | cons e r ih =>
    intro q _ hq hp1 hq1 hk
    cases q with
    | nil => exact absurd rfl hq
    | cons e2 r2 =>
      have form : ∀ (a : Bytes) (l : List Bytes), ∃ x, keyAt [] (a :: l) = a ++ x
          ∧ (x = [] ∨ ∃ y, x = 47 :: y) ∧ (l = [] → x = [])
          ∧ (l ≠ [] → x = 47 :: keyAt [] l) := by
        intro a l
        by_cases hl : l = []
        · subst hl
          exact ⟨[], by simp [keyAt], Or.inl rfl, fun _ => rfl, fun h => absurd rfl h⟩
        · refine ⟨47 :: keyAt [] l, ?_, Or.inr ⟨_, rfl⟩, fun h => absurd h hl, fun _ => rfl⟩
          rw [keyAt_cons _ _ _ hl, keyAt_eq]
          simp
      obtain ⟨x, hx, hxf, hx0, hx1⟩ := form e r
      obtain ⟨x2, hx2, hxf2, hx20, hx21⟩ := form e2 r2
      rw [hx, hx2] at hk
      have he : 47 ∉ e := hp1 e (List.mem_cons_self _ _)
      have he2 : 47 ∉ e2 := hq1 e2 (List.mem_cons_self _ _)
      have e1 := takeWhile_append_slash e x he hxf
      have e2' := takeWhile_append_slash e2 x2 he2 hxf2
      rw [hk, e2'] at e1
      subst e1
      have hxx : x = x2 := List.append_cancel_left hk
      by_cases hr : r = []
      · have : x2 = [] := by rw [← hxx]; exact hx0 hr
        by_cases hr2 : r2 = []
        · rw [hr, hr2]
        · rw [hx21 hr2] at this
          cases this
      · by_cases hr2 : r2 = []
        · have : x = [] := by rw [hxx]; exact hx20 hr2
          rw [hx1 hr] at this
          cases this
        · rw [hx1 hr, hx21 hr2] at hxx
          have := ih r2 hr hr2 (fun a ha => hp1 a (List.mem_cons_of_mem _ ha))
            (fun a ha => hq1 a (List.mem_cons_of_mem _ ha)) (List.cons.inj hxx).2
          rw [this]

/-! ## The paths of a tree -/

theorem pairwise_of_keysAscending (l : List (Bytes × Node)) (h : keysAscending l = true) :
    l.Pairwise (fun a b => strLt a.1 b.1 = true) := by
  induction l with
  | nil => exact List.Pairwise.nil
  | cons a r ih =>
    rw [keysAscending_cons, Bool.and_eq_true] at h
    have hr := ih h.2
    rw [List.pairwise_cons]
    refine ⟨?_, hr⟩
    cases r with
    | nil => intro x hx; cases hx
    | cons b r2 =>
      have hab : strLt a.1 b.1 = true := h.1
      rw [List.pairwise_cons] at hr
      intro x hx
      rcases List.mem_cons.mp hx with rfl | hx
      · exact hab
      · exact strLt_trans _ _ _ hab (hr.1 x hx)

mutual
theorem Node.paths_length : ∀ (t : Node), t.paths.length + 1 = t.count
  | .mk cs _ => by
    have := Node.pathsList_length cs
    simp only [Node.paths, Node.count]
    omega
theorem Node.pathsList_length : ∀ (cs : List (Bytes × Node)),
    (Node.pathsList cs).length = Node.countList cs
  | [] => rfl
  | c :: rest => by
    have h1 := Node.paths_length c.2
    have h2 := Node.pathsList_length rest
    simp only [Node.pathsList, Node.countList, List.length_append, List.length_cons,
      List.length_map]
    omega
end

mutual
/-- The paths of an ordered tree are the non-empty paths that `find` follows. -/
theorem Node.mem_paths : ∀ (t : Node), t.ordered = true → ∀ p,
    (p ∈ t.paths ↔ (p ≠ [] ∧ (t.find p).isSome = true))
  | .mk cs info => by
    intro ho p
    simp only [Node.ordered, Bool.and_eq_true] at ho
    have := Node.mem_pathsList cs (pairwise_of_keysAscending cs ho.1) ho.2 p
    simp only [Node.paths]
    rw [this]
    constructor
    · rintro ⟨e, r, c, rfl, hc, hf⟩
      refine ⟨by simp, ?_⟩
      rw [Node.find_cons]
      show ((mapFind cs e).bind _).isSome = true
      rw [hc]
      exact hf
    · rintro ⟨hp, hf⟩
      cases p with
      | nil => exact absurd rfl hp
      | cons e r =>
        rw [Node.find_cons] at hf
        have hf2 : ((mapFind cs e).bind (fun c => c.find r)).isSome = true := hf
        cases hc : mapFind cs e with
        | none => rw [hc] at hf2; cases hf2
        | some c =>
          rw [hc] at hf2
          exact ⟨e, r, c, rfl, hc, hf2⟩
theorem Node.mem_pathsList : ∀ (cs : List (Bytes × Node)),
    cs.Pairwise (fun a b => strLt a.1 b.1 = true) → Node.orderedList cs = true → ∀ p,
    (p ∈ Node.pathsList cs ↔ ∃ e r c, p = e :: r ∧ mapFind cs e = some c
      ∧ (c.find r).isSome = true)
  | [] => by
    intro _ _ p
    simp [Node.pathsList, mapFind]
  | c :: rest => by
    intro hpw ho p
    rw [List.pairwise_cons] at hpw
    simp only [Node.orderedList, Bool.and_eq_true] at ho
    have ih1 := Node.mem_paths c.2 ho.1
    have ih2 := Node.mem_pathsList rest hpw.2 ho.2 p
    obtain ⟨k, sub⟩ := c
    simp only [Node.pathsList, List.mem_append, List.mem_cons, List.mem_map, mapFind]
    rw [ih2]
    constructor
    · rintro ((rfl | ⟨q, hq, rfl⟩) | ⟨e, r, c, rfl, hc, hf⟩)
      · exact ⟨k, [], sub, rfl, by simp, rfl⟩
      · exact ⟨k, q, sub, rfl, by simp, ((ih1 q).mp hq).2⟩
      · refine ⟨e, r, c, rfl, ?_, hf⟩
        have hmem := mapFind_mem rest e c hc
        have := hpw.1 _ hmem
        rw [if_neg (strLt_ne _ _ this)]
        exact hc
    · rintro ⟨e, r, c, rfl, hc, hf⟩
      by_cases hk : k = e
      · rw [if_pos hk] at hc
        cases hc
        subst hk
        left
        by_cases hr : r = []
        · exact Or.inl (by rw [hr])
        · exact Or.inr ⟨r, (ih1 r).mpr ⟨hr, hf⟩, rfl⟩
      · rw [if_neg hk] at hc
        exact Or.inr ⟨e, r, c, rfl, hc, hf⟩
end

mutual
/-- No path of an ordered tree is listed twice. -/
theorem Node.nodup_paths : ∀ (t : Node), t.ordered = true → t.paths.Nodup
  | .mk cs info => by
    intro ho
    simp only [Node.ordered, Bool.and_eq_true] at ho
    exact Node.nodup_pathsList cs (pairwise_of_keysAscending cs ho.1) ho.2
theorem Node.nodup_pathsList : ∀ (cs : List (Bytes × Node)),
    cs.Pairwise (fun a b => strLt a.1 b.1 = true) → Node.orderedList cs = true →
    (Node.pathsList cs).Nodup
  | [] => by
    intro _ _
    simp [Node.pathsList]
  | c :: rest => by
    intro hpw ho
    have hpw0 := hpw
    rw [List.pairwise_cons] at hpw
    simp only [Node.orderedList, Bool.and_eq_true] at ho
    have ih1 := Node.nodup_paths c.2 ho.1
    have ih2 := Node.nodup_pathsList rest hpw.2 ho.2
    have hm := Node.mem_paths c.2 ho.1
    have hl := Node.mem_pathsList rest hpw.2 ho.2
    simp only [Node.pathsList]
    rw [List.nodup_append]
    refine ⟨?_, ih2, ?_⟩
    · rw [List.nodup_cons]
      refine ⟨?_, ?_⟩
      · intro hmem
        obtain ⟨q, hq, he⟩ := List.mem_map.mp hmem
        have := ((hm q).mp hq).1
        simp only [List.cons.injEq, true_and] at he
        exact this he
      · exact ih1.map (fun a b hab => (List.cons.inj hab).2)
    · intro p hp1 hp2
      obtain ⟨e, r, d, rfl, hd, _⟩ := (hl p).mp hp2
      have hmem := mapFind_mem rest e d hd
      have hne := strLt_ne _ _ (hpw.1 _ hmem)
      rcases List.mem_cons.mp hp1 with h1 | h1
      · exact hne (List.cons.inj h1).1.symm
      · obtain ⟨q, _, he⟩ := List.mem_map.mp h1
        exact hne (List.cons.inj he).1
end

/-! ## What "create tree" builds -/

theorem mapFind_isSome_of_mem {V : Type} (l : List (Bytes × V)) (k : Bytes)
    (h : k ∈ l.map (·.1)) : (mapFind l k).isSome = true := by
  cases hf : mapFind l k with
  | none => exact absurd h ((mapFind_none l k).mp hf)
  | some v => rfl

theorem mem_keys_of_mapFind {V : Type} (l : List (Bytes × V)) (k : Bytes)
    (h : (mapFind l k).isSome = true) : k ∈ l.map (·.1) := by
  by_contra hc
  rw [(mapFind_none l k).mpr hc] at h
  cases h

/-- The keys that "create tree" looks up for the entries of `all_nodes` are keys exactly when
every proper prefix of every key is a key. -/
theorem lookups_iff_prefixes (all_nodes : List (Bytes × NodeInfo)) :
    (∀ it ∈ all_nodes, ∀ f ∈ fullPaths [] (path_elements [] it.1),
        (mapFind all_nodes f).isSome = true)
    ↔ (∀ it ∈ all_nodes, ∀ p, IsProperPrefix p it.1 → p ∈ all_nodes.map (·.1)) := by
  constructor
  · intro h it hit p hp
    obtain ⟨rest, hrest⟩ := hp
    apply mem_keys_of_mapFind
    apply h it hit
    rw [fullPaths_path_elements it.1 [] [] p (by simp)]
    exact Or.inl ⟨p, rest, hrest, by simp⟩
  · intro h it hit f hf
    rw [fullPaths_path_elements it.1 [] [] f (by simp)] at hf
    rcases hf with ⟨s1, rest, h1, h2⟩ | ⟨h1, _⟩
    · apply mapFind_isSome_of_mem
      apply h it hit
      simp only [List.nil_append] at h2
      rw [h2]
      exact ⟨rest, h1⟩
    · apply mapFind_isSome_of_mem
      simp only [List.nil_append] at h1
      rw [h1]
      exact List.mem_map_of_mem _ hit

theorem keyed_root (all_nodes : List (Bytes × NodeInfo)) (info : NodeInfo) :
    Keyed all_nodes [] (Node.mk [] info) := by
  intro p x hp hx
  cases p with
  | nil => exact absurd rfl hp
  | cons e q => simp [Node.find, Node.children, mapFind] at hx

theorem find_root (info : NodeInfo) (p : List Bytes) :
    ((Node.mk [] info).find p).isSome = true ↔ p = [] := by
  cases p with
  | nil => simp [Node.find]
  | cons e q => simp [Node.find, Node.children, mapFind]

/-- When "create tree" fails, it is for a missing parent. -/
theorem create_tree_error (all_nodes : List (Bytes × NodeInfo)) (e : Failure)
    (h : create_tree all_nodes = .error e) : e = .missingParent :=
  create_tree_loop_error _ _ _ _ h

/-- "create tree" succeeds exactly when every proper prefix of every key is a key. -/
theorem create_tree_succeeds_iff (all_nodes : List (Bytes × NodeInfo)) :
    (∃ root, create_tree all_nodes = .ok root)
    ↔ (∀ it ∈ all_nodes, ∀ p, IsProperPrefix p it.1 → p ∈ all_nodes.map (·.1)) := by
  rw [← lookups_iff_prefixes]
  constructor
  · rintro ⟨root, h⟩
    exact (create_tree_loop_ok all_nodes all_nodes _ root h (keyed_root _ _)).2.2
  · intro h
    exact create_tree_loop_succeeds all_nodes all_nodes _ h

/-- The tree that "create tree" builds: its nodes hold the records of their keys, and its
paths are the prefixes of the paths of the keys. -/
theorem create_tree_paths (all_nodes : List (Bytes × NodeInfo)) (root : Node)
    (h : create_tree all_nodes = .ok root) :
    Keyed all_nodes [] root
    ∧ ∀ p, p ≠ [] →
        ((root.find p).isSome = true ↔ ∃ it ∈ all_nodes, p <+: path_elements [] it.1) := by
  obtain ⟨h1, h2, _⟩ := create_tree_loop_ok all_nodes all_nodes _ root h (keyed_root _ _)
  refine ⟨h1, ?_⟩
  intro p hp
  rw [h2 p, find_root]
  constructor
  · rintro (h0 | ⟨_, h3⟩)
    · exact absurd h0 hp
    · exact h3
  · intro h3
    exact Or.inr ⟨hp, h3⟩

theorem Node.find_append (t : Node) (a b : List Bytes) :
    t.find (a ++ b) = (t.find a).bind (fun c => c.find b) := by
  induction a generalizing t with
  | nil => rfl
  | cons e r ih =>
    rw [List.cons_append, Node.find_cons, Node.find_cons]
    cases mapFind t.children e with
    | none => rfl
    | some c => exact ih c

/-- Every record whose path names a node by its last component is placed: the node at the end
of its path holds it, as the child named by the last component in the node of the path
before. -/
theorem create_tree_places (all_nodes : List (Bytes × NodeInfo)) (root : Node)
    (ha : all_nodes.Pairwise (fun a b => strLt a.1 b.1 = true))
    (h : create_tree all_nodes = .ok root) (k : Bytes) (n : NodeInfo)
    (hk : (k, n) ∈ all_nodes) (hn : endsNamed k = true) :
    ∃ (x parent : Node) (last : Bytes),
      path_elements [] k = (path_elements [] k).dropLast ++ [last]
      ∧ root.find (path_elements [] k) = some x ∧ x.info = n
      ∧ root.find (path_elements [] k).dropLast = some parent
      ∧ mapFind parent.children last = some x := by
  obtain ⟨hkeyed, hdom⟩ := create_tree_paths all_nodes root h
  obtain ⟨hne, hkey⟩ := keyAt_path_elements k [] [] (by simp) (by simpa using hn)
  simp only [List.nil_append] at hkey
  have hs := (hdom _ hne).mpr ⟨(k, n), hk, List.prefix_refl _⟩
  cases hx : root.find (path_elements [] k) with
  | none => rw [hx] at hs; cases hs
  | some x =>
    have hi := hkeyed _ x hne hx
    rw [hkey, mapFind_of_mem all_nodes ha k n hk] at hi
    have hlast := List.dropLast_append_getLast hne
    have hx2 := hx
    rw [← hlast, Node.find_append] at hx2
    cases hp : root.find (path_elements [] k).dropLast with
    | none => rw [hp] at hx2; cases hx2
    | some parent =>
      rw [hp] at hx2
      have hx3 : parent.find [(path_elements [] k).getLast hne] = some x := hx2
      rw [Node.find_cons] at hx3
      cases hm : mapFind parent.children ((path_elements [] k).getLast hne) with
      | none => rw [hm] at hx3; cases hx3
      | some c =>
        rw [hm] at hx3
        have : c = x := Option.some.inj hx3
        subst this
        exact ⟨c, parent, _, hlast.symm, rfl, (Option.some.inj hi).symm, rfl, hm⟩

/-- When every key names a node by its last component, the tree has one node for each key
and the root. -/
theorem create_tree_count (all_nodes : List (Bytes × NodeInfo)) (root : Node)
    (ha : all_nodes.Pairwise (fun a b => strLt a.1 b.1 = true))
    (h : create_tree all_nodes = .ok root)
    (hn : ∀ it ∈ all_nodes, endsNamed it.1 = true) :
    (root.paths.map (keyAt [])).Perm (all_nodes.map (·.1))
    ∧ root.count = all_nodes.length + 1 := by
  obtain ⟨hkeyed, hdom⟩ := create_tree_paths all_nodes root h
  have hord := create_tree_ordered all_nodes root h
  have hmem := Node.mem_paths root hord
  have hnodup := Node.nodup_paths root hord
  have hslash : ∀ p ∈ root.paths, p ≠ [] ∧ ∀ e ∈ p, 47 ∉ e := by
    intro p hp
    obtain ⟨h1, h2⟩ := (hmem p).mp hp
    refine ⟨h1, ?_⟩
    obtain ⟨it, _, hpre⟩ := (hdom p h1).mp h2
    intro e he
    exact path_elements_no_slash it.1 [] (by simp) e (hpre.subset he)
  have hM : (root.paths.map (keyAt [])).Nodup := by
    apply List.Nodup.map_on _ hnodup
    intro p hp q hq hpq
    exact keyAt_injective p q (hslash p hp).1 (hslash q hq).1 (hslash p hp).2 (hslash q hq).2 hpq
  have hK : (all_nodes.map (·.1)).Nodup := by
    show List.Pairwise (· ≠ ·) (all_nodes.map (·.1))
    rw [List.pairwise_map]
    exact ha.imp (fun hab => strLt_ne _ _ hab)
  have hperm : (root.paths.map (keyAt [])).Perm (all_nodes.map (·.1)) := by
    rw [List.perm_ext_iff_of_nodup hM hK]
    intro k
    constructor
    · intro hk
      obtain ⟨p, hp, rfl⟩ := List.mem_map.mp hk
      obtain ⟨h1, h2⟩ := (hmem p).mp hp
      cases hx : root.find p with
      | none => rw [hx] at h2; cases h2
      | some x =>
        exact mem_keys_of_mapFind _ _ (by rw [hkeyed p x h1 hx]; rfl)
    · intro hk
      obtain ⟨it, hit, rfl⟩ := List.mem_map.mp hk
      obtain ⟨hne, hkey⟩ := keyAt_path_elements it.1 [] [] (by simp)
        (by simpa using hn it hit)
      simp only [List.nil_append] at hkey
      rw [← hkey]
      apply List.mem_map_of_mem
      exact (hmem _).mpr ⟨hne, (hdom _ hne).mpr ⟨it, hit, List.prefix_refl _⟩⟩
  refine ⟨hperm, ?_⟩
  have := hperm.length_eq
  simp only [List.length_map] at this
  rw [← Node.paths_length, this]

/-! ## The order of the lines -/

/-- C22: for a manifest whose lines have pairwise distinct paths (the part of a line before
its first TAB), each path not empty and not ending in `'/'`, and no NUL byte in any line,
the lines in any other order give the same map of records, hence the same node tree and the
same bytes of the file.  Every record is placed in the tree, so the loop emits `num` entries
and assigns every slot of every page, and every name and link name is free of NUL, so every
`strcpy` fills its buffer: no byte of the file is one that `malloc` left uninitialised.  When
the manifest is refused, it is refused in every order. -/
theorem C22_order_independence (le : Bool) (l1 l2 : List Bytes) (hp : l1.Perm l2)
    (hnd : (l1.map (fun l => l.takeWhile (· ≠ 9))).Nodup)
    (hnamed : ∀ l ∈ l1, endsNamed (l.takeWhile (· ≠ 9)) = true)
    (hnul : ∀ l ∈ l1, ∀ b ∈ l, b ≠ 0) :
    (read_nodes [] l2).toOption = (read_nodes [] l1).toOption
    ∧ (∀ all_nodes root, read_nodes [] l1 = .ok all_nodes → create_tree all_nodes = .ok root →
        read_nodes [] l2 = .ok all_nodes ∧ create_tree all_nodes = .ok root
        ∧ (visitsOf root).length = all_nodes.length
        ∧ (∀ v ∈ visitsOf root, (∀ b ∈ v.name, b ≠ 0) ∧ ∀ b ∈ v.node.info.linkName, b ≠ 0)
        ∧ write_bom le l1 = .ok ((build_bom root all_nodes.length).write le)
        ∧ write_bom le l2 = .ok ((build_bom root all_nodes.length).write le))
    ∧ (write_bom le l2).toOption = (write_bom le l1).toOption := by
  have h := read_nodes_perm l1 l2 hp [] List.Pairwise.nil hnd (by simp)
  refine ⟨h.symm, ?_, ?_⟩
  · intro all_nodes root hr hc
    have h2 : read_nodes [] l2 = .ok all_nodes := by
      apply toOption_eq_some
      rw [← h, hr]
      rfl
    obtain ⟨ha, hkeys⟩ := read_nodes_spec l1 [] all_nodes hr List.Pairwise.nil
    have hn : ∀ it ∈ all_nodes, endsNamed it.1 = true := by
      intro it hit
      have hk := (hkeys it.1).mp (List.mem_map_of_mem _ hit)
      rcases hk with hk | hk
      · simp at hk
      · obtain ⟨l, hl, e⟩ := List.mem_map.mp hk
        rw [← e]
        exact hnamed l hl
    have hV : (visitsOf root).length = all_nodes.length := by
      have h3 := (create_tree_count all_nodes root ha hc hn).2
      have h4 := visitsOf_length root
      omega
    have hfree := create_tree_nulFree all_nodes root
      (read_nodes_noNul l1 [] all_nodes (fun l hl => (noNul_iff l).mpr (hnul l hl))
        (by simp) hr) hc
    refine ⟨h2, hc, hV, visitsOf_nulFree root hfree, ?_, ?_⟩
    · simp only [write_bom, hr, hc]
    · simp only [write_bom, h2, hc]
  · simp only [write_bom]
    cases h1 : read_nodes [] l1 with
    | error e =>
      rw [h1] at h
      cases h2 : read_nodes [] l2 with
      | error e2 => rfl
      | ok a => rw [h2] at h; cases h
    | ok a =>
      rw [h1] at h
      have h2 : read_nodes [] l2 = .ok a := by
        apply toOption_eq_some
        rw [← h]
        rfl
      rw [h2]

set_option maxRecDepth 100000 in
/-- C22 on the manifest `d`, `d/a`, `d/b` and its lines in the reverse order `d/b`, `d/a`,
`d`: the same map, the same tree with its three nodes, and the same file. -/
theorem C22_order_independence_witness :
    exManifest.Perm exManifest.reverse
    ∧ (exManifest.map (fun l => l.takeWhile (· ≠ 9))).Nodup
    ∧ (∀ l ∈ exManifest, endsNamed (l.takeWhile (· ≠ 9)) = true)
    ∧ (∀ l ∈ exManifest, ∀ b ∈ l, b ≠ 0)
    ∧ read_nodes [] exManifest.reverse
        = .ok [([100], exDir), ([100, 47, 97], exFile), ([100, 47, 98], exFile)]
    ∧ create_tree [([100], exDir), ([100, 47, 97], exFile), ([100, 47, 98], exFile)]
        = .ok exTree
    ∧ (visitsOf exTree).length = 3
    ∧ write_bom true exManifest = .ok ((build_bom exTree 3).write true)
    ∧ write_bom true exManifest.reverse = .ok ((build_bom exTree 3).write true) :=
  ⟨(List.reverse_perm _).symm, by decide, by decide, by decide,
    ((C22_order_independence true exManifest exManifest.reverse (List.reverse_perm _).symm
      (by decide) (by decide) (by decide)).2.1
      [([100], exDir), ([100, 47, 97], exFile), ([100, 47, 98], exFile)]
      exTree (by rfl) (by rfl)).1,
    by rfl,
    ((C22_order_independence true exManifest exManifest.reverse (List.reverse_perm _).symm
      (by decide) (by decide) (by decide)).2.1
      [([100], exDir), ([100, 47, 97], exFile), ([100, 47, 98], exFile)]
      exTree (by rfl) (by rfl)).2.2.1,
    ((C22_order_independence true exManifest exManifest.reverse (List.reverse_perm _).symm
      (by decide) (by decide) (by decide)).2.1
      [([100], exDir), ([100, 47, 97], exFile), ([100, 47, 98], exFile)]
      exTree (by rfl) (by rfl)).2.2.2.2.1,
    ((C22_order_independence true exManifest exManifest.reverse (List.reverse_perm _).symm
      (by decide) (by decide) (by decide)).2.1
      [([100], exDir), ([100, 47, 97], exFile), ([100, 47, 98], exFile)]
      exTree (by rfl) (by rfl)).2.2.2.2.2⟩

/-! ## Tree assembly -/

theorem mem_properPrefixes (p k : Bytes) : p ∈ properPrefixes k ↔ IsProperPrefix p k := by
  unfold properPrefixes IsProperPrefix
  rw [List.mem_filterMap]
  constructor
  · rintro ⟨i, hi, h⟩
    rw [List.mem_range] at hi
    split at h
    · rename_i h47
      cases h
      refine ⟨k.drop (i + 1), ?_⟩
      have hd : k.drop i = 47 :: k.drop (i + 1) := by
        rw [List.getElem?_eq_getElem hi] at h47
        rw [List.drop_eq_getElem_cons hi, Option.some.inj h47]
      rw [← hd, List.take_append_drop]
    · cases h
  · rintro ⟨rest, rfl⟩
    refine ⟨p.length, by simp [List.mem_range], ?_⟩
    have h47 : (p ++ 47 :: rest)[p.length]? = some 47 := by
      rw [List.getElem?_append_right (Nat.le_refl _)]
      simp
    rw [if_pos h47]
    simp

/-- C21 (counterexample): for the manifest of the regular files `a` and `a/`, every proper
prefix of every path is a key (`a` has none, and `a/` has `a`), and the tree is built; but it
has the one node `a`: the record `a/` is placed nowhere, and no child named by its last
component, the empty one, is under `a`. -/
theorem C21_record_with_trailing_slash_is_not_placed :
    read_nodes [] exTrailingSlashManifest = .ok [([97], exFile), ([97, 47], exFile)]
    ∧ (∀ it ∈ [(([97] : Bytes), exFile), ([97, 47], exFile)],
        ∀ p ∈ properPrefixes it.1, p ∈ [([97] : Bytes), [97, 47]])
    ∧ create_tree [([97], exFile), ([97, 47], exFile)] = .ok exFileTree
    ∧ exFileTree.paths = [[[97]]]
    ∧ (exFileTree.find [[97], []]).isSome = false
    ∧ path_elements [] [97, 47] = [[97]]
    ∧ write_bom true exTrailingSlashManifest = .ok ((build_bom exFileTree 2).write true) :=
  ⟨by rfl, by decide, by rfl, by rfl, by rfl, by rfl, by rfl⟩

/-- C21 (amended): tree assembly in `write_bom` fails, with the message of the missing
parent, whenever some record's path has a proper `'/'`-component prefix that is not itself a
key of the record map, and otherwise succeeds, placing every record whose path is not empty
and does not end in `'/'` as the child named by its last component under the node of its
parent path: the elements of the path, joined by `'/'`, are the path; the node at the end of
the elements holds the record; and it is the child, named by the last element, of the node
at the end of the elements before. -/
theorem C21_tree_assembly (le : Bool) (lines : List Bytes)
    (all_nodes : List (Bytes × NodeInfo)) (hr : read_nodes [] lines = .ok all_nodes) :
    ((∃ it ∈ all_nodes, ∃ p, IsProperPrefix p it.1 ∧ p ∉ all_nodes.map (·.1)) →
        create_tree all_nodes = .error .missingParent
        ∧ write_bom le lines = .error .missingParent)
    ∧ ((∀ it ∈ all_nodes, ∀ p, IsProperPrefix p it.1 → p ∈ all_nodes.map (·.1)) →
        ∃ root, create_tree all_nodes = .ok root
          ∧ write_bom le lines = .ok ((build_bom root all_nodes.length).write le)
          ∧ ∀ (k : Bytes) (n : NodeInfo), (k, n) ∈ all_nodes → endsNamed k = true →
              keyAt [] (path_elements [] k) = k
              ∧ ∃ (x parent : Node) (last : Bytes),
                path_elements [] k = (path_elements [] k).dropLast ++ [last]
                ∧ root.find (path_elements [] k) = some x ∧ x.info = n
                ∧ root.find (path_elements [] k).dropLast = some parent
                ∧ mapFind parent.children last = some x) := by
  have ha := (read_nodes_spec lines [] all_nodes hr List.Pairwise.nil).1
  refine ⟨?_, ?_⟩
  · rintro ⟨it, hit, p, hp, hnot⟩
    have hfail : create_tree all_nodes = .error .missingParent := by
      cases hc : create_tree all_nodes with
      | error e => rw [create_tree_error all_nodes e hc]
      | ok root =>
        exact absurd ((create_tree_succeeds_iff all_nodes).mp ⟨root, hc⟩ it hit p hp) hnot
    refine ⟨hfail, ?_⟩
    simp only [write_bom, hr, hfail]
  · intro hpre
    obtain ⟨root, hc⟩ := (create_tree_succeeds_iff all_nodes).mpr hpre
    refine ⟨root, hc, by simp only [write_bom, hr, hc], ?_⟩
    intro k n hk hn
    refine ⟨?_, create_tree_places all_nodes root ha hc k n hk hn⟩
    have := (keyAt_path_elements k [] [] (by simp) (by simpa using hn)).2
    simpa using this

set_option maxRecDepth 100000 in
/-- C21 (amended) on the manifest with the one line `d/a`, which is refused for the missing
`d`, and on the manifest `d`, `d/a`, `d/b`, where the record `d/a` is the child `a` of the
node of `d`. -/
theorem C21_tree_assembly_witness :
    read_nodes [] exOrphanManifest = .ok [([100, 47, 97], exFile)]
    ∧ IsProperPrefix [100] [100, 47, 97]
    ∧ write_bom true exOrphanManifest = .error .missingParent
    ∧ read_nodes [] exManifest
        = .ok [([100], exDir), ([100, 47, 97], exFile), ([100, 47, 98], exFile)]
    ∧ ∃ root, create_tree [([100], exDir), ([100, 47, 97], exFile), ([100, 47, 98], exFile)]
          = .ok root
        ∧ write_bom true exManifest = .ok ((build_bom root 3).write true)
        ∧ ∃ (x parent : Node) (last : Bytes),
            path_elements [] [100, 47, 97] = (path_elements [] [100, 47, 97]).dropLast ++ [last]
            ∧ root.find (path_elements [] [100, 47, 97]) = some x ∧ x.info = exFile
            ∧ root.find (path_elements [] [100, 47, 97]).dropLast = some parent
            ∧ mapFind parent.children last = some x := by
  have h1 := (C21_tree_assembly true exOrphanManifest [([100, 47, 97], exFile)] (by rfl)).1
    ⟨([100, 47, 97], exFile), by simp, [100], ⟨[97], rfl⟩, by decide⟩
  obtain ⟨root, hc, hw, hp⟩ := (C21_tree_assembly true exManifest
    [([100], exDir), ([100, 47, 97], exFile), ([100, 47, 98], exFile)] (by rfl)).2 (by
      intro it hit p hp
      rw [← mem_properPrefixes] at hp
      revert p
      revert it
      decide)
  exact ⟨by rfl, ⟨[97], rfl⟩, h1.2, by rfl, root, hc, hw,
    (hp [100, 47, 97] exFile (by simp) (by decide)).2⟩

/-- C29: when every path of the manifest is not empty and does not end in `'/'`, and every
proper prefix of every path is a path of the manifest, the tree is built and has exactly one
node for each path (the keys of its paths are the paths of the manifest, each once); so the
loop emits `num = |all_nodes|` entries, and every leaf page of the written file has in each
of the `min (256, num - 256 c)` slots that its `count` declares the ids of the entry of that
position: slot `t` of page `c` names the `PathInfo1` with the id `256 c + t + 1`. -/
theorem C29_one_node_per_path (le : Bool) (lines : List Bytes)
    (all_nodes : List (Bytes × NodeInfo)) (hr : read_nodes [] lines = .ok all_nodes)
    (hnamed : ∀ it ∈ all_nodes, endsNamed it.1 = true)
    (hpre : ∀ it ∈ all_nodes, ∀ p, IsProperPrefix p it.1 → p ∈ all_nodes.map (·.1))
    (hN : all_nodes.length < 4294967296)
    (hsize : ∀ root, create_tree all_nodes = .ok root →
      ((build_bom root all_nodes.length).write le).length < 4294967296) :
    ∃ root, create_tree all_nodes = .ok root
      ∧ write_bom le lines = .ok ((build_bom root all_nodes.length).write le)
      ∧ (root.paths.map (keyAt [])).Perm (all_nodes.map (·.1))
      ∧ root.paths.Nodup
      ∧ root.count = all_nodes.length + 1
      ∧ (visitsOf root).length = all_nodes.length
      ∧ (all_nodes ≠ [] →
          ∃ (L : List Nat) (I : List (Nat × Nat)),
            pathsLeaves ((build_bom root all_nodes.length).write le) = some L
            ∧ L.length = (all_nodes.length + 255) / 256
            ∧ pathsIndices ((build_bom root all_nodes.length).write le) = some I
            ∧ I.length = all_nodes.length
            ∧ ∀ c, c < L.length →
                (readPage (fileBlock ((build_bom root all_nodes.length).write le)
                  (L.getD c 0))).count = min 256 (all_nodes.length - 256 * c)
                ∧ (readPage (fileBlock ((build_bom root all_nodes.length).write le)
                    (L.getD c 0))).indices.length = min 256 (all_nodes.length - 256 * c)
                ∧ ∀ t, t < min 256 (all_nodes.length - 256 * c) →
                    ∃ b : Nat,
                      (readPage (fileBlock ((build_bom root all_nodes.length).write le)
                        (L.getD c 0))).indices[t]? = some (b + 1, b + 2)
                      ∧ I[256 * c + t]? = some (b + 1, b + 2)
                      ∧ fileBlock ((build_bom root all_nodes.length).write le) (b + 1)
                          = htonl (256 * c + t + 1) ++ htonl b) := by
  have ha := (read_nodes_spec lines [] all_nodes hr List.Pairwise.nil).1
  obtain ⟨root, hc⟩ := (create_tree_succeeds_iff all_nodes).mpr hpre
  obtain ⟨hperm, hcount⟩ := create_tree_count all_nodes root ha hc hnamed
  have hV : (visitsOf root).length = all_nodes.length := by
    have := visitsOf_length root
    omega
  refine ⟨root, hc, by simp only [write_bom, hr, hc], hperm,
    Node.nodup_paths root (create_tree_ordered all_nodes root hc), hcount, hV, ?_⟩
  intro hne
  have hN0 : all_nodes.length ≠ 0 := by
    intro h0
    exact hne (List.length_eq_zero.mp h0)
  have h := builtFile_of_build le root all_nodes.length hN hV (hsize root hc)
  refine ⟨_, _, h.pathsLeaves_eq hN0, by simp, h.pathsIndices_eq hN0, by simp, ?_⟩
  intro c hcl
  simp only [List.length_map, List.length_range] at hcl
  have hget : ((List.range ((all_nodes.length + 255) / 256)).map
      (leafId 1 all_nodes.length)).getD c 0 = leafId 1 all_nodes.length c := by
    simp [List.getD_eq_getElem?_getD, List.getElem?_range hcl]
  rw [hget, (h.leaf_read c hcl).1]
  refine ⟨rfl, by simp [leafOfBuild], ?_⟩
  intro t ht
  have hj : 256 * c + t < all_nodes.length := by omega
  have hv : (visitsOf root)[256 * c + t]? = some ((visitsOf root)[256 * c + t]) :=
    List.getElem?_eq_getElem (by omega)
  refine ⟨info2Index 1 (256 * c + t) + 1, ?_, ?_, h.info1 _ _ hv hj⟩
  · simp only [leafOfBuild]
    rw [List.getElem?_map, List.getElem?_range ht]
    rfl
  · rw [List.getElem?_map, List.getElem?_range hj]
    rfl

set_option maxRecDepth 100000 in
/-- C29 on the manifest `d`, `d/a`, `d/b`: three paths, three nodes, and one leaf page with
the count 3 and three written slots. -/
theorem C29_one_node_per_path_witness :
    read_nodes [] exManifest
      = .ok [([100], exDir), ([100, 47, 97], exFile), ([100, 47, 98], exFile)]
    ∧ create_tree [([100], exDir), ([100, 47, 97], exFile), ([100, 47, 98], exFile)]
        = .ok exTree
    ∧ ((build_bom exTree 3).write true).length < 4294967296
    ∧ ∃ root, create_tree [([100], exDir), ([100, 47, 97], exFile), ([100, 47, 98], exFile)]
          = .ok root
        ∧ write_bom true exManifest = .ok ((build_bom root 3).write true)
        ∧ root.count = 4
        ∧ (visitsOf root).length = 3 := by
  obtain ⟨root, h1, h2, _, _, h5, h6, _⟩ := C29_one_node_per_path true exManifest
    [([100], exDir), ([100, 47, 97], exFile), ([100, 47, 98], exFile)] (by rfl) (by decide)
    (by
      intro it hit p hp
      rw [← mem_properPrefixes] at hp
      revert p
      revert it
      decide)
    (by decide)
    (by
      intro root hroot
      have e : create_tree [([100], exDir), ([100, 47, 97], exFile), ([100, 47, 98], exFile)]
          = .ok exTree := by rfl
      rw [e] at hroot
      cases hroot
      decide)
  exact ⟨by rfl, by rfl, by decide, root, h1, h2, h5, h6⟩

end Bom
